import Mathlib

/-! # CPU-Scheduler: a shallow embedding of `src/main.cpp`

The C++ program simulates four scheduling policies (FCFS, SJF, SRTF and
Round-Robin) over a list of tasks, prints averages and a compressed Gantt
chart for each of them, and first prints a heuristic verdict.

Conventions of the embedding

* The program is embedded twice.  The definitions whose names end in `32`
  (`fcfs32`, `sjf32`, `srtf32`, `roundRobin32`, `predictBestAlgorithm32`) are
  the program as it runs: every sum and difference of `int`s that the source
  computes is reduced to 32 bits by `wrap`, and the call of `std::sort` is a
  parameter `sort` of which only `ArrivalSort` is assumed (a permutation,
  sorted by arrival), so that nothing is assumed on the order of tasks with
  the same arrival time.  The definitions named as in the source (`fcfs`,
  `sjf`, `srtf`, `roundRobin`, `predictBestAlgorithm`) are the same code over
  the unbounded integers, with the stable insertion sort `sortByArrival`: the
  loop invariants are proved there.  The two agree as long as the latest
  arrival plus the sum of the bursts is at most `INT_MAX` (`fcfs32_sameRun`,
  `sjf32_report`, `srtf32_report`, `rr32_report`), and what depends on the
  arithmetic of `int` or on the order the sort gives to equal arrivals is
  stated for the definitions in `32`.  Signed overflow is undefined behaviour
  in C++; `wrap` is the two's complement wrap-around.
* The constant `INT_MAX`, which the source uses as a sentinel, is kept as it
  is.
* `std::vector` is `List`; `push_back` appends at the end.
* A `while` loop is `whileLoop cond body fuel`: it returns `none` when the
  fuel is used up before the condition turns false.  `whileIter cond body n`
  is the state of the loop after `n` iterations, `none` when the loop has
  ended before.
* What a policy writes to the output file is a `Report`: the task list after
  `printAverageTimes`, the two totals the averages are computed from, the raw
  execution list and the compressed list that `printGanttChart` prints.
-/

namespace CpuScheduler

/-! ## Data model -/

/-- The largest C++ `int`, `INT_MAX` of `<climits>`. -/
def INT_MAX : Int := 2147483647

/-- Class `Task` (lines 13-24). -/
structure Task where
  id : Int
  burst : Int
  arrival : Int
  remaining : Int
  wait : Int
  turnaround : Int
deriving DecidableEq, Repr

/-- The constructor `Task(id, burst, arrival)` (lines 22-23). -/
def Task.new (id burst arrival : Int) : Task :=
  { id := id, burst := burst, arrival := arrival, remaining := burst, wait := 0, turnaround := 0 }

/-- Class `Execution` (lines 27-35); the field `end` of the source is `end_`
here, `end` being a keyword. -/
structure Execution where
  id : Int
  start : Int
  end_ : Int
deriving DecidableEq, Repr

/-- One record `id burst arrival` of the input file, as `main` reads it
(line 339). -/
structure Record where
  id : Int
  burst : Int
  arrival : Int
deriving DecidableEq, Repr

/-- The loading loop of `main` (lines 336-341): every record becomes a task,
without any check. -/
def loadTasks (recs : List Record) : List Task :=
  recs.map fun r => Task.new r.id r.burst r.arrival

/-! ## Loops -/

/-- A `while (cond) body` loop with fuel. -/
def whileLoop {σ : Type} (cond : σ → Bool) (body : σ → σ) : Nat → σ → Option σ
  | 0, s => if cond s then none else some s
  | fuel + 1, s => if cond s then whileLoop cond body fuel (body s) else some s

/-! ## Sorting by arrival -/

/-- The comparator `compareByArrival` (lines 38-40). -/
def compareByArrival (a b : Task) : Bool := decide (a.arrival < b.arrival)

/-- The order `std::sort` establishes with `compareByArrival`: `b` is not
strictly before `a`. -/
def arrivalLE (a b : Task) : Prop := a.arrival ≤ b.arrival

instance arrivalLE_decidable : DecidableRel arrivalLE :=
  fun a b => inferInstanceAs (Decidable (a.arrival ≤ b.arrival))

instance arrivalLE_total : IsTotal Task arrivalLE := ⟨fun a b => Int.le_total a.arrival b.arrival⟩

instance arrivalLE_trans : IsTrans Task arrivalLE :=
  ⟨fun _ _ _ hab hbc => Int.le_trans hab hbc⟩

/-- One sort that the call
`std::sort(tasks.begin(), tasks.end(), compareByArrival)` may be: a stable
insertion sort.  What `std::sort` may do in general is `ArrivalSort`. -/
def sortByArrival (tasks : List Task) : List Task := tasks.insertionSort arrivalLE

/-! ## Quantum estimator -/

/-- The index `static_cast<int>(bursts.size() * 0.8)` (line 256): the integer
part of `0.8 * n`.  The double nearest to `0.8` is `0.8 * (1 + 2^-54)`, so the
double product `n * 0.8` is `4n/5` exactly when `5` divides `n` and has the
integer part of `4n/5` otherwise, for every vector size. -/
def quantumIndex (n : Nat) : Nat := n * 4 / 5

/-- The function `calculateQuantum` (lines 254-258); `none` stands for a read
outside the vector. -/
def calculateQuantum (bursts : List Int) : Option Int :=
  (bursts.insertionSort (· ≤ ·))[quantumIndex bursts.length]?

/-! ## Predictor -/

/-- The loop of lines 52-58: every burst equals the first one. -/
def areAllBurstTimesSame : List Task → Bool
  | [] => true
  | t0 :: rest => (t0 :: rest).all fun t => decide (t.burst = t0.burst)

/-- The loop of lines 68-74 over a list that has been sorted. -/
def hasOverlappingTimes : List Task → Bool
  | a :: b :: rest =>
    if a.arrival + a.burst > b.arrival then true else hasOverlappingTimes (b :: rest)
  | _ => false

/-- The function `predictBestAlgorithm` (lines 43-81).  The task list is
passed by reference and sorted in place on the path that reaches line 65, so
the model returns the verdict together with the list the caller is left
with. -/
def predictBestAlgorithm (tasks : List Task) : String × List Task :=
  if areAllBurstTimesSame tasks then ("FCFS", tasks)
  else
    let sorted := sortByArrival tasks
    if hasOverlappingTimes sorted then ("SRTF", sorted) else ("SJF", sorted)

/-! ## Reports -/

/-- What one policy writes to the output file. -/
structure Report where
  tasks : List Task
  totalWait : Int
  totalTurnaround : Int
  executions : List Execution
  chart : List Execution
deriving DecidableEq, Repr

/-- The loop of `printAverageTimes` (lines 87-91) as far as the tasks are
concerned: every turnaround is set to `wait + burst`. -/
def setTurnarounds (tasks : List Task) : List Task :=
  tasks.map fun t => { t with turnaround := t.wait + t.burst }

/-- The value of `totalWait` after the loop of `printAverageTimes`. -/
def totalWait (tasks : List Task) : Int := (tasks.map fun t => t.wait).sum

/-- The value of `totalTurnaround` after the loop of `printAverageTimes`. -/
def totalTurnaround (tasks : List Task) : Int :=
  ((setTurnarounds tasks).map fun t => t.turnaround).sum

/-- The compression loop of `printGanttChart` (lines 107-118), `current`
being the interval under construction. -/
def compressLoop (current : Execution) : List Execution → List Execution
  | [] => [current]
  | e :: rest =>
    if e.id = current.id ∧ e.start = current.end_ then
      compressLoop { current with end_ := e.end_ } rest
    else
      current ::
        ((if e.start > current.end_ then [Execution.mk (-1) current.end_ e.start] else [])
          ++ compressLoop e rest)

/-- The list `compressedExecutions` that `printGanttChart` prints (lines
98-118); nothing is printed for an empty execution list. -/
def printGanttChart : List Execution → List Execution
  | [] => []
  | e :: rest => compressLoop e rest

/-- The tail that the policies share: `printAverageTimes` followed by
`printGanttChart`. -/
def mkReport (tasks : List Task) (executions : List Execution) : Report :=
  { tasks := setTurnarounds tasks
    totalWait := totalWait tasks
    totalTurnaround := totalTurnaround tasks
    executions := executions
    chart := printGanttChart executions }

/-! ## FCFS -/

/-- The loop of `fcfs` (lines 143-150) from the task at hand onwards: the
tasks with their wait set, and the executions pushed. -/
def fcfsLoop (currentTime : Int) : List Task → List Task × List Execution
  | [] => ([], [])
  | t :: rest =>
    let now := if currentTime < t.arrival then t.arrival else currentTime
    let r := fcfsLoop (now + t.burst) rest
    ({ t with wait := max 0 (now - t.arrival) } :: r.1,
      Execution.mk t.id now (now + t.burst) :: r.2)

/-- The function `fcfs` (lines 137-156). -/
def fcfs (tasks : List Task) : Report :=
  let r := fcfsLoop 0 (sortByArrival tasks)
  mkReport r.1 r.2

/-! ## SJF -/

/-- The variables of `sjf` that live across iterations of its `while`. -/
structure SjfState where
  tasks : List Task
  executions : List Execution
  currentTime : Int
  completedTasks : Nat
  isTaskCompleted : List Bool
deriving DecidableEq, Repr

/-- The selection loop of `sjf` (lines 175-180) from index `i` onwards; the
accumulator is `(shortestJobIndex, shortestBurstTime)`, with `none` for the
index `-1`. -/
def sjfScan (currentTime : Int) :
    List Task → List Bool → Nat → Option Nat × Int → Option Nat × Int
  | t :: ts, c :: cs, i, acc =>
    if t.arrival ≤ currentTime ∧ c = false ∧ t.burst < acc.2 then
      sjfScan currentTime ts cs (i + 1) (some i, t.burst)
    else sjfScan currentTime ts cs (i + 1) acc
  | _, _, _, acc => acc

/-- One iteration of the `while` of `sjf` (lines 172-193). -/
def sjfBody (s : SjfState) : SjfState :=
  match (sjfScan s.currentTime s.tasks s.isTaskCompleted 0 (none, INT_MAX)).1 with
  | none => { s with currentTime := s.currentTime + 1 }
  | some j =>
    match s.tasks[j]? with
    | none => s
    | some t =>
      let w := max 0 (s.currentTime - t.arrival)
      { tasks := s.tasks.set j { t with wait := w, turnaround := w + t.burst }
        executions := s.executions ++ [Execution.mk t.id s.currentTime (s.currentTime + t.burst)]
        currentTime := s.currentTime + t.burst
        completedTasks := s.completedTasks + 1
        isTaskCompleted := s.isTaskCompleted.set j true }

/-- The condition `completedTasks < n` of line 171. -/
def sjfCond (s : SjfState) : Bool := decide (s.completedTasks < s.tasks.length)

/-- The state of `sjf` when its `while` is reached (lines 163-169). -/
def sjfInit (tasks : List Task) : SjfState :=
  { tasks := sortByArrival tasks
    executions := []
    currentTime := 0
    completedTasks := 0
    isTaskCompleted := List.replicate tasks.length false }

/-- The function `sjf` (lines 159-199). -/
def sjf (fuel : Nat) (tasks : List Task) : Option Report :=
  (whileLoop sjfCond sjfBody fuel (sjfInit tasks)).map fun s => mkReport s.tasks s.executions

/-! ## SRTF -/

/-- The variables of `srtf` that live across iterations of its `while`. -/
structure SrtfState where
  tasks : List Task
  executions : List Execution
  currentTime : Int
  completed : Nat
  shortestIndex : Nat
  shortestRemainingTime : Int
  check : Bool
deriving DecidableEq, Repr

/-- The selection loop of `srtf` (lines 212-220) from index `i` onwards; the
accumulator is `(shortestRemainingTime, shortestIndex, check)`. -/
def srtfScan (currentTime : Int) : List Task → Nat → Int × Nat × Bool → Int × Nat × Bool
  | [], _, acc => acc
  | t :: ts, i, acc =>
    if t.arrival ≤ currentTime ∧ t.remaining > 0 ∧ t.remaining < acc.1 then
      srtfScan currentTime ts (i + 1) (t.remaining, i, true)
    else srtfScan currentTime ts (i + 1) acc

/-- One iteration of the `while` of `srtf` (lines 212-245). -/
def srtfBody (s : SrtfState) : SrtfState :=
  let sel := srtfScan s.currentTime s.tasks 0 (s.shortestRemainingTime, s.shortestIndex, s.check)
  if sel.2.2 = false then
    { s with shortestRemainingTime := sel.1, shortestIndex := sel.2.1, check := sel.2.2
             currentTime := s.currentTime + 1 }
  else
    match s.tasks[sel.2.1]? with
    | none => s
    | some t =>
      let rem := t.remaining - 1
      if rem = 0 then
        let w := max 0 (s.currentTime + 1 - t.arrival - t.burst)
        { tasks := s.tasks.set sel.2.1 { t with remaining := rem, wait := w, turnaround := w + t.burst }
          executions := s.executions ++ [Execution.mk t.id s.currentTime (s.currentTime + 1)]
          currentTime := s.currentTime + 1
          completed := s.completed + 1
          shortestIndex := sel.2.1
          shortestRemainingTime := INT_MAX
          check := false }
      else
        { tasks := s.tasks.set sel.2.1 { t with remaining := rem }
          executions := s.executions ++ [Execution.mk t.id s.currentTime (s.currentTime + 1)]
          currentTime := s.currentTime + 1
          completed := s.completed
          shortestIndex := sel.2.1
          shortestRemainingTime := rem
          check := true }

/-- The condition `completed != n` of line 211. -/
def srtfCond (s : SrtfState) : Bool := decide (s.completed ≠ s.tasks.length)

/-- The state of `srtf` when its `while` is reached (lines 203-209). -/
def srtfInit (tasks : List Task) : SrtfState :=
  { tasks := tasks
    executions := []
    currentTime := 0
    completed := 0
    shortestIndex := 0
    shortestRemainingTime := INT_MAX
    check := false }

/-- The function `srtf` (lines 202-251). -/
def srtf (fuel : Nat) (tasks : List Task) : Option Report :=
  (whileLoop srtfCond srtfBody fuel (srtfInit tasks)).map fun s => mkReport s.tasks s.executions

/-! ## Round-Robin -/

/-- The variables of `roundRobin` that live across iterations of its
`while`; `arrival` is the local array of lines 274-277, where `-1` marks a
task that has been put on the queue. -/
structure RRState where
  tasks : List Task
  executions : List Execution
  currentTime : Int
  readyQueue : List Nat
  completed : Nat
  arrival : List Int
deriving DecidableEq, Repr

/-- The admission loop of `roundRobin` (lines 280-285, and again lines
300-305) from index `i` onwards: the array `arrival` and the queue after
it. -/
def rrAdmit (currentTime : Int) : List Int → Nat → List Nat → List Int × List Nat
  | [], _, queue => ([], queue)
  | a :: rest, i, queue =>
    if a ≤ currentTime ∧ a ≠ -1 then
      let r := rrAdmit currentTime rest (i + 1) (queue ++ [i])
      (-1 :: r.1, r.2)
    else
      let r := rrAdmit currentTime rest (i + 1) queue
      (a :: r.1, r.2)

/-- One iteration of the `while` of `roundRobin` (lines 280-312). -/
def rrBody (quantum : Int) (s : RRState) : RRState :=
  let adm := rrAdmit s.currentTime s.arrival 0 s.readyQueue
  match adm.2 with
  | [] => { s with arrival := adm.1, readyQueue := [], currentTime := s.currentTime + 1 }
  | current :: queue =>
    match s.tasks[current]? with
    | none => s
    | some t =>
      let timeSlice := min quantum t.remaining
      let rem := t.remaining - timeSlice
      let now := s.currentTime + timeSlice
      let adm2 := rrAdmit now adm.1 0 queue
      if rem > 0 then
        { tasks := s.tasks.set current { t with remaining := rem }
          executions := s.executions ++ [Execution.mk t.id s.currentTime now]
          currentTime := now
          readyQueue := adm2.2 ++ [current]
          completed := s.completed
          arrival := adm2.1 }
      else
        { tasks := s.tasks.set current
            { t with remaining := rem, wait := now - t.arrival - t.burst }
          executions := s.executions ++ [Execution.mk t.id s.currentTime now]
          currentTime := now
          readyQueue := adm2.2
          completed := s.completed + 1
          arrival := adm2.1 }

/-- The condition `completed != tasks.size()` of line 279. -/
def rrCond (s : RRState) : Bool := decide (s.completed ≠ s.tasks.length)

/-- The state of `roundRobin` when its `while` is reached (lines 264-277). -/
def rrInit (tasks : List Task) : RRState :=
  { tasks := tasks.map fun t => { t with remaining := t.burst }
    executions := []
    currentTime := 0
    readyQueue := []
    completed := 0
    arrival := tasks.map fun t => t.arrival }

/-- The function `roundRobin` (lines 263-319). -/
def roundRobin (fuel : Nat) (tasks : List Task) (quantum : Int) : Option Report :=
  (whileLoop rrCond (rrBody quantum) fuel (rrInit tasks)).map fun s =>
    mkReport s.tasks s.executions

/-! ## The program -/

/-- The sections of the output file after the verdict. -/
structure Output where
  predictedAlgorithm : String
  quantum : Int
  roundRobin : Report
  fcfs : Report
  sjf : Report
  srtf : Report
deriving DecidableEq, Repr

/-- What `main` writes: the line `No tasks found in input file`, or the
verdict and the four reports. -/
inductive MainResult where
  | noTasks : MainResult
  | reports : Output → MainResult
deriving DecidableEq, Repr

/-- The function `main` from the loading loop on (lines 336-364); `recs` is
the content of the input file.  The four policies receive copies of `tasks`
as `predictBestAlgorithm` has left it. -/
def main (fuel : Nat) (recs : List Record) : Option MainResult :=
  let tasks := loadTasks recs
  if tasks.isEmpty then some MainResult.noTasks
  else
    let p := predictBestAlgorithm tasks
    let tasks := p.2
    let burstTimes := tasks.map fun t => t.burst
    match calculateQuantum burstTimes with
    | none => none
    | some quantum =>
      match roundRobin fuel tasks quantum, sjf fuel tasks, srtf fuel tasks with
      | some rr, some sj, some sr =>
        some (MainResult.reports
          { predictedAlgorithm := p.1, quantum := quantum, roundRobin := rr
            fcfs := fcfs tasks, sjf := sj, srtf := sr })
      | _, _, _ => none

/-- The reports of a run of `main`, when it ran the policies. -/
def MainResult.output : MainResult → Option Output
  | MainResult.noTasks => none
  | MainResult.reports o => some o

/-! ## Notions of the specification -/

/-- The record a task was built from. -/
def Task.record (t : Task) : Record := { id := t.id, burst := t.burst, arrival := t.arrival }

/-- Makespan: the end of the last execution interval (0 when nothing ran). -/
def makespan (executions : List Execution) : Int :=
  match executions.getLast? with
  | none => 0
  | some e => e.end_

/-- The sum of all burst times. -/
def totalBurst (tasks : List Task) : Int := (tasks.map fun t => t.burst).sum

/-- The latest arrival time (0 for no task). -/
def maxArrival (tasks : List Task) : Int := (tasks.map fun t => t.arrival).foldr max 0

/-- The end of the last execution interval that carries the task id `id`. -/
def lastEnd (id : Int) (executions : List Execution) : Option Int :=
  ((executions.filter fun e => decide (e.id = id)).getLast?).map fun e => e.end_

/-- The number of execution intervals that carry the task id `id`. -/
def intervalCount (id : Int) (executions : List Execution) : Nat :=
  (executions.filter fun e => decide (e.id = id)).length

/-- The total length of a list of execution intervals. -/
def busyTime (executions : List Execution) : Int :=
  (executions.map fun e => e.end_ - e.start).sum

/-! ## Invariants used in the proofs -/

/-- The task `t` as `sjf` leaves it when it dispatches it at `currentTime`
(lines 188 and 191). -/
def sjfFinish (currentTime : Int) (t : Task) : Task :=
  { t with wait := max 0 (currentTime - t.arrival),
           turnaround := max 0 (currentTime - t.arrival) + t.burst }

/-- The state after a dispatch of the task `t` at index `j` by `sjf`. -/
def sjfDispatch (s : SjfState) (j : Nat) (t : Task) : SjfState :=
  { tasks := s.tasks.set j (sjfFinish s.currentTime t)
    executions := s.executions ++ [Execution.mk t.id s.currentTime (s.currentTime + t.burst)]
    currentTime := s.currentTime + t.burst
    completedTasks := s.completedTasks + 1
    isTaskCompleted := s.isTaskCompleted.set j true }

/-- Invariant of the `while` of `sjf`, `orig` being the task list the loop
starts from. -/
structure SjfInv (orig : List Task) (s : SjfState) : Prop where
  len : s.isTaskCompleted.length = s.tasks.length
  keys : s.tasks.map Task.record = orig.map Task.record
  pre : ∀ (i : Nat) (t : Task), s.tasks[i]? = some t → 0 ≤ t.arrival ∧ 0 < t.burst
  count : (s.completedTasks : Int)
    = (s.isTaskCompleted.map fun c => if c = true then (1 : Int) else 0).sum
  ends : ∀ e ∈ s.executions, e.end_ ≤ s.currentTime
  chain : s.executions.Chain' fun a b => a.end_ ≤ b.start
  ran : ∀ (i : Nat) (t : Task), s.tasks[i]? = some t → s.isTaskCompleted[i]? = some true →
    t.burst < INT_MAX ∧ 0 ≤ t.wait ∧
      Execution.mk t.id (t.arrival + t.wait) (t.arrival + t.wait + t.burst) ∈ s.executions
  last : (s.tasks.map fun t => t.id).Nodup →
    ∀ (i : Nat) (t : Task), s.tasks[i]? = some t → s.isTaskCompleted[i]? = some true →
      lastEnd t.id s.executions = some (t.arrival + t.wait + t.burst)
  busy : busyTime s.executions
    = ((s.tasks.zip s.isTaskCompleted).map fun p => if p.2 = true then p.1.burst else 0).sum
  lens : ∀ e ∈ s.executions, ∃ (i : Nat) (t : Task), s.tasks[i]? = some t ∧
    e.id = t.id ∧ e.end_ - e.start = t.burst ∧ t.arrival ≤ e.start

/-- Invariant of the `while` of `sjf` when every burst is below `INT_MAX`;
`lo` and `hi` are the earliest and the latest arrival. -/
structure SjfInvB (lo hi : Int) (s : SjfState) : Prop where
  range : ∀ (i : Nat) (t : Task), s.tasks[i]? = some t →
    lo ≤ t.arrival ∧ t.arrival ≤ hi ∧ t.burst < INT_MAX
  attained : s.tasks ≠ [] → ∃ (i : Nat) (t : Task), s.tasks[i]? = some t ∧ t.arrival = lo
  busy0 : 0 ≤ busyTime s.executions
  time : s.currentTime ≤ hi + busyTime s.executions
  first : s.executions = [] →
    s.currentTime ≤ lo ∧
      ∀ (i : Nat), i < s.isTaskCompleted.length → s.isTaskCompleted[i]? = some false
  head : ∀ e, s.executions.head? = some e → e.start = lo

/-- The task `t` as `srtf` leaves it after its last unit, run at
`currentTime` (lines 229, 241 and 242). -/
def srtfLastUnit (currentTime : Int) (t : Task) : Task :=
  { t with remaining := t.remaining - 1,
           wait := max 0 (currentTime + 1 - t.arrival - t.burst),
           turnaround := max 0 (currentTime + 1 - t.arrival - t.burst) + t.burst }

/-- The task `t` as `srtf` leaves it after a unit that is not its last
(line 229). -/
def srtfUnit (t : Task) : Task := { t with remaining := t.remaining - 1 }

/-- The state after `srtf` has run the last unit of the task `t` at index
`j`. -/
def srtfComplete (s : SrtfState) (j : Nat) (t : Task) : SrtfState :=
  { tasks := s.tasks.set j (srtfLastUnit s.currentTime t)
    executions := s.executions ++ [Execution.mk t.id s.currentTime (s.currentTime + 1)]
    currentTime := s.currentTime + 1
    completed := s.completed + 1
    shortestIndex := j
    shortestRemainingTime := INT_MAX
    check := false }

/-- The state after `srtf` has run a unit of the task `t` at index `j` that
is not its last. -/
def srtfContinue (s : SrtfState) (j : Nat) (t : Task) : SrtfState :=
  { tasks := s.tasks.set j (srtfUnit t)
    executions := s.executions ++ [Execution.mk t.id s.currentTime (s.currentTime + 1)]
    currentTime := s.currentTime + 1
    completed := s.completed
    shortestIndex := j
    shortestRemainingTime := t.remaining - 1
    check := true }

/-- The state after `srtf` has run the task `t` at index `j` for one unit
(lines 228-245). -/
def srtfRun (s : SrtfState) (j : Nat) (t : Task) : SrtfState :=
  if t.remaining - 1 = 0 then srtfComplete s j t else srtfContinue s j t

/-- Invariant of the `while` of `srtf`, `orig` being the task list the loop
starts from. -/
structure SrtfInv (orig : List Task) (s : SrtfState) : Prop where
  keys : s.tasks.map Task.record = orig.map Task.record
  pre : ∀ (i : Nat) (t : Task), s.tasks[i]? = some t → 0 ≤ t.arrival ∧ 0 < t.burst
  rem : ∀ (i : Nat) (t : Task), s.tasks[i]? = some t → 0 ≤ t.remaining ∧ t.remaining ≤ t.burst
  count : (s.completed : Int)
    = (s.tasks.map fun t => if t.remaining = 0 then (1 : Int) else 0).sum
  chk : s.check = true → ∃ t, s.tasks[s.shortestIndex]? = some t ∧
    t.remaining = s.shortestRemainingTime ∧ 0 < t.remaining ∧ t.arrival ≤ s.currentTime ∧
    t.remaining < INT_MAX
  nochk : s.check = false → s.shortestRemainingTime = INT_MAX
  srtLe : s.shortestRemainingTime ≤ INT_MAX
  touched : ∀ (i : Nat) (t : Task), s.tasks[i]? = some t → t.remaining < t.burst →
    t.burst < INT_MAX
  ends : ∀ e ∈ s.executions, e.end_ ≤ s.currentTime
  unit : ∀ e ∈ s.executions, e.end_ = e.start + 1
  chain : s.executions.Chain' fun a b => a.end_ ≤ b.start
  counts : ∀ id : Int, (intervalCount id s.executions : Int)
    = (s.tasks.map fun t => if t.id = id then t.burst - t.remaining else 0).sum
  busy : busyTime s.executions = (s.tasks.map fun t => t.burst - t.remaining).sum
  progress : ∀ (i : Nat) (t : Task), s.tasks[i]? = some t → t.remaining < t.burst →
    t.arrival + (t.burst - t.remaining) ≤ s.currentTime
  ran : ∀ (i : Nat) (t : Task), s.tasks[i]? = some t → t.remaining = 0 →
    0 ≤ t.wait ∧
      Execution.mk t.id (t.arrival + t.wait + t.burst - 1) (t.arrival + t.wait + t.burst)
        ∈ s.executions
  last : (s.tasks.map fun t => t.id).Nodup →
    ∀ (i : Nat) (t : Task), s.tasks[i]? = some t → t.remaining = 0 →
      lastEnd t.id s.executions = some (t.arrival + t.wait + t.burst)
  lens : ∀ e ∈ s.executions, ∃ (i : Nat) (t : Task), s.tasks[i]? = some t ∧
    e.id = t.id ∧ t.arrival ≤ e.start

/-- Invariant of the `while` of `srtf` when every burst is below `INT_MAX`;
`lo` and `hi` are the earliest and the latest arrival. -/
structure SrtfInvB (lo hi : Int) (s : SrtfState) : Prop where
  range : ∀ (i : Nat) (t : Task), s.tasks[i]? = some t →
    lo ≤ t.arrival ∧ t.arrival ≤ hi ∧ t.burst < INT_MAX
  attained : s.tasks ≠ [] → ∃ (i : Nat) (t : Task), s.tasks[i]? = some t ∧ t.arrival = lo
  busy0 : 0 ≤ busyTime s.executions
  time : s.currentTime ≤ hi + busyTime s.executions
  first : s.executions = [] →
    s.currentTime ≤ lo ∧ ∀ (i : Nat) (t : Task), s.tasks[i]? = some t → t.remaining = t.burst
  head : ∀ e, s.executions.head? = some e → e.start = lo

/-- The array `arrival` of `roundRobin` after an admission loop run at
`currentTime`. -/
def rrMark (currentTime : Int) (arrival : List Int) : List Int :=
  arrival.map fun a => if a ≤ currentTime ∧ a ≠ -1 then -1 else a

/-- The indices an admission loop of `roundRobin` run at `currentTime` pushes
on the queue, in the order in which it pushes them; `i` is the index of the
head of the array. -/
def rrAdmitted (currentTime : Int) : List Int → Nat → List Nat
  | [], _ => []
  | a :: rest, i =>
    if a ≤ currentTime ∧ a ≠ -1 then i :: rrAdmitted currentTime rest (i + 1)
    else rrAdmitted currentTime rest (i + 1)

/-- The task `t` as `roundRobin` leaves it after a slice that does not finish
it (line 297). -/
def rrPreempted (quantum : Int) (t : Task) : Task :=
  { t with remaining := t.remaining - min quantum t.remaining }

/-- The task `t` as `roundRobin` leaves it after its last slice, which ends
at `now` (lines 297 and 311). -/
def rrFinished (quantum now : Int) (t : Task) : Task :=
  { t with remaining := t.remaining - min quantum t.remaining,
           wait := now - t.arrival - t.burst }

/-- The state after an iteration of `roundRobin` that takes `current` from
the head of the queue, `rest` being the queue behind it and `t` the task. -/
def rrDispatch (quantum : Int) (s : RRState) (current : Nat) (rest : List Nat) (t : Task) :
    RRState :=
  if t.remaining - min quantum t.remaining > 0 then
    { tasks := s.tasks.set current (rrPreempted quantum t)
      executions := s.executions ++
        [Execution.mk t.id s.currentTime (s.currentTime + min quantum t.remaining)]
      currentTime := s.currentTime + min quantum t.remaining
      readyQueue := (rest ++ rrAdmitted (s.currentTime + min quantum t.remaining)
        (rrMark s.currentTime s.arrival) 0) ++ [current]
      completed := s.completed
      arrival := rrMark (s.currentTime + min quantum t.remaining)
        (rrMark s.currentTime s.arrival) }
  else
    { tasks := s.tasks.set current
        (rrFinished quantum (s.currentTime + min quantum t.remaining) t)
      executions := s.executions ++
        [Execution.mk t.id s.currentTime (s.currentTime + min quantum t.remaining)]
      currentTime := s.currentTime + min quantum t.remaining
      readyQueue := rest ++ rrAdmitted (s.currentTime + min quantum t.remaining)
        (rrMark s.currentTime s.arrival) 0
      completed := s.completed + 1
      arrival := rrMark (s.currentTime + min quantum t.remaining)
        (rrMark s.currentTime s.arrival) }

/-- How the queue and the array `arrival` of `roundRobin` relate to the
tasks; `excl` is the task that has been taken from the queue and is running,
if any. -/
structure QInv (tasks : List Task) (arrival : List Int) (queue : List Nat) (now : Int)
    (excl : Option Nat) : Prop where
  alen : arrival.length = tasks.length
  mark : ∀ (i : Nat) (t : Task) (a : Int), tasks[i]? = some t → arrival[i]? = some a →
    a = t.arrival ∨ a = -1
  waiting : ∀ (i : Nat) (t : Task) (a : Int), tasks[i]? = some t → arrival[i]? = some a →
    a ≠ -1 → t.remaining = t.burst
  qvalid : ∀ i ∈ queue, ∃ t, tasks[i]? = some t ∧ arrival[i]? = some (-1) ∧ 0 < t.remaining
  qcomplete : ∀ (i : Nat) (t : Task), tasks[i]? = some t → arrival[i]? = some (-1) →
    0 < t.remaining → i ∈ queue ∨ excl = some i
  arrived : ∀ (i : Nat) (t : Task), tasks[i]? = some t → arrival[i]? = some (-1) →
    t.arrival ≤ now
  qnodup : queue.Nodup
  exclOut : ∀ i ∈ queue, excl ≠ some i
  exclMark : ∀ x, excl = some x → arrival[x]? = some (-1)

/-- The number of slices of length `quantum` needed for `x` units of work:
`x / quantum` rounded up. -/
def ceilDiv (x quantum : Int) : Int := (x + quantum - 1) / quantum

/-- Invariant of the `while` of `roundRobin`, `orig` being the task list the
loop starts from. -/
structure RRInv (quantum : Int) (orig : List Task) (s : RRState) : Prop where
  queue : QInv s.tasks s.arrival s.readyQueue s.currentTime none
  keys : s.tasks.map Task.record = orig.map Task.record
  pre : ∀ (i : Nat) (t : Task), s.tasks[i]? = some t → 0 ≤ t.arrival ∧ 0 < t.burst
  rem : ∀ (i : Nat) (t : Task), s.tasks[i]? = some t → 0 ≤ t.remaining ∧ t.remaining ≤ t.burst
  count : (s.completed : Int)
    = (s.tasks.map fun t => if t.remaining = 0 then (1 : Int) else 0).sum
  ends : ∀ e ∈ s.executions, e.end_ ≤ s.currentTime
  chain : s.executions.Chain' fun a b => a.end_ ≤ b.start
  slice : ∀ e ∈ s.executions, e.start < e.end_ ∧ e.end_ - e.start ≤ quantum
  short : ∀ e ∈ s.executions, e.end_ - e.start = quantum ∨
    ∃ (i : Nat) (t : Task), s.tasks[i]? = some t ∧ t.id = e.id ∧ t.remaining = 0 ∧
      e.end_ = t.arrival + t.wait + t.burst
  full : ∀ (i : Nat) (t : Task), s.tasks[i]? = some t → 0 < t.remaining →
    quantum ∣ t.burst - t.remaining
  counts : ∀ id : Int, (intervalCount id s.executions : Int)
    = (s.tasks.map fun t =>
        if t.id = id then ceilDiv (t.burst - t.remaining) quantum else 0).sum
  busy : busyTime s.executions = (s.tasks.map fun t => t.burst - t.remaining).sum
  progress : ∀ (i : Nat) (t : Task), s.tasks[i]? = some t → t.remaining < t.burst →
    t.arrival + (t.burst - t.remaining) ≤ s.currentTime
  ran : ∀ (i : Nat) (t : Task), s.tasks[i]? = some t → t.remaining = 0 →
    0 ≤ t.wait ∧ ∃ e ∈ s.executions, e.id = t.id ∧ e.end_ = t.arrival + t.wait + t.burst
  last : (s.tasks.map fun t => t.id).Nodup →
    ∀ (i : Nat) (t : Task), s.tasks[i]? = some t → t.remaining = 0 →
      lastEnd t.id s.executions = some (t.arrival + t.wait + t.burst)
  lens : ∀ e ∈ s.executions, ∃ (i : Nat) (t : Task), s.tasks[i]? = some t ∧
    e.id = t.id ∧ t.arrival ≤ e.start

/-- Invariant of the `while` of `roundRobin` about the clock; `lo` and `hi`
are the earliest and the latest arrival. -/
structure RRInvB (lo hi : Int) (s : RRState) : Prop where
  range : ∀ (i : Nat) (t : Task), s.tasks[i]? = some t → lo ≤ t.arrival ∧ t.arrival ≤ hi
  attained : s.tasks ≠ [] → ∃ (i : Nat) (t : Task), s.tasks[i]? = some t ∧ t.arrival = lo
  busy0 : 0 ≤ busyTime s.executions
  time : s.currentTime ≤ hi + busyTime s.executions
  first : s.executions = [] →
    s.currentTime ≤ lo ∧ ∀ (i : Nat) (t : Task), s.tasks[i]? = some t → t.remaining = t.burst
  head : ∀ e, s.executions.head? = some e → e.start = lo

/-! ## The properties the theorems state -/

/-- The metrics that a report shows for the records `recs` of the input:
the reported tasks are those of the input; every wait is non-negative and
every turnaround is `wait + burst`; and, task ids being distinct, the last
execution interval of a task ends at `arrival + turnaround`, so that
turnaround is the time from arrival to completion and
`wait = completion - arrival - burst`. -/
def ReportedMetrics (recs : List Record) (rep : Report) : Prop :=
  (rep.tasks.map Task.record).Perm recs ∧
  (∀ t ∈ rep.tasks, 0 ≤ t.wait ∧ t.turnaround = t.wait + t.burst) ∧
  ((recs.map fun r => r.id).Nodup →
    ∀ t ∈ rep.tasks, lastEnd t.id rep.executions = some (t.arrival + t.turnaround))

/-- The printed chart covers the time from the earliest arrival to the
makespan: its first entry starts at the earliest arrival time, every entry
is non-empty and starts where the one before it ends, and its last entry ends
at the makespan. -/
def ChartCovers (recs : List Record) (rep : Report) : Prop :=
  ∃ first rest, rep.chart = first :: rest ∧
    (∀ r ∈ recs, first.start ≤ r.arrival) ∧ (∃ r ∈ recs, first.start = r.arrival) ∧
    rep.chart.Chain' (fun a b => a.end_ = b.start) ∧
    (∀ x ∈ rep.chart, x.start < x.end_) ∧
    makespan rep.chart = makespan rep.executions

/-- What the proofs establish about the end of a run of any of the policies
on `tasks`: `final` is the task list and `execs` the execution list when the
policy calls `printAverageTimes`. -/
structure RunFacts (tasks final : List Task) (execs : List Execution) : Prop where
  keys : (final.map Task.record).Perm (tasks.map Task.record)
  wait : ∀ t ∈ final, 0 ≤ t.wait
  last : (tasks.map fun t => t.id).Nodup →
    ∀ t ∈ final, lastEnd t.id execs = some (t.arrival + t.wait + t.burst)
  chain : execs.Chain' fun a b => a.end_ ≤ b.start
  pos : ∀ e ∈ execs, e.start < e.end_
  bound : ∀ e ∈ execs, e.end_ ≤ maxArrival tasks + totalBurst tasks
  head : ∀ e, execs.head? = some e →
    (∀ t ∈ tasks, e.start ≤ t.arrival) ∧ ∃ t ∈ tasks, e.start = t.arrival
  busy : busyTime execs = totalBurst tasks

/-- The gaps of a raw execution list: one idle entry, with the reserved id
`-1`, from the end of an interval to the start of the next one wherever the
next one starts later. -/
def gaps : List Execution → List Execution
  | a :: b :: rest =>
    (if a.end_ < b.start then [Execution.mk (-1) a.end_ b.start] else []) ++ gaps (b :: rest)
  | _ => []

/-- The time unit that starts at `x` lies in an interval of `l` that carries
the id `id`. -/
def Covers (l : List Execution) (id x : Int) : Prop :=
  ∃ e ∈ l, e.id = id ∧ e.start ≤ x ∧ x < e.end_

/-- The state of a `while (cond) body` loop after `n` iterations of its body;
`none` when the loop has ended before. -/
def whileIter {σ : Type} (cond : σ → Bool) (body : σ → σ) : Nat → σ → Option σ
  | 0, s => some s
  | n + 1, s => if cond s then whileIter cond body n (body s) else none

/-- An execution list is in time order: every interval is non-empty, every
interval starts no earlier than the one recorded before it ends, and hence no
earlier than any interval recorded before it ends, so that no two intervals
overlap. -/
def TimeOrdered (execs : List Execution) : Prop :=
  (∀ e ∈ execs, e.start < e.end_) ∧
  execs.Chain' (fun a b => a.end_ ≤ b.start) ∧
  execs.Pairwise (fun a b => a.end_ ≤ b.start)

/-- The average waiting time that `printAverageTimes` prints (line 93),
`totalWait / tasks.size()`, as an exact quotient; the program computes it in
`float`. -/
def averageWait (rep : Report) : ℚ := (rep.totalWait : ℚ) / (rep.tasks.length : ℚ)

/-- The task that `srtf` holds as running when an iteration starts: the index
`shortestIndex` when `check` is set, which is the case exactly when the
iteration before ran that task and left it unfinished. -/
def srtfRunning (s : SrtfState) : Option Nat :=
  if s.check = true then some s.shortestIndex else none

/-- The task `t` is eligible in the state `s` of `srtf`: it has arrived and
has work left (line 213). -/
def srtfEligible (s : SrtfState) (t : Task) : Prop :=
  t.arrival ≤ s.currentTime ∧ 0 < t.remaining

/-- The index that an iteration of `roundRobin` started in the state `s`
takes from the ready queue (lines 280-293): the head of the queue after the
admission loop, `none` when the queue is empty then and the iteration
idles. -/
def rrNext (s : RRState) : Option Nat :=
  (rrAdmit s.currentTime s.arrival 0 s.readyQueue).2.head?

/-- The index `x` stands in the queue before the index `c`. -/
def Before (x c : Nat) (queue : List Nat) : Prop :=
  ∃ l₁ l₂, queue = l₁ ++ x :: l₂ ∧ c ∈ l₂

/-- The verdict of `predictBestAlgorithm` (lines 60-80) when the call of
`std::sort` at line 65 leaves the list `sorted`; `std::sort` may leave tasks
with the same arrival time in any order. -/
def verdictWith (sorted tasks : List Task) : String :=
  if areAllBurstTimesSame tasks then "FCFS"
  else if hasOverlappingTimes sorted then "SRTF" else "SJF"

/-- The pair `(arrival, burst)` of a task. -/
def arrivalBurst (t : Task) : Int × Int := (t.arrival, t.burst)

/-- Two different entries `p` and `q` of a list of `(arrival, burst)` pairs
overlap: `p` arrives no later than `q` and ends after `q` arrives.  That
`[p, q]` is a sublist up to order says that `p` and `q` stand at two
different positions. -/
def Overlapping (pairs : List (Int × Int)) : Prop :=
  ∃ p q, [p, q].Subperm pairs ∧ p.1 ≤ q.1 ∧ p.1 + p.2 > q.1

/-- No interval of an execution list starts before its task has arrived:
every interval carries the id of a record that has arrived by its start; and,
ids being distinct, every interval that carries the id of a record starts at
or after the arrival of that record. -/
def NoEarlyStart (recs : List Record) (executions : List Execution) : Prop :=
  (∀ e ∈ executions, ∃ r ∈ recs, r.id = e.id ∧ r.arrival ≤ e.start) ∧
  ((recs.map fun r => r.id).Nodup →
    ∀ r ∈ recs, ∀ e ∈ executions, e.id = r.id → r.arrival ≤ e.start)

/-! ## The program with 32-bit `int` arithmetic

The definitions above compute in unbounded integers.  The definitions of
this section, whose names end in `32`, are the same code with the arithmetic
of a 32-bit `int`: every sum and difference the source computes is reduced
into the range of `int` by `wrap`.  The order in which `std::sort` leaves
tasks of equal arrival time is not specified, so the sort is a parameter
`sort`, of which only `ArrivalSort` is assumed. -/

/-- The smallest C++ `int`, `INT_MIN` of `<climits>`. -/
def INT_MIN : Int := -2147483648

/-- The value a 32-bit `int` takes for the mathematical result `x` of an
addition or a subtraction: `x` itself between `INT_MIN` and `INT_MAX`, and
`x` reduced modulo `2^32` into that range otherwise.  (Signed overflow is
undefined behaviour in C++; this is the wrap-around of two's complement
hardware.) -/
def wrap (x : Int) : Int := (x + 2147483648) % 4294967296 - 2147483648

/-- What a call `std::sort(tasks.begin(), tasks.end(), compareByArrival)` may
do: it leaves a permutation of the vector in which no task stands before a
task that arrives strictly earlier. -/
def ArrivalSort (sort : List Task → List Task) : Prop :=
  ∀ l, (sort l).Perm l ∧ (sort l).Sorted arrivalLE

/-- The loop of lines 68-74 over a list that has been sorted, the sum
`arrival + burst` being an `int`. -/
def hasOverlappingTimes32 : List Task → Bool
  | a :: b :: rest =>
    if wrap (a.arrival + a.burst) > b.arrival then true else hasOverlappingTimes32 (b :: rest)
  | _ => false

/-- The function `predictBestAlgorithm` (lines 43-81) with `int` arithmetic
and the sort `sort`: the verdict and the list the caller is left with. -/
def predictBestAlgorithm32 (sort : List Task → List Task) (tasks : List Task) :
    String × List Task :=
  if areAllBurstTimesSame tasks then ("FCFS", tasks)
  else
    let sorted := sort tasks
    if hasOverlappingTimes32 sorted then ("SRTF", sorted) else ("SJF", sorted)

/-- The loop of `printAverageTimes` (lines 87-91) as far as the tasks are
concerned, with `int` arithmetic. -/
def setTurnarounds32 (tasks : List Task) : List Task :=
  tasks.map fun t => { t with turnaround := wrap (t.wait + t.burst) }

/-- The value of the `int` `totalWait` after the loop of
`printAverageTimes`. -/
def totalWait32 (tasks : List Task) : Int :=
  tasks.foldl (fun acc t => wrap (acc + t.wait)) 0

/-- The value of the `int` `totalTurnaround` after the loop of
`printAverageTimes`. -/
def totalTurnaround32 (tasks : List Task) : Int :=
  tasks.foldl (fun acc t => wrap (acc + wrap (t.wait + t.burst))) 0

/-- The tail that the policies share, `printAverageTimes` followed by
`printGanttChart`, with `int` arithmetic. -/
def mkReport32 (tasks : List Task) (executions : List Execution) : Report :=
  { tasks := setTurnarounds32 tasks
    totalWait := totalWait32 tasks
    totalTurnaround := totalTurnaround32 tasks
    executions := executions
    chart := printGanttChart executions }

/-- The loop of `fcfs` (lines 143-150) with `int` arithmetic. -/
def fcfsLoop32 (currentTime : Int) : List Task → List Task × List Execution
  | [] => ([], [])
  | t :: rest =>
    let now := if currentTime < t.arrival then t.arrival else currentTime
    let r := fcfsLoop32 (wrap (now + t.burst)) rest
    ({ t with wait := max 0 (wrap (now - t.arrival)) } :: r.1,
      Execution.mk t.id now (wrap (now + t.burst)) :: r.2)

/-- The function `fcfs` (lines 137-156) with `int` arithmetic and the sort
`sort`. -/
def fcfs32 (sort : List Task → List Task) (tasks : List Task) : Report :=
  let r := fcfsLoop32 0 (sort tasks)
  mkReport32 r.1 r.2

/-- One iteration of the `while` of `sjf` (lines 172-193) with `int`
arithmetic. -/
def sjfBody32 (s : SjfState) : SjfState :=
  match (sjfScan s.currentTime s.tasks s.isTaskCompleted 0 (none, INT_MAX)).1 with
  | none => { s with currentTime := wrap (s.currentTime + 1) }
  | some j =>
    match s.tasks[j]? with
    | none => s
    | some t =>
      let w := max 0 (wrap (s.currentTime - t.arrival))
      { tasks := s.tasks.set j { t with wait := w, turnaround := wrap (w + t.burst) }
        executions := s.executions ++
          [Execution.mk t.id s.currentTime (wrap (s.currentTime + t.burst))]
        currentTime := wrap (s.currentTime + t.burst)
        completedTasks := s.completedTasks + 1
        isTaskCompleted := s.isTaskCompleted.set j true }

/-- The state of `sjf` when its `while` is reached (lines 163-169), with the
sort `sort`. -/
def sjfInit32 (sort : List Task → List Task) (tasks : List Task) : SjfState :=
  { tasks := sort tasks
    executions := []
    currentTime := 0
    completedTasks := 0
    isTaskCompleted := List.replicate tasks.length false }

/-- The function `sjf` (lines 159-199) with `int` arithmetic and the sort
`sort`. -/
def sjf32 (sort : List Task → List Task) (fuel : Nat) (tasks : List Task) : Option Report :=
  (whileLoop sjfCond sjfBody32 fuel (sjfInit32 sort tasks)).map fun s =>
    mkReport32 s.tasks s.executions

/-- One iteration of the `while` of `srtf` (lines 212-245) with `int`
arithmetic. -/
def srtfBody32 (s : SrtfState) : SrtfState :=
  let sel := srtfScan s.currentTime s.tasks 0 (s.shortestRemainingTime, s.shortestIndex, s.check)
  if sel.2.2 = false then
    { s with shortestRemainingTime := sel.1, shortestIndex := sel.2.1, check := sel.2.2
             currentTime := wrap (s.currentTime + 1) }
  else
    match s.tasks[sel.2.1]? with
    | none => s
    | some t =>
      let rem := wrap (t.remaining - 1)
      if rem = 0 then
        let w := max 0 (wrap (wrap (wrap (s.currentTime + 1) - t.arrival) - t.burst))
        { tasks := s.tasks.set sel.2.1
            { t with remaining := rem, wait := w, turnaround := wrap (w + t.burst) }
          executions := s.executions ++
            [Execution.mk t.id s.currentTime (wrap (s.currentTime + 1))]
          currentTime := wrap (s.currentTime + 1)
          completed := s.completed + 1
          shortestIndex := sel.2.1
          shortestRemainingTime := INT_MAX
          check := false }
      else
        { tasks := s.tasks.set sel.2.1 { t with remaining := rem }
          executions := s.executions ++
            [Execution.mk t.id s.currentTime (wrap (s.currentTime + 1))]
          currentTime := wrap (s.currentTime + 1)
          completed := s.completed
          shortestIndex := sel.2.1
          shortestRemainingTime := rem
          check := true }

/-- The function `srtf` (lines 202-251) with `int` arithmetic. -/
def srtf32 (fuel : Nat) (tasks : List Task) : Option Report :=
  (whileLoop srtfCond srtfBody32 fuel (srtfInit tasks)).map fun s =>
    mkReport32 s.tasks s.executions

/-- One iteration of the `while` of `roundRobin` (lines 280-312) with `int`
arithmetic. -/
def rrBody32 (quantum : Int) (s : RRState) : RRState :=
  let adm := rrAdmit s.currentTime s.arrival 0 s.readyQueue
  match adm.2 with
  | [] => { s with arrival := adm.1, readyQueue := [], currentTime := wrap (s.currentTime + 1) }
  | current :: queue =>
    match s.tasks[current]? with
    | none => s
    | some t =>
      let timeSlice := min quantum t.remaining
      let rem := wrap (t.remaining - timeSlice)
      let now := wrap (s.currentTime + timeSlice)
      let adm2 := rrAdmit now adm.1 0 queue
      if rem > 0 then
        { tasks := s.tasks.set current { t with remaining := rem }
          executions := s.executions ++ [Execution.mk t.id s.currentTime now]
          currentTime := now
          readyQueue := adm2.2 ++ [current]
          completed := s.completed
          arrival := adm2.1 }
      else
        { tasks := s.tasks.set current
            { t with remaining := rem, wait := wrap (wrap (now - t.arrival) - t.burst) }
          executions := s.executions ++ [Execution.mk t.id s.currentTime now]
          currentTime := now
          readyQueue := adm2.2
          completed := s.completed + 1
          arrival := adm2.1 }

/-- The function `roundRobin` (lines 263-319) with `int` arithmetic. -/
def roundRobin32 (fuel : Nat) (tasks : List Task) (quantum : Int) : Option Report :=
  (whileLoop rrCond (rrBody32 quantum) fuel (rrInit tasks)).map fun s =>
    mkReport32 s.tasks s.executions

/-! ## Where the two arithmetics agree -/

/-- The states on which the loop of `sjf` computes in `int` what it computes
in the integers: the invariants of the loop hold and the clock is not
negative; `lo` and `hi` are the earliest and the latest arrival. -/
def SjfExact (orig : List Task) (lo hi : Int) (s : SjfState) : Prop :=
  SjfInv orig s ∧ SjfInvB lo hi s ∧ 0 ≤ s.currentTime

/-- The states on which the loop of `srtf` computes in `int` what it computes
in the integers. -/
def SrtfExact (orig : List Task) (lo hi : Int) (s : SrtfState) : Prop :=
  SrtfInv orig s ∧ SrtfInvB lo hi s ∧ 0 ≤ s.currentTime

/-- The states on which the loop of `roundRobin` computes in `int` what it
computes in the integers. -/
def RRExact (quantum : Int) (orig : List Task) (lo hi : Int) (s : RRState) : Prop :=
  RRInv quantum orig s ∧ RRInvB lo hi s ∧ 0 ≤ s.currentTime

/-- Two reports show the same run: the same tasks with the same metrics, the
same execution list and the same chart.  (The totals of `printAverageTimes`
are left aside: a sum of waits can leave the range of `int` where no time of
the run does.) -/
def SameRun (a b : Report) : Prop :=
  a.tasks = b.tasks ∧ a.executions = b.executions ∧ a.chart = b.chart

/-- No time of a run on `tasks` leaves the range of `int`: the latest arrival
plus the sum of all bursts, which no clock value of any policy exceeds, is at
most `INT_MAX`. -/
def InIntRange (tasks : List Task) : Prop := maxArrival tasks + totalBurst tasks ≤ INT_MAX

instance InIntRange_decidable (tasks : List Task) : Decidable (InIntRange tasks) :=
  inferInstanceAs (Decidable (maxArrival tasks + totalBurst tasks ≤ INT_MAX))

/-! ## Invariants of the 32-bit loops -/

/-- The task `t` as `sjf` leaves it when it dispatches it at `currentTime`
(lines 188 and 191), with `int` arithmetic. -/
def sjfFinish32 (currentTime : Int) (t : Task) : Task :=
  { t with wait := max 0 (wrap (currentTime - t.arrival)),
           turnaround := wrap (max 0 (wrap (currentTime - t.arrival)) + t.burst) }

/-- The state after a dispatch of the task `t` at index `j` by `sjf`, with
`int` arithmetic. -/
def sjfDispatch32 (s : SjfState) (j : Nat) (t : Task) : SjfState :=
  { tasks := s.tasks.set j (sjfFinish32 s.currentTime t)
    executions := s.executions ++
      [Execution.mk t.id s.currentTime (wrap (s.currentTime + t.burst))]
    currentTime := wrap (s.currentTime + t.burst)
    completedTasks := s.completedTasks + 1
    isTaskCompleted := s.isTaskCompleted.set j true }

/-- What holds in every state of the loop of `sjf` whatever the clock does:
the task list holds the records of the list `orig` the loop started from, in
the same order, and every interval recorded carries the id of a task that had
arrived by its start. -/
def SjfInv32 (orig : List Task) (s : SjfState) : Prop :=
  s.tasks.map Task.record = orig.map Task.record ∧
  ∀ e ∈ s.executions, ∃ (i : Nat) (t : Task), s.tasks[i]? = some t ∧ e.id = t.id ∧
    t.arrival ≤ e.start

/-- The state after `srtf` has run the task `t` at index `j` for one unit
(lines 228-245), with `int` arithmetic. -/
def srtfRun32 (s : SrtfState) (j : Nat) (t : Task) : SrtfState :=
  if wrap (t.remaining - 1) = 0 then
    { tasks := s.tasks.set j
        { t with remaining := wrap (t.remaining - 1),
                 wait := max 0 (wrap (wrap (wrap (s.currentTime + 1) - t.arrival) - t.burst)),
                 turnaround :=
                   wrap (max 0 (wrap (wrap (wrap (s.currentTime + 1) - t.arrival) - t.burst))
                     + t.burst) }
      executions := s.executions ++
        [Execution.mk t.id s.currentTime (wrap (s.currentTime + 1))]
      currentTime := wrap (s.currentTime + 1)
      completed := s.completed + 1
      shortestIndex := j
      shortestRemainingTime := INT_MAX
      check := false }
  else
    { tasks := s.tasks.set j { t with remaining := wrap (t.remaining - 1) }
      executions := s.executions ++
        [Execution.mk t.id s.currentTime (wrap (s.currentTime + 1))]
      currentTime := wrap (s.currentTime + 1)
      completed := s.completed
      shortestIndex := j
      shortestRemainingTime := wrap (t.remaining - 1)
      check := true }

/-- What holds in every state of the loop of `srtf` in `int`, whatever the
clock does, when every burst is below `INT_MAX`: the clock is an `int`; every
remaining time lies between 0 and the burst; `completed` counts the finished
tasks; and when `check` is set, the task at `shortestIndex` is unfinished, its
remaining time is `shortestRemainingTime`, and it has arrived unless the clock
has become negative, in which case the clock stays negative until the task is
finished. -/
structure SrtfInv32 (s : SrtfState) : Prop where
  pre : ∀ (i : Nat) (t : Task), s.tasks[i]? = some t →
    0 ≤ t.arrival ∧ 0 < t.burst ∧ t.burst < INT_MAX
  rem : ∀ (i : Nat) (t : Task), s.tasks[i]? = some t → 0 ≤ t.remaining ∧ t.remaining ≤ t.burst
  clock : INT_MIN ≤ s.currentTime ∧ s.currentTime ≤ INT_MAX
  count : (s.completed : Int)
    = (s.tasks.map fun t => if t.remaining = 0 then (1 : Int) else 0).sum
  chk : s.check = true → ∃ t, s.tasks[s.shortestIndex]? = some t ∧
    t.remaining = s.shortestRemainingTime ∧ 0 < t.remaining ∧
    (t.arrival ≤ s.currentTime ∨ (s.currentTime < 0 ∧ s.currentTime + t.remaining ≤ 0))
  nochk : s.check = false → s.shortestRemainingTime = INT_MAX

/-- The state after an iteration of `roundRobin` in `int` that takes
`current` from the head of the queue, `rest` being the queue behind it and
`t` the task. -/
def rrDispatch32 (quantum : Int) (s : RRState) (current : Nat) (rest : List Nat) (t : Task) :
    RRState :=
  if wrap (t.remaining - min quantum t.remaining) > 0 then
    { tasks := s.tasks.set current
        { t with remaining := wrap (t.remaining - min quantum t.remaining) }
      executions := s.executions ++
        [Execution.mk t.id s.currentTime (wrap (s.currentTime + min quantum t.remaining))]
      currentTime := wrap (s.currentTime + min quantum t.remaining)
      readyQueue := (rest ++ rrAdmitted (wrap (s.currentTime + min quantum t.remaining))
        (rrMark s.currentTime s.arrival) 0) ++ [current]
      completed := s.completed
      arrival := rrMark (wrap (s.currentTime + min quantum t.remaining))
        (rrMark s.currentTime s.arrival) }
  else
    { tasks := s.tasks.set current
        { t with remaining := wrap (t.remaining - min quantum t.remaining),
                 wait := wrap (wrap (wrap (s.currentTime + min quantum t.remaining)
                   - t.arrival) - t.burst) }
      executions := s.executions ++
        [Execution.mk t.id s.currentTime (wrap (s.currentTime + min quantum t.remaining))]
      currentTime := wrap (s.currentTime + min quantum t.remaining)
      readyQueue := rest ++ rrAdmitted (wrap (s.currentTime + min quantum t.remaining))
        (rrMark s.currentTime s.arrival) 0
      completed := s.completed + 1
      arrival := rrMark (wrap (s.currentTime + min quantum t.remaining))
        (rrMark s.currentTime s.arrival) }

/-- What holds in every state of the loop of `roundRobin` whatever the clock
does: the array `arrival` has an entry for every task, which is the task's
arrival time or the mark `-1`; the tasks in the queue are marked; no task is
in the queue twice; and the task list holds the records of the list `orig`
the loop started from, in the same order. -/
structure RRInv32 (orig : List Task) (s : RRState) : Prop where
  alen : s.arrival.length = s.tasks.length
  mark : ∀ (i : Nat) (t : Task) (a : Int), s.tasks[i]? = some t → s.arrival[i]? = some a →
    a = t.arrival ∨ a = -1
  qmark : ∀ i ∈ s.readyQueue, s.arrival[i]? = some (-1)
  qnodup : s.readyQueue.Nodup
  keys : s.tasks.map Task.record = orig.map Task.record

/-! ## Generic facts about `whileLoop` -/

/-- An invariant of the body holds when the loop ends, and the condition is
false then. -/
theorem whileLoop_inv {σ : Type} (cond : σ → Bool) (body : σ → σ) (Inv : σ → Prop)
    (hstep : ∀ s, Inv s → cond s = true → Inv (body s)) :
    ∀ (fuel : Nat) (s s' : σ), Inv s → whileLoop cond body fuel s = some s' →
      Inv s' ∧ cond s' = false := by
  intro fuel
  induction fuel with
  | zero =>
    intro s s' hs h
    unfold whileLoop at h
    by_cases hc : cond s = true
    · simp [hc] at h
    · simp only [hc] at h
      simp only [Bool.false_eq_true, if_false, Option.some.injEq] at h
      subst h
      exact ⟨hs, by simpa using hc⟩
  | succ n ih =>
    intro s s' hs h
    unfold whileLoop at h
    by_cases hc : cond s = true
    · simp only [hc, if_true] at h
      exact ih _ _ (hstep s hs hc) h
    · simp only [hc] at h
      simp only [Bool.false_eq_true, if_false, Option.some.injEq] at h
      subst h
      exact ⟨hs, by simpa using hc⟩

/-- More fuel does not change a result. -/
theorem whileLoop_mono {σ : Type} (cond : σ → Bool) (body : σ → σ) :
    ∀ (fuel : Nat) (s s' : σ), whileLoop cond body fuel s = some s' →
      ∀ fuel', fuel ≤ fuel' → whileLoop cond body fuel' s = some s' := by
  intro fuel
  induction fuel with
  | zero =>
    intro s s' h fuel' _
    unfold whileLoop at h
    by_cases hc : cond s = true
    · simp [hc] at h
    · cases fuel' <;> (unfold whileLoop; simpa [hc] using h)
  | succ n ih =>
    intro s s' h fuel' hle
    unfold whileLoop at h
    by_cases hc : cond s = true
    · simp only [hc, if_true] at h
      obtain ⟨m, rfl⟩ : ∃ m, fuel' = m + 1 := ⟨fuel' - 1, by omega⟩
      unfold whileLoop
      simp only [hc, if_true]
      exact ih _ _ h m (by omega)
    · cases fuel' <;> (unfold whileLoop; simpa [hc] using h)

/-- The result of a loop does not depend on the fuel. -/
theorem whileLoop_det {σ : Type} (cond : σ → Bool) (body : σ → σ) (f₁ f₂ : Nat) (s a b : σ)
    (h₁ : whileLoop cond body f₁ s = some a) (h₂ : whileLoop cond body f₂ s = some b) :
    a = b := by
  have e₁ := whileLoop_mono cond body f₁ s a h₁ (max f₁ f₂) (le_max_left _ _)
  have e₂ := whileLoop_mono cond body f₂ s b h₂ (max f₁ f₂) (le_max_right _ _)
  rw [e₁] at e₂
  exact Option.some.inj e₂

/-- A loop whose body decreases a measure, on the states of an invariant,
ends within that many iterations. -/
theorem whileLoop_terminates {σ : Type} (cond : σ → Bool) (body : σ → σ) (Inv : σ → Prop)
    (μ : σ → Nat) (hstep : ∀ s, Inv s → cond s = true → Inv (body s))
    (hdec : ∀ s, Inv s → cond s = true → μ (body s) < μ s) :
    ∀ (fuel : Nat) (s : σ), Inv s → μ s ≤ fuel → ∃ s', whileLoop cond body fuel s = some s' := by
  intro fuel
  induction fuel with
  | zero =>
    intro s hs hμ
    by_cases hc : cond s = true
    · have := hdec s hs hc
      omega
    · exact ⟨s, by unfold whileLoop; simp [hc]⟩
  | succ n ih =>
    intro s hs hμ
    by_cases hc : cond s = true
    · have hd := hdec s hs hc
      obtain ⟨s', h'⟩ := ih (body s) (hstep s hs hc) (by omega)
      exact ⟨s', by unfold whileLoop; simpa [hc] using h'⟩
    · exact ⟨s, by unfold whileLoop; simp [hc]⟩

/-! ## Sorting -/

theorem sortByArrival_perm (tasks : List Task) : (sortByArrival tasks).Perm tasks :=
  List.perm_insertionSort arrivalLE tasks

theorem sortByArrival_sorted (tasks : List Task) : (sortByArrival tasks).Sorted arrivalLE :=
  List.sorted_insertionSort arrivalLE tasks

theorem sortByArrival_length (tasks : List Task) : (sortByArrival tasks).length = tasks.length :=
  (sortByArrival_perm tasks).length_eq

theorem mem_sortByArrival {t : Task} {tasks : List Task} :
    t ∈ sortByArrival tasks ↔ t ∈ tasks :=
  (sortByArrival_perm tasks).mem_iff

/-! ## List facts used by the invariants -/

theorem sum_map_set {α : Type} (f : α → Int) :
    ∀ (l : List α) (j : Nat) (a a' : α), l[j]? = some a →
      ((l.set j a').map f).sum = (l.map f).sum - f a + f a' := by
  intro l
  induction l with
  | nil => intro j a a' h; simp at h
  | cons x rest ih =>
    intro j a a' h
    cases j with
    | zero =>
      simp only [List.getElem?_cons_zero, Option.some.injEq] at h
      subst h
      simp only [List.set_cons_zero, List.map_cons, List.sum_cons]
      omega
    | succ k =>
      simp only [List.getElem?_cons_succ] at h
      simp only [List.set_cons_succ, List.map_cons, List.sum_cons]
      rw [ih k a a' h]
      omega

theorem zip_set {α β : Type} :
    ∀ (l₁ : List α) (l₂ : List β) (j : Nat) (a : α) (b : β),
      (l₁.set j a).zip (l₂.set j b) = (l₁.zip l₂).set j (a, b) := by
  intro l₁
  induction l₁ with
  | nil => intro l₂ j a b; simp
  | cons x xs ih =>
    intro l₂ j a b
    cases l₂ with
    | nil => simp
    | cons y ys =>
      cases j with
      | zero => simp
      | succ k => simp [ih]

theorem getElem?_zip {α β : Type} :
    ∀ (l₁ : List α) (l₂ : List β) (j : Nat) (a : α) (b : β),
      l₁[j]? = some a → l₂[j]? = some b → (l₁.zip l₂)[j]? = some (a, b) := by
  intro l₁
  induction l₁ with
  | nil => intro l₂ j a b h; simp at h
  | cons x xs ih =>
    intro l₂ j a b h₁ h₂
    cases l₂ with
    | nil => simp at h₂
    | cons y ys =>
      cases j with
      | zero =>
        simp only [List.getElem?_cons_zero, Option.some.injEq] at h₁ h₂
        simp [h₁, h₂]
      | succ k =>
        simp only [List.getElem?_cons_succ] at h₁ h₂
        simpa using ih ys k a b h₁ h₂

theorem lastEnd_append (id : Int) (l : List Execution) (e : Execution) :
    lastEnd id (l ++ [e]) = if e.id = id then some e.end_ else lastEnd id l := by
  unfold lastEnd
  by_cases h : e.id = id
  · simp [List.filter_append, h]
  · simp [List.filter_append, h]

theorem intervalCount_append (id : Int) (l : List Execution) (e : Execution) :
    intervalCount id (l ++ [e]) = intervalCount id l + if e.id = id then 1 else 0 := by
  unfold intervalCount
  by_cases h : e.id = id
  · simp [List.filter_append, h]
  · simp [List.filter_append, h]

theorem busyTime_append (l : List Execution) (e : Execution) :
    busyTime (l ++ [e]) = busyTime l + (e.end_ - e.start) := by
  simp [busyTime]

theorem makespan_append (l : List Execution) (e : Execution) :
    makespan (l ++ [e]) = e.end_ := by
  simp [makespan]

theorem chain_push (R : Execution → Execution → Prop) (l : List Execution) (e : Execution)
    (hl : l.Chain' R) (hlast : ∀ x ∈ l, R x e) : (l ++ [e]).Chain' R := by
  rw [List.chain'_append]
  refine ⟨hl, List.chain'_singleton e, ?_⟩
  intro x hx y hy
  simp only [List.head?_cons, Option.mem_def, Option.some.injEq] at hy
  subst hy
  exact hlast x (List.mem_of_mem_getLast? hx)

theorem arrival_le_maxArrival (tasks : List Task) : ∀ t ∈ tasks, t.arrival ≤ maxArrival tasks := by
  induction tasks with
  | nil => intro t ht; cases ht
  | cons x rest ih =>
    intro t ht
    have hm : maxArrival (x :: rest) = max x.arrival (maxArrival rest) := rfl
    rw [hm]
    rcases List.mem_cons.mp ht with rfl | h
    · exact le_max_left _ _
    · exact le_trans (ih t h) (le_max_right _ _)

theorem maxArrival_nonneg (tasks : List Task) : 0 ≤ maxArrival tasks := by
  induction tasks with
  | nil => exact le_refl _
  | cons x rest ih =>
    have hm : maxArrival (x :: rest) = max x.arrival (maxArrival rest) := rfl
    rw [hm]
    exact le_trans ih (le_max_right _ _)

theorem maxArrival_congr (l₁ l₂ : List Task)
    (h : l₁.map Task.record = l₂.map Task.record) : maxArrival l₁ = maxArrival l₂ := by
  have e : ∀ l : List Task, (l.map fun t => t.arrival) = (l.map Task.record).map fun r => r.arrival := by
    intro l; simp [Task.record]
  unfold maxArrival
  rw [e l₁, e l₂, h]

theorem totalBurst_congr (l₁ l₂ : List Task)
    (h : l₁.map Task.record = l₂.map Task.record) : totalBurst l₁ = totalBurst l₂ := by
  have e : ∀ l : List Task, (l.map fun t => t.burst) = (l.map Task.record).map fun r => r.burst := by
    intro l; simp [Task.record]
  unfold totalBurst
  rw [e l₁, e l₂, h]

/-! ## C1: the quantum estimator -/

theorem quantumIndex_lt {n : Nat} (h : 0 < n) : quantumIndex n < n := by
  unfold quantumIndex
  omega

theorem quantumIndex_eq_floor (n : Nat) : quantumIndex n = ⌊(0.8 : ℚ) * n⌋₊ := by
  have h : (0.8 : ℚ) * n = ((n * 4 : ℕ) : ℚ) / ((5 : ℕ) : ℚ) := by
    push_cast
    ring
  rw [h, Nat.floor_div_eq_div]
  rfl

/-- C1. For a non-empty list of bursts of length `n`, the index
`floor(0.8 * n)` is below `n`, and `calculateQuantum` returns the element at
that index of the list sorted ascending (of any ascending permutation of the
bursts); a one-element list gives its element and `[4,4,4,4,20]` gives 20. -/
theorem calculateQuantum_percentile (bursts : List Int) (h : bursts ≠ []) :
    quantumIndex bursts.length = ⌊(0.8 : ℚ) * bursts.length⌋₊ ∧
    quantumIndex bursts.length < bursts.length ∧
    (∀ sorted : List Int, sorted.Perm bursts → sorted.Sorted (· ≤ ·) →
      ∃ hlt : quantumIndex bursts.length < sorted.length,
        calculateQuantum bursts = some (sorted.get ⟨quantumIndex bursts.length, hlt⟩)) ∧
    (∀ x : Int, calculateQuantum [x] = some x) ∧
    calculateQuantum [4, 4, 4, 4, 20] = some 20 := by
  have hlen : 0 < bursts.length := List.length_pos.mpr h
  refine ⟨quantumIndex_eq_floor _, quantumIndex_lt hlen, ?_, ?_, ?_⟩
  · intro sorted hperm hsorted
    have heq : bursts.insertionSort (· ≤ ·) = sorted :=
      List.eq_of_perm_of_sorted ((List.perm_insertionSort _ bursts).trans hperm.symm)
        (List.sorted_insertionSort _ bursts) hsorted
    have hlt : quantumIndex bursts.length < sorted.length := by
      rw [hperm.length_eq]
      exact quantumIndex_lt hlen
    refine ⟨hlt, ?_⟩
    unfold calculateQuantum
    rw [heq, List.getElem?_eq_getElem hlt]
    rfl
  · intro x
    simp [calculateQuantum, quantumIndex]
  · decide

theorem calculateQuantum_percentile_witness :
    ([3, 9, 1] : List Int) ≠ [] ∧ calculateQuantum [3, 9, 1] = some 9 := by
  refine ⟨by decide, ?_⟩
  obtain ⟨_, _, h, _⟩ := calculateQuantum_percentile [3, 9, 1] (by decide)
  obtain ⟨_, h'⟩ := h [1, 3, 9] (by decide) (by decide)
  exact h'

/-! ## C2: the predictor -/

theorem areAllBurstTimesSame_iff (tasks : List Task) :
    areAllBurstTimesSame tasks = true ↔ ∀ t ∈ tasks, ∀ u ∈ tasks, t.burst = u.burst := by
  cases tasks with
  | nil => simp [areAllBurstTimesSame]
  | cons t0 rest =>
    unfold areAllBurstTimesSame
    rw [List.all_eq_true]
    constructor
    · intro h t ht u hu
      have h1 := h t ht
      have h2 := h u hu
      simp only [decide_eq_true_eq] at h1 h2
      rw [h1, h2]
    · intro h t ht
      simp only [decide_eq_true_eq]
      exact h t ht t0 (List.mem_cons_self _ _)

theorem hasOverlappingTimes_iff (l : List Task) :
    hasOverlappingTimes l = true ↔
      ∃ pre a b post, l = pre ++ a :: b :: post ∧ a.arrival + a.burst > b.arrival := by
  induction l with
  | nil =>
    simp [hasOverlappingTimes]
  | cons x rest ih =>
    cases rest with
    | nil =>
      simp only [hasOverlappingTimes, Bool.false_eq_true, false_iff]
      rintro ⟨pre, a, b, post, h, -⟩
      have := congrArg List.length h
      simp at this
      omega
    | cons y rest' =>
      unfold hasOverlappingTimes
      by_cases hxy : x.arrival + x.burst > y.arrival
      · simp only [hxy, if_true, true_iff]
        exact ⟨[], x, y, rest', rfl, hxy⟩
      · simp only [hxy, if_false]
        rw [ih]
        constructor
        · rintro ⟨pre, a, b, post, h, hab⟩
          exact ⟨x :: pre, a, b, post, by rw [h]; rfl, hab⟩
        · rintro ⟨pre, a, b, post, h, hab⟩
          cases pre with
          | nil =>
            simp only [List.nil_append, List.cons.injEq] at h
            obtain ⟨rfl, rfl, rfl⟩ := h
            exact absurd hab hxy
          | cons p pre' =>
            simp only [List.cons_append, List.cons.injEq] at h
            exact ⟨pre', a, b, post, h.2, hab⟩

/-! ## C8: what the policies receive in `main` -/

/-- C8 (failing input). For the input file `1 2 2 / 2 2 1 / 3 3 0` the bursts
differ, so `predictBestAlgorithm` sorts the caller's list, and `main` hands
`[(3,3,0),(2,2,1),(1,2,2)]` to the policies.  `srtf` and `roundRobin` (quantum
3) then run task 2 before task 1, while on the list in its original order
they run task 1 before task 2; task 1 waits 3 instead of 1 and task 2 waits 2
instead of 4. -/
theorem main_policies_see_sorted_list :
    (predictBestAlgorithm (loadTasks [⟨1, 2, 2⟩, ⟨2, 2, 1⟩, ⟨3, 3, 0⟩])).2
      = loadTasks [⟨3, 3, 0⟩, ⟨2, 2, 1⟩, ⟨1, 2, 2⟩] ∧
    (((main 20 [⟨1, 2, 2⟩, ⟨2, 2, 1⟩, ⟨3, 3, 0⟩]).bind MainResult.output).map
      fun o => (o.quantum, o.srtf.chart, o.roundRobin.executions))
      = some (3, [⟨3, 0, 3⟩, ⟨2, 3, 5⟩, ⟨1, 5, 7⟩], [⟨3, 0, 3⟩, ⟨2, 3, 5⟩, ⟨1, 5, 7⟩]) ∧
    ((srtf 20 (loadTasks [⟨1, 2, 2⟩, ⟨2, 2, 1⟩, ⟨3, 3, 0⟩])).map fun r => r.chart)
      = some [⟨3, 0, 3⟩, ⟨1, 3, 5⟩, ⟨2, 5, 7⟩] ∧
    ((roundRobin 20 (loadTasks [⟨1, 2, 2⟩, ⟨2, 2, 1⟩, ⟨3, 3, 0⟩]) 3).map fun r => r.executions)
      = some [⟨3, 0, 3⟩, ⟨1, 3, 5⟩, ⟨2, 5, 7⟩] ∧
    (((main 20 [⟨1, 2, 2⟩, ⟨2, 2, 1⟩, ⟨3, 3, 0⟩]).bind MainResult.output).map
      fun o => o.srtf.tasks.map fun t => (t.id, t.wait)) = some [(3, 0), (2, 2), (1, 3)] ∧
    ((srtf 20 (loadTasks [⟨1, 2, 2⟩, ⟨2, 2, 1⟩, ⟨3, 3, 0⟩])).map
      fun r => r.tasks.map fun t => (t.id, t.wait)) = some [(1, 1), (2, 4), (3, 0)] := by
  decide

/-! ## C9: no validation when loading -/

theorem loadTasks_records (recs : List Record) :
    (loadTasks recs).map Task.record = recs := by
  induction recs with
  | nil => rfl
  | cons r rest ih =>
    have : loadTasks (r :: rest) = Task.new r.id r.burst r.arrival :: loadTasks rest := rfl
    rw [this, List.map_cons, ih]
    rfl

theorem fcfsLoop_interval_of_mem (l : List Task) :
    ∀ (currentTime : Int) (t : Task), t ∈ l →
      ∃ e ∈ (fcfsLoop currentTime l).2, e.id = t.id ∧ e.end_ = e.start + t.burst := by
  induction l with
  | nil => intro _ t ht; cases ht
  | cons x rest ih =>
    intro ct t ht
    rcases List.mem_cons.mp ht with rfl | hmem
    · exact ⟨_, List.mem_cons_self _ _, rfl, rfl⟩
    · obtain ⟨e, he, h1, h2⟩ := ih _ t hmem
      exact ⟨e, List.mem_cons_of_mem _ he, h1, h2⟩

/-! ## SJF: the selection loop and the shape of one iteration -/

/-- What the selection loop of `sjf` computes: either nothing beats the
accumulator, or the first task of least burst among the eligible ones. -/
theorem sjfScan_spec (ct : Int) :
    ∀ (ts : List Task) (cs : List Bool) (i : Nat) (idx : Option Nat) (best : Int),
      (sjfScan ct ts cs i (idx, best) = (idx, best) ∧
        ∀ (k : Nat) (t : Task), ts[k]? = some t → cs[k]? = some false → t.arrival ≤ ct → best ≤ t.burst) ∨
      (∃ k t, sjfScan ct ts cs i (idx, best) = (some (i + k), t.burst) ∧
        ts[k]? = some t ∧ cs[k]? = some false ∧ t.arrival ≤ ct ∧ t.burst < best ∧
        ∀ (k' : Nat) (t' : Task), ts[k']? = some t' → cs[k']? = some false → t'.arrival ≤ ct →
          t.burst ≤ t'.burst ∧ (k' < k → t.burst < t'.burst)) := by
  intro ts
  induction ts with
  | nil =>
    intro cs i idx best
    left
    refine ⟨by simp [sjfScan], ?_⟩
    intro k t h
    simp at h
  | cons x xs ih =>
    intro cs i idx best
    cases cs with
    | nil =>
      left
      refine ⟨by simp [sjfScan], ?_⟩
      intro k t _ h
      simp at h
    | cons c cs' =>
      by_cases hsel : x.arrival ≤ ct ∧ c = false ∧ x.burst < best
      · have hstep : sjfScan ct (x :: xs) (c :: cs') i (idx, best)
            = sjfScan ct xs cs' (i + 1) (some i, x.burst) := by
          simp only [sjfScan]
          rw [if_pos hsel]
        rcases ih cs' (i + 1) (some i) x.burst with ⟨heq, hall⟩ | ⟨k, t, heq, h1, h2, h3, h4, h5⟩
        · right
          refine ⟨0, x, by rw [hstep, heq]; rfl, by simp, by simp [hsel.2.1], hsel.1, hsel.2.2, ?_⟩
          intro k' t' h1' h2' h3'
          cases k' with
          | zero =>
            simp only [List.getElem?_cons_zero, Option.some.injEq] at h1'
            subst h1'
            exact ⟨le_refl _, fun h => absurd h (lt_irrefl _)⟩
          | succ n =>
            simp only [List.getElem?_cons_succ] at h1' h2'
            exact ⟨hall n t' h1' h2' h3', fun h => absurd h (Nat.not_lt_zero _)⟩
        · right
          refine ⟨k + 1, t, by rw [hstep, heq]; congr 2; omega, by simpa using h1,
            by simpa using h2, h3, lt_trans h4 hsel.2.2, ?_⟩
          intro k' t' h1' h2' h3'
          cases k' with
          | zero =>
            simp only [List.getElem?_cons_zero, Option.some.injEq] at h1'
            subst h1'
            exact ⟨le_of_lt h4, fun _ => h4⟩
          | succ n =>
            simp only [List.getElem?_cons_succ] at h1' h2'
            obtain ⟨ha, hb⟩ := h5 n t' h1' h2' h3'
            exact ⟨ha, fun h => hb (by omega)⟩
      · have hstep : sjfScan ct (x :: xs) (c :: cs') i (idx, best)
            = sjfScan ct xs cs' (i + 1) (idx, best) := by
          simp only [sjfScan]
          rw [if_neg hsel]
        have hhead : x.arrival ≤ ct → c = false → best ≤ x.burst := by
          intro ha hc
          by_contra hlt
          exact hsel ⟨ha, hc, lt_of_not_le hlt⟩
        rcases ih cs' (i + 1) idx best with ⟨heq, hall⟩ | ⟨k, t, heq, h1, h2, h3, h4, h5⟩
        · left
          refine ⟨by rw [hstep, heq], ?_⟩
          intro k' t' h1' h2' h3'
          cases k' with
          | zero =>
            simp only [List.getElem?_cons_zero, Option.some.injEq] at h1' h2'
            subst h1'
            exact hhead h3' h2'
          | succ n =>
            simp only [List.getElem?_cons_succ] at h1' h2'
            exact hall n t' h1' h2' h3'
        · right
          refine ⟨k + 1, t, by rw [hstep, heq]; congr 2; omega, by simpa using h1,
            by simpa using h2, h3, h4, ?_⟩
          intro k' t' h1' h2' h3'
          cases k' with
          | zero =>
            simp only [List.getElem?_cons_zero, Option.some.injEq] at h1' h2'
            subst h1'
            have := hhead h3' h2'
            exact ⟨by omega, fun _ => by omega⟩
          | succ n =>
            simp only [List.getElem?_cons_succ] at h1' h2'
            obtain ⟨ha, hb⟩ := h5 n t' h1' h2' h3'
            exact ⟨ha, fun h => hb (by omega)⟩

/-- One iteration of `sjf` either idles, no arrived and uncompleted task
having a burst below `INT_MAX`, or dispatches the first task of least burst
among the arrived and uncompleted ones. -/
theorem sjfBody_cases (s : SjfState) :
    (sjfBody s = { s with currentTime := s.currentTime + 1 } ∧
      ∀ (k : Nat) (t : Task), s.tasks[k]? = some t → s.isTaskCompleted[k]? = some false →
        t.arrival ≤ s.currentTime → INT_MAX ≤ t.burst) ∨
    (∃ j t, sjfBody s = sjfDispatch s j t ∧
      s.tasks[j]? = some t ∧ s.isTaskCompleted[j]? = some false ∧
      t.arrival ≤ s.currentTime ∧ t.burst < INT_MAX ∧
      ∀ (k' : Nat) (t' : Task), s.tasks[k']? = some t' → s.isTaskCompleted[k']? = some false →
        t'.arrival ≤ s.currentTime → t.burst ≤ t'.burst ∧ (k' < j → t.burst < t'.burst)) := by
  rcases sjfScan_spec s.currentTime s.tasks s.isTaskCompleted 0 none INT_MAX with
    ⟨heq, hall⟩ | ⟨k, t, heq, h1, h2, h3, h4, h5⟩
  · left
    refine ⟨?_, hall⟩
    unfold sjfBody
    rw [heq]
  · right
    refine ⟨k, t, ?_, h1, h2, h3, h4, h5⟩
    unfold sjfBody
    rw [heq]
    simp only [Nat.zero_add, h1]
    rfl
theorem getElem?_set_hit {α : Type} {l : List α} {j : Nat} {a : α} (a' : α)
    (h : l[j]? = some a) : (l.set j a')[j]? = some a' := by
  obtain ⟨hj, -⟩ := List.getElem?_eq_some.mp h
  rw [List.getElem?_set]
  simp [hj]

theorem getElem?_set_miss {α : Type} {l : List α} {i j : Nat} (a' : α) (h : i ≠ j) :
    (l.set j a')[i]? = l[i]? :=
  List.getElem?_set_ne (Ne.symm h)

theorem map_set_same {α β : Type} (f : α → β) :
    ∀ (l : List α) (j : Nat) (a a' : α), l[j]? = some a → f a' = f a →
      (l.set j a').map f = l.map f := by
  intro l
  induction l with
  | nil => intro j a a' h; simp at h
  | cons x rest ih =>
    intro j a a' h hf
    cases j with
    | zero =>
      simp only [List.getElem?_cons_zero, Option.some.injEq] at h
      subst h
      simp [hf]
    | succ k =>
      simp only [List.getElem?_cons_succ] at h
      simp only [List.set_cons_succ, List.map_cons]
      rw [ih k a a' h hf]

theorem ids_ne_of_nodup {l : List Task} (hnd : (l.map fun t => t.id).Nodup) {i j : Nat}
    {t u : Task} (hi : l[i]? = some t) (hj : l[j]? = some u) (hij : i ≠ j) : t.id ≠ u.id := by
  intro heq
  obtain ⟨hil, hit⟩ := List.getElem?_eq_some.mp hi
  obtain ⟨hjl, hjt⟩ := List.getElem?_eq_some.mp hj
  have hil' : i < (l.map fun t => t.id).length := by simpa using hil
  have hjl' : j < (l.map fun t => t.id).length := by simpa using hjl
  have : (l.map fun t => t.id)[i] = (l.map fun t => t.id)[j] := by
    simp only [List.getElem_map, hit, hjt, heq]
  exact hij ((hnd.getElem_inj_iff).mp this)

@[simp] theorem sjfFinish_burst (ct : Int) (t : Task) : (sjfFinish ct t).burst = t.burst := rfl

@[simp] theorem sjfFinish_arrival (ct : Int) (t : Task) :
    (sjfFinish ct t).arrival = t.arrival := rfl

theorem sjfInv_step (orig : List Task) (s : SjfState) (h : SjfInv orig s) :
    SjfInv orig (sjfBody s) := by
  rcases sjfBody_cases s with ⟨heq, -⟩ | ⟨j, t, heq, h1, h2, h3, h4, -⟩
  · rw [heq]
    exact
      { len := h.len, keys := h.keys, pre := h.pre, count := h.count
        ends := fun e he => le_trans (h.ends e he) (by simp)
        chain := h.chain, ran := h.ran, last := h.last, busy := h.busy, lens := h.lens }
  · rw [heq]
    obtain ⟨hta, htb⟩ := h.pre j t h1
    have hw : max 0 (s.currentTime - t.arrival) = s.currentTime - t.arrival :=
      max_eq_right (by omega)
    refine
      { len := ?_, keys := ?_, pre := ?_, count := ?_, ends := ?_, chain := ?_, ran := ?_
        last := ?_, busy := ?_, lens := ?_ }
    · simp [sjfDispatch, h.len]
    · show List.map Task.record (s.tasks.set j (sjfFinish s.currentTime t)) = _
      exact (map_set_same Task.record s.tasks j t (sjfFinish s.currentTime t) h1 rfl).trans h.keys
    · intro i u hu
      simp only [sjfDispatch] at hu
      by_cases hij : i = j
      · subst hij
        rw [getElem?_set_hit _ h1] at hu
        cases hu
        exact ⟨hta, htb⟩
      · rw [getElem?_set_miss _ hij] at hu
        exact h.pre i u hu
    · simp only [sjfDispatch]
      rw [sum_map_set _ _ j false true h2]
      have := h.count
      push_cast
      simp only [Bool.false_eq_true, if_false, if_true]
      omega
    · intro e he
      simp only [sjfDispatch, List.mem_append, List.mem_singleton] at he ⊢
      rcases he with he | rfl
      · have := h.ends e he
        omega
      · exact le_refl _
    · simp only [sjfDispatch]
      exact chain_push _ _ _ h.chain (fun x hx => h.ends x hx)
    · intro i u hu hd
      simp only [sjfDispatch] at hu hd ⊢
      by_cases hij : i = j
      · subst hij
        rw [getElem?_set_hit _ h1] at hu
        cases hu
        refine ⟨h4, ?_, ?_⟩
        · exact le_max_left _ _
        · simp only [sjfFinish, hw, List.mem_append, List.mem_singleton]
          right
          congr 1 <;> omega
      · rw [getElem?_set_miss _ hij] at hu hd
        obtain ⟨a, b, c⟩ := h.ran i u hu hd
        exact ⟨a, b, List.mem_append_left _ c⟩
    · intro hnd i u hu hd
      simp only [sjfDispatch] at hnd hu hd ⊢
      have hids : (s.tasks.set j (sjfFinish s.currentTime t)).map (fun t => t.id)
          = s.tasks.map fun t => t.id := map_set_same _ s.tasks j t _ h1 rfl
      rw [hids] at hnd
      rw [lastEnd_append]
      by_cases hij : i = j
      · subst hij
        rw [getElem?_set_hit _ h1] at hu
        cases hu
        simp only [sjfFinish, if_true, hw]
        congr 1
        omega
      · rw [getElem?_set_miss _ hij] at hu hd
        have hne : t.id ≠ u.id := ids_ne_of_nodup hnd h1 hu (Ne.symm hij)
        rw [if_neg hne]
        exact h.last hnd i u hu hd
    · simp only [sjfDispatch]
      rw [busyTime_append, zip_set, sum_map_set _ _ j (t, false) _ (getElem?_zip _ _ _ _ _ h1 h2)]
      have := h.busy
      simp only [Bool.false_eq_true, if_false, if_true, sjfFinish_burst]
      omega
    · intro e he
      simp only [sjfDispatch, List.mem_append, List.mem_singleton] at he ⊢
      rcases he with he | rfl
      · obtain ⟨i, u, hu, a, b, c⟩ := h.lens e he
        by_cases hij : i = j
        · subst hij
          rw [h1] at hu
          cases hu
          exact ⟨i, _, getElem?_set_hit _ h1, a, b, c⟩
        · exact ⟨i, u, by rw [getElem?_set_miss _ hij]; exact hu, a, b, c⟩
      · exact ⟨j, _, getElem?_set_hit _ h1, rfl, by simp, h3⟩

/-! ## SJF: the invariant with every burst below `INT_MAX`, and termination -/

theorem flags_sum_le (l : List Bool) :
    (l.map fun c => if c = true then (1 : Int) else 0).sum ≤ l.length := by
  induction l with
  | nil => simp
  | cons c rest ih =>
    simp only [List.map_cons, List.sum_cons, List.length_cons]
    push_cast
    split <;> omega

theorem exists_false_of_flags_sum_lt (l : List Bool)
    (h : (l.map fun c => if c = true then (1 : Int) else 0).sum < l.length) :
    ∃ k : Nat, l[k]? = some false := by
  induction l with
  | nil => simp at h
  | cons c rest ih =>
    cases c with
    | false => exact ⟨0, by simp⟩
    | true =>
      simp only [List.map_cons, List.sum_cons, List.length_cons, if_true] at h
      push_cast at h
      obtain ⟨k, hk⟩ := ih (by omega)
      exact ⟨k + 1, by simpa using hk⟩

theorem all_true_of_flags_sum_ge (l : List Bool)
    (h : (l.length : Int) ≤ (l.map fun c => if c = true then (1 : Int) else 0).sum) :
    ∀ k : Nat, k < l.length → l[k]? = some true := by
  induction l with
  | nil => intro k hk; simp at hk
  | cons c rest ih =>
    have hle := flags_sum_le rest
    cases c with
    | false =>
      simp only [List.map_cons, List.sum_cons, List.length_cons, Bool.false_eq_true,
        if_false] at h
      push_cast at h
      omega
    | true =>
      simp only [List.map_cons, List.sum_cons, List.length_cons, if_true] at h
      push_cast at h
      intro k hk
      cases k with
      | zero => simp
      | succ n =>
        simp only [List.length_cons] at hk
        simpa using ih (by omega) n (by omega)

/-- While `sjf` is not done, some task is not completed. -/
theorem sjf_exists_pending (orig : List Task) (s : SjfState) (h : SjfInv orig s)
    (hc : sjfCond s = true) :
    ∃ (k : Nat) (t : Task), s.tasks[k]? = some t ∧ s.isTaskCompleted[k]? = some false := by
  have hlt : s.completedTasks < s.tasks.length := by simpa [sjfCond] using hc
  have hsum : (s.isTaskCompleted.map fun c => if c = true then (1 : Int) else 0).sum
      < s.isTaskCompleted.length := by
    rw [← h.count, h.len]
    exact_mod_cast hlt
  obtain ⟨k, hk⟩ := exists_false_of_flags_sum_lt _ hsum
  have hkl : k < s.tasks.length := by
    rw [← h.len]
    exact (List.getElem?_eq_some.mp hk).1
  exact ⟨k, s.tasks[k], List.getElem?_eq_getElem hkl, hk⟩

theorem sjfInvB_step (orig : List Task) (lo hi : Int) (s : SjfState) (h : SjfInv orig s)
    (hB : SjfInvB lo hi s) (hc : sjfCond s = true) : SjfInvB lo hi (sjfBody s) := by
  rcases sjfBody_cases s with ⟨heq, hidle⟩ | ⟨j, t, heq, h1, h2, h3, h4, -⟩
  · rw [heq]
    obtain ⟨k, u, hu, hd⟩ := sjf_exists_pending orig s h hc
    have hlate : ∀ (i : Nat) (v : Task), s.tasks[i]? = some v →
        s.isTaskCompleted[i]? = some false → s.currentTime < v.arrival := by
      intro i v hv hdv
      by_contra hle
      have := hidle i v hv hdv (by omega)
      have := (hB.range i v hv).2.2
      omega
    have hku := hlate k u hu hd
    have hr := hB.range k u hu
    refine
      { range := hB.range, attained := hB.attained, busy0 := hB.busy0, time := ?_, first := ?_
        head := hB.head }
    · show s.currentTime + 1 ≤ hi + busyTime s.executions
      have := hB.busy0
      omega
    · intro hnil
      obtain ⟨-, hall⟩ := hB.first hnil
      refine ⟨?_, hall⟩
      have hne : s.tasks ≠ [] := by
        intro hn
        rw [hn] at hu
        simp at hu
      obtain ⟨i, v, hv, hvlo⟩ := hB.attained hne
      have hil : i < s.isTaskCompleted.length := by
        rw [h.len]
        exact (List.getElem?_eq_some.mp hv).1
      have := hlate i v hv (hall i hil)
      show s.currentTime + 1 ≤ lo
      omega
  · rw [heq]
    obtain ⟨-, htb⟩ := h.pre j t h1
    have hr := hB.range j t h1
    refine
      { range := ?_, attained := ?_, busy0 := ?_, time := ?_, first := ?_, head := ?_ }
    · intro i u hu
      simp only [sjfDispatch] at hu
      by_cases hij : i = j
      · subst hij
        rw [getElem?_set_hit _ h1] at hu
        cases hu
        exact hr
      · rw [getElem?_set_miss _ hij] at hu
        exact hB.range i u hu
    · intro _
      have hne : s.tasks ≠ [] := by
        intro hn
        rw [hn] at h1
        simp at h1
      obtain ⟨i, v, hv, hvlo⟩ := hB.attained hne
      by_cases hij : i = j
      · subst hij
        rw [h1] at hv
        cases hv
        exact ⟨i, _, getElem?_set_hit _ h1, hvlo⟩
      · exact ⟨i, v, by simp only [sjfDispatch]; rw [getElem?_set_miss _ hij]; exact hv, hvlo⟩
    · simp only [sjfDispatch]
      rw [busyTime_append]
      have := hB.busy0
      simp only
      omega
    · simp only [sjfDispatch]
      rw [busyTime_append]
      have := hB.time
      simp only
      omega
    · intro hnil
      simp [sjfDispatch] at hnil
    · intro e he
      simp only [sjfDispatch, List.head?_append] at he
      cases hex : s.executions with
      | nil =>
        rw [hex] at he
        simp only [List.head?_nil, Option.or, List.head?_cons, Option.some.injEq] at he
        subst he
        have := (hB.first hex).1
        show s.currentTime = lo
        omega
      | cons e₀ rest =>
        rw [hex] at he
        simp only [List.head?_cons, Option.or, Option.some.injEq] at he
        subst he
        exact hB.head e₀ (by rw [hex]; rfl)

/-- The measure that decreases in each iteration of `sjf`. -/
theorem sjf_measure_decreases (orig : List Task) (lo hi : Int) (s : SjfState)
    (h : SjfInv orig s) (hB : SjfInvB lo hi s) (hc : sjfCond s = true) :
    ((sjfBody s).tasks.length - (sjfBody s).completedTasks) + (hi - (sjfBody s).currentTime).toNat
      < (s.tasks.length - s.completedTasks) + (hi - s.currentTime).toNat := by
  have hlt : s.completedTasks < s.tasks.length := by simpa [sjfCond] using hc
  rcases sjfBody_cases s with ⟨heq, hidle⟩ | ⟨j, t, heq, h1, h2, h3, h4, -⟩
  · rw [heq]
    obtain ⟨k, u, hu, hd⟩ := sjf_exists_pending orig s h hc
    have hr := hB.range k u hu
    have : s.currentTime < u.arrival := by
      by_contra hle
      have := hidle k u hu hd (by omega)
      omega
    simp only
    omega
  · rw [heq]
    obtain ⟨-, htb⟩ := h.pre j t h1
    simp only [sjfDispatch, List.length_set]
    omega

theorem keys_index {l orig : List Task} (hk : l.map Task.record = orig.map Task.record)
    {i : Nat} {t₀ : Task} (h : orig[i]? = some t₀) :
    ∃ t, l[i]? = some t ∧ t.record = t₀.record := by
  have h' : (l.map Task.record)[i]? = some t₀.record := by
    rw [hk, List.getElem?_map, h]
    rfl
  rw [List.getElem?_map] at h'
  cases hl : l[i]? with
  | none => simp [hl] at h'
  | some t => exact ⟨t, rfl, by simpa [hl] using h'⟩

theorem exists_min_arrival (tasks : List Task) (hne : tasks ≠ []) :
    ∃ t₀ ∈ tasks, ∀ t ∈ tasks, t₀.arrival ≤ t.arrival := by
  induction tasks with
  | nil => exact absurd rfl hne
  | cons x rest ih =>
    cases rest with
    | nil =>
      refine ⟨x, List.mem_cons_self _ _, ?_⟩
      intro t ht
      simp only [List.mem_singleton] at ht
      rw [ht]
    | cons y rest' =>
      obtain ⟨m, hm, hmin⟩ := ih (by simp)
      by_cases hx : x.arrival ≤ m.arrival
      · refine ⟨x, List.mem_cons_self _ _, ?_⟩
        intro t ht
        rcases List.mem_cons.mp ht with rfl | ht'
        · exact le_refl _
        · exact le_trans hx (hmin t ht')
      · refine ⟨m, List.mem_cons_of_mem _ hm, ?_⟩
        intro t ht
        rcases List.mem_cons.mp ht with rfl | ht'
        · omega
        · exact hmin t ht'

theorem sjfInv_init (tasks : List Task) (hpre : ∀ t ∈ tasks, 0 ≤ t.arrival ∧ 0 < t.burst) :
    SjfInv (sortByArrival tasks) (sjfInit tasks) := by
  have hfalse : ∀ (i : Nat), (sjfInit tasks).isTaskCompleted[i]? ≠ some true := by
    intro i hi
    simp only [sjfInit, List.getElem?_replicate] at hi
    split at hi <;> simp at hi
  refine
    { len := ?_, keys := rfl, pre := ?_, count := ?_, ends := ?_, chain := ?_, ran := ?_
      last := ?_, busy := ?_, lens := ?_ }
  · simp [sjfInit, sortByArrival_length]
  · intro i t ht
    exact hpre t (mem_sortByArrival.mp (List.mem_iff_getElem?.mpr ⟨i, ht⟩))
  · simp [sjfInit]
  · intro e he
    simp [sjfInit] at he
  · simp [sjfInit]
  · intro i t _ hd
    exact absurd hd (hfalse i)
  · intro _ i t _ hd
    exact absurd hd (hfalse i)
  · have hz : ∀ p ∈ (sjfInit tasks).tasks.zip (sjfInit tasks).isTaskCompleted,
        (if p.2 = true then p.1.burst else 0) = 0 := by
      intro p hp
      have h2 : p.2 ∈ (sjfInit tasks).isTaskCompleted := (List.of_mem_zip hp).2
      simp only [sjfInit] at h2
      rw [List.eq_of_mem_replicate h2]
      simp
    have : busyTime (sjfInit tasks).executions = 0 := by simp [sjfInit, busyTime]
    rw [this]
    symm
    apply List.sum_eq_zero
    intro x hx
    obtain ⟨p, hp, rfl⟩ := List.mem_map.mp hx
    exact hz p hp
  · intro e he
    simp [sjfInit] at he

theorem sjfInvB_init (tasks : List Task) (lo hi : Int) (hlo : 0 ≤ lo) (hhi : 0 ≤ hi)
    (hrange : ∀ t ∈ tasks, lo ≤ t.arrival ∧ t.arrival ≤ hi ∧ t.burst < INT_MAX)
    (hatt : tasks ≠ [] → ∃ t ∈ tasks, t.arrival = lo) :
    SjfInvB lo hi (sjfInit tasks) := by
  refine
    { range := ?_, attained := ?_, busy0 := ?_, time := ?_, first := ?_, head := ?_ }
  · intro i t ht
    exact hrange t (mem_sortByArrival.mp (List.mem_iff_getElem?.mpr ⟨i, ht⟩))
  · intro hne
    have hne' : tasks ≠ [] := by
      intro hn
      apply hne
      simp [sjfInit, hn, sortByArrival]
    obtain ⟨t, ht, hlo'⟩ := hatt hne'
    obtain ⟨i, hi'⟩ := List.mem_iff_getElem?.mp (mem_sortByArrival.mpr ht)
    exact ⟨i, t, hi', hlo'⟩
  · simp [sjfInit, busyTime]
  · simp [sjfInit, busyTime, hhi]
  · intro _
    refine ⟨hlo, ?_⟩
    intro i hi'
    simp only [sjfInit, List.length_replicate] at hi' ⊢
    simp [List.getElem?_replicate, hi']
  · intro e he
    simp [sjfInit] at he

/-- When the loop of `sjf` has ended, every task is completed. -/
theorem sjf_all_done (orig : List Task) (s : SjfState) (h : SjfInv orig s)
    (hc : sjfCond s = false) :
    ∀ (i : Nat) (t : Task), s.tasks[i]? = some t → s.isTaskCompleted[i]? = some true := by
  have hge : ¬ s.completedTasks < s.tasks.length := by simpa [sjfCond] using hc
  have hsum : (s.isTaskCompleted.length : Int)
      ≤ (s.isTaskCompleted.map fun c => if c = true then (1 : Int) else 0).sum := by
    rw [← h.count, h.len]
    exact_mod_cast Nat.le_of_not_lt hge
  intro i t ht
  apply all_true_of_flags_sum_ge _ hsum
  rw [h.len]
  exact (List.getElem?_eq_some.mp ht).1

/-- The loop of `sjf` ends when every burst is below `INT_MAX`. -/
theorem sjf_loop_terminates (tasks : List Task)
    (hpre : ∀ t ∈ tasks, 0 ≤ t.arrival ∧ 0 < t.burst ∧ t.burst < INT_MAX) :
    ∃ s, whileLoop sjfCond sjfBody (tasks.length + (maxArrival tasks).toNat) (sjfInit tasks)
      = some s := by
  have hpre' : ∀ t ∈ tasks, 0 ≤ t.arrival ∧ 0 < t.burst := fun t ht =>
    ⟨(hpre t ht).1, (hpre t ht).2.1⟩
  by_cases hne : tasks = []
  · subst hne
    exact ⟨sjfInit [], by decide⟩
  obtain ⟨m, hm, hmin⟩ := exists_min_arrival tasks hne
  have hinv := sjfInv_init tasks hpre'
  have hinvB := sjfInvB_init tasks m.arrival (maxArrival tasks) (hpre m hm).1
    (maxArrival_nonneg tasks)
    (fun t ht => ⟨hmin t ht, arrival_le_maxArrival tasks t ht, (hpre t ht).2.2⟩)
    (fun _ => ⟨m, hm, rfl⟩)
  apply whileLoop_terminates sjfCond sjfBody
    (fun s => SjfInv (sortByArrival tasks) s ∧ SjfInvB m.arrival (maxArrival tasks) s)
    (fun s => (s.tasks.length - s.completedTasks) + (maxArrival tasks - s.currentTime).toNat)
  · intro s hs hc
    exact ⟨sjfInv_step _ s hs.1, sjfInvB_step _ _ _ s hs.1 hs.2 hc⟩
  · intro s hs hc
    exact sjf_measure_decreases _ _ _ s hs.1 hs.2 hc
  · exact ⟨hinv, hinvB⟩
  · simp [sjfInit, sortByArrival_length]

/-- What holds when the loop of `sjf` has ended. -/
theorem sjf_loop_final (tasks : List Task) (hpre : ∀ t ∈ tasks, 0 ≤ t.arrival ∧ 0 < t.burst)
    (fuel : Nat) (s : SjfState)
    (h : whileLoop sjfCond sjfBody fuel (sjfInit tasks) = some s) :
    SjfInv (sortByArrival tasks) s ∧
    (∀ (i : Nat) (t : Task), s.tasks[i]? = some t → s.isTaskCompleted[i]? = some true) ∧
    (∀ t ∈ tasks, t.burst < INT_MAX) ∧
    ∀ lo hi : Int, 0 ≤ lo → lo ≤ hi → (∀ t ∈ tasks, lo ≤ t.arrival ∧ t.arrival ≤ hi) →
      (tasks ≠ [] → ∃ t ∈ tasks, t.arrival = lo) → SjfInvB lo hi s := by
  obtain ⟨hinv, hc⟩ := whileLoop_inv sjfCond sjfBody (SjfInv (sortByArrival tasks))
    (fun s hs _ => sjfInv_step _ s hs) fuel _ s (sjfInv_init tasks hpre) h
  have hdone := sjf_all_done _ s hinv hc
  have hbound : ∀ t ∈ tasks, t.burst < INT_MAX := by
    intro t ht
    obtain ⟨i, hi⟩ := List.mem_iff_getElem?.mp (mem_sortByArrival.mpr ht)
    obtain ⟨u, hu, hrec⟩ := keys_index hinv.keys hi
    have hb : u.burst = t.burst := congrArg Record.burst hrec
    rw [← hb]
    exact (hinv.ran i u hu (hdone i u hu)).1
  refine ⟨hinv, hdone, hbound, ?_⟩
  intro lo hi hlo hlh hrange hatt
  have hhi : 0 ≤ hi := le_trans hlo hlh
  have hinvB := sjfInvB_init tasks lo hi hlo hhi
    (fun t ht => ⟨(hrange t ht).1, (hrange t ht).2, hbound t ht⟩) hatt
  exact (whileLoop_inv sjfCond sjfBody
    (fun s => SjfInv (sortByArrival tasks) s ∧ SjfInvB lo hi s)
    (fun s hs hc' => ⟨sjfInv_step _ s hs.1, sjfInvB_step _ _ _ s hs.1 hs.2 hc'⟩)
    fuel _ s ⟨sjfInv_init tasks hpre, hinvB⟩ h).1.2

/-! ## SRTF: the selection loop and the shape of one iteration -/

/-- What the selection loop of `srtf` computes: either nothing beats the
accumulator, or the first task of least remaining time among the eligible
ones, which is below the accumulator. -/
theorem srtfScan_spec (ct : Int) :
    ∀ (ts : List Task) (i : Nat) (srt : Int) (idx : Nat) (chk : Bool),
      (srtfScan ct ts i (srt, idx, chk) = (srt, idx, chk) ∧
        ∀ (k : Nat) (t : Task), ts[k]? = some t → t.arrival ≤ ct → 0 < t.remaining →
          srt ≤ t.remaining) ∨
      (∃ (k : Nat) (t : Task), srtfScan ct ts i (srt, idx, chk) = (t.remaining, i + k, true) ∧
        ts[k]? = some t ∧ t.arrival ≤ ct ∧ 0 < t.remaining ∧ t.remaining < srt ∧
        ∀ (k' : Nat) (t' : Task), ts[k']? = some t' → t'.arrival ≤ ct → 0 < t'.remaining →
          t.remaining ≤ t'.remaining ∧ (k' < k → t.remaining < t'.remaining)) := by
  intro ts
  induction ts with
  | nil =>
    intro i srt idx chk
    left
    refine ⟨by simp [srtfScan], ?_⟩
    intro k t h
    simp at h
  | cons x xs ih =>
    intro i srt idx chk
    by_cases hsel : x.arrival ≤ ct ∧ x.remaining > 0 ∧ x.remaining < srt
    · have hstep : srtfScan ct (x :: xs) i (srt, idx, chk)
          = srtfScan ct xs (i + 1) (x.remaining, i, true) := by
        simp only [srtfScan]
        rw [if_pos hsel]
      rcases ih (i + 1) x.remaining i true with ⟨heq, hall⟩ | ⟨k, t, heq, h1, h3, h3', h4, h5⟩
      · right
        refine ⟨0, x, by rw [hstep, heq]; rfl, by simp, hsel.1, hsel.2.1, hsel.2.2, ?_⟩
        intro k' t' h1' h2' h3''
        cases k' with
        | zero =>
          simp only [List.getElem?_cons_zero, Option.some.injEq] at h1'
          subst h1'
          exact ⟨le_refl _, fun h => absurd h (lt_irrefl _)⟩
        | succ n =>
          simp only [List.getElem?_cons_succ] at h1'
          exact ⟨hall n t' h1' h2' h3'', fun h => absurd h (Nat.not_lt_zero _)⟩
      · right
        refine ⟨k + 1, t, by rw [hstep, heq]; congr 2; omega, by simpa using h1, h3, h3',
          lt_trans h4 hsel.2.2, ?_⟩
        intro k' t' h1' h2' h3''
        cases k' with
        | zero =>
          simp only [List.getElem?_cons_zero, Option.some.injEq] at h1'
          subst h1'
          exact ⟨le_of_lt h4, fun _ => h4⟩
        | succ n =>
          simp only [List.getElem?_cons_succ] at h1'
          obtain ⟨ha, hb⟩ := h5 n t' h1' h2' h3''
          exact ⟨ha, fun h => hb (by omega)⟩
    · have hstep : srtfScan ct (x :: xs) i (srt, idx, chk)
          = srtfScan ct xs (i + 1) (srt, idx, chk) := by
        simp only [srtfScan]
        rw [if_neg hsel]
      have hhead : x.arrival ≤ ct → 0 < x.remaining → srt ≤ x.remaining := by
        intro ha hc
        by_contra hlt
        exact hsel ⟨ha, hc, lt_of_not_le hlt⟩
      rcases ih (i + 1) srt idx chk with ⟨heq, hall⟩ | ⟨k, t, heq, h1, h3, h3', h4, h5⟩
      · left
        refine ⟨by rw [hstep, heq], ?_⟩
        intro k' t' h1' h2' h3''
        cases k' with
        | zero =>
          simp only [List.getElem?_cons_zero, Option.some.injEq] at h1'
          subst h1'
          exact hhead h2' h3''
        | succ n =>
          simp only [List.getElem?_cons_succ] at h1'
          exact hall n t' h1' h2' h3''
      · right
        refine ⟨k + 1, t, by rw [hstep, heq]; congr 2; omega, by simpa using h1, h3, h3', h4, ?_⟩
        intro k' t' h1' h2' h3''
        cases k' with
        | zero =>
          simp only [List.getElem?_cons_zero, Option.some.injEq] at h1'
          subst h1'
          have := hhead h2' h3''
          exact ⟨by omega, fun _ => by omega⟩
        | succ n =>
          simp only [List.getElem?_cons_succ] at h1'
          obtain ⟨ha, hb⟩ := h5 n t' h1' h2' h3''
          exact ⟨ha, fun h => hb (by omega)⟩

/-- One iteration of `srtf` either idles, no arrived and unfinished task
having a remaining time below `shortestRemainingTime`, or runs for one unit a
task of least remaining time among the arrived and unfinished ones. -/
theorem srtfBody_cases (s : SrtfState)
    (hchk : s.check = true → ∃ t, s.tasks[s.shortestIndex]? = some t ∧
      t.remaining = s.shortestRemainingTime ∧ 0 < t.remaining ∧ t.arrival ≤ s.currentTime ∧
      t.remaining < INT_MAX)
    (hsrt : s.shortestRemainingTime ≤ INT_MAX) :
    (s.check = false ∧ srtfBody s = { s with currentTime := s.currentTime + 1 } ∧
      ∀ (k : Nat) (t : Task), s.tasks[k]? = some t → t.arrival ≤ s.currentTime →
        0 < t.remaining → s.shortestRemainingTime ≤ t.remaining) ∨
    (∃ (j : Nat) (t : Task), srtfBody s = srtfRun s j t ∧
      s.tasks[j]? = some t ∧ t.arrival ≤ s.currentTime ∧ 0 < t.remaining ∧
      t.remaining < INT_MAX ∧
      ∀ (k' : Nat) (t' : Task), s.tasks[k']? = some t' → t'.arrival ≤ s.currentTime →
        0 < t'.remaining → t.remaining ≤ t'.remaining) := by
  rcases srtfScan_spec s.currentTime s.tasks 0 s.shortestRemainingTime s.shortestIndex s.check
    with ⟨heq, hall⟩ | ⟨k, t, heq, h1, h2, h3, h4, h5⟩
  · cases hck : s.check with
    | false =>
      left
      refine ⟨rfl, ?_, hall⟩
      unfold srtfBody
      rw [hck] at heq
      simp only [hck, heq, if_true]
    | true =>
      right
      obtain ⟨t, ht, hrem, hpos, harr, hlt⟩ := hchk hck
      refine ⟨s.shortestIndex, t, ?_, ht, harr, hpos, hlt, ?_⟩
      · unfold srtfBody srtfRun srtfComplete srtfContinue srtfLastUnit srtfUnit
        rw [hck] at heq
        simp only [hck, heq, Bool.true_eq_false, if_false, ht]
      · intro k' t' h1' h2' h3'
        rw [hrem]
        exact hall k' t' h1' h2' h3'
  · right
    refine ⟨k, t, ?_, h1, h2, h3, lt_of_lt_of_le h4 hsrt, fun k' t' a b c => (h5 k' t' a b c).1⟩
    unfold srtfBody srtfRun srtfComplete srtfContinue srtfLastUnit srtfUnit
    simp only [heq, Nat.zero_add, Bool.true_eq_false, if_false, h1]

/-! ## SRTF: the invariant -/

/-- The part of the invariant of `srtf` that a one-unit run preserves
whatever else it does to the task it runs. -/
theorem srtf_run_common (orig : List Task) (s s' : SrtfState) (h : SrtfInv orig s)
    (j : Nat) (t t' : Task) (h1 : s.tasks[j]? = some t) (harr : t.arrival ≤ s.currentTime)
    (hpos : 0 < t.remaining) (hrec : t'.record = t.record)
    (hrem : t'.remaining = t.remaining - 1)
    (htasks : s'.tasks = s.tasks.set j t')
    (hex : s'.executions
      = s.executions ++ [Execution.mk t.id s.currentTime (s.currentTime + 1)])
    (hct : s'.currentTime = s.currentTime + 1) :
    s'.tasks.map Task.record = orig.map Task.record ∧
    (∀ (i : Nat) (u : Task), s'.tasks[i]? = some u → 0 ≤ u.arrival ∧ 0 < u.burst) ∧
    (∀ (i : Nat) (u : Task), s'.tasks[i]? = some u → 0 ≤ u.remaining ∧ u.remaining ≤ u.burst) ∧
    (∀ e ∈ s'.executions, e.end_ ≤ s'.currentTime) ∧
    (∀ e ∈ s'.executions, e.end_ = e.start + 1) ∧
    (s'.executions.Chain' fun a b => a.end_ ≤ b.start) ∧
    (∀ id : Int, (intervalCount id s'.executions : Int)
      = (s'.tasks.map fun u => if u.id = id then u.burst - u.remaining else 0).sum) ∧
    busyTime s'.executions = (s'.tasks.map fun u => u.burst - u.remaining).sum ∧
    (∀ (i : Nat) (u : Task), s'.tasks[i]? = some u → u.remaining < u.burst →
      u.arrival + (u.burst - u.remaining) ≤ s'.currentTime) ∧
    (∀ e ∈ s'.executions, ∃ (i : Nat) (u : Task), s'.tasks[i]? = some u ∧
      e.id = u.id ∧ u.arrival ≤ e.start) := by
  have hid : t'.id = t.id := congrArg Record.id hrec
  have hbu : t'.burst = t.burst := congrArg Record.burst hrec
  have har : t'.arrival = t.arrival := congrArg Record.arrival hrec
  obtain ⟨hta, htb⟩ := h.pre j t h1
  obtain ⟨hr0, hr1⟩ := h.rem j t h1
  rw [htasks, hex, hct]
  refine ⟨?_, ?_, ?_, ?_, ?_, ?_, ?_, ?_, ?_, ?_⟩
  · exact (map_set_same Task.record s.tasks j t t' h1 hrec).trans h.keys
  · intro i u hu
    by_cases hij : i = j
    · subst hij
      rw [getElem?_set_hit _ h1] at hu
      cases hu
      rw [har, hbu]
      exact ⟨hta, htb⟩
    · rw [getElem?_set_miss _ hij] at hu
      exact h.pre i u hu
  · intro i u hu
    by_cases hij : i = j
    · subst hij
      rw [getElem?_set_hit _ h1] at hu
      cases hu
      rw [hrem, hbu]
      omega
    · rw [getElem?_set_miss _ hij] at hu
      exact h.rem i u hu
  · intro e he
    simp only [List.mem_append, List.mem_singleton] at he
    rcases he with he | rfl
    · have := h.ends e he
      omega
    · exact le_refl _
  · intro e he
    simp only [List.mem_append, List.mem_singleton] at he
    rcases he with he | rfl
    · exact h.unit e he
    · rfl
  · exact chain_push _ _ _ h.chain (fun x hx => h.ends x hx)
  · intro id
    rw [intervalCount_append, sum_map_set _ _ j t t' h1]
    have := h.counts id
    push_cast
    rw [hid, hbu, hrem]
    by_cases hc : t.id = id
    · simp only [hc, if_true]
      omega
    · simp only [hc, if_false]
      omega
  · rw [busyTime_append, sum_map_set _ _ j t t' h1, hbu, hrem]
    have := h.busy
    simp only
    omega
  · intro i u hu hlt
    by_cases hij : i = j
    · subst hij
      rw [getElem?_set_hit _ h1] at hu
      cases hu
      rw [har, hbu, hrem]
      by_cases hfull : t.remaining < t.burst
      · have := h.progress i t h1 hfull
        omega
      · omega
    · rw [getElem?_set_miss _ hij] at hu
      have := h.progress i u hu hlt
      omega
  · intro e he
    simp only [List.mem_append, List.mem_singleton] at he
    rcases he with he | rfl
    · obtain ⟨i, u, hu, a, b⟩ := h.lens e he
      by_cases hij : i = j
      · subst hij
        rw [h1] at hu
        cases hu
        exact ⟨i, t', getElem?_set_hit _ h1, by rw [hid]; exact a, by rw [har]; exact b⟩
      · exact ⟨i, u, by rw [getElem?_set_miss _ hij]; exact hu, a, b⟩
    · exact ⟨j, t', getElem?_set_hit _ h1, hid.symm, by rw [har]; exact harr⟩

@[simp] theorem srtfLastUnit_remaining (ct : Int) (t : Task) :
    (srtfLastUnit ct t).remaining = t.remaining - 1 := rfl

@[simp] theorem srtfLastUnit_id (ct : Int) (t : Task) : (srtfLastUnit ct t).id = t.id := rfl

@[simp] theorem srtfLastUnit_burst (ct : Int) (t : Task) :
    (srtfLastUnit ct t).burst = t.burst := rfl

@[simp] theorem srtfLastUnit_arrival (ct : Int) (t : Task) :
    (srtfLastUnit ct t).arrival = t.arrival := rfl

@[simp] theorem srtfLastUnit_wait (ct : Int) (t : Task) :
    (srtfLastUnit ct t).wait = max 0 (ct + 1 - t.arrival - t.burst) := rfl

@[simp] theorem srtfUnit_remaining (t : Task) : (srtfUnit t).remaining = t.remaining - 1 := rfl

@[simp] theorem srtfUnit_id (t : Task) : (srtfUnit t).id = t.id := rfl

@[simp] theorem srtfUnit_burst (t : Task) : (srtfUnit t).burst = t.burst := rfl

@[simp] theorem srtfUnit_arrival (t : Task) : (srtfUnit t).arrival = t.arrival := rfl

theorem srtfInv_step (orig : List Task) (s : SrtfState) (h : SrtfInv orig s) :
    SrtfInv orig (srtfBody s) := by
  rcases srtfBody_cases s h.chk h.srtLe with
    ⟨hck, heq, -⟩ | ⟨j, t, heq, h1, harr, hpos, hlt, -⟩
  · rw [heq]
    exact
      { keys := h.keys, pre := h.pre, rem := h.rem, count := h.count
        chk := fun hc => by simp only [hck] at hc; exact absurd hc (by decide)
        nochk := h.nochk, srtLe := h.srtLe, touched := h.touched
        ends := fun e he => le_trans (h.ends e he) (by simp)
        unit := h.unit, chain := h.chain, counts := h.counts, busy := h.busy
        progress := fun i u hu hlt => le_trans (h.progress i u hu hlt) (by simp)
        ran := h.ran, last := h.last, lens := h.lens }
  · rw [heq]
    obtain ⟨hta, htb⟩ := h.pre j t h1
    obtain ⟨hr0, hr1⟩ := h.rem j t h1
    have htouched : ∀ t' : Task, t'.burst = t.burst → t'.remaining = t.remaining - 1 →
        ∀ (i : Nat) (u : Task), (s.tasks.set j t')[i]? = some u → u.remaining < u.burst →
          u.burst < INT_MAX := by
      intro t' hb _ i u hu hul
      by_cases hij : i = j
      · subst hij
        rw [getElem?_set_hit _ h1] at hu
        cases hu
        rw [hb]
        by_cases hfull : t.remaining < t.burst
        · exact h.touched i t h1 hfull
        · have : t.remaining = t.burst := by omega
          rw [← this]
          exact hlt
      · rw [getElem?_set_miss _ hij] at hu
        exact h.touched i u hu hul
    by_cases hz : t.remaining - 1 = 0
    · -- the task completes
      have hlate : t.arrival + t.burst ≤ s.currentTime + 1 := by
        by_cases hfull : t.remaining < t.burst
        · have := h.progress j t h1 hfull
          omega
        · omega
      have hw : max 0 (s.currentTime + 1 - t.arrival - t.burst)
          = s.currentTime + 1 - t.arrival - t.burst := max_eq_right (by omega)
      have hrun : srtfRun s j t = srtfComplete s j t := by
        unfold srtfRun
        rw [if_pos hz]
      rw [hrun]
      obtain ⟨c1, c2, c3, c4, c5, c6, c7, c8, c9, c10⟩ :=
        srtf_run_common orig s (srtfComplete s j t) h j t (srtfLastUnit s.currentTime t) h1 harr
          hpos rfl rfl rfl rfl rfl
      refine
        { keys := c1, pre := c2, rem := c3, count := ?_, chk := ?_, nochk := ?_, ends := c4
          unit := c5, chain := c6, counts := c7, busy := c8, progress := c9, ran := ?_
          last := ?_, lens := c10, srtLe := ?_, touched := htouched _ rfl rfl }
      · simp only [srtfComplete]
        rw [sum_map_set _ _ j t _ h1]
        have := h.count
        have hne : t.remaining ≠ 0 := by omega
        push_cast
        simp only [srtfLastUnit_remaining, hz, hne, if_true, if_false]
        omega
      · intro hc
        simp [srtfComplete] at hc
      · intro _
        rfl
      · exact le_refl _
      · intro i u hu hu0
        simp only [srtfComplete] at hu ⊢
        by_cases hij : i = j
        · subst hij
          rw [getElem?_set_hit _ h1] at hu
          cases hu
          refine ⟨le_max_left _ _, ?_⟩
          simp only [srtfLastUnit_wait, srtfLastUnit_id, srtfLastUnit_arrival,
            srtfLastUnit_burst, hw, List.mem_append, List.mem_singleton]
          right
          congr 1 <;> omega
        · rw [getElem?_set_miss _ hij] at hu
          obtain ⟨a, b⟩ := h.ran i u hu hu0
          exact ⟨a, List.mem_append_left _ b⟩
      · intro hnd i u hu hu0
        have hids : (s.tasks.set j (srtfLastUnit s.currentTime t)).map
              (fun t => t.id) = s.tasks.map fun t => t.id := map_set_same _ s.tasks j t _ h1 rfl
        simp only [srtfComplete] at hnd hu ⊢
        rw [hids] at hnd
        rw [lastEnd_append]
        by_cases hij : i = j
        · subst hij
          rw [getElem?_set_hit _ h1] at hu
          cases hu
          simp only [srtfLastUnit_wait, srtfLastUnit_id, srtfLastUnit_arrival,
            srtfLastUnit_burst, if_true, hw]
          congr 1
          omega
        · rw [getElem?_set_miss _ hij] at hu
          have hne : t.id ≠ u.id := ids_ne_of_nodup hnd h1 hu (Ne.symm hij)
          simp only [if_neg hne]
          exact h.last hnd i u hu hu0
    · -- the task goes on
      have hrun : srtfRun s j t = srtfContinue s j t := by
        unfold srtfRun
        rw [if_neg hz]
      rw [hrun]
      obtain ⟨c1, c2, c3, c4, c5, c6, c7, c8, c9, c10⟩ :=
        srtf_run_common orig s (srtfContinue s j t) h j t (srtfUnit t) h1 harr hpos rfl rfl rfl
          rfl rfl
      refine
        { keys := c1, pre := c2, rem := c3, count := ?_, chk := ?_, nochk := ?_, ends := c4
          unit := c5, chain := c6, counts := c7, busy := c8, progress := c9, ran := ?_
          last := ?_, lens := c10, srtLe := ?_, touched := htouched _ rfl rfl }
      · simp only [srtfContinue]
        rw [sum_map_set _ _ j t _ h1]
        have := h.count
        have hne : t.remaining ≠ 0 := by omega
        simp only [srtfUnit_remaining, hz, hne, if_false]
        omega
      · intro _
        refine ⟨srtfUnit t, getElem?_set_hit _ h1, rfl, ?_, ?_, ?_⟩
        · show 0 < t.remaining - 1
          omega
        · show t.arrival ≤ s.currentTime + 1
          omega
        · show t.remaining - 1 < INT_MAX
          omega
      · intro hc
        simp [srtfContinue] at hc
      · show t.remaining - 1 ≤ INT_MAX
        omega
      · intro i u hu hu0
        simp only [srtfContinue] at hu ⊢
        by_cases hij : i = j
        · subst hij
          rw [getElem?_set_hit _ h1] at hu
          cases hu
          exact absurd hu0 hz
        · rw [getElem?_set_miss _ hij] at hu
          obtain ⟨a, b⟩ := h.ran i u hu hu0
          exact ⟨a, List.mem_append_left _ b⟩
      · intro hnd i u hu hu0
        have hids : (s.tasks.set j (srtfUnit t)).map
              (fun t => t.id) = s.tasks.map fun t => t.id := map_set_same _ s.tasks j t _ h1 rfl
        simp only [srtfContinue] at hnd hu ⊢
        rw [hids] at hnd
        rw [lastEnd_append]
        by_cases hij : i = j
        · subst hij
          rw [getElem?_set_hit _ h1] at hu
          cases hu
          exact absurd hu0 hz
        · rw [getElem?_set_miss _ hij] at hu
          have hne : t.id ≠ u.id := ids_ne_of_nodup hnd h1 hu (Ne.symm hij)
          simp only [if_neg hne]
          exact h.last hnd i u hu hu0

/-! ## SRTF: the invariant with every burst below `INT_MAX`, and termination -/

theorem single_le_sum {α : Type} (f : α → Int) :
    ∀ (l : List α) (j : Nat) (a : α), (∀ (i : Nat) (x : α), l[i]? = some x → 0 ≤ f x) →
      l[j]? = some a → f a ≤ (l.map f).sum := by
  intro l
  induction l with
  | nil => intro j a _ h; simp at h
  | cons x rest ih =>
    intro j a hnn h
    have hrest : ∀ (i : Nat) (y : α), rest[i]? = some y → 0 ≤ f y :=
      fun i y hy => hnn (i + 1) y (by simpa using hy)
    have hx : 0 ≤ f x := hnn 0 x (by simp)
    simp only [List.map_cons, List.sum_cons]
    cases j with
    | zero =>
      simp only [List.getElem?_cons_zero, Option.some.injEq] at h
      subst h
      have : 0 ≤ (rest.map f).sum := List.sum_nonneg (by
        intro y hy
        obtain ⟨z, hz, rfl⟩ := List.mem_map.mp hy
        obtain ⟨i, hi⟩ := List.mem_iff_getElem?.mp hz
        exact hrest i z hi)
      omega
    | succ k =>
      simp only [List.getElem?_cons_succ] at h
      have := ih k a hrest h
      omega

theorem finished_flags (tasks : List Task) :
    ((tasks.map fun t => decide (t.remaining = 0)).map
      fun c => if c = true then (1 : Int) else 0).sum
      = (tasks.map fun t => if t.remaining = 0 then (1 : Int) else 0).sum := by
  induction tasks with
  | nil => rfl
  | cons t rest ih =>
    simp only [List.map_cons, List.sum_cons, ih, decide_eq_true_eq]

/-- While `srtf` is not done, some task is unfinished. -/
theorem srtf_exists_pending (orig : List Task) (s : SrtfState) (h : SrtfInv orig s)
    (hc : srtfCond s = true) :
    ∃ (k : Nat) (t : Task), s.tasks[k]? = some t ∧ 0 < t.remaining := by
  have hne : s.completed ≠ s.tasks.length := by simpa [srtfCond] using hc
  have hle := flags_sum_le (s.tasks.map fun t => decide (t.remaining = 0))
  rw [finished_flags, ← h.count, List.length_map] at hle
  have hsum : ((s.tasks.map fun t => decide (t.remaining = 0)).map
      fun c => if c = true then (1 : Int) else 0).sum
      < (s.tasks.map fun t => decide (t.remaining = 0)).length := by
    rw [finished_flags, ← h.count, List.length_map]
    omega
  obtain ⟨k, hk⟩ := exists_false_of_flags_sum_lt _ hsum
  rw [List.getElem?_map] at hk
  cases ht : s.tasks[k]? with
  | none => simp [ht] at hk
  | some t =>
    simp only [ht, Option.map_some', Option.some.injEq, decide_eq_false_iff_not] at hk
    have := (h.rem k t (by rw [ht])).1
    exact ⟨k, t, ht, by omega⟩

/-- When the loop of `srtf` has ended, every task is finished. -/
theorem srtf_all_done (orig : List Task) (s : SrtfState) (h : SrtfInv orig s)
    (hc : srtfCond s = false) :
    ∀ (i : Nat) (t : Task), s.tasks[i]? = some t → t.remaining = 0 := by
  have heq : s.completed = s.tasks.length := by simpa [srtfCond] using hc
  have hsum : ((s.tasks.map fun t => decide (t.remaining = 0)).length : Int)
      ≤ ((s.tasks.map fun t => decide (t.remaining = 0)).map
        fun c => if c = true then (1 : Int) else 0).sum := by
    rw [finished_flags, ← h.count, List.length_map, heq]
  intro i t ht
  have hi : i < (s.tasks.map fun t => decide (t.remaining = 0)).length := by
    rw [List.length_map]
    exact (List.getElem?_eq_some.mp ht).1
  have := all_true_of_flags_sum_ge _ hsum i hi
  rw [List.getElem?_map, ht] at this
  simpa using this

/-- The part of the second invariant of `srtf` that a one-unit run
preserves whatever else it does to the task it runs. -/
theorem srtfInvB_run (lo hi : Int) (s s' : SrtfState)
    (hB : SrtfInvB lo hi s) (j : Nat) (t t' : Task) (h1 : s.tasks[j]? = some t)
    (harr : t.arrival ≤ s.currentTime) (hrec : t'.record = t.record)
    (htasks : s'.tasks = s.tasks.set j t')
    (hex : s'.executions
      = s.executions ++ [Execution.mk t.id s.currentTime (s.currentTime + 1)])
    (hct : s'.currentTime = s.currentTime + 1) : SrtfInvB lo hi s' := by
  have hbu : t'.burst = t.burst := congrArg Record.burst hrec
  have har : t'.arrival = t.arrival := congrArg Record.arrival hrec
  have hr := hB.range j t h1
  refine
    { range := ?_, attained := ?_, busy0 := ?_, time := ?_, first := ?_, head := ?_ }
  · intro i u hu
    rw [htasks] at hu
    by_cases hij : i = j
    · subst hij
      rw [getElem?_set_hit _ h1] at hu
      cases hu
      rw [har, hbu]
      exact hr
    · rw [getElem?_set_miss _ hij] at hu
      exact hB.range i u hu
  · intro _
    have hne : s.tasks ≠ [] := by
      intro hn
      rw [hn] at h1
      simp at h1
    obtain ⟨i, v, hv, hvlo⟩ := hB.attained hne
    rw [htasks]
    by_cases hij : i = j
    · subst hij
      rw [h1] at hv
      cases hv
      exact ⟨i, t', getElem?_set_hit _ h1, by rw [har]; exact hvlo⟩
    · exact ⟨i, v, by rw [getElem?_set_miss _ hij]; exact hv, hvlo⟩
  · rw [hex, busyTime_append]
    have := hB.busy0
    simp only
    omega
  · rw [hex, hct, busyTime_append]
    have := hB.time
    simp only
    omega
  · intro hnil
    rw [hex] at hnil
    simp at hnil
  · intro e he
    rw [hex, List.head?_append] at he
    cases hexs : s.executions with
    | nil =>
      rw [hexs] at he
      simp only [List.head?_nil, Option.or, List.head?_cons, Option.some.injEq] at he
      subst he
      have := (hB.first hexs).1
      show s.currentTime = lo
      omega
    | cons e₀ rest =>
      rw [hexs] at he
      simp only [List.head?_cons, Option.or, Option.some.injEq] at he
      subst he
      exact hB.head e₀ (by rw [hexs]; rfl)

theorem srtfInvB_step (orig : List Task) (lo hi : Int) (s : SrtfState) (h : SrtfInv orig s)
    (hB : SrtfInvB lo hi s) (hc : srtfCond s = true) : SrtfInvB lo hi (srtfBody s) := by
  rcases srtfBody_cases s h.chk h.srtLe with
    ⟨hck, heq, hidle⟩ | ⟨j, t, heq, h1, harr, hpos, hlt, -⟩
  · rw [heq]
    have hlate : ∀ (i : Nat) (v : Task), s.tasks[i]? = some v → 0 < v.remaining →
        s.currentTime < v.arrival := by
      intro i v hv hpos
      by_contra hle
      have h1 := hidle i v hv (by omega) hpos
      have h2 := (hB.range i v hv).2.2
      have h3 := (h.rem i v hv).2
      have h4 := h.nochk hck
      omega
    obtain ⟨k, u, hu, hup⟩ := srtf_exists_pending orig s h hc
    have hku := hlate k u hu hup
    have hr := hB.range k u hu
    refine
      { range := hB.range, attained := hB.attained, busy0 := hB.busy0, time := ?_, first := ?_
        head := hB.head }
    · show s.currentTime + 1 ≤ hi + busyTime s.executions
      have := hB.busy0
      omega
    · intro hnil
      obtain ⟨-, hall⟩ := hB.first hnil
      refine ⟨?_, hall⟩
      have hne : s.tasks ≠ [] := by
        intro hn
        rw [hn] at hu
        simp at hu
      obtain ⟨i, v, hv, hvlo⟩ := hB.attained hne
      have := hlate i v hv (by rw [hall i v hv]; exact (h.pre i v hv).2)
      show s.currentTime + 1 ≤ lo
      omega
  · rw [heq]
    by_cases hz : t.remaining - 1 = 0
    · have hrun : srtfRun s j t = srtfComplete s j t := by
        unfold srtfRun
        rw [if_pos hz]
      rw [hrun]
      exact srtfInvB_run lo hi s _ hB j t (srtfLastUnit s.currentTime t) h1 harr rfl rfl
        rfl rfl
    · have hrun : srtfRun s j t = srtfContinue s j t := by
        unfold srtfRun
        rw [if_neg hz]
      rw [hrun]
      exact srtfInvB_run lo hi s _ hB j t (srtfUnit t) h1 harr rfl rfl rfl rfl

/-- The measure that decreases in each iteration of `srtf`. -/
theorem srtf_measure_decreases (orig : List Task) (lo hi : Int) (s : SrtfState)
    (h : SrtfInv orig s) (hB : SrtfInvB lo hi s) (hc : srtfCond s = true) :
    (((srtfBody s).tasks.map fun t : Task => t.remaining).sum.toNat
        + (hi - (srtfBody s).currentTime).toNat)
      < ((s.tasks.map fun t : Task => t.remaining).sum.toNat + (hi - s.currentTime).toNat) := by
  rcases srtfBody_cases s h.chk h.srtLe with
    ⟨hck, heq, hidle⟩ | ⟨j, t, heq, h1, harr, hpos, hlt, -⟩
  · rw [heq]
    obtain ⟨k, u, hu, hup⟩ := srtf_exists_pending orig s h hc
    have : s.currentTime < u.arrival := by
      by_contra hle
      have h1 := hidle k u hu (by omega) hup
      have h2 := (hB.range k u hu).2.2
      have h3 := (h.rem k u hu).2
      have h4 := h.nochk hck
      omega
    have hr := hB.range k u hu
    simp only
    omega
  · rw [heq]
    have hsum := single_le_sum (fun t : Task => t.remaining) s.tasks j t
      (fun i x hx => (h.rem i x hx).1) h1
    have hset : ∀ t' : Task, t'.remaining = t.remaining - 1 →
        ((s.tasks.set j t').map fun t => t.remaining).sum
          = (s.tasks.map fun t => t.remaining).sum - 1 := by
      intro t' ht'
      rw [sum_map_set _ _ j t t' h1, ht']
      omega
    by_cases hz : t.remaining - 1 = 0
    · have hrun : srtfRun s j t = srtfComplete s j t := by
        unfold srtfRun
        rw [if_pos hz]
      rw [hrun]
      simp only [srtfComplete]
      rw [hset (srtfLastUnit s.currentTime t) rfl]
      simp only at hsum
      omega
    · have hrun : srtfRun s j t = srtfContinue s j t := by
        unfold srtfRun
        rw [if_neg hz]
      rw [hrun]
      simp only [srtfContinue]
      rw [hset (srtfUnit t) rfl]
      simp only at hsum
      omega

theorem srtfInv_init (tasks : List Task)
    (hpre : ∀ t ∈ tasks, 0 ≤ t.arrival ∧ 0 < t.burst ∧ t.remaining = t.burst) :
    SrtfInv tasks (srtfInit tasks) := by
  have hp : ∀ (i : Nat) (t : Task), tasks[i]? = some t →
      0 ≤ t.arrival ∧ 0 < t.burst ∧ t.remaining = t.burst :=
    fun i t ht => hpre t (List.mem_iff_getElem?.mpr ⟨i, ht⟩)
  refine
    { keys := rfl, pre := ?_, rem := ?_, count := ?_, chk := ?_, nochk := ?_, srtLe := ?_
      touched := ?_, ends := ?_, unit := ?_, chain := ?_, counts := ?_, busy := ?_
      progress := ?_, ran := ?_, last := ?_, lens := ?_ }
  · intro i t ht
    exact ⟨(hp i t ht).1, (hp i t ht).2.1⟩
  · intro i t ht
    have := hp i t ht
    simp only [srtfInit] at ht
    omega
  · simp only [srtfInit]
    symm
    apply List.sum_eq_zero
    intro x hx
    obtain ⟨t, ht, rfl⟩ := List.mem_map.mp hx
    have := hpre t ht
    have hne : t.remaining ≠ 0 := by omega
    simp [hne]
  · intro hc
    simp [srtfInit] at hc
  · intro _
    rfl
  · exact le_refl _
  · intro i t ht hlt
    have := hp i t ht
    omega
  · intro e he
    simp [srtfInit] at he
  · intro e he
    simp [srtfInit] at he
  · simp [srtfInit]
  · intro id
    simp only [srtfInit, intervalCount, List.filter_nil, List.length_nil, Nat.cast_zero]
    symm
    apply List.sum_eq_zero
    intro x hx
    obtain ⟨t, ht, rfl⟩ := List.mem_map.mp hx
    have := hpre t ht
    split <;> omega
  · simp only [srtfInit, busyTime, List.map_nil, List.sum_nil]
    symm
    apply List.sum_eq_zero
    intro x hx
    obtain ⟨t, ht, rfl⟩ := List.mem_map.mp hx
    have := hpre t ht
    omega
  · intro i t ht hlt
    have := hp i t ht
    omega
  · intro i t ht h0
    have := hp i t ht
    omega
  · intro _ i t ht h0
    have := hp i t ht
    omega
  · intro e he
    simp [srtfInit] at he

theorem srtfInvB_init (tasks : List Task) (lo hi : Int) (hlo : 0 ≤ lo) (hhi : 0 ≤ hi)
    (hfresh : ∀ t ∈ tasks, t.remaining = t.burst)
    (hrange : ∀ t ∈ tasks, lo ≤ t.arrival ∧ t.arrival ≤ hi ∧ t.burst < INT_MAX)
    (hatt : tasks ≠ [] → ∃ t ∈ tasks, t.arrival = lo) :
    SrtfInvB lo hi (srtfInit tasks) := by
  refine
    { range := ?_, attained := ?_, busy0 := ?_, time := ?_, first := ?_, head := ?_ }
  · intro i t ht
    exact hrange t (List.mem_iff_getElem?.mpr ⟨i, ht⟩)
  · intro hne
    obtain ⟨t, ht, hlo'⟩ := hatt hne
    obtain ⟨i, hi'⟩ := List.mem_iff_getElem?.mp ht
    exact ⟨i, t, hi', hlo'⟩
  · simp [srtfInit, busyTime]
  · simp [srtfInit, busyTime, hhi]
  · intro _
    refine ⟨hlo, ?_⟩
    intro i t ht
    exact hfresh t (List.mem_iff_getElem?.mpr ⟨i, ht⟩)
  · intro e he
    simp [srtfInit] at he

/-- The loop of `srtf` ends when every burst is below `INT_MAX`. -/
theorem srtf_loop_terminates (tasks : List Task)
    (hpre : ∀ t ∈ tasks, 0 ≤ t.arrival ∧ 0 < t.burst ∧ t.remaining = t.burst)
    (hbound : ∀ t ∈ tasks, t.burst < INT_MAX) :
    ∃ s, whileLoop srtfCond srtfBody
      ((tasks.map fun t : Task => t.remaining).sum.toNat + (maxArrival tasks).toNat)
      (srtfInit tasks) = some s := by
  by_cases hne : tasks = []
  · subst hne
    exact ⟨srtfInit [], by decide⟩
  obtain ⟨m, hm, hmin⟩ := exists_min_arrival tasks hne
  have hinv := srtfInv_init tasks hpre
  have hinvB := srtfInvB_init tasks m.arrival (maxArrival tasks) (hpre m hm).1
    (maxArrival_nonneg tasks) (fun t ht => (hpre t ht).2.2)
    (fun t ht => ⟨hmin t ht, arrival_le_maxArrival tasks t ht, hbound t ht⟩)
    (fun _ => ⟨m, hm, rfl⟩)
  apply whileLoop_terminates srtfCond srtfBody
    (fun s => SrtfInv tasks s ∧ SrtfInvB m.arrival (maxArrival tasks) s)
    (fun s => (s.tasks.map fun t : Task => t.remaining).sum.toNat
      + (maxArrival tasks - s.currentTime).toNat)
  · intro s hs hc
    exact ⟨srtfInv_step _ s hs.1, srtfInvB_step _ _ _ s hs.1 hs.2 hc⟩
  · intro s hs hc
    exact srtf_measure_decreases _ _ _ s hs.1 hs.2 hc
  · exact ⟨hinv, hinvB⟩
  · simp [srtfInit]

/-- What holds when the loop of `srtf` has ended. -/
theorem srtf_loop_final (tasks : List Task)
    (hpre : ∀ t ∈ tasks, 0 ≤ t.arrival ∧ 0 < t.burst ∧ t.remaining = t.burst)
    (fuel : Nat) (s : SrtfState)
    (h : whileLoop srtfCond srtfBody fuel (srtfInit tasks) = some s) :
    SrtfInv tasks s ∧
    (∀ (i : Nat) (t : Task), s.tasks[i]? = some t → t.remaining = 0) ∧
    (∀ t ∈ tasks, t.burst < INT_MAX) ∧
    ∀ lo hi : Int, 0 ≤ lo → lo ≤ hi → (∀ t ∈ tasks, lo ≤ t.arrival ∧ t.arrival ≤ hi) →
      (tasks ≠ [] → ∃ t ∈ tasks, t.arrival = lo) → SrtfInvB lo hi s := by
  obtain ⟨hinv, hc⟩ := whileLoop_inv srtfCond srtfBody (SrtfInv tasks)
    (fun s hs _ => srtfInv_step _ s hs) fuel _ s (srtfInv_init tasks hpre) h
  have hdone := srtf_all_done _ s hinv hc
  have hbound : ∀ t ∈ tasks, t.burst < INT_MAX := by
    intro t ht
    obtain ⟨i, hi⟩ := List.mem_iff_getElem?.mp ht
    obtain ⟨u, hu, hrec⟩ := keys_index hinv.keys hi
    have hb : u.burst = t.burst := congrArg Record.burst hrec
    rw [← hb]
    have h0 := hdone i u hu
    have hp := (hinv.pre i u hu).2
    exact hinv.touched i u hu (by omega)
  refine ⟨hinv, hdone, hbound, ?_⟩
  intro lo hi hlo hlh hrange hatt
  have hinvB := srtfInvB_init tasks lo hi hlo (le_trans hlo hlh) (fun t ht => (hpre t ht).2.2)
    (fun t ht => ⟨(hrange t ht).1, (hrange t ht).2, hbound t ht⟩) hatt
  exact (whileLoop_inv srtfCond srtfBody
    (fun s => SrtfInv tasks s ∧ SrtfInvB lo hi s)
    (fun s hs hc' => ⟨srtfInv_step _ s hs.1, srtfInvB_step _ _ _ s hs.1 hs.2 hc'⟩)
    fuel _ s ⟨srtfInv_init tasks hpre, hinvB⟩ h).1.2

/-! ## Round-Robin: the admission loop -/

theorem rrAdmit_eq (ct : Int) :
    ∀ (arrival : List Int) (i : Nat) (queue : List Nat),
      rrAdmit ct arrival i queue = (rrMark ct arrival, queue ++ rrAdmitted ct arrival i) := by
  intro arrival
  induction arrival with
  | nil => intro i queue; simp [rrAdmit, rrMark, rrAdmitted]
  | cons a rest ih =>
    intro i queue
    by_cases h : a ≤ ct ∧ a ≠ -1
    · simp only [rrAdmit, rrAdmitted, rrMark, if_pos h, ih, List.map_cons, List.append_assoc,
        List.singleton_append]
    · simp only [rrAdmit, rrAdmitted, rrMark, if_neg h, ih, List.map_cons]

theorem mem_rrAdmitted (ct : Int) :
    ∀ (arrival : List Int) (i j : Nat),
      j ∈ rrAdmitted ct arrival i ↔
        ∃ (k : Nat) (a : Int), j = i + k ∧ arrival[k]? = some a ∧ a ≤ ct ∧ a ≠ -1 := by
  intro arrival
  induction arrival with
  | nil =>
    intro i j
    simp [rrAdmitted]
  | cons a rest ih =>
    intro i j
    have hrest : j ∈ rrAdmitted ct rest (i + 1) ↔
        ∃ (k : Nat) (b : Int), j = i + (k + 1) ∧ rest[k]? = some b ∧ b ≤ ct ∧ b ≠ -1 := by
      rw [ih]
      constructor
      · rintro ⟨k, b, h1, h2⟩
        exact ⟨k, b, by omega, h2⟩
      · rintro ⟨k, b, h1, h2⟩
        exact ⟨k, b, by omega, h2⟩
    constructor
    · intro hj
      by_cases h : a ≤ ct ∧ a ≠ -1
      · simp only [rrAdmitted, if_pos h, List.mem_cons] at hj
        rcases hj with rfl | hj
        · exact ⟨0, a, rfl, by simp, h.1, h.2⟩
        · obtain ⟨k, b, h1, h2, h3⟩ := hrest.mp hj
          exact ⟨k + 1, b, h1, by simpa using h2, h3⟩
      · simp only [rrAdmitted, if_neg h] at hj
        obtain ⟨k, b, h1, h2, h3⟩ := hrest.mp hj
        exact ⟨k + 1, b, h1, by simpa using h2, h3⟩
    · rintro ⟨k, b, h1, h2, h3⟩
      cases k with
      | zero =>
        simp only [List.getElem?_cons_zero, Option.some.injEq] at h2
        subst h2
        simp only [rrAdmitted, if_pos h3, List.mem_cons]
        left
        omega
      | succ n =>
        simp only [List.getElem?_cons_succ] at h2
        have : j ∈ rrAdmitted ct rest (i + 1) := hrest.mpr ⟨n, b, h1, h2, h3⟩
        by_cases h : a ≤ ct ∧ a ≠ -1
        · simp only [rrAdmitted, if_pos h, List.mem_cons]
          exact Or.inr this
        · simp only [rrAdmitted, if_neg h]
          exact this

theorem rrAdmitted_ge (ct : Int) (arrival : List Int) (i j : Nat)
    (h : j ∈ rrAdmitted ct arrival i) : i ≤ j := by
  obtain ⟨k, _, hk, _⟩ := (mem_rrAdmitted ct arrival i j).mp h
  omega

theorem rrAdmitted_nodup (ct : Int) :
    ∀ (arrival : List Int) (i : Nat), (rrAdmitted ct arrival i).Nodup := by
  intro arrival
  induction arrival with
  | nil => intro i; simp [rrAdmitted]
  | cons a rest ih =>
    intro i
    by_cases h : a ≤ ct ∧ a ≠ -1
    · simp only [rrAdmitted, if_pos h, List.nodup_cons]
      refine ⟨?_, ih (i + 1)⟩
      intro hmem
      have := rrAdmitted_ge ct rest (i + 1) i hmem
      omega
    · simp only [rrAdmitted, if_neg h]
      exact ih (i + 1)

theorem rrMark_getElem? (ct : Int) (arrival : List Int) (i : Nat) :
    (rrMark ct arrival)[i]? = arrival[i]?.map fun a => if a ≤ ct ∧ a ≠ -1 then -1 else a := by
  simp [rrMark]

/-- The admission loop run at `ct'` keeps the relation between queue, array
and tasks, and leaves no task behind that has arrived by `ct'`. -/
theorem qinv_admission (tasks : List Task) (arrival : List Int) (queue : List Nat)
    (ct ct' : Int) (excl : Option Nat) (h : QInv tasks arrival queue ct excl)
    (hct : ct ≤ ct') (hpre : ∀ (i : Nat) (t : Task), tasks[i]? = some t → 0 < t.burst) :
    QInv tasks (rrMark ct' arrival) (queue ++ rrAdmitted ct' arrival 0) ct' excl ∧
    ∀ (i : Nat) (t : Task) (a : Int), tasks[i]? = some t →
      (rrMark ct' arrival)[i]? = some a → a ≠ -1 → a = t.arrival ∧ ct' < t.arrival := by
  have hnew : ∀ (i : Nat) (a' : Int), (rrMark ct' arrival)[i]? = some a' →
      ∃ a, arrival[i]? = some a ∧ a' = if a ≤ ct' ∧ a ≠ -1 then -1 else a := by
    intro i a' ha'
    rw [rrMark_getElem?] at ha'
    cases ha : arrival[i]? with
    | none => simp [ha] at ha'
    | some a =>
      simp only [ha, Option.map_some', Option.some.injEq] at ha'
      exact ⟨a, rfl, ha'.symm⟩
  have hold : ∀ (i : Nat), arrival[i]? = some (-1) → (rrMark ct' arrival)[i]? = some (-1) := by
    intro i hi
    rw [rrMark_getElem?, hi]
    simp
  constructor
  · refine
      { alen := ?_, mark := ?_, waiting := ?_, qvalid := ?_, qcomplete := ?_, arrived := ?_
        qnodup := ?_, exclOut := ?_, exclMark := ?_ }
    · simp [rrMark, h.alen]
    · intro i t a' ht ha'
      obtain ⟨a, ha, rfl⟩ := hnew i a' ha'
      split
      · exact Or.inr rfl
      · exact h.mark i t a ht ha
    · intro i t a' ht ha' hne
      obtain ⟨a, ha, rfl⟩ := hnew i a' ha'
      by_cases hc : a ≤ ct' ∧ a ≠ -1
      · rw [if_pos hc] at hne
        exact absurd rfl hne
      · rw [if_neg hc] at hne
        exact h.waiting i t a ht ha hne
    · intro i hi
      rcases List.mem_append.mp hi with hq | hadm
      · obtain ⟨t, ht, ha, hr⟩ := h.qvalid i hq
        exact ⟨t, ht, hold i ha, hr⟩
      · obtain ⟨k, a, hk, ha, hle, hne⟩ := (mem_rrAdmitted ct' arrival 0 i).mp hadm
        have hik : i = k := by omega
        subst hik
        have hil : i < tasks.length := by
          rw [← h.alen]
          exact (List.getElem?_eq_some.mp ha).1
        have ht : tasks[i]? = some tasks[i] := List.getElem?_eq_getElem hil
        refine ⟨tasks[i], ht, ?_, ?_⟩
        · rw [rrMark_getElem?, ha]
          simp [hle, hne]
        · rw [h.waiting i _ a ht ha hne]
          exact hpre i _ ht
    · intro i t ht ha' hr
      obtain ⟨a, ha, hif⟩ := hnew i (-1) ha'
      by_cases hc : a ≤ ct' ∧ a ≠ -1
      · left
        exact List.mem_append_right _
          ((mem_rrAdmitted ct' arrival 0 i).mpr ⟨i, a, by omega, ha, hc.1, hc.2⟩)
      · rw [if_neg hc] at hif
        rw [← hif] at ha
        rcases h.qcomplete i t ht ha hr with hq | he
        · exact Or.inl (List.mem_append_left _ hq)
        · exact Or.inr he
    · intro i t ht ha'
      obtain ⟨a, ha, hif⟩ := hnew i (-1) ha'
      by_cases hc : a ≤ ct' ∧ a ≠ -1
      · rcases h.mark i t a ht ha with rfl | hm
        · exact hc.1
        · exact absurd hm hc.2
      · rw [if_neg hc] at hif
        rw [← hif] at ha
        exact le_trans (h.arrived i t ht ha) hct
    · rw [List.nodup_append]
      refine ⟨h.qnodup, rrAdmitted_nodup ct' arrival 0, ?_⟩
      intro i hq hadm
      obtain ⟨t, ht, ha, hr⟩ := h.qvalid i hq
      obtain ⟨k, a, hk, hka, hle, hne⟩ := (mem_rrAdmitted ct' arrival 0 i).mp hadm
      have hik : i = k := by omega
      subst hik
      rw [ha] at hka
      exact hne (Option.some.inj hka).symm
    · intro i hi
      rcases List.mem_append.mp hi with hq | hadm
      · exact h.exclOut i hq
      · intro he
        have hm := h.exclMark i he
        obtain ⟨k, a, hk, hka, hle, hne⟩ := (mem_rrAdmitted ct' arrival 0 i).mp hadm
        have hik : i = k := by omega
        subst hik
        rw [hm] at hka
        exact hne (Option.some.inj hka).symm
    · intro x hx
      exact hold x (h.exclMark x hx)
  · intro i t a' ht ha' hne
    obtain ⟨a, ha, rfl⟩ := hnew i a' ha'
    by_cases hc : a ≤ ct' ∧ a ≠ -1
    · rw [if_pos hc] at hne
      exact absurd rfl hne
    · rw [if_neg hc] at hne ⊢
      rcases h.mark i t a ht ha with hm | hm
      · refine ⟨hm, ?_⟩
        rw [← hm]
        by_contra hle
        exact hc ⟨by omega, hne⟩
      · exact absurd hm hne

/-! ## Round-Robin: the shape of one iteration -/

theorem ceilDiv_multiple (q k : Int) (hq : 1 ≤ q) : ceilDiv (q * k) q = k := by
  unfold ceilDiv
  have h : q * k + q - 1 = (q - 1) + q * k := by ring
  rw [h, Int.add_mul_ediv_left _ _ (by omega : q ≠ 0)]
  rw [Int.ediv_eq_zero_of_lt (by omega) (by omega)]
  omega

theorem ceilDiv_step (q x sl : Int) (hq : 1 ≤ q) (hx : q ∣ x) (h1 : 0 < sl) (h2 : sl ≤ q) :
    ceilDiv (x + sl) q = ceilDiv x q + 1 := by
  obtain ⟨k, rfl⟩ := hx
  rw [ceilDiv_multiple q k hq]
  unfold ceilDiv
  have h : q * k + sl + q - 1 = (sl - 1) + q * (k + 1) := by ring
  rw [h, Int.add_mul_ediv_left _ _ (by omega : q ≠ 0)]
  rw [Int.ediv_eq_zero_of_lt (by omega) (by omega)]
  omega

/-- One iteration of `roundRobin` either idles, the queue being empty after
the admission loop, or dispatches the head of the queue. -/
theorem rrBody_cases (quantum : Int) (s : RRState)
    (hq : ∀ i ∈ s.readyQueue ++ rrAdmitted s.currentTime s.arrival 0,
      ∃ t, s.tasks[i]? = some t) :
    (s.readyQueue ++ rrAdmitted s.currentTime s.arrival 0 = [] ∧
      rrBody quantum s = { s with arrival := rrMark s.currentTime s.arrival, readyQueue := [],
                                  currentTime := s.currentTime + 1 }) ∨
    (∃ (current : Nat) (rest : List Nat) (t : Task),
      s.readyQueue ++ rrAdmitted s.currentTime s.arrival 0 = current :: rest ∧
      s.tasks[current]? = some t ∧ rrBody quantum s = rrDispatch quantum s current rest t) := by
  cases hqueue : s.readyQueue ++ rrAdmitted s.currentTime s.arrival 0 with
  | nil =>
    left
    refine ⟨rfl, ?_⟩
    unfold rrBody
    simp only [rrAdmit_eq, hqueue]
  | cons current rest =>
    right
    obtain ⟨t, ht⟩ := hq current (by rw [hqueue]; exact List.mem_cons_self _ _)
    refine ⟨current, rest, t, rfl, ht, ?_⟩
    unfold rrBody rrDispatch rrPreempted rrFinished
    simp only [rrAdmit_eq, hqueue, ht]

/-- Taking the head of the queue to run it. -/
theorem qinv_take (tasks : List Task) (arrival : List Int) (current : Nat) (rest : List Nat)
    (ct : Int) (t t' : Task) (h : QInv tasks arrival (current :: rest) ct none)
    (h1 : tasks[current]? = some t) (hrec : t'.record = t.record) :
    QInv (tasks.set current t') arrival rest ct (some current) := by
  obtain ⟨t₀, ht₀, hmark, -⟩ := h.qvalid current (List.mem_cons_self _ _)
  have hnd := List.nodup_cons.mp h.qnodup
  have har : t'.arrival = t.arrival := congrArg Record.arrival hrec
  have hne_of_mark : ∀ (i : Nat) (a : Int), arrival[i]? = some a → a ≠ -1 → i ≠ current := by
    intro i a ha hne hic
    subst hic
    rw [hmark] at ha
    exact hne (Option.some.inj ha).symm
  refine
    { alen := ?_, mark := ?_, waiting := ?_, qvalid := ?_, qcomplete := ?_, arrived := ?_
      qnodup := hnd.2, exclOut := ?_, exclMark := ?_ }
  · simp [h.alen]
  · intro i u a hu ha
    by_cases hic : i = current
    · subst hic
      rw [getElem?_set_hit _ h1] at hu
      cases hu
      rw [har]
      exact h.mark i t a h1 ha
    · rw [getElem?_set_miss _ hic] at hu
      exact h.mark i u a hu ha
  · intro i u a hu ha hne
    have hic := hne_of_mark i a ha hne
    rw [getElem?_set_miss _ hic] at hu
    exact h.waiting i u a hu ha hne
  · intro i hi
    have hic : i ≠ current := by
      intro hic
      subst hic
      exact hnd.1 hi
    obtain ⟨u, hu, ha, hr⟩ := h.qvalid i (List.mem_cons_of_mem _ hi)
    exact ⟨u, by rw [getElem?_set_miss _ hic]; exact hu, ha, hr⟩
  · intro i u hu ha hr
    by_cases hic : i = current
    · exact Or.inr (by rw [hic])
    · rw [getElem?_set_miss _ hic] at hu
      rcases h.qcomplete i u hu ha hr with hq | he
      · rcases List.mem_cons.mp hq with hq | hq
        · exact absurd hq hic
        · exact Or.inl hq
      · cases he
  · intro i u hu ha
    by_cases hic : i = current
    · subst hic
      rw [getElem?_set_hit _ h1] at hu
      cases hu
      rw [har]
      exact h.arrived i t h1 ha
    · rw [getElem?_set_miss _ hic] at hu
      exact h.arrived i u hu ha
  · intro i hi he
    cases he
    exact hnd.1 hi
  · intro x hx
    cases hx
    exact hmark

/-- Putting the task that ran back at the tail of the queue. -/
theorem qinv_requeue (tasks : List Task) (arrival : List Int) (queue : List Nat) (ct : Int)
    (current : Nat) (t : Task) (h : QInv tasks arrival queue ct (some current))
    (h1 : tasks[current]? = some t) (hpos : 0 < t.remaining) :
    QInv tasks arrival (queue ++ [current]) ct none := by
  refine
    { alen := h.alen, mark := h.mark, waiting := h.waiting, qvalid := ?_, qcomplete := ?_
      arrived := h.arrived, qnodup := ?_, exclOut := ?_, exclMark := ?_ }
  · intro i hi
    rcases List.mem_append.mp hi with hq | hc
    · exact h.qvalid i hq
    · simp only [List.mem_singleton] at hc
      subst hc
      exact ⟨t, h1, h.exclMark i rfl, hpos⟩
  · intro i u hu ha hr
    left
    rcases h.qcomplete i u hu ha hr with hq | he
    · exact List.mem_append_left _ hq
    · cases he
      exact List.mem_append_right _ (List.mem_singleton_self _)
  · rw [List.nodup_append]
    refine ⟨h.qnodup, List.nodup_singleton _, ?_⟩
    intro i hq hc
    simp only [List.mem_singleton] at hc
    subst hc
    exact h.exclOut i hq rfl
  · intro i _ he
    cases he
  · intro x hx
    cases hx

/-- Dropping the task that ran, when it is finished. -/
theorem qinv_finish (tasks : List Task) (arrival : List Int) (queue : List Nat) (ct : Int)
    (current : Nat) (t : Task) (h : QInv tasks arrival queue ct (some current))
    (h1 : tasks[current]? = some t) (hzero : t.remaining ≤ 0) :
    QInv tasks arrival queue ct none := by
  refine
    { alen := h.alen, mark := h.mark, waiting := h.waiting, qvalid := h.qvalid, qcomplete := ?_
      arrived := h.arrived, qnodup := h.qnodup, exclOut := ?_, exclMark := ?_ }
  · intro i u hu ha hr
    left
    rcases h.qcomplete i u hu ha hr with hq | he
    · exact hq
    · cases he
      rw [h1] at hu
      cases hu
      omega
  · intro i _ he
    cases he
  · intro x hx
    cases hx

/-! ## Round-Robin: the invariant -/

@[simp] theorem rrPreempted_remaining (q : Int) (t : Task) :
    (rrPreempted q t).remaining = t.remaining - min q t.remaining := rfl

@[simp] theorem rrPreempted_record (q : Int) (t : Task) :
    (rrPreempted q t).record = t.record := rfl

@[simp] theorem rrFinished_remaining (q now : Int) (t : Task) :
    (rrFinished q now t).remaining = t.remaining - min q t.remaining := rfl

@[simp] theorem rrFinished_record (q now : Int) (t : Task) :
    (rrFinished q now t).record = t.record := rfl

@[simp] theorem rrFinished_wait (q now : Int) (t : Task) :
    (rrFinished q now t).wait = now - t.arrival - t.burst := rfl

theorem qinv_later (tasks : List Task) (arrival : List Int) (queue : List Nat) (ct ct' : Int)
    (excl : Option Nat) (h : QInv tasks arrival queue ct excl) (hct : ct ≤ ct') :
    QInv tasks arrival queue ct' excl :=
  { alen := h.alen, mark := h.mark, waiting := h.waiting, qvalid := h.qvalid
    qcomplete := h.qcomplete
    arrived := fun i t ht ha => le_trans (h.arrived i t ht ha) hct
    qnodup := h.qnodup, exclOut := h.exclOut, exclMark := h.exclMark }

/-- The part of the invariant of `roundRobin` that a slice preserves
whatever else is done to the task that runs. -/
theorem rr_run_common (q : Int) (hq : 1 ≤ q) (orig : List Task) (s s' : RRState)
    (h : RRInv q orig s) (j : Nat) (t t' : Task) (h1 : s.tasks[j]? = some t)
    (harr : t.arrival ≤ s.currentTime) (hpos : 0 < t.remaining)
    (hrec : t'.record = t.record) (hrem : t'.remaining = t.remaining - min q t.remaining)
    (htasks : s'.tasks = s.tasks.set j t')
    (hex : s'.executions = s.executions ++
      [Execution.mk t.id s.currentTime (s.currentTime + min q t.remaining)])
    (hct : s'.currentTime = s.currentTime + min q t.remaining) :
    s'.tasks.map Task.record = orig.map Task.record ∧
    (∀ (i : Nat) (u : Task), s'.tasks[i]? = some u → 0 ≤ u.arrival ∧ 0 < u.burst) ∧
    (∀ (i : Nat) (u : Task), s'.tasks[i]? = some u → 0 ≤ u.remaining ∧ u.remaining ≤ u.burst) ∧
    (∀ e ∈ s'.executions, e.end_ ≤ s'.currentTime) ∧
    (s'.executions.Chain' fun a b => a.end_ ≤ b.start) ∧
    (∀ e ∈ s'.executions, e.start < e.end_ ∧ e.end_ - e.start ≤ q) ∧
    (∀ (i : Nat) (u : Task), s'.tasks[i]? = some u → 0 < u.remaining →
      q ∣ u.burst - u.remaining) ∧
    (∀ id : Int, (intervalCount id s'.executions : Int)
      = (s'.tasks.map fun u =>
          if u.id = id then ceilDiv (u.burst - u.remaining) q else 0).sum) ∧
    busyTime s'.executions = (s'.tasks.map fun u => u.burst - u.remaining).sum ∧
    (∀ (i : Nat) (u : Task), s'.tasks[i]? = some u → u.remaining < u.burst →
      u.arrival + (u.burst - u.remaining) ≤ s'.currentTime) ∧
    (∀ e ∈ s'.executions, ∃ (i : Nat) (u : Task), s'.tasks[i]? = some u ∧
      e.id = u.id ∧ u.arrival ≤ e.start) := by
  have hid : t'.id = t.id := congrArg Record.id hrec
  have hbu : t'.burst = t.burst := congrArg Record.burst hrec
  have har : t'.arrival = t.arrival := congrArg Record.arrival hrec
  obtain ⟨hta, htb⟩ := h.pre j t h1
  obtain ⟨hr0, hr1⟩ := h.rem j t h1
  have hs1 : 1 ≤ min q t.remaining := le_min hq (by omega)
  have hs2 : min q t.remaining ≤ t.remaining := min_le_right _ _
  have hs3 : min q t.remaining ≤ q := min_le_left _ _
  rw [htasks, hex, hct]
  refine ⟨?_, ?_, ?_, ?_, ?_, ?_, ?_, ?_, ?_, ?_, ?_⟩
  · exact (map_set_same Task.record s.tasks j t t' h1 hrec).trans h.keys
  · intro i u hu
    by_cases hij : i = j
    · subst hij
      rw [getElem?_set_hit _ h1] at hu
      cases hu
      rw [har, hbu]
      exact ⟨hta, htb⟩
    · rw [getElem?_set_miss _ hij] at hu
      exact h.pre i u hu
  · intro i u hu
    by_cases hij : i = j
    · subst hij
      rw [getElem?_set_hit _ h1] at hu
      cases hu
      rw [hrem, hbu]
      omega
    · rw [getElem?_set_miss _ hij] at hu
      exact h.rem i u hu
  · intro e he
    simp only [List.mem_append, List.mem_singleton] at he
    rcases he with he | rfl
    · have := h.ends e he
      omega
    · exact le_refl _
  · exact chain_push _ _ _ h.chain (fun x hx => h.ends x hx)
  · intro e he
    simp only [List.mem_append, List.mem_singleton] at he
    rcases he with he | rfl
    · exact h.slice e he
    · simp only
      omega
  · intro i u hu hup
    by_cases hij : i = j
    · subst hij
      rw [getElem?_set_hit _ h1] at hu
      cases hu
      rw [hbu, hrem]
      rw [hrem] at hup
      have hmin : min q t.remaining = q := by
        rcases min_choice q t.remaining with hm | hm
        · exact hm
        · omega
      rw [hmin]
      have := h.full i t h1 hpos
      have e : t.burst - (t.remaining - q) = (t.burst - t.remaining) + q := by ring
      rw [e]
      exact dvd_add this (dvd_refl q)
    · rw [getElem?_set_miss _ hij] at hu
      exact h.full i u hu hup
  · intro id
    rw [intervalCount_append, sum_map_set _ _ j t t' h1]
    have := h.counts id
    have hstep := ceilDiv_step q (t.burst - t.remaining) (min q t.remaining) hq
      (h.full j t h1 hpos) (by omega) hs3
    have e : t.burst - (t.remaining - min q t.remaining)
        = t.burst - t.remaining + min q t.remaining := by ring
    push_cast
    rw [hid, hbu, hrem, e, hstep]
    by_cases hc : t.id = id
    · simp only [hc, if_true]
      omega
    · simp only [hc, if_false]
      omega
  · rw [busyTime_append, sum_map_set _ _ j t t' h1, hbu, hrem]
    have := h.busy
    simp only
    omega
  · intro i u hu hlt
    by_cases hij : i = j
    · subst hij
      rw [getElem?_set_hit _ h1] at hu
      cases hu
      rw [har, hbu, hrem]
      by_cases hfull : t.remaining < t.burst
      · have := h.progress i t h1 hfull
        omega
      · omega
    · rw [getElem?_set_miss _ hij] at hu
      have := h.progress i u hu hlt
      omega
  · intro e he
    simp only [List.mem_append, List.mem_singleton] at he
    rcases he with he | rfl
    · obtain ⟨i, u, hu, a, b⟩ := h.lens e he
      by_cases hij : i = j
      · subst hij
        rw [h1] at hu
        cases hu
        exact ⟨i, t', getElem?_set_hit _ h1, by rw [hid]; exact a, by rw [har]; exact b⟩
      · exact ⟨i, u, by rw [getElem?_set_miss _ hij]; exact hu, a, b⟩
    · exact ⟨j, t', getElem?_set_hit _ h1, hid.symm, by rw [har]; exact harr⟩

/-- What the admission loop at the head of an iteration of `roundRobin`
establishes. -/
theorem rr_after_admission (q : Int) (orig : List Task) (s : RRState) (h : RRInv q orig s) :
    QInv s.tasks (rrMark s.currentTime s.arrival)
      (s.readyQueue ++ rrAdmitted s.currentTime s.arrival 0) s.currentTime none ∧
    ∀ (i : Nat) (t : Task) (a : Int), s.tasks[i]? = some t →
      (rrMark s.currentTime s.arrival)[i]? = some a → a ≠ -1 →
        a = t.arrival ∧ s.currentTime < t.arrival :=
  qinv_admission s.tasks s.arrival s.readyQueue s.currentTime s.currentTime none h.queue
    (le_refl _) (fun i t ht => (h.pre i t ht).2)

theorem rrInv_step (q : Int) (hq : 1 ≤ q) (orig : List Task) (s : RRState)
    (h : RRInv q orig s) : RRInv q orig (rrBody q s) := by
  obtain ⟨hQ1, -⟩ := rr_after_admission q orig s h
  have hvalid : ∀ i ∈ s.readyQueue ++ rrAdmitted s.currentTime s.arrival 0,
      ∃ t, s.tasks[i]? = some t := by
    intro i hi
    obtain ⟨t, ht, -⟩ := hQ1.qvalid i hi
    exact ⟨t, ht⟩
  rcases rrBody_cases q s hvalid with ⟨hqueue, heq⟩ | ⟨current, rest, t, hqueue, h1, heq⟩
  · rw [heq]
    rw [hqueue] at hQ1
    exact
      { queue := qinv_later _ _ _ _ _ _ hQ1 (by simp)
        keys := h.keys, pre := h.pre, rem := h.rem, count := h.count
        ends := fun e he => le_trans (h.ends e he) (by simp)
        chain := h.chain, slice := h.slice, short := h.short, full := h.full
        counts := h.counts, busy := h.busy
        progress := fun i u hu hlt => le_trans (h.progress i u hu hlt) (by simp)
        ran := h.ran, last := h.last, lens := h.lens }
  · rw [heq]
    rw [hqueue] at hQ1
    obtain ⟨t₀, ht₀, hmark, hpos₀⟩ := hQ1.qvalid current (List.mem_cons_self _ _)
    rw [h1] at ht₀
    cases ht₀
    have hpos : 0 < t.remaining := hpos₀
    have harr : t.arrival ≤ s.currentTime := hQ1.arrived current t h1 hmark
    obtain ⟨hta, htb⟩ := h.pre current t h1
    obtain ⟨hr0, hr1⟩ := h.rem current t h1
    have hs1 : 1 ≤ min q t.remaining := le_min hq (by omega)
    have hs2 : min q t.remaining ≤ t.remaining := min_le_right _ _
    by_cases hgo : t.remaining - min q t.remaining > 0
    · -- the task is preempted
      have hrun : rrDispatch q s current rest t =
          { tasks := s.tasks.set current (rrPreempted q t)
            executions := s.executions ++
              [Execution.mk t.id s.currentTime (s.currentTime + min q t.remaining)]
            currentTime := s.currentTime + min q t.remaining
            readyQueue := (rest ++ rrAdmitted (s.currentTime + min q t.remaining)
              (rrMark s.currentTime s.arrival) 0) ++ [current]
            completed := s.completed
            arrival := rrMark (s.currentTime + min q t.remaining)
              (rrMark s.currentTime s.arrival) } := by
        unfold rrDispatch
        rw [if_pos hgo]
      rw [hrun]
      obtain ⟨c1, c2, c3, c4, c5, c6, c7, c8, c9, c10, c11⟩ :=
        rr_run_common q hq orig s _ h current t (rrPreempted q t) h1 harr hpos rfl rfl
          (rfl : (RRState.mk (s.tasks.set current (rrPreempted q t)) _ _ _ _ _).tasks = _)
          rfl rfl
      have hmin : min q t.remaining = q := by
        rcases min_choice q t.remaining with hm | hm
        · exact hm
        · omega
      refine
        { queue := ?_, keys := c1, pre := c2, rem := c3, count := ?_, ends := c4, chain := c5
          slice := c6, short := ?_, full := c7, counts := c8, busy := c9, progress := c10
          ran := ?_, last := ?_, lens := c11 }
      · have hQ2 := qinv_take s.tasks _ current rest s.currentTime t (rrPreempted q t) hQ1 h1 rfl
        have hQ3 := (qinv_admission _ _ rest s.currentTime (s.currentTime + min q t.remaining)
          (some current) hQ2 (by omega) (fun i u hu => (c2 i u hu).2)).1
        exact qinv_requeue _ _ _ _ current (rrPreempted q t) hQ3 (getElem?_set_hit _ h1) hgo
      · simp only
        rw [sum_map_set _ _ current t _ h1]
        have := h.count
        have hne : t.remaining ≠ 0 := by omega
        have hne' : ¬ (t.remaining - min q t.remaining = 0) := by omega
        simp only [rrPreempted_remaining, hne, hne', if_false]
        omega
      · intro e he
        simp only [List.mem_append, List.mem_singleton] at he
        rcases he with he | rfl
        · rcases h.short e he with hl | ⟨i, u, hu, a, b, c⟩
          · exact Or.inl hl
          · right
            have hic : i ≠ current := by
              intro hic
              subst hic
              rw [h1] at hu
              cases hu
              omega
            exact ⟨i, u, by simp only; rw [getElem?_set_miss _ hic]; exact hu, a, b, c⟩
        · left
          simp only
          omega
      · intro i u hu hu0
        simp only at hu ⊢
        by_cases hic : i = current
        · subst hic
          rw [getElem?_set_hit _ h1] at hu
          cases hu
          simp only [rrPreempted_remaining] at hu0
          omega
        · rw [getElem?_set_miss _ hic] at hu
          obtain ⟨a, e, he, b⟩ := h.ran i u hu hu0
          exact ⟨a, e, List.mem_append_left _ he, b⟩
      · intro hnd i u hu hu0
        simp only at hnd hu ⊢
        by_cases hic : i = current
        · subst hic
          rw [getElem?_set_hit _ h1] at hu
          cases hu
          simp only [rrPreempted_remaining] at hu0
          omega
        · rw [getElem?_set_miss _ hic] at hu
          have hids : (s.tasks.set current (rrPreempted q t)).map (fun t => t.id)
              = s.tasks.map fun t => t.id := map_set_same _ s.tasks current t _ h1 rfl
          rw [hids] at hnd
          have hne : t.id ≠ u.id := ids_ne_of_nodup hnd h1 hu (Ne.symm hic)
          rw [lastEnd_append]
          simp only [if_neg hne]
          exact h.last hnd i u hu hu0
    · -- the task is finished
      have hrun : rrDispatch q s current rest t =
          { tasks := s.tasks.set current
              (rrFinished q (s.currentTime + min q t.remaining) t)
            executions := s.executions ++
              [Execution.mk t.id s.currentTime (s.currentTime + min q t.remaining)]
            currentTime := s.currentTime + min q t.remaining
            readyQueue := rest ++ rrAdmitted (s.currentTime + min q t.remaining)
              (rrMark s.currentTime s.arrival) 0
            completed := s.completed + 1
            arrival := rrMark (s.currentTime + min q t.remaining)
              (rrMark s.currentTime s.arrival) } := by
        unfold rrDispatch
        rw [if_neg hgo]
      rw [hrun]
      obtain ⟨c1, c2, c3, c4, c5, c6, c7, c8, c9, c10, c11⟩ :=
        rr_run_common q hq orig s _ h current t
          (rrFinished q (s.currentTime + min q t.remaining) t) h1 harr hpos rfl rfl
          (rfl : (RRState.mk (s.tasks.set current
            (rrFinished q (s.currentTime + min q t.remaining) t)) _ _ _ _ _).tasks = _)
          rfl rfl
      have hzero : t.remaining - min q t.remaining = 0 := by omega
      have hlate : t.arrival + t.burst ≤ s.currentTime + min q t.remaining := by
        by_cases hfull : t.remaining < t.burst
        · have := h.progress current t h1 hfull
          omega
        · omega
      refine
        { queue := ?_, keys := c1, pre := c2, rem := c3, count := ?_, ends := c4, chain := c5
          slice := c6, short := ?_, full := c7, counts := c8, busy := c9, progress := c10
          ran := ?_, last := ?_, lens := c11 }
      · have hQ2 := qinv_take s.tasks _ current rest s.currentTime t
          (rrFinished q (s.currentTime + min q t.remaining) t) hQ1 h1 rfl
        have hQ3 := (qinv_admission _ _ rest s.currentTime (s.currentTime + min q t.remaining)
          (some current) hQ2 (by omega) (fun i u hu => (c2 i u hu).2)).1
        exact qinv_finish _ _ _ _ current _ hQ3 (getElem?_set_hit _ h1)
          (by simp only [rrFinished_remaining]; omega)
      · simp only
        rw [sum_map_set _ _ current t _ h1]
        have := h.count
        have hne : t.remaining ≠ 0 := by omega
        push_cast
        simp only [rrFinished_remaining, hne, hzero, if_false, if_true]
        omega
      · intro e he
        simp only [List.mem_append, List.mem_singleton] at he
        rcases he with he | rfl
        · rcases h.short e he with hl | ⟨i, u, hu, a, b, c⟩
          · exact Or.inl hl
          · right
            have hic : i ≠ current := by
              intro hic
              subst hic
              rw [h1] at hu
              cases hu
              omega
            exact ⟨i, u, by simp only; rw [getElem?_set_miss _ hic]; exact hu, a, b, c⟩
        · right
          refine ⟨current, _, getElem?_set_hit _ h1, rfl, hzero, ?_⟩
          simp only [rrFinished_wait]
          show s.currentTime + min q t.remaining
            = t.arrival + (s.currentTime + min q t.remaining - t.arrival - t.burst) + t.burst
          omega
      · intro i u hu hu0
        simp only at hu ⊢
        by_cases hic : i = current
        · subst hic
          rw [getElem?_set_hit _ h1] at hu
          cases hu
          refine ⟨?_, _, List.mem_append_right _ (List.mem_singleton_self _), rfl, ?_⟩
          · simp only [rrFinished_wait]
            omega
          · simp only [rrFinished_wait]
            show s.currentTime + min q t.remaining
              = t.arrival + (s.currentTime + min q t.remaining - t.arrival - t.burst) + t.burst
            omega
        · rw [getElem?_set_miss _ hic] at hu
          obtain ⟨a, e, he, b⟩ := h.ran i u hu hu0
          exact ⟨a, e, List.mem_append_left _ he, b⟩
      · intro hnd i u hu hu0
        simp only at hnd hu ⊢
        have hids : (s.tasks.set current
            (rrFinished q (s.currentTime + min q t.remaining) t)).map (fun t => t.id)
            = s.tasks.map fun t => t.id := map_set_same _ s.tasks current t _ h1 rfl
        rw [hids] at hnd
        rw [lastEnd_append]
        by_cases hic : i = current
        · subst hic
          rw [getElem?_set_hit _ h1] at hu
          cases hu
          have hid : (rrFinished q (s.currentTime + min q t.remaining) t).id = t.id := rfl
          rw [if_pos hid.symm]
          congr 1
          show s.currentTime + min q t.remaining
            = t.arrival + (s.currentTime + min q t.remaining - t.arrival - t.burst) + t.burst
          omega
        · rw [getElem?_set_miss _ hic] at hu
          have hne : t.id ≠ u.id := ids_ne_of_nodup hnd h1 hu (Ne.symm hic)
          simp only [if_neg hne]
          exact h.last hnd i u hu hu0

/-! ## Round-Robin: the clock, and termination -/

/-- While `roundRobin` is not done, some task is unfinished. -/
theorem rr_exists_pending (q : Int) (orig : List Task) (s : RRState) (h : RRInv q orig s)
    (hc : rrCond s = true) :
    ∃ (k : Nat) (t : Task), s.tasks[k]? = some t ∧ 0 < t.remaining := by
  have hne : s.completed ≠ s.tasks.length := by simpa [rrCond] using hc
  have hle := flags_sum_le (s.tasks.map fun t => decide (t.remaining = 0))
  rw [finished_flags, ← h.count, List.length_map] at hle
  have hsum : ((s.tasks.map fun t => decide (t.remaining = 0)).map
      fun c => if c = true then (1 : Int) else 0).sum
      < (s.tasks.map fun t => decide (t.remaining = 0)).length := by
    rw [finished_flags, ← h.count, List.length_map]
    omega
  obtain ⟨k, hk⟩ := exists_false_of_flags_sum_lt _ hsum
  rw [List.getElem?_map] at hk
  cases ht : s.tasks[k]? with
  | none => simp [ht] at hk
  | some t =>
    simp only [ht, Option.map_some', Option.some.injEq, decide_eq_false_iff_not] at hk
    have := (h.rem k t (by rw [ht])).1
    exact ⟨k, t, ht, by omega⟩

/-- When the loop of `roundRobin` has ended, every task is finished. -/
theorem rr_all_done (q : Int) (orig : List Task) (s : RRState) (h : RRInv q orig s)
    (hc : rrCond s = false) :
    ∀ (i : Nat) (t : Task), s.tasks[i]? = some t → t.remaining = 0 := by
  have heq : s.completed = s.tasks.length := by simpa [rrCond] using hc
  have hsum : ((s.tasks.map fun t => decide (t.remaining = 0)).length : Int)
      ≤ ((s.tasks.map fun t => decide (t.remaining = 0)).map
        fun c => if c = true then (1 : Int) else 0).sum := by
    rw [finished_flags, ← h.count, List.length_map, heq]
  intro i t ht
  have hi : i < (s.tasks.map fun t => decide (t.remaining = 0)).length := by
    rw [List.length_map]
    exact (List.getElem?_eq_some.mp ht).1
  have := all_true_of_flags_sum_ge _ hsum i hi
  rw [List.getElem?_map, ht] at this
  simpa using this

/-- In an iteration of `roundRobin` that idles, every unfinished task
arrives later than the current time. -/
theorem rr_idle_late (q : Int) (orig : List Task) (s : RRState) (h : RRInv q orig s)
    (hqueue : s.readyQueue ++ rrAdmitted s.currentTime s.arrival 0 = []) :
    ∀ (i : Nat) (t : Task), s.tasks[i]? = some t → 0 < t.remaining →
      s.currentTime < t.arrival := by
  obtain ⟨hQ1, hpost⟩ := rr_after_admission q orig s h
  rw [hqueue] at hQ1
  intro i t ht hpos
  have hil : i < (rrMark s.currentTime s.arrival).length := by
    rw [hQ1.alen]
    exact (List.getElem?_eq_some.mp ht).1
  have ha : (rrMark s.currentTime s.arrival)[i]? = some (rrMark s.currentTime s.arrival)[i] :=
    List.getElem?_eq_getElem hil
  by_cases hm : (rrMark s.currentTime s.arrival)[i] = -1
  · rw [hm] at ha
    rcases hQ1.qcomplete i t ht ha hpos with hq | he
    · simp at hq
    · cases he
  · exact (hpost i t _ ht ha hm).2

theorem rrInvB_step (q : Int) (hq : 1 ≤ q) (orig : List Task) (lo hi : Int) (s : RRState)
    (h : RRInv q orig s) (hB : RRInvB lo hi s) (hc : rrCond s = true) :
    RRInvB lo hi (rrBody q s) := by
  obtain ⟨hQ1, -⟩ := rr_after_admission q orig s h
  have hvalid : ∀ i ∈ s.readyQueue ++ rrAdmitted s.currentTime s.arrival 0,
      ∃ t, s.tasks[i]? = some t := by
    intro i hi
    obtain ⟨t, ht, -⟩ := hQ1.qvalid i hi
    exact ⟨t, ht⟩
  rcases rrBody_cases q s hvalid with ⟨hqueue, heq⟩ | ⟨current, rest, t, hqueue, h1, heq⟩
  · rw [heq]
    have hlate := rr_idle_late q orig s h hqueue
    obtain ⟨k, u, hu, hup⟩ := rr_exists_pending q orig s h hc
    have hku := hlate k u hu hup
    have hr := hB.range k u hu
    refine
      { range := hB.range, attained := hB.attained, busy0 := hB.busy0, time := ?_, first := ?_
        head := hB.head }
    · show s.currentTime + 1 ≤ hi + busyTime s.executions
      have := hB.busy0
      omega
    · intro hnil
      obtain ⟨-, hall⟩ := hB.first hnil
      refine ⟨?_, hall⟩
      have hne : s.tasks ≠ [] := by
        intro hn
        rw [hn] at hu
        simp at hu
      obtain ⟨i, v, hv, hvlo⟩ := hB.attained hne
      have := hlate i v hv (by rw [hall i v hv]; exact (h.pre i v hv).2)
      show s.currentTime + 1 ≤ lo
      omega
  · rw [heq]
    rw [hqueue] at hQ1
    obtain ⟨t₀, ht₀, hmark, hpos₀⟩ := hQ1.qvalid current (List.mem_cons_self _ _)
    rw [h1] at ht₀
    cases ht₀
    have harr : t.arrival ≤ s.currentTime := hQ1.arrived current t h1 hmark
    have hr := hB.range current t h1
    have key : ∀ (s' : RRState) (t' : Task), t'.record = t.record →
        s'.tasks = s.tasks.set current t' →
        s'.executions = s.executions ++
          [Execution.mk t.id s.currentTime (s.currentTime + min q t.remaining)] →
        s'.currentTime = s.currentTime + min q t.remaining →
        0 ≤ min q t.remaining → RRInvB lo hi s' := by
      intro s' t' hrec htasks hex hct hsl
      have har : t'.arrival = t.arrival := congrArg Record.arrival hrec
      refine
        { range := ?_, attained := ?_, busy0 := ?_, time := ?_, first := ?_, head := ?_ }
      · intro i u hu
        rw [htasks] at hu
        by_cases hij : i = current
        · subst hij
          rw [getElem?_set_hit _ h1] at hu
          cases hu
          rw [har]
          exact hr
        · rw [getElem?_set_miss _ hij] at hu
          exact hB.range i u hu
      · intro _
        have hne : s.tasks ≠ [] := by
          intro hn
          rw [hn] at h1
          simp at h1
        obtain ⟨i, v, hv, hvlo⟩ := hB.attained hne
        rw [htasks]
        by_cases hij : i = current
        · subst hij
          rw [h1] at hv
          cases hv
          exact ⟨i, t', getElem?_set_hit _ h1, by rw [har]; exact hvlo⟩
        · exact ⟨i, v, by rw [getElem?_set_miss _ hij]; exact hv, hvlo⟩
      · rw [hex, busyTime_append]
        have := hB.busy0
        simp only
        omega
      · rw [hex, hct, busyTime_append]
        have := hB.time
        simp only
        omega
      · intro hnil
        rw [hex] at hnil
        simp at hnil
      · intro e he
        rw [hex, List.head?_append] at he
        cases hexs : s.executions with
        | nil =>
          rw [hexs] at he
          simp only [List.head?_nil, Option.or, List.head?_cons, Option.some.injEq] at he
          subst he
          have := (hB.first hexs).1
          show s.currentTime = lo
          omega
        | cons e₀ rest =>
          rw [hexs] at he
          simp only [List.head?_cons, Option.or, Option.some.injEq] at he
          subst he
          exact hB.head e₀ (by rw [hexs]; rfl)
    have hsl : 0 ≤ min q t.remaining := le_min (by omega) (by omega)
    unfold rrDispatch
    split
    · exact key _ (rrPreempted q t) rfl rfl rfl rfl hsl
    · exact key _ (rrFinished q (s.currentTime + min q t.remaining) t) rfl rfl rfl rfl hsl

/-- The measure that decreases in each iteration of `roundRobin`. -/
theorem rr_measure_decreases (q : Int) (hq : 1 ≤ q) (orig : List Task) (lo hi : Int)
    (s : RRState) (h : RRInv q orig s) (hB : RRInvB lo hi s) (hc : rrCond s = true) :
    (((rrBody q s).tasks.map fun t : Task => t.remaining).sum.toNat
        + (hi - (rrBody q s).currentTime).toNat)
      < ((s.tasks.map fun t : Task => t.remaining).sum.toNat + (hi - s.currentTime).toNat) := by
  obtain ⟨hQ1, -⟩ := rr_after_admission q orig s h
  have hvalid : ∀ i ∈ s.readyQueue ++ rrAdmitted s.currentTime s.arrival 0,
      ∃ t, s.tasks[i]? = some t := by
    intro i hi
    obtain ⟨t, ht, -⟩ := hQ1.qvalid i hi
    exact ⟨t, ht⟩
  rcases rrBody_cases q s hvalid with ⟨hqueue, heq⟩ | ⟨current, rest, t, hqueue, h1, heq⟩
  · rw [heq]
    obtain ⟨k, u, hu, hup⟩ := rr_exists_pending q orig s h hc
    have := rr_idle_late q orig s h hqueue k u hu hup
    have hr := hB.range k u hu
    simp only
    omega
  · rw [heq]
    rw [hqueue] at hQ1
    obtain ⟨t₀, ht₀, hmark, hpos₀⟩ := hQ1.qvalid current (List.mem_cons_self _ _)
    rw [h1] at ht₀
    cases ht₀
    have hs1 : 1 ≤ min q t.remaining := le_min hq (by omega)
    have hsum := single_le_sum (fun t : Task => t.remaining) s.tasks current t
      (fun i x hx => (h.rem i x hx).1) h1
    have hset : ∀ t' : Task, t'.remaining = t.remaining - min q t.remaining →
        ((s.tasks.set current t').map fun t => t.remaining).sum
          = (s.tasks.map fun t => t.remaining).sum - min q t.remaining := by
      intro t' ht'
      rw [sum_map_set _ _ current t t' h1, ht']
      omega
    simp only at hsum
    have hs2 : min q t.remaining ≤ t.remaining := min_le_right _ _
    unfold rrDispatch
    split
    · simp only
      rw [hset (rrPreempted q t) rfl]
      omega
    · simp only
      rw [hset (rrFinished q (s.currentTime + min q t.remaining) t) rfl]
      omega

theorem rrInv_init (q : Int) (hq : 1 ≤ q) (tasks : List Task)
    (hpre : ∀ t ∈ tasks, 0 ≤ t.arrival ∧ 0 < t.burst) : RRInv q tasks (rrInit tasks) := by
  have hget : ∀ (i : Nat) (u : Task), (rrInit tasks).tasks[i]? = some u →
      ∃ t ∈ tasks, tasks[i]? = some t ∧ u = { t with remaining := t.burst } := by
    intro i u hu
    simp only [rrInit, List.getElem?_map] at hu
    cases ht : tasks[i]? with
    | none => simp [ht] at hu
    | some t =>
      simp only [ht, Option.map_some', Option.some.injEq] at hu
      exact ⟨t, List.mem_iff_getElem?.mpr ⟨i, ht⟩, rfl, hu.symm⟩
  have hmarks : ∀ (i : Nat) (u : Task) (a : Int), (rrInit tasks).tasks[i]? = some u →
      (rrInit tasks).arrival[i]? = some a → a = u.arrival ∧ 0 ≤ a := by
    intro i u a hu ha
    obtain ⟨t, htm, ht, rfl⟩ := hget i u hu
    simp only [rrInit, List.getElem?_map, ht, Option.map_some', Option.some.injEq] at ha
    subst ha
    exact ⟨rfl, (hpre t htm).1⟩
  have hmem : ∀ u ∈ (rrInit tasks).tasks, u.remaining = u.burst ∧ 0 < u.burst := by
    intro u hu
    obtain ⟨i, hi⟩ := List.mem_iff_getElem?.mp hu
    obtain ⟨t, htm, -, rfl⟩ := hget i u hi
    exact ⟨rfl, (hpre t htm).2⟩
  refine
    { queue := ?_, keys := ?_, pre := ?_, rem := ?_, count := ?_, ends := ?_, chain := ?_
      slice := ?_, short := ?_, full := ?_, counts := ?_, busy := ?_, progress := ?_
      ran := ?_, last := ?_, lens := ?_ }
  · refine
      { alen := ?_, mark := ?_, waiting := ?_, qvalid := ?_, qcomplete := ?_, arrived := ?_
        qnodup := ?_, exclOut := ?_, exclMark := ?_ }
    · simp [rrInit]
    · intro i u a hu ha
      exact Or.inl (hmarks i u a hu ha).1
    · intro i u a hu _ _
      exact (hmem u (List.mem_iff_getElem?.mpr ⟨i, hu⟩)).1
    · intro i hi
      simp [rrInit] at hi
    · intro i u hu ha _
      have := (hmarks i u (-1) hu ha).2
      omega
    · intro i u hu ha
      have := (hmarks i u (-1) hu ha).2
      omega
    · simp [rrInit]
    · intro i hi
      simp [rrInit] at hi
    · intro x hx
      cases hx
  · simp only [rrInit, List.map_map]
    rfl
  · intro i u hu
    obtain ⟨t, htm, -, rfl⟩ := hget i u hu
    exact hpre t htm
  · intro i u hu
    have := hmem u (List.mem_iff_getElem?.mpr ⟨i, hu⟩)
    omega
  · have : (((rrInit tasks).completed : Nat) : Int) = 0 := rfl
    rw [this]
    symm
    apply List.sum_eq_zero
    intro x hx
    obtain ⟨u, hu, rfl⟩ := List.mem_map.mp hx
    have := hmem u hu
    have hne : u.remaining ≠ 0 := by omega
    simp [hne]
  · intro e he
    simp [rrInit] at he
  · simp [rrInit]
  · intro e he
    simp [rrInit] at he
  · intro e he
    simp [rrInit] at he
  · intro i u hu _
    have := hmem u (List.mem_iff_getElem?.mpr ⟨i, hu⟩)
    rw [this.1]
    simp
  · intro id
    have : ((intervalCount id (rrInit tasks).executions : Nat) : Int) = 0 := rfl
    rw [this]
    symm
    apply List.sum_eq_zero
    intro x hx
    obtain ⟨u, hu, rfl⟩ := List.mem_map.mp hx
    have := hmem u hu
    rw [this.1]
    simp [ceilDiv]
    intro _
    exact Int.ediv_eq_zero_of_lt (by omega) (by omega)
  · have : busyTime (rrInit tasks).executions = 0 := rfl
    rw [this]
    symm
    apply List.sum_eq_zero
    intro x hx
    obtain ⟨u, hu, rfl⟩ := List.mem_map.mp hx
    have := hmem u hu
    omega
  · intro i u hu hlt
    have := hmem u (List.mem_iff_getElem?.mpr ⟨i, hu⟩)
    omega
  · intro i u hu h0
    have := hmem u (List.mem_iff_getElem?.mpr ⟨i, hu⟩)
    omega
  · intro _ i u hu h0
    have := hmem u (List.mem_iff_getElem?.mpr ⟨i, hu⟩)
    omega
  · intro e he
    simp [rrInit] at he

theorem rrInvB_init (tasks : List Task) (lo hi : Int) (hlo : 0 ≤ lo) (hhi : 0 ≤ hi)
    (hrange : ∀ t ∈ tasks, lo ≤ t.arrival ∧ t.arrival ≤ hi)
    (hatt : tasks ≠ [] → ∃ t ∈ tasks, t.arrival = lo) :
    RRInvB lo hi (rrInit tasks) := by
  have hget : ∀ (i : Nat) (u : Task), (rrInit tasks).tasks[i]? = some u →
      ∃ t ∈ tasks, tasks[i]? = some t ∧ u = { t with remaining := t.burst } := by
    intro i u hu
    simp only [rrInit, List.getElem?_map] at hu
    cases ht : tasks[i]? with
    | none => simp [ht] at hu
    | some t =>
      simp only [ht, Option.map_some', Option.some.injEq] at hu
      exact ⟨t, List.mem_iff_getElem?.mpr ⟨i, ht⟩, rfl, hu.symm⟩
  refine
    { range := ?_, attained := ?_, busy0 := ?_, time := ?_, first := ?_, head := ?_ }
  · intro i u hu
    obtain ⟨t, htm, -, rfl⟩ := hget i u hu
    exact hrange t htm
  · intro hne
    have hne' : tasks ≠ [] := by
      intro hn
      apply hne
      simp [rrInit, hn]
    obtain ⟨t, ht, hlo'⟩ := hatt hne'
    obtain ⟨i, hi'⟩ := List.mem_iff_getElem?.mp ht
    refine ⟨i, { t with remaining := t.burst }, ?_, hlo'⟩
    simp [rrInit, List.getElem?_map, hi']
  · simp [rrInit, busyTime]
  · simp [rrInit, busyTime, hhi]
  · intro _
    refine ⟨hlo, ?_⟩
    intro i u hu
    obtain ⟨t, -, -, rfl⟩ := hget i u hu
    rfl
  · intro e he
    simp [rrInit] at he

/-- The loop of `roundRobin` ends. -/
theorem rr_loop_terminates (q : Int) (hq : 1 ≤ q) (tasks : List Task)
    (hpre : ∀ t ∈ tasks, 0 ≤ t.arrival ∧ 0 < t.burst) :
    ∃ s, whileLoop rrCond (rrBody q) ((totalBurst tasks).toNat + (maxArrival tasks).toNat)
      (rrInit tasks) = some s := by
  by_cases hne : tasks = []
  · subst hne
    exact ⟨rrInit [], rfl⟩
  obtain ⟨m, hm, hmin⟩ := exists_min_arrival tasks hne
  have hinv := rrInv_init q hq tasks hpre
  have hinvB := rrInvB_init tasks m.arrival (maxArrival tasks) (hpre m hm).1
    (maxArrival_nonneg tasks)
    (fun t ht => ⟨hmin t ht, arrival_le_maxArrival tasks t ht⟩)
    (fun _ => ⟨m, hm, rfl⟩)
  apply whileLoop_terminates rrCond (rrBody q)
    (fun s => RRInv q tasks s ∧ RRInvB m.arrival (maxArrival tasks) s)
    (fun s => (s.tasks.map fun t : Task => t.remaining).sum.toNat
      + (maxArrival tasks - s.currentTime).toNat)
  · intro s hs hc
    exact ⟨rrInv_step q hq _ s hs.1, rrInvB_step q hq _ _ _ s hs.1 hs.2 hc⟩
  · intro s hs hc
    exact rr_measure_decreases q hq _ _ _ s hs.1 hs.2 hc
  · exact ⟨hinv, hinvB⟩
  · have : ((rrInit tasks).tasks.map fun t : Task => t.remaining) = tasks.map fun t => t.burst := by
      simp only [rrInit, List.map_map]
      rfl
    simp only [this, totalBurst]
    simp [rrInit]

/-- What holds when the loop of `roundRobin` has ended. -/
theorem rr_loop_final (q : Int) (hq : 1 ≤ q) (tasks : List Task)
    (hpre : ∀ t ∈ tasks, 0 ≤ t.arrival ∧ 0 < t.burst)
    (fuel : Nat) (s : RRState)
    (h : whileLoop rrCond (rrBody q) fuel (rrInit tasks) = some s) :
    RRInv q tasks s ∧
    (∀ (i : Nat) (t : Task), s.tasks[i]? = some t → t.remaining = 0) ∧
    ∀ lo hi : Int, 0 ≤ lo → lo ≤ hi → (∀ t ∈ tasks, lo ≤ t.arrival ∧ t.arrival ≤ hi) →
      (tasks ≠ [] → ∃ t ∈ tasks, t.arrival = lo) → RRInvB lo hi s := by
  obtain ⟨hinv, hc⟩ := whileLoop_inv rrCond (rrBody q) (RRInv q tasks)
    (fun s hs _ => rrInv_step q hq _ s hs) fuel _ s (rrInv_init q hq tasks hpre) h
  refine ⟨hinv, rr_all_done q _ s hinv hc, ?_⟩
  intro lo hi hlo hlh hrange hatt
  have hinvB := rrInvB_init tasks lo hi hlo (le_trans hlo hlh) hrange hatt
  exact (whileLoop_inv rrCond (rrBody q)
    (fun s => RRInv q tasks s ∧ RRInvB lo hi s)
    (fun s hs hc' => ⟨rrInv_step q hq _ s hs.1, rrInvB_step q hq _ _ _ s hs.1 hs.2 hc'⟩)
    fuel _ s ⟨rrInv_init q hq tasks hpre, hinvB⟩ h).1.2

/-! ## The compression of `printGanttChart` -/

theorem compressLoop_ne_nil (rest : List Execution) :
    ∀ cur : Execution, compressLoop cur rest ≠ [] := by
  induction rest with
  | nil => intro cur; simp [compressLoop]
  | cons e rest ih =>
    intro cur
    unfold compressLoop
    split
    · exact ih _
    · simp

theorem compressLoop_head (rest : List Execution) :
    ∀ cur : Execution, ∃ x tail, compressLoop cur rest = x :: tail ∧ x.start = cur.start := by
  induction rest with
  | nil => intro cur; exact ⟨cur, [], rfl, rfl⟩
  | cons e rest ih =>
    intro cur
    unfold compressLoop
    split
    · obtain ⟨x, tail, h1, h2⟩ := ih { cur with end_ := e.end_ }
      exact ⟨x, tail, h1, h2⟩
    · exact ⟨cur, _, rfl, rfl⟩

/-- On a raw list whose intervals do not overlap, the compressed list is
gap-free, its entries are non-empty when the raw ones are, and it ends where
the raw list ends. -/
theorem compressLoop_spec (rest : List Execution) :
    ∀ cur : Execution, (cur :: rest).Chain' (fun a b => a.end_ ≤ b.start) →
      (∀ e ∈ cur :: rest, e.start < e.end_) →
      (compressLoop cur rest).Chain' (fun a b => a.end_ = b.start) ∧
      (∀ x ∈ compressLoop cur rest, x.start < x.end_) ∧
      makespan (compressLoop cur rest) = makespan (cur :: rest) := by
  induction rest with
  | nil =>
    intro cur _ hpos
    refine ⟨by simp [compressLoop], ?_, rfl⟩
    intro x hx
    simp only [compressLoop, List.mem_singleton] at hx
    subst hx
    exact hpos _ (List.mem_cons_self _ _)
  | cons e rest ih =>
    intro cur hchain hpos
    have hce : cur.end_ ≤ e.start := (List.chain'_cons.mp hchain).1
    have hchain' : (e :: rest).Chain' (fun a b => a.end_ ≤ b.start) :=
      (List.chain'_cons.mp hchain).2
    have hpe : e.start < e.end_ := hpos e (by simp)
    have hpc : cur.start < cur.end_ := hpos cur (by simp)
    unfold compressLoop
    split
    · rename_i hmerge
      have hc2 : (({ cur with end_ := e.end_ } : Execution) :: rest).Chain'
          (fun a b => a.end_ ≤ b.start) := by
        cases rest with
        | nil => simp
        | cons e' rest' =>
          rw [List.chain'_cons] at hchain' ⊢
          exact ⟨hchain'.1, hchain'.2⟩
      have hp2 : ∀ x ∈ ({ cur with end_ := e.end_ } : Execution) :: rest, x.start < x.end_ := by
        intro x hx
        rcases List.mem_cons.mp hx with rfl | hx
        · show cur.start < e.end_
          omega
        · exact hpos x (by simp [hx])
      obtain ⟨a, b, c⟩ := ih _ hc2 hp2
      refine ⟨a, b, ?_⟩
      rw [c]
      cases rest with
      | nil => simp [makespan]
      | cons e' rest' => simp [makespan, List.getLast?_cons_cons]
    · obtain ⟨a, b, c⟩ := ih e hchain' (fun x hx => hpos x (List.mem_cons_of_mem _ hx))
      obtain ⟨x, tail, hx, hxs⟩ := compressLoop_head rest e
      refine ⟨?_, ?_, ?_⟩
      · by_cases hgap : e.start > cur.end_
        · simp only [if_pos hgap, List.singleton_append]
          rw [List.chain'_cons]
          refine ⟨rfl, ?_⟩
          rw [hx, List.chain'_cons]
          rw [hx] at a
          exact ⟨hxs.symm, a⟩
        · simp only [if_neg hgap, List.nil_append]
          rw [hx, List.chain'_cons]
          rw [hx] at a
          exact ⟨by rw [hxs]; omega, a⟩
      · intro y hy
        rcases List.mem_cons.mp hy with rfl | hy
        · exact hpc
        · rcases List.mem_append.mp hy with hy | hy
          · by_cases hgap : e.start > cur.end_
            · simp only [if_pos hgap, List.mem_singleton] at hy
              subst hy
              exact hgap
            · simp only [if_neg hgap] at hy
              cases hy
          · exact b y hy
      · have hne := compressLoop_ne_nil rest e
        have e1 : makespan (cur :: ((if e.start > cur.end_ then
            [Execution.mk (-1) cur.end_ e.start] else []) ++ compressLoop e rest))
            = makespan (compressLoop e rest) := by
          rw [hx]
          by_cases hgap : e.start > cur.end_
          · simp [makespan, hgap, List.getLast?_cons_cons]
          · simp [makespan, hgap, List.getLast?_cons_cons]
        rw [e1, c]
        simp [makespan, List.getLast?_cons_cons]

/-- The three facts about the chart of a raw list that is in time order:
it starts where the raw list starts, it is gap-free with non-empty entries,
and it ends at the makespan. -/
theorem printGanttChart_spec (raw : List Execution) (hne : raw ≠ [])
    (hchain : raw.Chain' (fun a b => a.end_ ≤ b.start))
    (hpos : ∀ e ∈ raw, e.start < e.end_) :
    (∃ x tail e rest, printGanttChart raw = x :: tail ∧ raw = e :: rest ∧ x.start = e.start) ∧
    (printGanttChart raw).Chain' (fun a b => a.end_ = b.start) ∧
    (∀ x ∈ printGanttChart raw, x.start < x.end_) ∧
    makespan (printGanttChart raw) = makespan raw := by
  cases raw with
  | nil => exact absurd rfl hne
  | cons e rest =>
    obtain ⟨x, tail, hx, hxs⟩ := compressLoop_head rest e
    obtain ⟨a, b, c⟩ := compressLoop_spec rest e hchain hpos
    exact ⟨⟨x, tail, e, rest, hx, rfl, hxs⟩, a, b, c⟩

/-! ## FCFS -/

theorem lastEnd_cons_ne (id : Int) (e : Execution) (l : List Execution) (h : e.id ≠ id) :
    lastEnd id (e :: l) = lastEnd id l := by
  simp [lastEnd, List.filter_cons, h]

theorem lastEnd_cons_only (id : Int) (e : Execution) (l : List Execution) (h : e.id = id)
    (hno : ∀ x ∈ l, x.id ≠ id) : lastEnd id (e :: l) = some e.end_ := by
  have hnil : l.filter (fun e => decide (e.id = id)) = [] := by
    rw [List.filter_eq_nil_iff]
    intro x hx
    simpa using hno x hx
  simp [lastEnd, List.filter_cons, h, hnil]

theorem fcfsLoop_records (l : List Task) :
    ∀ ct : Int, (fcfsLoop ct l).1.map Task.record = l.map Task.record := by
  induction l with
  | nil => intro ct; rfl
  | cons t rest ih =>
    intro ct
    simp only [fcfsLoop, List.map_cons, ih]
    rfl

theorem fcfsLoop_ids (l : List Task) :
    ∀ (ct : Int), ∀ e ∈ (fcfsLoop ct l).2, ∃ t ∈ l, e.id = t.id := by
  induction l with
  | nil => intro ct e he; simp [fcfsLoop] at he
  | cons t rest ih =>
    intro ct e he
    simp only [fcfsLoop, List.mem_cons] at he
    rcases he with rfl | he
    · exact ⟨t, List.mem_cons_self _ _, rfl⟩
    · obtain ⟨u, hu, h⟩ := ih _ e he
      exact ⟨u, List.mem_cons_of_mem _ hu, h⟩

/-- What the loop of `fcfs` computes from the clock value `ct` on. -/
theorem fcfsLoop_spec (l : List Task) (hi : Int) :
    ∀ ct : Int, (∀ t ∈ l, 0 < t.burst ∧ t.arrival ≤ hi) →
      (∀ u ∈ (fcfsLoop ct l).1, 0 ≤ u.wait ∧
        Execution.mk u.id (u.arrival + u.wait) (u.arrival + u.wait + u.burst)
          ∈ (fcfsLoop ct l).2) ∧
      (∀ e ∈ (fcfsLoop ct l).2, ct ≤ e.start ∧ e.start < e.end_ ∧
        e.end_ ≤ max ct hi + totalBurst l) ∧
      (fcfsLoop ct l).2.Chain' (fun a b => a.end_ ≤ b.start) ∧
      ((l.map fun t => t.id).Nodup → ∀ u ∈ (fcfsLoop ct l).1,
        lastEnd u.id (fcfsLoop ct l).2 = some (u.arrival + u.wait + u.burst)) ∧
      busyTime (fcfsLoop ct l).2 = totalBurst l := by
  induction l with
  | nil =>
    intro ct _
    simp [fcfsLoop, busyTime, totalBurst]
  | cons t rest ih =>
    intro ct hpre
    obtain ⟨htb, hth⟩ := hpre t (List.mem_cons_self _ _)
    have hrest : ∀ u ∈ rest, 0 < u.burst ∧ u.arrival ≤ hi :=
      fun u hu => hpre u (List.mem_cons_of_mem _ hu)
    have htot : totalBurst (t :: rest) = t.burst + totalBurst rest := by
      simp [totalBurst]
    have htot0 : 0 ≤ totalBurst rest := by
      unfold totalBurst
      apply List.sum_nonneg
      intro x hx
      obtain ⟨u, hu, rfl⟩ := List.mem_map.mp hx
      exact le_of_lt (hrest u hu).1
    by_cases hlt : ct < t.arrival
    · -- the processor idles until the task arrives
      have hloop : fcfsLoop ct (t :: rest) =
          ({ t with wait := max 0 (t.arrival - t.arrival) } :: (fcfsLoop (t.arrival + t.burst) rest).1,
            Execution.mk t.id t.arrival (t.arrival + t.burst)
              :: (fcfsLoop (t.arrival + t.burst) rest).2) := by
        simp only [fcfsLoop, if_pos hlt]
      obtain ⟨a, b, c, d, e⟩ := ih (t.arrival + t.burst) hrest
      rw [hloop]
      dsimp only
      refine ⟨?_, ?_, ?_, ?_, ?_⟩
      · intro u hu
        rcases List.mem_cons.mp hu with rfl | hu
        · refine ⟨le_max_left _ _, ?_⟩
          simp
        · exact ⟨(a u hu).1, List.mem_cons_of_mem _ (a u hu).2⟩
      · intro x hx
        rcases List.mem_cons.mp hx with rfl | hx
        · refine ⟨le_of_lt hlt, by simp only; omega, ?_⟩
          simp only
          rw [htot]
          have := le_max_right ct hi
          omega
        · obtain ⟨h1, h2, h3⟩ := b x hx
          refine ⟨by omega, h2, ?_⟩
          rw [htot]
          have h4 : max (t.arrival + t.burst) hi ≤ max ct hi + t.burst := by
            have := le_max_right ct hi
            exact max_le (by omega) (by omega)
          omega
      · rw [List.chain'_cons']
        refine ⟨?_, c⟩
        intro y hy
        have : y ∈ (fcfsLoop (t.arrival + t.burst) rest).2 := List.mem_of_mem_head? hy
        exact (b y this).1
      · intro hnd u hu
        simp only [List.map_cons, List.nodup_cons] at hnd
        rcases List.mem_cons.mp hu with rfl | hu
        · refine (lastEnd_cons_only t.id _ _ rfl ?_).trans ?_
          · intro x hx hid
            obtain ⟨v, hv, hxv⟩ := fcfsLoop_ids rest _ x hx
            apply hnd.1
            simp only [List.mem_map]
            exact ⟨v, hv, by rw [← hxv, hid]⟩
          · simp
        · have hrec := fcfsLoop_records rest (t.arrival + t.burst)
          have huid : u.id ∈ rest.map fun t => t.id := by
            have : u.record ∈ (fcfsLoop (t.arrival + t.burst) rest).1.map Task.record :=
              List.mem_map.mpr ⟨u, hu, rfl⟩
            rw [hrec] at this
            obtain ⟨v, hv, hvr⟩ := List.mem_map.mp this
            exact List.mem_map.mpr ⟨v, hv, congrArg Record.id hvr⟩
          have hne : t.id ≠ u.id := by
            intro h
            apply hnd.1
            rw [h]
            exact huid
          rw [lastEnd_cons_ne _ _ _ hne]
          exact d hnd.2 u hu
      · simp only [busyTime, List.map_cons, List.sum_cons] at e ⊢
        rw [e, htot]
        omega
    · -- the task has arrived
      have hloop : fcfsLoop ct (t :: rest) =
          ({ t with wait := max 0 (ct - t.arrival) } :: (fcfsLoop (ct + t.burst) rest).1,
            Execution.mk t.id ct (ct + t.burst) :: (fcfsLoop (ct + t.burst) rest).2) := by
        simp only [fcfsLoop, if_neg hlt]
      have hw : max 0 (ct - t.arrival) = ct - t.arrival := max_eq_right (by omega)
      obtain ⟨a, b, c, d, e⟩ := ih (ct + t.burst) hrest
      rw [hloop]
      dsimp only
      refine ⟨?_, ?_, ?_, ?_, ?_⟩
      · intro u hu
        rcases List.mem_cons.mp hu with rfl | hu
        · refine ⟨le_max_left _ _, ?_⟩
          simp only [hw, List.mem_cons]
          left
          congr 1 <;> omega
        · exact ⟨(a u hu).1, List.mem_cons_of_mem _ (a u hu).2⟩
      · intro x hx
        rcases List.mem_cons.mp hx with rfl | hx
        · refine ⟨le_refl _, by simp only; omega, ?_⟩
          simp only
          rw [htot]
          have := le_max_left ct hi
          omega
        · obtain ⟨h1, h2, h3⟩ := b x hx
          refine ⟨by omega, h2, ?_⟩
          rw [htot]
          have h4 : max (ct + t.burst) hi ≤ max ct hi + t.burst := by
            have := le_max_right ct hi
            have := le_max_left ct hi
            exact max_le (by omega) (by omega)
          omega
      · rw [List.chain'_cons']
        refine ⟨?_, c⟩
        intro y hy
        have : y ∈ (fcfsLoop (ct + t.burst) rest).2 := List.mem_of_mem_head? hy
        exact (b y this).1
      · intro hnd u hu
        simp only [List.map_cons, List.nodup_cons] at hnd
        rcases List.mem_cons.mp hu with rfl | hu
        · refine (lastEnd_cons_only t.id _ _ rfl ?_).trans ?_
          · intro x hx hid
            obtain ⟨v, hv, hxv⟩ := fcfsLoop_ids rest _ x hx
            apply hnd.1
            simp only [List.mem_map]
            exact ⟨v, hv, by rw [← hxv, hid]⟩
          · simp only [hw]
            congr 1
            omega
        · have hrec := fcfsLoop_records rest (ct + t.burst)
          have huid : u.id ∈ rest.map fun t => t.id := by
            have : u.record ∈ (fcfsLoop (ct + t.burst) rest).1.map Task.record :=
              List.mem_map.mpr ⟨u, hu, rfl⟩
            rw [hrec] at this
            obtain ⟨v, hv, hvr⟩ := List.mem_map.mp this
            exact List.mem_map.mpr ⟨v, hv, congrArg Record.id hvr⟩
          have hne : t.id ≠ u.id := by
            intro h
            apply hnd.1
            rw [h]
            exact huid
          rw [lastEnd_cons_ne _ _ _ hne]
          exact d hnd.2 u hu
      · simp only [busyTime, List.map_cons, List.sum_cons] at e ⊢
        rw [e, htot]
        omega

/-! ## From the end of a run to the report -/

theorem setTurnarounds_record (l : List Task) :
    (setTurnarounds l).map Task.record = l.map Task.record := by
  simp only [setTurnarounds, List.map_map]
  rfl

theorem mem_setTurnarounds {u : Task} {l : List Task} (h : u ∈ setTurnarounds l) :
    ∃ t ∈ l, u.id = t.id ∧ u.burst = t.burst ∧ u.arrival = t.arrival ∧ u.wait = t.wait ∧
      u.turnaround = t.wait + t.burst := by
  obtain ⟨t, ht, rfl⟩ := List.mem_map.mp h
  exact ⟨t, ht, rfl, rfl, rfl, rfl, rfl⟩

theorem ids_of_records (l : List Task) :
    (l.map fun t => t.id) = (l.map Task.record).map fun r => r.id := by
  simp only [List.map_map]
  rfl

theorem loadTasks_fresh (recs : List Record) (hpre : ∀ r ∈ recs, 0 ≤ r.arrival ∧ 0 < r.burst) :
    ∀ t ∈ loadTasks recs, 0 ≤ t.arrival ∧ 0 < t.burst ∧ t.remaining = t.burst := by
  intro t ht
  obtain ⟨r, hr, rfl⟩ := List.mem_map.mp ht
  exact ⟨(hpre r hr).1, (hpre r hr).2, rfl⟩

theorem mem_loadTasks_of_mem (recs : List Record) {r : Record} (hr : r ∈ recs) :
    ∃ t ∈ loadTasks recs, t.id = r.id ∧ t.burst = r.burst ∧ t.arrival = r.arrival :=
  ⟨Task.new r.id r.burst r.arrival, List.mem_map.mpr ⟨r, hr, rfl⟩, rfl, rfl, rfl⟩

theorem mem_of_mem_loadTasks (recs : List Record) {t : Task} (ht : t ∈ loadTasks recs) :
    t.record ∈ recs := by
  obtain ⟨r, hr, rfl⟩ := List.mem_map.mp ht
  exact hr

theorem totalBurst_nonneg (tasks : List Task) (hpre : ∀ t ∈ tasks, 0 < t.burst) :
    0 ≤ totalBurst tasks := by
  unfold totalBurst
  apply List.sum_nonneg
  intro x hx
  obtain ⟨u, hu, rfl⟩ := List.mem_map.mp hx
  exact le_of_lt (hpre u hu)

theorem totalBurst_pos (tasks : List Task) (hpre : ∀ t ∈ tasks, 0 < t.burst)
    (hne : tasks ≠ []) : 0 < totalBurst tasks := by
  cases tasks with
  | nil => exact absurd rfl hne
  | cons t rest =>
    have h1 := hpre t (List.mem_cons_self _ _)
    have h2 := totalBurst_nonneg rest (fun u hu => hpre u (List.mem_cons_of_mem _ hu))
    have : totalBurst (t :: rest) = t.burst + totalBurst rest := by simp [totalBurst]
    omega

/-- The metrics of the report of a run. -/
theorem metrics_of_run (recs : List Record) (final : List Task) (execs : List Execution)
    (h : RunFacts (loadTasks recs) final execs) :
    ReportedMetrics recs (mkReport final execs) := by
  have hperm : ((mkReport final execs).tasks.map Task.record).Perm recs := by
    show ((setTurnarounds final).map Task.record).Perm recs
    rw [setTurnarounds_record]
    have := h.keys
    rwa [loadTasks_records] at this
  refine ⟨hperm, ?_, ?_⟩
  · intro u hu
    obtain ⟨t, ht, -, hb, -, hw, htt⟩ := mem_setTurnarounds hu
    rw [hw, htt, hb]
    exact ⟨h.wait t ht, rfl⟩
  · intro hnd u hu
    obtain ⟨t, ht, hid, hb, ha, hw, htt⟩ := mem_setTurnarounds hu
    have hnd' : ((loadTasks recs).map fun t => t.id).Nodup := by
      rw [ids_of_records, loadTasks_records]
      exact hnd
    have := h.last hnd' t ht
    show lastEnd u.id execs = some (u.arrival + u.turnaround)
    rw [hid, ha, htt, this]
    congr 1
    omega

/-- The chart of the report of a run on a non-empty input. -/
theorem chart_of_run (recs : List Record) (hne : recs ≠ [])
    (hpre : ∀ r ∈ recs, 0 ≤ r.arrival ∧ 0 < r.burst)
    (final : List Task) (execs : List Execution)
    (h : RunFacts (loadTasks recs) final execs) :
    ChartCovers recs (mkReport final execs) := by
  have hne' : loadTasks recs ≠ [] := by
    intro hn
    apply hne
    have := congrArg List.length hn
    simp only [loadTasks, List.length_map, List.length_nil] at this
    exact List.length_eq_zero.mp this
  have hex : execs ≠ [] := by
    intro hn
    have hb := h.busy
    rw [hn] at hb
    have hp := totalBurst_pos (loadTasks recs)
      (fun t ht => (loadTasks_fresh recs hpre t ht).2.1) hne'
    simp only [busyTime, List.map_nil, List.sum_nil] at hb
    omega
  obtain ⟨⟨x, tail, e, rest, hx, he, hxs⟩, hchain, hpos, hms⟩ :=
    printGanttChart_spec execs hex h.chain h.pos
  obtain ⟨hlow, t, ht, hat⟩ := h.head e (by rw [he]; rfl)
  refine ⟨x, tail, hx, ?_, ?_, hchain, hpos, hms⟩
  · intro r hr
    obtain ⟨u, hu, -, -, hua⟩ := mem_loadTasks_of_mem recs hr
    rw [hxs, ← hua]
    exact hlow u hu
  · exact ⟨t.record, mem_of_mem_loadTasks recs ht, by rw [hxs]; exact hat⟩

theorem totalBurst_perm {l₁ l₂ : List Task} (h : l₁.Perm l₂) :
    totalBurst l₁ = totalBurst l₂ := by
  unfold totalBurst
  exact (h.map fun t : Task => t.burst).sum_eq

theorem nodup_ids_of_keys {final tasks : List Task}
    (hk : (final.map Task.record).Perm (tasks.map Task.record))
    (hnd : (tasks.map fun t => t.id).Nodup) : (final.map fun t => t.id).Nodup := by
  rw [ids_of_records] at hnd ⊢
  exact ((hk.map fun r => r.id).nodup_iff).mpr hnd

theorem fcfs_run (tasks : List Task) (hpre : ∀ t ∈ tasks, 0 ≤ t.arrival ∧ 0 < t.burst) :
    RunFacts tasks (fcfsLoop 0 (sortByArrival tasks)).1 (fcfsLoop 0 (sortByArrival tasks)).2 := by
  have hpre' : ∀ t ∈ sortByArrival tasks, 0 < t.burst ∧ t.arrival ≤ maxArrival tasks := by
    intro t ht
    have hm := mem_sortByArrival.mp ht
    exact ⟨(hpre t hm).2, arrival_le_maxArrival tasks t hm⟩
  obtain ⟨a, b, c, d, e⟩ := fcfsLoop_spec (sortByArrival tasks) (maxArrival tasks) 0 hpre'
  have hkeys : ((fcfsLoop 0 (sortByArrival tasks)).1.map Task.record).Perm
      (tasks.map Task.record) := by
    rw [fcfsLoop_records]
    exact (sortByArrival_perm tasks).map _
  have htot := totalBurst_perm (sortByArrival_perm tasks)
  refine
    { keys := hkeys, wait := fun t ht => (a t ht).1, last := ?_, chain := c
      pos := fun x hx => (b x hx).2.1, bound := ?_, head := ?_, busy := by rw [e, htot] }
  · intro hnd t ht
    have hnd' : ((sortByArrival tasks).map fun t => t.id).Nodup :=
      (((sortByArrival_perm tasks).map fun t => t.id).nodup_iff).mpr hnd
    exact d hnd' t ht
  · intro x hx
    have := (b x hx).2.2
    rw [max_eq_right (maxArrival_nonneg tasks), htot] at this
    exact this
  · intro x hx
    have hsorted := sortByArrival_sorted tasks
    cases hs : sortByArrival tasks with
    | nil =>
      rw [hs] at hx
      simp [fcfsLoop] at hx
    | cons t rest =>
      rw [hs] at hx hsorted
      have htm : t ∈ tasks := mem_sortByArrival.mp (by rw [hs]; exact List.mem_cons_self _ _)
      have ht0 := (hpre t htm).1
      have hstart : x.start = t.arrival := by
        simp only [fcfsLoop, List.head?_cons, Option.some.injEq] at hx
        subst hx
        simp only
        split <;> omega
      refine ⟨?_, t, htm, hstart⟩
      intro u hu
      rw [hstart]
      have hu' : u ∈ t :: rest := by
        rw [← hs]
        exact mem_sortByArrival.mpr hu
      rcases List.mem_cons.mp hu' with rfl | hur
      · exact le_refl _
      · exact List.rel_of_sorted_cons hsorted u hur

theorem zip_done_sum :
    ∀ (tasks : List Task) (done : List Bool), done.length = tasks.length →
      (∀ (i : Nat) (t : Task), tasks[i]? = some t → done[i]? = some true) →
      ((tasks.zip done).map fun p => if p.2 = true then p.1.burst else 0).sum
        = totalBurst tasks := by
  intro tasks
  induction tasks with
  | nil => intro done _ _; simp [totalBurst]
  | cons t rest ih =>
    intro done hlen hall
    cases done with
    | nil => simp at hlen
    | cons c cs =>
      have hc : c = true := by
        have := hall 0 t (by simp)
        simpa using this
      have := ih cs (by simpa using hlen)
        (fun i u hu => by simpa using hall (i + 1) u (by simpa using hu))
      simp only [List.zip_cons_cons, List.map_cons, List.sum_cons, this, hc, if_true,
        totalBurst]

theorem sum_done_bursts (tasks : List Task)
    (hall : ∀ (i : Nat) (t : Task), tasks[i]? = some t → t.remaining = 0) :
    (tasks.map fun t => t.burst - t.remaining).sum = totalBurst tasks := by
  unfold totalBurst
  congr 1
  apply List.map_congr_left
  intro t ht
  obtain ⟨i, hi⟩ := List.mem_iff_getElem?.mp ht
  rw [hall i t hi]
  omega

/-- The bounds on arrival times that the clock invariants are used with. -/
theorem arrival_bounds (tasks : List Task) (hpre : ∀ t ∈ tasks, 0 ≤ t.arrival)
    (hne : tasks ≠ []) :
    ∃ m ∈ tasks, 0 ≤ m.arrival ∧ m.arrival ≤ maxArrival tasks ∧
      ∀ t ∈ tasks, m.arrival ≤ t.arrival ∧ t.arrival ≤ maxArrival tasks := by
  obtain ⟨m, hm, hmin⟩ := exists_min_arrival tasks hne
  exact ⟨m, hm, hpre m hm, arrival_le_maxArrival tasks m hm,
    fun t ht => ⟨hmin t ht, arrival_le_maxArrival tasks t ht⟩⟩

theorem runFacts_nil (tasks final : List Task)
    (hk : (final.map Task.record).Perm (tasks.map Task.record)) (hempty : tasks = []) :
    RunFacts tasks final [] := by
  subst hempty
  have hf : final = [] := by
    have := hk.length_eq
    simpa using this
  subst hf
  exact
    { keys := hk
      wait := fun t ht => by cases ht
      last := fun _ t ht => by cases ht
      chain := List.chain'_nil
      pos := fun e he => by cases he
      bound := fun e he => by cases he
      head := fun e he => by simp at he
      busy := rfl }

theorem execs_nil_of_busy_zero (execs : List Execution)
    (hpos : ∀ e ∈ execs, e.start < e.end_) (hbusy : busyTime execs = 0) : execs = [] := by
  cases hs : execs with
  | nil => rfl
  | cons e rest =>
    exfalso
    rw [hs] at hpos hbusy
    have h1 := hpos e (List.mem_cons_self _ _)
    have h2 : 0 ≤ busyTime rest := by
      unfold busyTime
      apply List.sum_nonneg
      intro x hx
      obtain ⟨y, hy, rfl⟩ := List.mem_map.mp hx
      have := hpos y (List.mem_cons_of_mem _ hy)
      omega
    simp only [busyTime, List.map_cons, List.sum_cons] at h2 hbusy
    omega

theorem sjf_run (tasks : List Task) (hpre : ∀ t ∈ tasks, 0 ≤ t.arrival ∧ 0 < t.burst)
    (fuel : Nat) (s : SjfState)
    (h : whileLoop sjfCond sjfBody fuel (sjfInit tasks) = some s) :
    RunFacts tasks s.tasks s.executions := by
  obtain ⟨hinv, hdone, hbound, hB⟩ := sjf_loop_final tasks hpre fuel s h
  have hkeys : (s.tasks.map Task.record).Perm (tasks.map Task.record) := by
    rw [hinv.keys]
    exact (sortByArrival_perm tasks).map _
  have hbusy : busyTime s.executions = totalBurst tasks := by
    rw [hinv.busy, zip_done_sum s.tasks s.isTaskCompleted hinv.len hdone,
      totalBurst_congr _ _ hinv.keys, totalBurst_perm (sortByArrival_perm tasks)]
  have hpos : ∀ e ∈ s.executions, e.start < e.end_ := by
    intro e he
    obtain ⟨i, t, ht, -, hl, -⟩ := hinv.lens e he
    have := (hinv.pre i t ht).2
    omega
  have hwait : ∀ t ∈ s.tasks, 0 ≤ t.wait := by
    intro t ht
    obtain ⟨i, hi⟩ := List.mem_iff_getElem?.mp ht
    exact (hinv.ran i t hi (hdone i t hi)).2.1
  have hlast : (tasks.map fun t => t.id).Nodup →
      ∀ t ∈ s.tasks, lastEnd t.id s.executions = some (t.arrival + t.wait + t.burst) := by
    intro hnd t ht
    obtain ⟨i, hi⟩ := List.mem_iff_getElem?.mp ht
    exact hinv.last (nodup_ids_of_keys hkeys hnd) i t hi (hdone i t hi)
  by_cases hne : tasks = []
  · have hex : s.executions = [] :=
      execs_nil_of_busy_zero s.executions hpos (by rw [hbusy, hne]; rfl)
    rw [hex]
    exact runFacts_nil tasks s.tasks hkeys hne
  · obtain ⟨m, hm, hm0, hmM, hrange⟩ := arrival_bounds tasks (fun t ht => (hpre t ht).1) hne
    have hInvB := hB m.arrival (maxArrival tasks) hm0 hmM hrange (fun _ => ⟨m, hm, rfl⟩)
    refine
      { keys := hkeys, wait := hwait, last := hlast, chain := hinv.chain, pos := hpos
        bound := ?_, head := ?_, busy := hbusy }
    · intro e he
      have h1 := hinv.ends e he
      have h2 := hInvB.time
      rw [hbusy] at h2
      omega
    · intro e he
      have := hInvB.head e he
      rw [this]
      exact ⟨fun t ht => (hrange t ht).1, m, hm, rfl⟩

theorem srtf_run (tasks : List Task)
    (hpre : ∀ t ∈ tasks, 0 ≤ t.arrival ∧ 0 < t.burst ∧ t.remaining = t.burst)
    (fuel : Nat) (s : SrtfState)
    (h : whileLoop srtfCond srtfBody fuel (srtfInit tasks) = some s) :
    RunFacts tasks s.tasks s.executions := by
  obtain ⟨hinv, hdone, hbound, hB⟩ := srtf_loop_final tasks hpre fuel s h
  have hkeys : (s.tasks.map Task.record).Perm (tasks.map Task.record) := by
    rw [hinv.keys]
  have hbusy : busyTime s.executions = totalBurst tasks := by
    rw [hinv.busy, sum_done_bursts s.tasks hdone, totalBurst_congr _ _ hinv.keys]
  have hpos : ∀ e ∈ s.executions, e.start < e.end_ := by
    intro e he
    have := hinv.unit e he
    omega
  have hwait : ∀ t ∈ s.tasks, 0 ≤ t.wait := by
    intro t ht
    obtain ⟨i, hi⟩ := List.mem_iff_getElem?.mp ht
    exact (hinv.ran i t hi (hdone i t hi)).1
  have hlast : (tasks.map fun t => t.id).Nodup →
      ∀ t ∈ s.tasks, lastEnd t.id s.executions = some (t.arrival + t.wait + t.burst) := by
    intro hnd t ht
    obtain ⟨i, hi⟩ := List.mem_iff_getElem?.mp ht
    exact hinv.last (nodup_ids_of_keys hkeys hnd) i t hi (hdone i t hi)
  by_cases hne : tasks = []
  · have hex : s.executions = [] :=
      execs_nil_of_busy_zero s.executions hpos (by rw [hbusy, hne]; rfl)
    rw [hex]
    exact runFacts_nil tasks s.tasks hkeys hne
  · obtain ⟨m, hm, hm0, hmM, hrange⟩ := arrival_bounds tasks (fun t ht => (hpre t ht).1) hne
    have hInvB := hB m.arrival (maxArrival tasks) hm0 hmM hrange (fun _ => ⟨m, hm, rfl⟩)
    refine
      { keys := hkeys, wait := hwait, last := hlast, chain := hinv.chain, pos := hpos
        bound := ?_, head := ?_, busy := hbusy }
    · intro e he
      have h1 := hinv.ends e he
      have h2 := hInvB.time
      rw [hbusy] at h2
      omega
    · intro e he
      have := hInvB.head e he
      rw [this]
      exact ⟨fun t ht => (hrange t ht).1, m, hm, rfl⟩

theorem rr_run (q : Int) (hq : 1 ≤ q) (tasks : List Task)
    (hpre : ∀ t ∈ tasks, 0 ≤ t.arrival ∧ 0 < t.burst)
    (fuel : Nat) (s : RRState)
    (h : whileLoop rrCond (rrBody q) fuel (rrInit tasks) = some s) :
    RunFacts tasks s.tasks s.executions := by
  obtain ⟨hinv, hdone, hB⟩ := rr_loop_final q hq tasks hpre fuel s h
  have hkeys : (s.tasks.map Task.record).Perm (tasks.map Task.record) := by
    rw [hinv.keys]
  have hbusy : busyTime s.executions = totalBurst tasks := by
    rw [hinv.busy, sum_done_bursts s.tasks hdone, totalBurst_congr _ _ hinv.keys]
  have hpos : ∀ e ∈ s.executions, e.start < e.end_ := fun e he => (hinv.slice e he).1
  have hwait : ∀ t ∈ s.tasks, 0 ≤ t.wait := by
    intro t ht
    obtain ⟨i, hi⟩ := List.mem_iff_getElem?.mp ht
    exact (hinv.ran i t hi (hdone i t hi)).1
  have hlast : (tasks.map fun t => t.id).Nodup →
      ∀ t ∈ s.tasks, lastEnd t.id s.executions = some (t.arrival + t.wait + t.burst) := by
    intro hnd t ht
    obtain ⟨i, hi⟩ := List.mem_iff_getElem?.mp ht
    exact hinv.last (nodup_ids_of_keys hkeys hnd) i t hi (hdone i t hi)
  by_cases hne : tasks = []
  · have hex : s.executions = [] :=
      execs_nil_of_busy_zero s.executions hpos (by rw [hbusy, hne]; rfl)
    rw [hex]
    exact runFacts_nil tasks s.tasks hkeys hne
  · obtain ⟨m, hm, hm0, hmM, hrange⟩ := arrival_bounds tasks (fun t ht => (hpre t ht).1) hne
    have hInvB := hB m.arrival (maxArrival tasks) hm0 hmM hrange (fun _ => ⟨m, hm, rfl⟩)
    refine
      { keys := hkeys, wait := hwait, last := hlast, chain := hinv.chain, pos := hpos
        bound := ?_, head := ?_, busy := hbusy }
    · intro e he
      have h1 := hinv.ends e he
      have h2 := hInvB.time
      rw [hbusy] at h2
      omega
    · intro e he
      have := hInvB.head e he
      rw [this]
      exact ⟨fun t ht => (hrange t ht).1, m, hm, rfl⟩

/-! ## Reports of the three policies with a loop -/

theorem sjf_report (fuel : Nat) (tasks : List Task) (rep : Report)
    (h : sjf fuel tasks = some rep) :
    ∃ s, whileLoop sjfCond sjfBody fuel (sjfInit tasks) = some s ∧
      rep = mkReport s.tasks s.executions := by
  unfold sjf at h
  obtain ⟨s, hs, rfl⟩ := Option.map_eq_some'.mp h
  exact ⟨s, hs, rfl⟩

theorem srtf_report (fuel : Nat) (tasks : List Task) (rep : Report)
    (h : srtf fuel tasks = some rep) :
    ∃ s, whileLoop srtfCond srtfBody fuel (srtfInit tasks) = some s ∧
      rep = mkReport s.tasks s.executions := by
  unfold srtf at h
  obtain ⟨s, hs, rfl⟩ := Option.map_eq_some'.mp h
  exact ⟨s, hs, rfl⟩

theorem rr_report (fuel : Nat) (tasks : List Task) (q : Int) (rep : Report)
    (h : roundRobin fuel tasks q = some rep) :
    ∃ s, whileLoop rrCond (rrBody q) fuel (rrInit tasks) = some s ∧
      rep = mkReport s.tasks s.executions := by
  unfold roundRobin at h
  obtain ⟨s, hs, rfl⟩ := Option.map_eq_some'.mp h
  exact ⟨s, hs, rfl⟩

/-- `sjf` returns a report when every burst is below `INT_MAX`. -/
theorem sjf_returns (recs : List Record) (hpre : ∀ r ∈ recs, 0 ≤ r.arrival ∧ 0 < r.burst)
    (hb : ∀ r ∈ recs, r.burst < INT_MAX) : ∃ fuel rep, sjf fuel (loadTasks recs) = some rep := by
  obtain ⟨s, hs⟩ := sjf_loop_terminates (loadTasks recs) (fun t ht =>
    ⟨(loadTasks_fresh recs hpre t ht).1, (loadTasks_fresh recs hpre t ht).2.1,
      hb _ (mem_of_mem_loadTasks recs ht)⟩)
  exact ⟨_, mkReport s.tasks s.executions, by unfold sjf; rw [hs]; rfl⟩

/-- `srtf` returns a report when every burst is below `INT_MAX`. -/
theorem srtf_returns (recs : List Record) (hpre : ∀ r ∈ recs, 0 ≤ r.arrival ∧ 0 < r.burst)
    (hb : ∀ r ∈ recs, r.burst < INT_MAX) :
    ∃ fuel rep, srtf fuel (loadTasks recs) = some rep := by
  obtain ⟨s, hs⟩ := srtf_loop_terminates (loadTasks recs) (loadTasks_fresh recs hpre)
    (fun t ht => hb _ (mem_of_mem_loadTasks recs ht))
  exact ⟨_, mkReport s.tasks s.executions, by unfold srtf; rw [hs]; rfl⟩

/-- `roundRobin` returns a report. -/
theorem roundRobin_returns (recs : List Record) (quantum : Int)
    (hpre : ∀ r ∈ recs, 0 ≤ r.arrival ∧ 0 < r.burst) (hq : 1 ≤ quantum) :
    ∃ fuel rep, roundRobin fuel (loadTasks recs) quantum = some rep := by
  obtain ⟨s, hs⟩ := rr_loop_terminates quantum hq (loadTasks recs) (fun t ht =>
    ⟨(loadTasks_fresh recs hpre t ht).1, (loadTasks_fresh recs hpre t ht).2.1⟩)
  exact ⟨_, mkReport s.tasks s.executions, by unfold roundRobin; rw [hs]; rfl⟩

/-- The facts about the end of a run, for the report of each policy. -/
theorem run_of_report (recs : List Record) (quantum : Int)
    (hpre : ∀ r ∈ recs, 0 ≤ r.arrival ∧ 0 < r.burst) (hq : 1 ≤ quantum) :
    (∃ final, fcfs (loadTasks recs) = mkReport final (fcfs (loadTasks recs)).executions ∧
      RunFacts (loadTasks recs) final (fcfs (loadTasks recs)).executions) ∧
    (∀ fuel rep, sjf fuel (loadTasks recs) = some rep →
      ∃ final, rep = mkReport final rep.executions ∧
        RunFacts (loadTasks recs) final rep.executions) ∧
    (∀ fuel rep, srtf fuel (loadTasks recs) = some rep →
      ∃ final, rep = mkReport final rep.executions ∧
        RunFacts (loadTasks recs) final rep.executions) ∧
    (∀ fuel rep, roundRobin fuel (loadTasks recs) quantum = some rep →
      ∃ final, rep = mkReport final rep.executions ∧
        RunFacts (loadTasks recs) final rep.executions) := by
  have hfresh := loadTasks_fresh recs hpre
  have hpre' : ∀ t ∈ loadTasks recs, 0 ≤ t.arrival ∧ 0 < t.burst :=
    fun t ht => ⟨(hfresh t ht).1, (hfresh t ht).2.1⟩
  refine ⟨⟨_, rfl, fcfs_run (loadTasks recs) hpre'⟩, ?_, ?_, ?_⟩
  · intro fuel rep h
    obtain ⟨s, hs, rfl⟩ := sjf_report fuel _ rep h
    exact ⟨s.tasks, rfl, sjf_run _ hpre' fuel s hs⟩
  · intro fuel rep h
    obtain ⟨s, hs, rfl⟩ := srtf_report fuel _ rep h
    exact ⟨s.tasks, rfl, srtf_run _ hfresh fuel s hs⟩
  · intro fuel rep h
    obtain ⟨s, hs, rfl⟩ := rr_report fuel _ quantum rep h
    exact ⟨s.tasks, rfl, rr_run quantum hq _ hpre' fuel s hs⟩

/-! ## A burst of `INT_MAX` -/

/-- With a burst of `INT_MAX` the selection loop of `srtf` does not take the
task: the iteration idles. -/
theorem srtfBody_stuck (c : Int) :
    srtfBody (SrtfState.mk [Task.new 1 2147483647 0] [] c 0 0 INT_MAX false)
      = SrtfState.mk [Task.new 1 2147483647 0] [] (c + 1) 0 0 INT_MAX false := by
  simp [srtfBody, srtfScan, Task.new, INT_MAX]

/-- On the single record `(1, INT_MAX, 0)` `srtf` never returns. -/
theorem srtf_stuck : ∀ fuel, srtf fuel (loadTasks [⟨1, 2147483647, 0⟩]) = none := by
  have key : ∀ (fuel : Nat) (c : Int),
      whileLoop srtfCond srtfBody fuel
        (SrtfState.mk [Task.new 1 2147483647 0] [] c 0 0 INT_MAX false) = none := by
    intro fuel
    induction fuel with
    | zero => intro c; rfl
    | succ n ih =>
      intro c
      have hc : srtfCond (SrtfState.mk [Task.new 1 2147483647 0] [] c 0 0 INT_MAX false)
          = true := rfl
      unfold whileLoop
      rw [hc, if_pos rfl, srtfBody_stuck]
      exact ih (c + 1)
  intro fuel
  have := key fuel 0
  unfold srtf
  have hinit : srtfInit (loadTasks [⟨1, 2147483647, 0⟩])
      = SrtfState.mk [Task.new 1 2147483647 0] [] 0 0 0 INT_MAX false := rfl
  rw [hinit, this]
  rfl

/-- On the single record `(1, INT_MAX, 0)` the loop of `srtf` idles for
ever: after any number of iterations nothing has been recorded and the loop
condition still holds. -/
theorem srtf_idles_for_ever (n : Nat) :
    (srtfBody^[n] (srtfInit (loadTasks [⟨1, 2147483647, 0⟩]))).executions = [] ∧
    srtfCond (srtfBody^[n] (srtfInit (loadTasks [⟨1, 2147483647, 0⟩]))) = true := by
  have key : srtfBody^[n] (srtfInit (loadTasks [⟨1, 2147483647, 0⟩]))
      = SrtfState.mk [Task.new 1 2147483647 0] [] (n : Int) 0 0 INT_MAX false := by
    induction n with
    | zero => rfl
    | succ k ih =>
      rw [Function.iterate_succ_apply', ih, srtfBody_stuck]
      simp
  rw [key]
  exact ⟨rfl, rfl⟩

/-- In the model over the integers.  For records with `arrival >= 0` and `burst > 0` (and a quantum of at
least 1), every report of each of the four policies has non-negative waits,
`turnaround = wait + burst` for every task, and, task ids being distinct,
`arrival + turnaround` equal to the end of the task's last execution interval
(so `wait = completion - arrival - burst`).  `fcfs` is total and
`roundRobin` returns a report; `sjf` and `srtf` return one when every burst is
below `INT_MAX`. -/
theorem reported_metrics_all_policies (recs : List Record) (quantum : Int)
    (hpre : ∀ r ∈ recs, 0 ≤ r.arrival ∧ 0 < r.burst) (hq : 1 ≤ quantum) :
    ReportedMetrics recs (fcfs (loadTasks recs)) ∧
    (∀ fuel rep, sjf fuel (loadTasks recs) = some rep → ReportedMetrics recs rep) ∧
    (∀ fuel rep, srtf fuel (loadTasks recs) = some rep → ReportedMetrics recs rep) ∧
    (∀ fuel rep, roundRobin fuel (loadTasks recs) quantum = some rep →
      ReportedMetrics recs rep) ∧
    (∃ fuel rep, roundRobin fuel (loadTasks recs) quantum = some rep) ∧
    ((∀ r ∈ recs, r.burst < INT_MAX) →
      (∃ fuel rep, sjf fuel (loadTasks recs) = some rep) ∧
      (∃ fuel rep, srtf fuel (loadTasks recs) = some rep)) := by
  obtain ⟨⟨f0, hf0, hfr⟩, hsjf, hsrtf, hrr⟩ := run_of_report recs quantum hpre hq
  refine ⟨?_, ?_, ?_, ?_, roundRobin_returns recs quantum hpre hq,
    fun hb => ⟨sjf_returns recs hpre hb, srtf_returns recs hpre hb⟩⟩
  · have := metrics_of_run recs f0 _ hfr
    rwa [← hf0] at this
  · intro fuel rep h
    obtain ⟨final, hrep, hrun⟩ := hsjf fuel rep h
    have := metrics_of_run recs final _ hrun
    rwa [← hrep] at this
  · intro fuel rep h
    obtain ⟨final, hrep, hrun⟩ := hsrtf fuel rep h
    have := metrics_of_run recs final _ hrun
    rwa [← hrep] at this
  · intro fuel rep h
    obtain ⟨final, hrep, hrun⟩ := hrr fuel rep h
    have := metrics_of_run recs final _ hrun
    rwa [← hrep] at this

/-! ## C4: the chart -/

/-- In the model over the integers.  For a non-empty input with `arrival >= 0` and `burst > 0`
(and a quantum of at least 1), the chart in every report of each of the four
policies covers the time from the earliest arrival to the makespan without
overlap or gap: its first entry starts at the earliest arrival time, every
entry is non-empty and starts where the previous one ends, and the last one
ends at the makespan.  `fcfs` is total and `roundRobin` returns a report;
`sjf` and `srtf` return one when every burst is below `INT_MAX`. -/
theorem chart_covers_all_policies (recs : List Record) (quantum : Int) (hne : recs ≠ [])
    (hpre : ∀ r ∈ recs, 0 ≤ r.arrival ∧ 0 < r.burst) (hq : 1 ≤ quantum) :
    ChartCovers recs (fcfs (loadTasks recs)) ∧
    (∀ fuel rep, sjf fuel (loadTasks recs) = some rep → ChartCovers recs rep) ∧
    (∀ fuel rep, srtf fuel (loadTasks recs) = some rep → ChartCovers recs rep) ∧
    (∀ fuel rep, roundRobin fuel (loadTasks recs) quantum = some rep →
      ChartCovers recs rep) ∧
    (∃ fuel rep, roundRobin fuel (loadTasks recs) quantum = some rep) ∧
    ((∀ r ∈ recs, r.burst < INT_MAX) →
      (∃ fuel rep, sjf fuel (loadTasks recs) = some rep) ∧
      (∃ fuel rep, srtf fuel (loadTasks recs) = some rep)) := by
  obtain ⟨⟨f0, hf0, hfr⟩, hsjf, hsrtf, hrr⟩ := run_of_report recs quantum hpre hq
  refine ⟨?_, ?_, ?_, ?_, roundRobin_returns recs quantum hpre hq,
    fun hb => ⟨sjf_returns recs hpre hb, srtf_returns recs hpre hb⟩⟩
  · have := chart_of_run recs hne hpre f0 _ hfr
    rwa [← hf0] at this
  · intro fuel rep h
    obtain ⟨final, hrep, hrun⟩ := hsjf fuel rep h
    have := chart_of_run recs hne hpre final _ hrun
    rwa [← hrep] at this
  · intro fuel rep h
    obtain ⟨final, hrep, hrun⟩ := hsrtf fuel rep h
    have := chart_of_run recs hne hpre final _ hrun
    rwa [← hrep] at this
  · intro fuel rep h
    obtain ⟨final, hrep, hrun⟩ := hrr fuel rep h
    have := chart_of_run recs hne hpre final _ hrun
    rwa [← hrep] at this

/-! ## C10: the makespan -/

theorem sum_ite_unique (f : Record → Int) (recs : List Record)
    (hnd : (recs.map fun r => r.id).Nodup) (r₀ : Record) (h₀ : r₀ ∈ recs) :
    (recs.map fun r => if r.id = r₀.id then f r else 0).sum = f r₀ := by
  induction recs with
  | nil => cases h₀
  | cons r rest ih =>
    simp only [List.map_cons, List.nodup_cons, List.mem_map, not_exists, not_and] at hnd
    simp only [List.map_cons, List.sum_cons]
    by_cases hid : r.id = r₀.id
    · have hr : r₀ = r := by
        rcases List.mem_cons.mp h₀ with h | h
        · exact h
        · exact absurd hid.symm (hnd.1 r₀ h)
      subst hr
      have hz : (rest.map fun r => if r.id = r₀.id then f r else 0).sum = 0 := by
        apply List.sum_eq_zero
        intro x hx
        obtain ⟨y, hy, rfl⟩ := List.mem_map.mp hx
        rw [if_neg (hnd.1 y hy)]
      rw [if_pos rfl, hz]
      omega
    · have hmem : r₀ ∈ rest := by
        rcases List.mem_cons.mp h₀ with h | h
        · rw [h] at hid
          exact absurd rfl hid
        · exact h
      rw [if_neg hid, ih hnd.2 hmem]
      omega

theorem sum_over_records (g : Record → Int) (l : List Task) (recs : List Record)
    (h : l.map Task.record = recs) :
    (l.map fun t => g t.record).sum = (recs.map g).sum := by
  rw [← h, List.map_map]
  rfl

theorem ceilDiv_eq_ceil (x q : Int) (hq : 1 ≤ q) : ceilDiv x q = ⌈(x : ℚ) / (q : ℚ)⌉ := by
  symm
  rw [Int.ceil_eq_iff]
  have hq0 : (0 : ℚ) < (q : ℚ) := by exact_mod_cast (by omega : (0 : Int) < q)
  have hdiv := Int.emod_add_ediv (x + q - 1) q
  have hmod0 := Int.emod_nonneg (x + q - 1) (by omega : q ≠ 0)
  have hmodq := Int.emod_lt_of_pos (x + q - 1) (by omega : (0 : Int) < q)
  unfold ceilDiv
  constructor
  · rw [lt_div_iff₀ hq0]
    have : ((x + q - 1) / q - 1) * q < x := by nlinarith
    exact_mod_cast this
  · rw [div_le_iff₀ hq0]
    have : x ≤ ((x + q - 1) / q) * q := by nlinarith
    exact_mod_cast this

/-- In the model over the integers.  In every report of `srtf` on records with `arrival >= 0` and
`burst > 0`, every recorded interval is one unit long, the total length of the
intervals is the sum of all bursts, the number of intervals that carry a
task's id is the sum of the bursts of the tasks with that id, and hence, task
ids being distinct, each task gets exactly `burst` intervals; and `srtf`
returns a report when every burst is below `INT_MAX`. -/
theorem srtf_busy_time_is_total_burst (recs : List Record)
    (hpre : ∀ r ∈ recs, 0 ≤ r.arrival ∧ 0 < r.burst) :
    (∀ fuel rep, srtf fuel (loadTasks recs) = some rep →
      (∀ e ∈ rep.executions, e.end_ = e.start + 1) ∧
      busyTime rep.executions = (recs.map fun r => r.burst).sum ∧
      (∀ id : Int, (intervalCount id rep.executions : Int)
        = (recs.map fun r => if r.id = id then r.burst else 0).sum) ∧
      ((recs.map fun r => r.id).Nodup →
        ∀ r ∈ recs, (intervalCount r.id rep.executions : Int) = r.burst)) ∧
    ((∀ r ∈ recs, r.burst < INT_MAX) → ∃ fuel rep, srtf fuel (loadTasks recs) = some rep) := by
  refine ⟨?_, srtf_returns recs hpre⟩
  intro fuel rep h
  obtain ⟨s, hs, rfl⟩ := srtf_report fuel _ rep h
  obtain ⟨hinv, hdone, -, -⟩ := srtf_loop_final (loadTasks recs) (loadTasks_fresh recs hpre)
    fuel s hs
  have hkeys : s.tasks.map Task.record = recs := by
    rw [hinv.keys, loadTasks_records]
  have hcounts : ∀ id : Int, (intervalCount id s.executions : Int)
      = (recs.map fun r => if r.id = id then r.burst else 0).sum := by
    intro id
    rw [hinv.counts id, ← sum_over_records (fun r => if r.id = id then r.burst else 0)
      s.tasks recs hkeys]
    congr 1
    apply List.map_congr_left
    intro t ht
    obtain ⟨i, hi⟩ := List.mem_iff_getElem?.mp ht
    rw [hdone i t hi]
    simp [Task.record]
  refine ⟨hinv.unit, ?_, hcounts, ?_⟩
  · show busyTime s.executions = _
    rw [hinv.busy, sum_done_bursts s.tasks hdone, totalBurst,
      ← sum_over_records (fun r => r.burst) s.tasks recs hkeys]
    rfl
  · intro hnd r hr
    show (intervalCount r.id s.executions : Int) = r.burst
    rw [hcounts r.id]
    exact sum_ite_unique (fun r => r.burst) recs hnd r hr

/-- In the model over the integers.  `roundRobin` with a quantum of at least 1 returns a report on records
with `arrival >= 0` and `burst > 0`, and in every report no interval is
longer than the quantum (nor empty), the number of intervals that carry a
task's id is at least `ceil(burst / quantum)` and, task ids being distinct,
exactly that; an interval shorter than the quantum ends at
`arrival + turnaround` of a task with its id, that is, it is the interval
that completes a task. -/
theorem roundRobin_interval_counts (recs : List Record) (quantum : Int)
    (hpre : ∀ r ∈ recs, 0 ≤ r.arrival ∧ 0 < r.burst) (hq : 1 ≤ quantum) :
    (∃ fuel rep, roundRobin fuel (loadTasks recs) quantum = some rep) ∧
    ∀ fuel rep, roundRobin fuel (loadTasks recs) quantum = some rep →
      (∀ e ∈ rep.executions, e.start < e.end_ ∧ e.end_ - e.start ≤ quantum) ∧
      (∀ r ∈ recs, ⌈(r.burst : ℚ) / (quantum : ℚ)⌉ ≤ (intervalCount r.id rep.executions : Int)) ∧
      ((recs.map fun r => r.id).Nodup → ∀ r ∈ recs,
        (intervalCount r.id rep.executions : Int) = ⌈(r.burst : ℚ) / (quantum : ℚ)⌉) ∧
      (∀ e ∈ rep.executions, e.end_ - e.start = quantum ∨
        ∃ t ∈ rep.tasks, t.id = e.id ∧ e.end_ = t.arrival + t.turnaround) := by
  refine ⟨roundRobin_returns recs quantum hpre hq, ?_⟩
  intro fuel rep h
  obtain ⟨s, hs, rfl⟩ := rr_report fuel _ quantum rep h
  obtain ⟨hinv, hdone, -⟩ := rr_loop_final quantum hq (loadTasks recs)
    (fun t ht => ⟨(loadTasks_fresh recs hpre t ht).1, (loadTasks_fresh recs hpre t ht).2.1⟩)
    fuel s hs
  have hkeys : s.tasks.map Task.record = recs := by
    rw [hinv.keys, loadTasks_records]
  have hcounts : ∀ id : Int, (intervalCount id s.executions : Int)
      = (recs.map fun r => if r.id = id then ceilDiv r.burst quantum else 0).sum := by
    intro id
    rw [hinv.counts id,
      ← sum_over_records (fun r => if r.id = id then ceilDiv r.burst quantum else 0)
        s.tasks recs hkeys]
    congr 1
    apply List.map_congr_left
    intro t ht
    obtain ⟨i, hi⟩ := List.mem_iff_getElem?.mp ht
    rw [hdone i t hi]
    simp [Task.record]
  have hnn : ∀ r ∈ recs, 0 ≤ ceilDiv r.burst quantum := by
    intro r hr
    rw [ceilDiv_eq_ceil _ _ hq]
    apply Int.ceil_nonneg
    have h1 : (0 : ℚ) ≤ (r.burst : ℚ) := by exact_mod_cast le_of_lt (hpre r hr).2
    have h2 : (0 : ℚ) ≤ (quantum : ℚ) := by exact_mod_cast (by omega : (0 : Int) ≤ quantum)
    exact div_nonneg h1 h2
  refine ⟨hinv.slice, ?_, ?_, ?_⟩
  · intro r hr
    show _ ≤ (intervalCount r.id s.executions : Int)
    rw [hcounts r.id, ← ceilDiv_eq_ceil _ _ hq]
    obtain ⟨i, hi⟩ := List.mem_iff_getElem?.mp hr
    have := single_le_sum (fun r' : Record => if r'.id = r.id then ceilDiv r'.burst quantum else 0)
      recs i r (fun j x hx => by
        have hxm : x ∈ recs := List.mem_iff_getElem?.mpr ⟨j, hx⟩
        by_cases hc : x.id = r.id
        · simp only [hc, if_true]
          exact hnn x hxm
        · simp only [hc, if_false]
          exact le_refl _) hi
    simpa using this
  · intro hnd r hr
    show (intervalCount r.id s.executions : Int) = _
    rw [hcounts r.id, ← ceilDiv_eq_ceil _ _ hq]
    exact sum_ite_unique (fun r => ceilDiv r.burst quantum) recs hnd r hr
  · intro e he
    rcases hinv.short e he with hl | ⟨i, t, ht, hid, -, hend⟩
    · exact Or.inl hl
    · right
      refine ⟨{ t with turnaround := t.wait + t.burst }, ?_, hid, ?_⟩
      · exact List.mem_map.mpr ⟨t, List.mem_iff_getElem?.mpr ⟨i, ht⟩, rfl⟩
      · rw [hend]
        show t.arrival + t.wait + t.burst = t.arrival + (t.wait + t.burst)
        omega

/-! ## C5: `fcfs` and `sjf` when all bursts are equal -/

theorem compressLoop_head_id (rest : List Execution) :
    ∀ cur : Execution, ∃ x tail, compressLoop cur rest = x :: tail ∧ x.id = cur.id := by
  induction rest with
  | nil => intro cur; exact ⟨cur, [], rfl, rfl⟩
  | cons e rest ih =>
    intro cur
    unfold compressLoop
    split
    · obtain ⟨x, tail, h1, h2⟩ := ih { cur with end_ := e.end_ }
      exact ⟨x, tail, h1, h2⟩
    · exact ⟨cur, _, rfl, rfl⟩

theorem gaps_head_congr (a a' : Execution) (rest : List Execution) (h : a.end_ = a'.end_) :
    gaps (a :: rest) = gaps (a' :: rest) := by
  cases rest with
  | nil => rfl
  | cons b rest => simp [gaps, h]

theorem covers_cons (e : Execution) (l : List Execution) (id x : Int) :
    Covers (e :: l) id x ↔ (e.id = id ∧ e.start ≤ x ∧ x < e.end_) ∨ Covers l id x := by
  unfold Covers
  simp only [List.mem_cons, exists_eq_or_imp]

/-- What the compression loop makes of a raw list in time order without the
reserved id: no two neighbours carry the same id, the idle entries are the
gaps of the raw list, and a task id covers the same time units as before. -/
theorem compressLoop_merges (rest : List Execution) :
    ∀ cur : Execution, (cur :: rest).Chain' (fun a b => a.end_ ≤ b.start) →
      (∀ e ∈ cur :: rest, e.start < e.end_) → (∀ e ∈ cur :: rest, e.id ≠ -1) →
      (compressLoop cur rest).Chain' (fun a b => a.id ≠ b.id) ∧
      (compressLoop cur rest).filter (fun x => decide (x.id = -1)) = gaps (cur :: rest) ∧
      ∀ id x : Int, id ≠ -1 → (Covers (compressLoop cur rest) id x ↔ Covers (cur :: rest) id x) := by
  induction rest with
  | nil =>
    intro cur _ _ hid
    have h1 : cur.id ≠ -1 := hid cur (List.mem_cons_self _ _)
    refine ⟨by simp [compressLoop], ?_, fun id x _ => by simp [compressLoop]⟩
    simp [compressLoop, gaps, h1]
  | cons e rest ih =>
    intro cur hchain hpos hid
    have hce : cur.end_ ≤ e.start := (List.chain'_cons.mp hchain).1
    have hchain' : (e :: rest).Chain' (fun a b => a.end_ ≤ b.start) :=
      (List.chain'_cons.mp hchain).2
    have hpe : e.start < e.end_ := hpos e (by simp)
    have hpc : cur.start < cur.end_ := hpos cur (by simp)
    have hic : cur.id ≠ -1 := hid cur (by simp)
    unfold compressLoop
    split
    · rename_i hmerge
      have hc2 : (({ cur with end_ := e.end_ } : Execution) :: rest).Chain'
          (fun a b => a.end_ ≤ b.start) := by
        cases rest with
        | nil => simp
        | cons e' rest' =>
          rw [List.chain'_cons] at hchain' ⊢
          exact ⟨hchain'.1, hchain'.2⟩
      have hp2 : ∀ x ∈ ({ cur with end_ := e.end_ } : Execution) :: rest, x.start < x.end_ := by
        intro x hx
        rcases List.mem_cons.mp hx with rfl | hx
        · show cur.start < e.end_
          omega
        · exact hpos x (by simp [hx])
      have hi2 : ∀ x ∈ ({ cur with end_ := e.end_ } : Execution) :: rest, x.id ≠ -1 := by
        intro x hx
        rcases List.mem_cons.mp hx with rfl | hx
        · exact hic
        · exact hid x (by simp [hx])
      obtain ⟨a, b, c⟩ := ih _ hc2 hp2 hi2
      refine ⟨a, ?_, ?_⟩
      · rw [b, gaps_head_congr (Execution.mk cur.id cur.start e.end_) e rest rfl]
        have hno : ¬ cur.end_ < e.start := by omega
        have hg : gaps (cur :: e :: rest)
            = (if cur.end_ < e.start then [Execution.mk (-1) cur.end_ e.start] else [])
              ++ gaps (e :: rest) := rfl
        rw [hg, if_neg hno, List.nil_append]
      · intro id x hne
        rw [c id x hne, covers_cons, covers_cons, covers_cons]
        show (cur.id = id ∧ cur.start ≤ x ∧ x < e.end_) ∨ _ ↔ _
        constructor
        · rintro (⟨h1, h2, h3⟩ | h)
          · by_cases hx : x < cur.end_
            · exact Or.inl ⟨h1, h2, hx⟩
            · exact Or.inr (Or.inl ⟨by rw [hmerge.1, h1], by omega, h3⟩)
          · exact Or.inr (Or.inr h)
        · rintro (⟨h1, h2, h3⟩ | ⟨h1, h2, h3⟩ | h)
          · exact Or.inl ⟨h1, h2, by omega⟩
          · exact Or.inl ⟨by rw [← hmerge.1, h1], by omega, h3⟩
          · exact Or.inr h
    · rename_i hmerge
      obtain ⟨a, b, c⟩ := ih e hchain' (fun x hx => hpos x (List.mem_cons_of_mem _ hx))
        (fun x hx => hid x (List.mem_cons_of_mem _ hx))
      obtain ⟨y, tail, hy, hyid⟩ := compressLoop_head_id rest e
      have hie : e.id ≠ -1 := hid e (by simp)
      refine ⟨?_, ?_, ?_⟩
      · by_cases hgap : e.start > cur.end_
        · simp only [if_pos hgap, List.singleton_append]
          rw [List.chain'_cons]
          refine ⟨hic, ?_⟩
          rw [hy, List.chain'_cons]
          rw [hy] at a
          exact ⟨by rw [hyid]; exact fun h => hie h.symm, a⟩
        · simp only [if_neg hgap, List.nil_append]
          rw [hy, List.chain'_cons]
          rw [hy] at a
          refine ⟨?_, a⟩
          rw [hyid]
          intro hsame
          exact hmerge ⟨hsame.symm, by omega⟩
      · by_cases hgap : e.start > cur.end_
        · have hgap' : cur.end_ < e.start := hgap
          simp [gaps, hgap', hic, b]
        · have hgap' : ¬ cur.end_ < e.start := hgap
          simp [gaps, hgap', hic, b]
      · intro id x hne
        rw [covers_cons, covers_cons cur]
        have hrest : Covers ((if e.start > cur.end_ then [Execution.mk (-1) cur.end_ e.start]
            else []) ++ compressLoop e rest) id x ↔ Covers (e :: rest) id x := by
          rw [← c id x hne]
          by_cases hgap : e.start > cur.end_
          · simp only [if_pos hgap, List.singleton_append, covers_cons]
            constructor
            · rintro (⟨h1, -, -⟩ | h)
              · exact absurd h1.symm hne
              · exact h
            · exact Or.inr
          · simp only [if_neg hgap, List.nil_append]
        rw [hrest]

/-- C11. For a non-empty raw list whose intervals are non-empty, in time
order (each starts no earlier than the one before it ends) and free of the id
`-1`, the list that `printGanttChart` prints (1) starts at the first raw
start, is gap-free, each entry starting where the one before it ends, has
non-empty entries and ends at the last raw end; (2) never has two neighbours
with the same id; and (3) has as its entries of id `-1` exactly the gaps of
the raw list, in order, while every other id covers exactly the time units
that the raw intervals of that id cover. -/
theorem printGanttChart_compression (raw : List Execution) (hne : raw ≠ [])
    (hpos : ∀ e ∈ raw, e.start < e.end_)
    (hchain : raw.Chain' (fun a b => a.end_ ≤ b.start))
    (hid : ∀ e ∈ raw, e.id ≠ -1) :
    ((printGanttChart raw).head?.map fun x => x.start) = (raw.head?.map fun e => e.start) ∧
    (printGanttChart raw).Chain' (fun a b => a.end_ = b.start) ∧
    (∀ x ∈ printGanttChart raw, x.start < x.end_) ∧
    ((printGanttChart raw).getLast?.map fun x => x.end_) = (raw.getLast?.map fun e => e.end_) ∧
    (printGanttChart raw).Chain' (fun a b => a.id ≠ b.id) ∧
    (printGanttChart raw).filter (fun x => decide (x.id = -1)) = gaps raw ∧
    (∀ id x : Int, id ≠ -1 → (Covers (printGanttChart raw) id x ↔ Covers raw id x)) := by
  obtain ⟨⟨x, tail, e, rest, hx, hraw, hxs⟩, h1, h2, h3⟩ :=
    printGanttChart_spec raw hne hchain hpos
  subst hraw
  obtain ⟨h4, h5, h6⟩ := compressLoop_merges rest e hchain hpos hid
  refine ⟨?_, h1, h2, ?_, h4, h5, h6⟩
  · rw [hx]
    simp [hxs]
  · have hlast : ∃ y, (printGanttChart (e :: rest)).getLast? = some y := by
      rw [hx]
      exact ⟨_, List.getLast?_eq_getLast _ (List.cons_ne_nil _ _)⟩
    obtain ⟨y, hy⟩ := hlast
    have hlast' : ∃ z, (e :: rest).getLast? = some z :=
      ⟨_, List.getLast?_eq_getLast _ (List.cons_ne_nil _ _)⟩
    obtain ⟨z, hz⟩ := hlast'
    unfold makespan at h3
    rw [hy, hz] at h3 ⊢
    simpa using h3

theorem printGanttChart_compression_witness :
    ([⟨1, 0, 2⟩, ⟨1, 2, 3⟩, ⟨2, 5, 6⟩, ⟨1, 6, 7⟩] : List Execution) ≠ [] ∧
    printGanttChart [⟨1, 0, 2⟩, ⟨1, 2, 3⟩, ⟨2, 5, 6⟩, ⟨1, 6, 7⟩]
      = [⟨1, 0, 3⟩, ⟨-1, 3, 5⟩, ⟨2, 5, 6⟩, ⟨1, 6, 7⟩] ∧
    (printGanttChart [⟨1, 0, 2⟩, ⟨1, 2, 3⟩, ⟨2, 5, 6⟩, ⟨1, 6, 7⟩]).filter
      (fun x => decide (x.id = -1)) = [⟨-1, 3, 5⟩] :=
  ⟨by decide, by decide,
    (printGanttChart_compression [⟨1, 0, 2⟩, ⟨1, 2, 3⟩, ⟨2, 5, 6⟩, ⟨1, 6, 7⟩] (by decide)
      (by decide) (by simp) (by decide)).2.2.2.2.2.1.trans (by decide)⟩

/-! ## The states a loop goes through -/

theorem whileIter_inv {σ : Type} (cond : σ → Bool) (body : σ → σ) (Inv : σ → Prop)
    (hstep : ∀ s, Inv s → cond s = true → Inv (body s)) :
    ∀ (n : Nat) (s s' : σ), Inv s → whileIter cond body n s = some s' → Inv s' := by
  intro n
  induction n with
  | zero =>
    intro s s' hs h
    simp only [whileIter, Option.some.injEq] at h
    exact h ▸ hs
  | succ n ih =>
    intro s s' hs h
    unfold whileIter at h
    by_cases hc : cond s = true
    · rw [if_pos hc] at h
      exact ih _ _ (hstep s hs hc) h
    · rw [if_neg hc] at h
      cases h

/-- The state after `n + 1` iterations is the body applied to the state
after `n` iterations, where the condition held. -/
theorem whileIter_succ {σ : Type} (cond : σ → Bool) (body : σ → σ) :
    ∀ (n : Nat) (s s' : σ), whileIter cond body (n + 1) s = some s' ↔
      ∃ m, whileIter cond body n s = some m ∧ cond m = true ∧ s' = body m := by
  intro n
  induction n with
  | zero =>
    intro s s'
    simp only [whileIter, Option.some.injEq]
    constructor
    · intro h
      by_cases hc : cond s = true
      · rw [if_pos hc] at h
        exact ⟨s, rfl, hc, (Option.some.inj h).symm⟩
      · rw [if_neg hc] at h
        cases h
    · rintro ⟨m, rfl, hc, rfl⟩
      rw [if_pos hc]
  | succ n ih =>
    intro s s'
    by_cases hc : cond s = true
    · have e1 : whileIter cond body (n + 1 + 1) s = whileIter cond body (n + 1) (body s) := by
        conv_lhs => unfold whileIter
        rw [if_pos hc]
      have e2 : whileIter cond body (n + 1) s = whileIter cond body n (body s) := by
        conv_lhs => unfold whileIter
        rw [if_pos hc]
      rw [e1, e2]
      exact ih (body s) s'
    · have e1 : whileIter cond body (n + 1 + 1) s = none := by
        conv_lhs => unfold whileIter
        rw [if_neg hc]
      have e2 : whileIter cond body (n + 1) s = none := by
        conv_lhs => unfold whileIter
        rw [if_neg hc]
      rw [e1, e2]
      simp

/-- The state in which a loop ends is the state after some number of
iterations. -/
theorem whileLoop_iter {σ : Type} (cond : σ → Bool) (body : σ → σ) :
    ∀ (fuel : Nat) (s s' : σ), whileLoop cond body fuel s = some s' →
      ∃ n, whileIter cond body n s = some s' ∧ cond s' = false := by
  intro fuel
  induction fuel with
  | zero =>
    intro s s' h
    unfold whileLoop at h
    by_cases hc : cond s = true
    · simp [hc] at h
    · simp only [hc, Bool.false_eq_true, if_false, Option.some.injEq] at h
      subst h
      exact ⟨0, rfl, by simpa using hc⟩
  | succ k ih =>
    intro s s' h
    unfold whileLoop at h
    by_cases hc : cond s = true
    · rw [if_pos hc] at h
      obtain ⟨n, hn, hf⟩ := ih _ _ h
      refine ⟨n + 1, ?_, hf⟩
      unfold whileIter
      rw [if_pos hc]
      exact hn
    · simp only [hc, Bool.false_eq_true, if_false, Option.some.injEq] at h
      subst h
      exact ⟨0, rfl, by simpa using hc⟩

/-! ## C12: the raw execution list is in time order -/

theorem le_start_of_chain (rest : List Execution) :
    ∀ x : Int, (∀ e ∈ rest, e.start < e.end_) → rest.Chain' (fun a b => a.end_ ≤ b.start) →
      (∀ first, rest.head? = some first → x ≤ first.start) → ∀ b ∈ rest, x ≤ b.start := by
  induction rest with
  | nil => intro x _ _ _ b hb; cases hb
  | cons a rest ih =>
    intro x hpos hchain hx b hb
    have ha : x ≤ a.start := hx a rfl
    rcases List.mem_cons.mp hb with rfl | hb
    · exact ha
    · have hpa := hpos a (List.mem_cons_self _ _)
      refine le_trans (le_of_lt (lt_of_le_of_lt ha hpa)) ?_
      have hchain' : rest.Chain' (fun a b => a.end_ ≤ b.start) := by
        cases rest with
        | nil => exact List.chain'_nil
        | cons c rest' => exact (List.chain'_cons.mp hchain).2
      refine ih a.end_ (fun e he => hpos e (List.mem_cons_of_mem _ he)) hchain' ?_ b hb
      intro first hfirst
      cases rest with
      | nil => cases hb
      | cons c rest' =>
        simp only [List.head?_cons, Option.some.injEq] at hfirst
        subst hfirst
        exact (List.chain'_cons.mp hchain).1

theorem timeOrdered_of_chain (execs : List Execution) (hpos : ∀ e ∈ execs, e.start < e.end_)
    (hchain : execs.Chain' (fun a b => a.end_ ≤ b.start)) : TimeOrdered execs := by
  refine ⟨hpos, hchain, ?_⟩
  induction execs with
  | nil => exact List.Pairwise.nil
  | cons a rest ih =>
    have hchain' : rest.Chain' (fun a b => a.end_ ≤ b.start) := by
      cases rest with
      | nil => exact List.chain'_nil
      | cons c rest' => exact (List.chain'_cons.mp hchain).2
    refine List.Pairwise.cons ?_ (ih (fun e he => hpos e (List.mem_cons_of_mem _ he)) hchain')
    refine le_start_of_chain rest a.end_ (fun e he => hpos e (List.mem_cons_of_mem _ he))
      hchain' ?_
    intro first hfirst
    cases rest with
    | nil => cases hfirst
    | cons c rest' =>
      simp only [List.head?_cons, Option.some.injEq] at hfirst
      subst hfirst
      exact (List.chain'_cons.mp hchain).1

/-- Every state the loop of `sjf` goes through satisfies its invariant. -/
theorem sjf_states (tasks : List Task) (hpre : ∀ t ∈ tasks, 0 ≤ t.arrival ∧ 0 < t.burst)
    (n : Nat) (s : SjfState) (h : whileIter sjfCond sjfBody n (sjfInit tasks) = some s) :
    SjfInv (sortByArrival tasks) s :=
  whileIter_inv sjfCond sjfBody (SjfInv (sortByArrival tasks))
    (fun s hs _ => sjfInv_step _ s hs) n _ s (sjfInv_init tasks hpre) h

/-- Every state the loop of `srtf` goes through satisfies its invariant. -/
theorem srtf_states (tasks : List Task)
    (hpre : ∀ t ∈ tasks, 0 ≤ t.arrival ∧ 0 < t.burst ∧ t.remaining = t.burst)
    (n : Nat) (s : SrtfState) (h : whileIter srtfCond srtfBody n (srtfInit tasks) = some s) :
    SrtfInv tasks s :=
  whileIter_inv srtfCond srtfBody (SrtfInv tasks)
    (fun s hs _ => srtfInv_step _ s hs) n _ s (srtfInv_init tasks hpre) h

/-- Every state the loop of `roundRobin` goes through satisfies its
invariant. -/
theorem rr_states (q : Int) (hq : 1 ≤ q) (tasks : List Task)
    (hpre : ∀ t ∈ tasks, 0 ≤ t.arrival ∧ 0 < t.burst)
    (n : Nat) (s : RRState) (h : whileIter rrCond (rrBody q) n (rrInit tasks) = some s) :
    RRInv q tasks s :=
  whileIter_inv rrCond (rrBody q) (RRInv q tasks)
    (fun s hs _ => rrInv_step q hq _ s hs) n _ s (rrInv_init q hq tasks hpre) h

theorem loadTasks_pre (recs : List Record) (hpre : ∀ r ∈ recs, 0 ≤ r.arrival ∧ 0 < r.burst) :
    ∀ t ∈ loadTasks recs, 0 ≤ t.arrival ∧ 0 < t.burst :=
  fun t ht => ⟨(loadTasks_fresh recs hpre t ht).1, (loadTasks_fresh recs hpre t ht).2.1⟩
/-- In the model over the integers.  For records with `arrival >= 0` and `burst > 0` (and a quantum of at
least 1), the raw execution list of each of the four policies is in time
order: every interval has `start < end` and starts at or after the end of the
interval recorded before it, so that no two intervals overlap.  This holds
for the list of `fcfs`, for the list in every state the loops of `sjf`, `srtf`
and `roundRobin` go through, and so for the list of every report; `roundRobin`
returns a report, and `sjf` and `srtf` do when every burst is below
`INT_MAX`. -/
theorem executions_in_time_order (recs : List Record) (quantum : Int)
    (hpre : ∀ r ∈ recs, 0 ≤ r.arrival ∧ 0 < r.burst) (hq : 1 ≤ quantum) :
    TimeOrdered (fcfs (loadTasks recs)).executions ∧
    (∀ n s, whileIter sjfCond sjfBody n (sjfInit (loadTasks recs)) = some s →
      TimeOrdered s.executions) ∧
    (∀ n s, whileIter srtfCond srtfBody n (srtfInit (loadTasks recs)) = some s →
      TimeOrdered s.executions) ∧
    (∀ n s, whileIter rrCond (rrBody quantum) n (rrInit (loadTasks recs)) = some s →
      TimeOrdered s.executions) ∧
    (∀ fuel rep, sjf fuel (loadTasks recs) = some rep → TimeOrdered rep.executions) ∧
    (∀ fuel rep, srtf fuel (loadTasks recs) = some rep → TimeOrdered rep.executions) ∧
    (∀ fuel rep, roundRobin fuel (loadTasks recs) quantum = some rep →
      TimeOrdered rep.executions) ∧
    (∃ fuel rep, roundRobin fuel (loadTasks recs) quantum = some rep) ∧
    ((∀ r ∈ recs, r.burst < INT_MAX) →
      (∃ fuel rep, sjf fuel (loadTasks recs) = some rep) ∧
      (∃ fuel rep, srtf fuel (loadTasks recs) = some rep)) := by
  have hsjf : ∀ n s, whileIter sjfCond sjfBody n (sjfInit (loadTasks recs)) = some s →
      TimeOrdered s.executions := by
    intro n s h
    have hinv := sjf_states (loadTasks recs) (loadTasks_pre recs hpre) n s h
    refine timeOrdered_of_chain _ ?_ hinv.chain
    intro e he
    obtain ⟨i, t, ht, -, hlen, -⟩ := hinv.lens e he
    have := (hinv.pre i t ht).2
    omega
  have hsrtf : ∀ n s, whileIter srtfCond srtfBody n (srtfInit (loadTasks recs)) = some s →
      TimeOrdered s.executions := by
    intro n s h
    have hinv := srtf_states (loadTasks recs) (loadTasks_fresh recs hpre) n s h
    refine timeOrdered_of_chain _ ?_ hinv.chain
    intro e he
    have := hinv.unit e he
    omega
  have hrr : ∀ n s, whileIter rrCond (rrBody quantum) n (rrInit (loadTasks recs)) = some s →
      TimeOrdered s.executions := by
    intro n s h
    have hinv := rr_states quantum hq (loadTasks recs) (loadTasks_pre recs hpre) n s h
    exact timeOrdered_of_chain _ (fun e he => (hinv.slice e he).1) hinv.chain
  refine ⟨?_, hsjf, hsrtf, hrr, ?_, ?_, ?_, roundRobin_returns recs quantum hpre hq,
    fun hb => ⟨sjf_returns recs hpre hb, srtf_returns recs hpre hb⟩⟩
  · have hrun := fcfs_run (loadTasks recs) (loadTasks_pre recs hpre)
    exact timeOrdered_of_chain _ hrun.pos hrun.chain
  · intro fuel rep h
    obtain ⟨s, hs, rfl⟩ := sjf_report fuel _ rep h
    obtain ⟨n, hn, -⟩ := whileLoop_iter _ _ fuel _ s hs
    exact hsjf n s hn
  · intro fuel rep h
    obtain ⟨s, hs, rfl⟩ := srtf_report fuel _ rep h
    obtain ⟨n, hn, -⟩ := whileLoop_iter _ _ fuel _ s hs
    exact hsrtf n s hn
  · intro fuel rep h
    obtain ⟨s, hs, rfl⟩ := rr_report fuel _ quantum rep h
    obtain ⟨n, hn, -⟩ := whileLoop_iter _ _ fuel _ s hs
    exact hrr n s hn

/-! ## C13: what `fcfs` records -/

theorem fcfsLoop_executions_length (l : List Task) :
    ∀ ct : Int, (fcfsLoop ct l).2.length = l.length := by
  induction l with
  | nil => intro ct; rfl
  | cons t rest ih =>
    intro ct
    simp only [fcfsLoop, List.length_cons]
    rw [ih]

/-- The loop of `fcfs`, entry by entry: the `k`-th interval belongs to the
`k`-th task, starts at the later of the clock (the end of the interval before
it, or the initial clock) and the task's arrival, and lasts for the burst; the
wait is the time from the arrival to that start. -/
theorem fcfsLoop_entry (l : List Task) :
    ∀ (ct : Int) (k : Nat) (t u : Task) (e : Execution), l[k]? = some t →
      (fcfsLoop ct l).1[k]? = some u → (fcfsLoop ct l).2[k]? = some e →
      u = { t with wait := e.start - t.arrival } ∧
      e.id = t.id ∧ e.end_ = e.start + t.burst ∧
      (k = 0 → e.start = max ct t.arrival) ∧
      (∀ p, 0 < k → (fcfsLoop ct l).2[k - 1]? = some p → e.start = max p.end_ t.arrival) := by
  induction l with
  | nil => intro ct k t u e ht; simp at ht
  | cons x rest ih =>
    intro ct k t u e ht hu he
    have hnow : (if ct < x.arrival then x.arrival else ct) = max ct x.arrival := by
      split
      · rw [max_eq_right (by omega)]
      · rw [max_eq_left (by omega)]
    cases k with
    | zero =>
      simp only [List.getElem?_cons_zero, Option.some.injEq] at ht
      subst ht
      simp only [fcfsLoop, List.getElem?_cons_zero, Option.some.injEq] at hu he
      subst hu he
      refine ⟨?_, rfl, rfl, fun _ => hnow, fun p hp => absurd hp (lt_irrefl 0)⟩
      simp only [hnow]
      congr 1
      have : x.arrival ≤ max ct x.arrival := le_max_right _ _
      rw [max_eq_right (by omega)]
    | succ k =>
      simp only [List.getElem?_cons_succ] at ht
      simp only [fcfsLoop, List.getElem?_cons_succ] at hu he
      obtain ⟨h1, h2, h3, h4, h5⟩ := ih _ k t u e ht hu he
      refine ⟨h1, h2, h3, fun h => absurd h (Nat.succ_ne_zero k), ?_⟩
      intro p _ hp
      cases k with
      | zero =>
        simp only [fcfsLoop, Nat.zero_add, Nat.sub_self, List.getElem?_cons_zero,
          Option.some.injEq] at hp
        subst hp
        exact h4 rfl
      | succ k =>
        simp only [fcfsLoop, Nat.add_sub_cancel, List.getElem?_cons_succ] at hp
        exact h5 p (Nat.succ_pos k) (by simpa using hp)
/-! ## C14: which task `sjf` dispatches -/

/-- A list with the records of a list sorted by arrival is sorted by arrival:
an earlier position holds an arrival that is not later. -/
theorem arrival_le_of_keys (l sorted : List Task)
    (hk : l.map Task.record = sorted.map Task.record) (hs : sorted.Sorted arrivalLE)
    (i j : Nat) (t u : Task) (hij : i ≤ j) (hi : l[i]? = some t) (hj : l[j]? = some u) :
    t.arrival ≤ u.arrival := by
  have harr : l.map (fun t => t.arrival) = sorted.map (fun t => t.arrival) := by
    have := congrArg (List.map fun r : Record => r.arrival) hk
    simpa [List.map_map, Function.comp, Task.record] using this
  have hp : (sorted.map fun t => t.arrival).Pairwise (· ≤ ·) := by
    rw [List.pairwise_map]
    exact hs
  rw [← harr, List.pairwise_map] at hp
  rcases Nat.lt_or_eq_of_le hij with hlt | heq
  · have hjl : j < l.length := by
      by_contra hge
      rw [List.getElem?_eq_none (by omega)] at hj
      cases hj
    have hil : i < l.length := by omega
    have := (List.pairwise_iff_getElem.mp hp) i j hil hjl hlt
    rw [List.getElem?_eq_getElem hil] at hi
    rw [List.getElem?_eq_getElem hjl] at hj
    rw [← Option.some.inj hi, ← Option.some.inj hj]
    exact this
  · subst heq
    rw [hi] at hj
    rw [Option.some.inj hj]

/-! ## C15: which task `srtf` runs -/

/-- One iteration of `srtf`, with the way the choice is made: it idles; or it
runs the task it holds as running, no eligible task having less remaining
time; or it runs the first task of least remaining time, which has less than
the running one. -/
theorem srtfBody_choice (s : SrtfState)
    (hchk : s.check = true → ∃ t, s.tasks[s.shortestIndex]? = some t ∧
      t.remaining = s.shortestRemainingTime ∧ 0 < t.remaining ∧ t.arrival ≤ s.currentTime ∧
      t.remaining < INT_MAX) :
    (s.check = false ∧ srtfBody s = { s with currentTime := s.currentTime + 1 } ∧
      ∀ (k : Nat) (t : Task), s.tasks[k]? = some t → t.arrival ≤ s.currentTime →
        0 < t.remaining → s.shortestRemainingTime ≤ t.remaining) ∨
    (s.check = true ∧ ∃ t : Task, srtfBody s = srtfRun s s.shortestIndex t ∧
      s.tasks[s.shortestIndex]? = some t ∧ t.arrival ≤ s.currentTime ∧ 0 < t.remaining ∧
      t.remaining = s.shortestRemainingTime ∧
      ∀ (k' : Nat) (t' : Task), s.tasks[k']? = some t' → t'.arrival ≤ s.currentTime →
        0 < t'.remaining → t.remaining ≤ t'.remaining) ∨
    (∃ (j : Nat) (t : Task), srtfBody s = srtfRun s j t ∧
      s.tasks[j]? = some t ∧ t.arrival ≤ s.currentTime ∧ 0 < t.remaining ∧
      t.remaining < s.shortestRemainingTime ∧
      ∀ (k' : Nat) (t' : Task), s.tasks[k']? = some t' → t'.arrival ≤ s.currentTime →
        0 < t'.remaining → t.remaining ≤ t'.remaining ∧ (k' < j → t.remaining < t'.remaining)) := by
  rcases srtfScan_spec s.currentTime s.tasks 0 s.shortestRemainingTime s.shortestIndex s.check
    with ⟨heq, hall⟩ | ⟨k, t, heq, h1, h2, h3, h4, h5⟩
  · cases hck : s.check with
    | false =>
      left
      refine ⟨rfl, ?_, hall⟩
      unfold srtfBody
      rw [hck] at heq
      simp only [hck, heq, if_true]
    | true =>
      right
      left
      obtain ⟨t, ht, hrem, hpos, harr, -⟩ := hchk hck
      refine ⟨rfl, t, ?_, ht, harr, hpos, hrem, ?_⟩
      · unfold srtfBody srtfRun srtfComplete srtfContinue srtfLastUnit srtfUnit
        rw [hck] at heq
        simp only [hck, heq, Bool.true_eq_false, if_false, ht]
      · intro k' t' h1' h2' h3'
        rw [hrem]
        exact hall k' t' h1' h2' h3'
  · right
    right
    refine ⟨k, t, ?_, h1, h2, h3, h4, ?_⟩
    · unfold srtfBody srtfRun srtfComplete srtfContinue srtfLastUnit srtfUnit
      simp only [heq, Nat.zero_add, Bool.true_eq_false, if_false, h1]
    · intro k' t' a b c
      have := h5 k' t' a b c
      simpa using this

/-- After a unit of `srtf` the task it ran is held as running exactly when it
is unfinished. -/
theorem srtfRunning_after_run (s : SrtfState) (j : Nat) (t : Task) :
    srtfRunning (srtfRun s j t) = if t.remaining = 1 then none else some j := by
  unfold srtfRun
  by_cases h : t.remaining - 1 = 0
  · have h1 : t.remaining = 1 := by omega
    rw [if_pos h, if_pos h1]
    rfl
  · have h1 : ¬ t.remaining = 1 := by omega
    rw [if_neg h, if_neg h1]
    rfl
theorem srtf_stuck_state (n : Nat) :
    whileIter srtfCond srtfBody n (srtfInit (loadTasks [⟨1, 2147483647, 0⟩]))
      = some (SrtfState.mk [Task.new 1 2147483647 0] [] (n : Int) 0 0 INT_MAX false) := by
  have key : ∀ (n : Nat) (c : Int),
      whileIter srtfCond srtfBody n
        (SrtfState.mk [Task.new 1 2147483647 0] [] c 0 0 INT_MAX false)
        = some (SrtfState.mk [Task.new 1 2147483647 0] [] (c + n) 0 0 INT_MAX false) := by
    intro n
    induction n with
    | zero => intro c; simp [whileIter]
    | succ k ih =>
      intro c
      have hc : srtfCond (SrtfState.mk [Task.new 1 2147483647 0] [] c 0 0 INT_MAX false)
          = true := rfl
      unfold whileIter
      rw [hc, if_pos rfl, srtfBody_stuck, ih]
      congr 2
      push_cast
      ring
  have := key n 0
  simpa using this

/-! ## C16: where `roundRobin` puts a preempted task -/

theorem rrNext_eq (s : RRState) :
    rrNext s = (s.readyQueue ++ rrAdmitted s.currentTime s.arrival 0).head? := by
  unfold rrNext
  rw [rrAdmit_eq]

theorem before_append (x c : Nat) (queue extra : List Nat) (h : Before x c queue) :
    Before x c (queue ++ extra) := by
  obtain ⟨l₁, l₂, rfl, hc⟩ := h
  exact ⟨l₁, l₂ ++ extra, by simp, List.mem_append_left _ hc⟩

theorem before_tail (x c cur : Nat) (rest : List Nat) (h : Before x c (cur :: rest))
    (hne : cur ≠ x) : Before x c rest := by
  obtain ⟨l₁, l₂, heq, hc⟩ := h
  cases l₁ with
  | nil =>
    simp only [List.nil_append, List.cons.injEq] at heq
    exact absurd heq.1 hne
  | cons a l₁' =>
    simp only [List.cons_append, List.cons.injEq] at heq
    exact ⟨l₁', l₂, heq.2, hc⟩

theorem before_not_head (x c : Nat) (queue : List Nat) (h : Before x c queue)
    (hnd : queue.Nodup) : queue.head? ≠ some c := by
  obtain ⟨l₁, l₂, rfl, hc⟩ := h
  intro hhead
  cases l₁ with
  | nil =>
    simp only [List.nil_append, List.head?_cons, Option.some.injEq] at hhead
    subst hhead
    simp only [List.nil_append, List.nodup_cons] at hnd
    exact hnd.1 hc
  | cons a l₁' =>
    simp only [List.cons_append, List.head?_cons, Option.some.injEq] at hhead
    subst hhead
    simp only [List.cons_append, List.nodup_cons, List.mem_append, List.mem_cons] at hnd
    exact hnd.1 (Or.inr (Or.inr hc))

/-- The tasks the queue of `roundRobin` holds after the admission loop of an
iteration are tasks of the list. -/
theorem rr_queue_valid (q : Int) (orig : List Task) (s : RRState) (h : RRInv q orig s) :
    ∀ i ∈ s.readyQueue ++ rrAdmitted s.currentTime s.arrival 0, ∃ t, s.tasks[i]? = some t := by
  intro i hi
  obtain ⟨t, ht, -⟩ := (rr_after_admission q orig s h).1.qvalid i hi
  exact ⟨t, ht⟩

/-- An iteration of `roundRobin` that does not take `x` from the queue leaves
`x` before `c` in the queue. -/
theorem before_step (q : Int) (orig : List Task) (s : RRState) (h : RRInv q orig s)
    (x c : Nat) (hb : Before x c s.readyQueue) (hne : rrNext s ≠ some x) :
    Before x c (rrBody q s).readyQueue := by
  have hb' := before_append x c _ (rrAdmitted s.currentTime s.arrival 0) hb
  rcases rrBody_cases q s (rr_queue_valid q orig s h) with ⟨hnil, -⟩ | ⟨cur, rest, t, hQ, -, hbody⟩
  · rw [hnil] at hb'
    obtain ⟨l₁, l₂, heq, -⟩ := hb'
    simp at heq
  · rw [hQ] at hb'
    have hcx : cur ≠ x := by
      intro hcx
      apply hne
      rw [rrNext_eq, hQ, hcx]
      rfl
    have hrest := before_tail x c cur rest hb' hcx
    rw [hbody]
    unfold rrDispatch
    split
    · exact before_append _ _ _ _ (before_append _ _ _ _ hrest)
    · exact before_append _ _ _ _ hrest

/-- As long as `x` has not been taken from the queue, it stays before `c`,
and `c` is not taken. -/
theorem before_run (q : Int) (hq : 1 ≤ q) (orig : List Task) (s₁ : RRState)
    (h : RRInv q orig s₁) (x c : Nat) (hb : Before x c s₁.readyQueue) :
    ∀ (m : Nat) (s' : RRState), whileIter rrCond (rrBody q) m s₁ = some s' →
      (∀ (m' : Nat) (s'' : RRState), m' < m → whileIter rrCond (rrBody q) m' s₁ = some s'' →
        rrNext s'' ≠ some x) →
      RRInv q orig s' ∧ Before x c s'.readyQueue := by
  intro m
  induction m with
  | zero =>
    intro s' hs' _
    simp only [whileIter, Option.some.injEq] at hs'
    subst hs'
    exact ⟨h, hb⟩
  | succ m ih =>
    intro s' hs' hnot
    obtain ⟨mid, hmid, -, rfl⟩ := (whileIter_succ rrCond (rrBody q) m s₁ s').mp hs'
    obtain ⟨hinv, hbef⟩ := ih mid hmid (fun m' s'' hlt => hnot m' s'' (by omega))
    exact ⟨rrInv_step q hq orig mid hinv,
      before_step q orig mid hinv x c hbef (hnot m mid (by omega) hmid)⟩

/-- A task that stands behind `x` in the queue is not taken from the queue
before `x` is. -/
theorem taken_after (q : Int) (hq : 1 ≤ q) (orig : List Task) (s₁ : RRState)
    (h : RRInv q orig s₁) (x c : Nat) (hb : Before x c s₁.readyQueue)
    (m : Nat) (s' : RRState) (hs' : whileIter rrCond (rrBody q) m s₁ = some s')
    (hc : rrNext s' = some c) :
    ∃ (m' : Nat) (s'' : RRState), m' < m ∧ whileIter rrCond (rrBody q) m' s₁ = some s'' ∧
      rrNext s'' = some x := by
  by_contra hno
  have hnot : ∀ (m' : Nat) (s'' : RRState), m' < m →
      whileIter rrCond (rrBody q) m' s₁ = some s'' → rrNext s'' ≠ some x := by
    intro m' s'' hlt hs'' hx
    exact hno ⟨m', s'', hlt, hs'', hx⟩
  obtain ⟨hinv, hbef⟩ := before_run q hq orig s₁ h x c hb m s' hs' hnot
  have hQ := (rr_after_admission q orig s' hinv).1.qnodup
  have := before_not_head x c _ (before_append x c _ (rrAdmitted s'.currentTime s'.arrival 0) hbef) hQ
  rw [rrNext_eq] at hc
  exact this hc
/-- The indices the admission loop run after a slice pushes are those of the
tasks that arrived after the start of the slice and no later than its end. -/
theorem mem_newly_admitted (q : Int) (orig : List Task) (s : RRState) (h : RRInv q orig s)
    (now : Int) (i : Nat) :
    i ∈ rrAdmitted now (rrMark s.currentTime s.arrival) 0 ↔
      ∃ u, s.tasks[i]? = some u ∧ s.currentTime < u.arrival ∧ u.arrival ≤ now := by
  obtain ⟨hQ, hpost⟩ := rr_after_admission q orig s h
  constructor
  · intro hi
    obtain ⟨k, a, hk, ha, hle, hne⟩ := (mem_rrAdmitted now _ 0 i).mp hi
    have hik : i = k := by omega
    subst hik
    have hil : i < s.tasks.length := by
      rw [← hQ.alen]
      exact (List.getElem?_eq_some.mp ha).1
    obtain ⟨h1, h2⟩ := hpost i _ a (List.getElem?_eq_getElem hil) ha hne
    exact ⟨_, List.getElem?_eq_getElem hil, h2, by rw [← h1]; exact hle⟩
  · rintro ⟨u, hu, hlate, hle⟩
    have hil : i < s.arrival.length := by
      rw [h.queue.alen]
      exact (List.getElem?_eq_some.mp hu).1
    have ha : s.arrival[i]? = some s.arrival[i] := List.getElem?_eq_getElem hil
    have ha0 : s.arrival[i] = u.arrival := by
      rcases h.queue.mark i u _ hu ha with h1 | h1
      · exact h1
      · rw [h1] at ha
        have := h.queue.arrived i u hu ha
        omega
    have hpos := (h.pre i u hu).1
    refine (mem_rrAdmitted now _ 0 i).mpr ⟨i, u.arrival, by omega, ?_, hle, by omega⟩
    rw [rrMark_getElem?, ha, ha0]
    have hno : ¬ (u.arrival ≤ s.currentTime ∧ u.arrival ≠ -1) := by
      intro hc
      omega
    simp only [Option.map_some', if_neg hno]

/-! ## C17: the order in which `roundRobin` admits tasks -/

/-- An admission loop pushes indices in increasing order. -/
theorem rrAdmitted_sorted (ct : Int) :
    ∀ (arrival : List Int) (i : Nat), (rrAdmitted ct arrival i).Sorted (· < ·) := by
  intro arrival
  induction arrival with
  | nil => intro i; exact List.sorted_nil
  | cons a rest ih =>
    intro i
    unfold rrAdmitted
    split
    · refine List.sorted_cons.mpr ⟨?_, ih (i + 1)⟩
      intro j hj
      have := rrAdmitted_ge ct rest (i + 1) j hj
      omega
    · exact ih (i + 1)

/-! ## C18: termination with every task completed -/

theorem pair_sublist_iff {α : Type} (x y : α) (l : List α) :
    [x, y].Sublist l ↔ ∃ l₁ l₂ l₃, l = l₁ ++ x :: l₂ ++ y :: l₃ := by
  constructor
  · intro h
    obtain ⟨r₁, r₂, rfl, hx, hy⟩ := List.cons_sublist_iff.mp h
    obtain ⟨s, t, rfl⟩ := List.append_of_mem hx
    obtain ⟨u, v, rfl⟩ := List.append_of_mem (List.singleton_sublist.mp hy)
    exact ⟨s, t ++ u, v, by simp⟩
  · rintro ⟨l₁, l₂, l₃, rfl⟩
    refine List.cons_sublist_iff.mpr ⟨l₁ ++ x :: l₂, y :: l₃, by simp, by simp, ?_⟩
    exact List.singleton_sublist.mpr (List.mem_cons_self _ _)

theorem perm_pair {α : Type} (x y : α) (l : List α) (h : l.Perm [x, y]) :
    l = [x, y] ∨ l = [y, x] := by
  have hlen := h.length_eq
  match l, hlen with
  | [u, v], _ =>
    have hu : u ∈ [x, y] := h.subset (List.mem_cons_self _ _)
    simp only [List.mem_cons, List.mem_singleton, List.not_mem_nil, or_false] at hu
    rcases hu with rfl | rfl
    · have := (List.perm_cons _).mp h
      rw [List.perm_singleton.mp this]
      exact Or.inl rfl
    · have h' : [u, v].Perm [u, x] := h.trans (List.Perm.swap _ _ _)
      have := (List.perm_cons _).mp h'
      rw [List.perm_singleton.mp this]
      exact Or.inr rfl

/-- Two different entries of a list, by their positions. -/
theorem pair_subperm_iff {α : Type} (x y : α) (l : List α) :
    [x, y].Subperm l ↔
      ∃ (i j : Nat), i ≠ j ∧ l[i]? = some x ∧ l[j]? = some y := by
  have hsplit : ∀ (a b : α), (∃ l₁ l₂ l₃, l = l₁ ++ a :: l₂ ++ b :: l₃) ↔
      ∃ (i j : Nat), i < j ∧ l[i]? = some a ∧ l[j]? = some b := by
    intro a b
    constructor
    · rintro ⟨l₁, l₂, l₃, rfl⟩
      refine ⟨l₁.length, l₁.length + 1 + l₂.length, by omega, ?_, ?_⟩
      · rw [List.append_assoc, List.getElem?_append_right (le_refl _), Nat.sub_self]
        simp
      · have hlen : (l₁ ++ a :: l₂).length = l₁.length + 1 + l₂.length := by
          simp only [List.length_append, List.length_cons]
          omega
        rw [List.getElem?_append_right (by rw [hlen]), hlen, Nat.sub_self]
        simp
    · rintro ⟨i, j, hij, hi, hj⟩
      have hjl : j < l.length := (List.getElem?_eq_some.mp hj).1
      have hil : i < l.length := by omega
      refine ⟨l.take i, (l.drop (i + 1)).take (j - i - 1), l.drop (j + 1), ?_⟩
      have e1 : l = l.take i ++ l.drop i := (List.take_append_drop i l).symm
      have e2 : l.drop i = a :: l.drop (i + 1) := by
        rw [List.drop_eq_getElem_cons hil]
        congr 1
        have := List.getElem?_eq_getElem hil
        rw [hi] at this
        exact (Option.some.inj this).symm
      have e3 : l.drop (i + 1) = (l.drop (i + 1)).take (j - i - 1)
          ++ (l.drop (i + 1)).drop (j - i - 1) := (List.take_append_drop _ _).symm
      have e4 : (l.drop (i + 1)).drop (j - i - 1) = l.drop j := by
        rw [List.drop_drop]
        congr 1
        omega
      have e5 : l.drop j = b :: l.drop (j + 1) := by
        rw [List.drop_eq_getElem_cons hjl]
        congr 1
        have := List.getElem?_eq_getElem hjl
        rw [hj] at this
        exact (Option.some.inj this).symm
      conv_lhs => rw [e1, e2, e3, e4, e5]
      simp
  constructor
  · rintro ⟨l', hperm, hsub⟩
    rcases perm_pair x y l' hperm with rfl | rfl
    · obtain ⟨i, j, hij, hi, hj⟩ := (hsplit x y).mp ((pair_sublist_iff x y l).mp hsub)
      exact ⟨i, j, by omega, hi, hj⟩
    · obtain ⟨i, j, hij, hi, hj⟩ := (hsplit y x).mp ((pair_sublist_iff y x l).mp hsub)
      exact ⟨j, i, by omega, hj, hi⟩
  · rintro ⟨i, j, hij, hi, hj⟩
    rcases Nat.lt_or_gt_of_ne hij with hlt | hgt
    · exact ((pair_sublist_iff x y l).mpr ((hsplit x y).mpr ⟨i, j, hlt, hi, hj⟩)).subperm
    · have := ((pair_sublist_iff y x l).mpr ((hsplit y x).mpr ⟨j, i, hgt, hj, hi⟩)).subperm
      exact (List.Perm.subperm_right (List.Perm.swap x y [])).mp this
theorem adjacent_split {α : Type} (l : List α) (k : Nat) (x y : α)
    (hx : l[k]? = some x) (hy : l[k + 1]? = some y) :
    ∃ pre post, l = pre ++ x :: y :: post := by
  have hyl : k + 1 < l.length := (List.getElem?_eq_some.mp hy).1
  have hxl : k < l.length := by omega
  refine ⟨l.take k, l.drop (k + 2), ?_⟩
  have e1 : l = l.take k ++ l.drop k := (List.take_append_drop k l).symm
  have e2 : l.drop k = x :: l.drop (k + 1) := by
    rw [List.drop_eq_getElem_cons hxl]
    congr 1
    have := List.getElem?_eq_getElem hxl
    rw [hx] at this
    exact (Option.some.inj this).symm
  have e3 : l.drop (k + 1) = y :: l.drop (k + 2) := by
    rw [List.drop_eq_getElem_cons hyl]
    congr 1
    have := List.getElem?_eq_getElem hyl
    rw [hy] at this
    exact (Option.some.inj this).symm
  conv_lhs => rw [e1, e2, e3]

/-- In a list sorted by arrival with positive bursts, two neighbours overlap
exactly when two different entries overlap. -/
theorem hasOverlappingTimes_iff_overlapping (sorted : List Task)
    (hs : sorted.Sorted arrivalLE) (hb : ∀ t ∈ sorted, 0 < t.burst) :
    hasOverlappingTimes sorted = true ↔ Overlapping (sorted.map arrivalBurst) := by
  have hmono : ∀ (i j : Nat) (t u : Task), i ≤ j → sorted[i]? = some t → sorted[j]? = some u →
      t.arrival ≤ u.arrival :=
    fun i j t u hij hi hj => arrival_le_of_keys sorted sorted rfl hs i j t u hij hi hj
  rw [hasOverlappingTimes_iff]
  constructor
  · rintro ⟨pre, a, b, post, hsplit, hov⟩
    have ha : sorted[pre.length]? = some a := by
      rw [hsplit, List.getElem?_append_right (le_refl _), Nat.sub_self]
      simp
    have hb' : sorted[pre.length + 1]? = some b := by
      rw [hsplit, List.getElem?_append_right (by omega)]
      have : pre.length + 1 - pre.length = 1 := by omega
      rw [this]
      simp
    refine ⟨arrivalBurst a, arrivalBurst b, ?_, hmono _ _ a b (by omega) ha hb', hov⟩
    refine (pair_subperm_iff _ _ _).mpr ⟨pre.length, pre.length + 1, by omega, ?_, ?_⟩
    · rw [List.getElem?_map, ha]
      rfl
    · rw [List.getElem?_map, hb']
      rfl
  · rintro ⟨p, q, hsub, hle, hov⟩
    obtain ⟨i, j, hij, hi, hj⟩ := (pair_subperm_iff _ _ _).mp hsub
    rw [List.getElem?_map] at hi hj
    obtain ⟨a, ha, rfl⟩ := Option.map_eq_some'.mp hi
    obtain ⟨b, hb', rfl⟩ := Option.map_eq_some'.mp hj
    have hle' : a.arrival ≤ b.arrival := hle
    have hov' : a.arrival + a.burst > b.arrival := hov
    have hjl : j < sorted.length := (List.getElem?_eq_some.mp hb').1
    have hil : i < sorted.length := (List.getElem?_eq_some.mp ha).1
    rcases Nat.lt_or_gt_of_ne hij with hlt | hgt
    · have hc : sorted[i + 1]? = some sorted[i + 1] := List.getElem?_eq_getElem (by omega)
      obtain ⟨pre, post, hsplit⟩ := adjacent_split sorted i a _ ha hc
      have := hmono (i + 1) j _ b (by omega) hc hb'
      exact ⟨pre, a, _, post, hsplit, by omega⟩
    · have hc : sorted[j + 1]? = some sorted[j + 1] := List.getElem?_eq_getElem (by omega)
      obtain ⟨pre, post, hsplit⟩ := adjacent_split sorted j b _ hb' hc
      have h1 := hmono (j + 1) i _ a (by omega) hc ha
      have h2 := hmono j i b a (by omega) hb' ha
      have h3 := hb b (List.mem_iff_getElem?.mpr ⟨j, hb'⟩)
      exact ⟨pre, b, _, post, hsplit, by omega⟩

theorem overlapping_perm (ps qs : List (Int × Int)) (h : ps.Perm qs) :
    Overlapping ps ↔ Overlapping qs := by
  constructor
  · rintro ⟨p, q, hsub, h1, h2⟩
    exact ⟨p, q, hsub.trans h.subperm, h1, h2⟩
  · rintro ⟨p, q, hsub, h1, h2⟩
    exact ⟨p, q, hsub.trans h.symm.subperm, h1, h2⟩

theorem allSame_iff_pairs (tasks : List Task) :
    areAllBurstTimesSame tasks = true ↔
      ∀ p ∈ tasks.map arrivalBurst, ∀ q ∈ tasks.map arrivalBurst, p.2 = q.2 := by
  rw [areAllBurstTimesSame_iff]
  constructor
  · intro h p hp q hq
    obtain ⟨t, ht, rfl⟩ := List.mem_map.mp hp
    obtain ⟨u, hu, rfl⟩ := List.mem_map.mp hq
    exact h t ht u hu
  · intro h t ht u hu
    exact h _ (List.mem_map.mpr ⟨t, ht, rfl⟩) _ (List.mem_map.mpr ⟨u, hu, rfl⟩)

/-- The verdict, whatever sorted list the sort leaves, in terms of the
`(arrival, burst)` pairs alone. -/
theorem verdictWith_eq (sorted tasks : List Task) (hperm : sorted.Perm tasks)
    (hs : sorted.Sorted arrivalLE) (hb : ∀ t ∈ tasks, 0 < t.burst) :
    ((∀ p ∈ tasks.map arrivalBurst, ∀ q ∈ tasks.map arrivalBurst, p.2 = q.2) →
      verdictWith sorted tasks = "FCFS") ∧
    (¬ (∀ p ∈ tasks.map arrivalBurst, ∀ q ∈ tasks.map arrivalBurst, p.2 = q.2) →
      Overlapping (tasks.map arrivalBurst) → verdictWith sorted tasks = "SRTF") ∧
    (¬ (∀ p ∈ tasks.map arrivalBurst, ∀ q ∈ tasks.map arrivalBurst, p.2 = q.2) →
      ¬ Overlapping (tasks.map arrivalBurst) → verdictWith sorted tasks = "SJF") := by
  have hov : hasOverlappingTimes sorted = true ↔ Overlapping (tasks.map arrivalBurst) := by
    rw [hasOverlappingTimes_iff_overlapping sorted hs (fun t ht => hb t (hperm.mem_iff.mp ht))]
    exact overlapping_perm _ _ (hperm.map _)
  refine ⟨?_, ?_, ?_⟩
  · intro h
    have := (allSame_iff_pairs tasks).mpr h
    simp [verdictWith, this]
  · intro h ho
    have h1 : areAllBurstTimesSame tasks = false := by
      rw [← Bool.not_eq_true, allSame_iff_pairs]
      exact h
    simp [verdictWith, h1, hov.mpr ho]
  · intro h ho
    have h1 : areAllBurstTimesSame tasks = false := by
      rw [← Bool.not_eq_true, allSame_iff_pairs]
      exact h
    have h2 : hasOverlappingTimes sorted = false := by
      rw [← Bool.not_eq_true, hov]
      exact ho
    simp [verdictWith, h1, h2]

theorem predictBestAlgorithm_eq_verdictWith (tasks : List Task) :
    (predictBestAlgorithm tasks).1 = verdictWith (sortByArrival tasks) tasks := by
  unfold predictBestAlgorithm verdictWith
  split
  · rfl
  · simp only []
    split <;> rfl
/-- The verdict of `predictBestAlgorithm` in terms of the `(arrival, burst)`
pairs of the tasks. -/
theorem verdict_of_pairs (tasks : List Task) (hb : ∀ t ∈ tasks, 0 < t.burst) :
    ((∀ p ∈ tasks.map arrivalBurst, ∀ q ∈ tasks.map arrivalBurst, p.2 = q.2) →
      (predictBestAlgorithm tasks).1 = "FCFS") ∧
    (¬ (∀ p ∈ tasks.map arrivalBurst, ∀ q ∈ tasks.map arrivalBurst, p.2 = q.2) →
      Overlapping (tasks.map arrivalBurst) → (predictBestAlgorithm tasks).1 = "SRTF") ∧
    (¬ (∀ p ∈ tasks.map arrivalBurst, ∀ q ∈ tasks.map arrivalBurst, p.2 = q.2) →
      ¬ Overlapping (tasks.map arrivalBurst) → (predictBestAlgorithm tasks).1 = "SJF") := by
  rw [predictBestAlgorithm_eq_verdictWith]
  exact verdictWith_eq _ tasks (sortByArrival_perm tasks) (sortByArrival_sorted tasks) hb

/-- In the model over the integers.  For a non-empty task list with positive bursts the verdict of
`predictBestAlgorithm` depends only on the multiset of `(arrival, burst)`
pairs: a list with the same pairs up to order, in particular a permutation of
the list, gets the same verdict; the verdict is the same whatever order the
sort gives to tasks with equal arrival times (for every sorted permutation
`sorted` that the sort may leave); and when the bursts are not all equal the
verdict is SRTF exactly when two different entries `a` and `b` of the list
have `a.arrival <= b.arrival` and `a.arrival + a.burst > b.arrival`. -/
theorem predictBestAlgorithm_depends_on_pairs (tasks : List Task) (hne : tasks ≠ [])
    (hb : ∀ t ∈ tasks, 0 < t.burst) :
    (∀ tasks' : List Task, (tasks'.map arrivalBurst).Perm (tasks.map arrivalBurst) →
      (predictBestAlgorithm tasks').1 = (predictBestAlgorithm tasks).1) ∧
    (∀ tasks' : List Task, tasks'.Perm tasks →
      (predictBestAlgorithm tasks').1 = (predictBestAlgorithm tasks).1) ∧
    (∀ sorted : List Task, sorted.Perm tasks → sorted.Sorted arrivalLE →
      verdictWith sorted tasks = (predictBestAlgorithm tasks).1) ∧
    (¬ (∀ t ∈ tasks, ∀ u ∈ tasks, t.burst = u.burst) →
      ((predictBestAlgorithm tasks).1 = "SRTF" ↔
        ∃ (i j : Nat) (a b : Task), i ≠ j ∧ tasks[i]? = some a ∧ tasks[j]? = some b ∧
          a.arrival ≤ b.arrival ∧ a.arrival + a.burst > b.arrival)) := by
  have _ := hne
  have hpairs : ∀ tasks' : List Task, (tasks'.map arrivalBurst).Perm (tasks.map arrivalBurst) →
      (predictBestAlgorithm tasks').1 = (predictBestAlgorithm tasks).1 := by
    intro tasks' hperm
    have hb' : ∀ t ∈ tasks', 0 < t.burst := by
      intro t ht
      have : arrivalBurst t ∈ tasks.map arrivalBurst :=
        hperm.mem_iff.mp (List.mem_map.mpr ⟨t, ht, rfl⟩)
      obtain ⟨u, hu, heq⟩ := List.mem_map.mp this
      have h2 : u.burst = t.burst := congrArg Prod.snd heq
      rw [← h2]
      exact hb u hu
    obtain ⟨a1, a2, a3⟩ := verdict_of_pairs tasks hb
    obtain ⟨b1, b2, b3⟩ := verdict_of_pairs tasks' hb'
    have hsame : (∀ p ∈ tasks'.map arrivalBurst, ∀ q ∈ tasks'.map arrivalBurst, p.2 = q.2) ↔
        (∀ p ∈ tasks.map arrivalBurst, ∀ q ∈ tasks.map arrivalBurst, p.2 = q.2) := by
      constructor
      · intro h p hp q hq
        exact h p (hperm.mem_iff.mpr hp) q (hperm.mem_iff.mpr hq)
      · intro h p hp q hq
        exact h p (hperm.mem_iff.mp hp) q (hperm.mem_iff.mp hq)
    have hov := overlapping_perm _ _ hperm
    by_cases hs : ∀ p ∈ tasks.map arrivalBurst, ∀ q ∈ tasks.map arrivalBurst, p.2 = q.2
    · rw [a1 hs, b1 (hsame.mpr hs)]
    · by_cases ho : Overlapping (tasks.map arrivalBurst)
      · rw [a2 hs ho, b2 (fun h => hs (hsame.mp h)) (hov.mpr ho)]
      · rw [a3 hs ho, b3 (fun h => hs (hsame.mp h)) (fun h => ho (hov.mp h))]
  refine ⟨hpairs, fun tasks' hperm => hpairs tasks' (hperm.map _), ?_, ?_⟩
  · intro sorted hperm hs
    obtain ⟨a1, a2, a3⟩ := verdict_of_pairs tasks hb
    obtain ⟨b1, b2, b3⟩ := verdictWith_eq sorted tasks hperm hs hb
    by_cases hsm : ∀ p ∈ tasks.map arrivalBurst, ∀ q ∈ tasks.map arrivalBurst, p.2 = q.2
    · rw [a1 hsm, b1 hsm]
    · by_cases ho : Overlapping (tasks.map arrivalBurst)
      · rw [a2 hsm ho, b2 hsm ho]
      · rw [a3 hsm ho, b3 hsm ho]
  · intro hns
    obtain ⟨-, a2, a3⟩ := verdict_of_pairs tasks hb
    have hns' : ¬ (∀ p ∈ tasks.map arrivalBurst, ∀ q ∈ tasks.map arrivalBurst, p.2 = q.2) := by
      intro h
      exact hns ((areAllBurstTimesSame_iff tasks).mp ((allSame_iff_pairs tasks).mpr h))
    have hidx : Overlapping (tasks.map arrivalBurst) ↔
        ∃ (i j : Nat) (a b : Task), i ≠ j ∧ tasks[i]? = some a ∧ tasks[j]? = some b ∧
          a.arrival ≤ b.arrival ∧ a.arrival + a.burst > b.arrival := by
      constructor
      · rintro ⟨p, q, hsub, h1, h2⟩
        obtain ⟨i, j, hij, hi, hj⟩ := (pair_subperm_iff _ _ _).mp hsub
        rw [List.getElem?_map] at hi hj
        obtain ⟨a, ha, rfl⟩ := Option.map_eq_some'.mp hi
        obtain ⟨b, hb', rfl⟩ := Option.map_eq_some'.mp hj
        exact ⟨i, j, a, b, hij, ha, hb', h1, h2⟩
      · rintro ⟨i, j, a, b, hij, ha, hb', h1, h2⟩
        refine ⟨arrivalBurst a, arrivalBurst b, ?_, h1, h2⟩
        refine (pair_subperm_iff _ _ _).mpr ⟨i, j, hij, ?_, ?_⟩
        · rw [List.getElem?_map, ha]
          rfl
        · rw [List.getElem?_map, hb']
          rfl
    rw [← hidx]
    constructor
    · intro hv
      by_contra ho
      rw [a3 hns' ho] at hv
      exact absurd hv (by decide)
    · exact a2 hns'

/-! ## C20: no task runs before it arrives -/

theorem fcfsLoop_starts (l : List Task) :
    ∀ (ct : Int), ∀ e ∈ (fcfsLoop ct l).2, ∃ t ∈ l, e.id = t.id ∧ t.arrival ≤ e.start := by
  induction l with
  | nil => intro ct e he; cases he
  | cons t rest ih =>
    intro ct e he
    simp only [fcfsLoop, List.mem_cons] at he
    rcases he with rfl | he
    · refine ⟨t, List.mem_cons_self _ _, rfl, ?_⟩
      show t.arrival ≤ if ct < t.arrival then t.arrival else ct
      split <;> omega
    · obtain ⟨u, hu, h1, h2⟩ := ih _ e he
      exact ⟨u, List.mem_cons_of_mem _ hu, h1, h2⟩

theorem record_unique (recs : List Record) (hnd : (recs.map fun r => r.id).Nodup)
    (r r' : Record) (hr : r ∈ recs) (hr' : r' ∈ recs) (hid : r.id = r'.id) : r = r' :=
  List.inj_on_of_nodup_map hnd hr hr' hid

theorem noEarlyStart_of (recs : List Record) (execs : List Execution)
    (h : ∀ e ∈ execs, ∃ r ∈ recs, r.id = e.id ∧ r.arrival ≤ e.start) :
    NoEarlyStart recs execs := by
  refine ⟨h, ?_⟩
  intro hnd r hr e he hid
  obtain ⟨r', hr', h1, h2⟩ := h e he
  have := record_unique recs hnd r' r hr' hr (by rw [h1, hid])
  rw [← this]
  exact h2

/-- A task of a list that holds the records of the input, up to order, is a
record of the input. -/
theorem record_mem_of_keys (recs : List Record) (l : List Task)
    (hk : (l.map Task.record).Perm recs) (i : Nat) (t : Task) (ht : l[i]? = some t) :
    t.record ∈ recs :=
  hk.mem_iff.mp (List.mem_map.mpr ⟨t, List.mem_iff_getElem?.mpr ⟨i, ht⟩, rfl⟩)

/-- In the model over the integers.  For records with `arrival >= 0` and `burst > 0` (and a quantum of at
least 1) no policy runs a task before it arrives: every interval in the
execution list of `fcfs`, in the execution list of every state the loops of
`sjf`, `srtf` and `roundRobin` go through, and so in every report, carries the
id of a task that has arrived by the start of the interval, and, task ids
being distinct, every interval recorded for a task starts at or after that
task's arrival.  `roundRobin` returns a report, and `sjf` and `srtf` do when
every burst is below `INT_MAX`. -/
theorem no_task_runs_before_arrival (recs : List Record) (quantum : Int)
    (hpre : ∀ r ∈ recs, 0 ≤ r.arrival ∧ 0 < r.burst) (hq : 1 ≤ quantum) :
    NoEarlyStart recs (fcfs (loadTasks recs)).executions ∧
    (∀ n s, whileIter sjfCond sjfBody n (sjfInit (loadTasks recs)) = some s →
      NoEarlyStart recs s.executions) ∧
    (∀ n s, whileIter srtfCond srtfBody n (srtfInit (loadTasks recs)) = some s →
      NoEarlyStart recs s.executions) ∧
    (∀ n s, whileIter rrCond (rrBody quantum) n (rrInit (loadTasks recs)) = some s →
      NoEarlyStart recs s.executions) ∧
    (∀ fuel rep, sjf fuel (loadTasks recs) = some rep → NoEarlyStart recs rep.executions) ∧
    (∀ fuel rep, srtf fuel (loadTasks recs) = some rep → NoEarlyStart recs rep.executions) ∧
    (∀ fuel rep, roundRobin fuel (loadTasks recs) quantum = some rep →
      NoEarlyStart recs rep.executions) ∧
    (∃ fuel rep, roundRobin fuel (loadTasks recs) quantum = some rep) ∧
    ((∀ r ∈ recs, r.burst < INT_MAX) →
      (∃ fuel rep, sjf fuel (loadTasks recs) = some rep) ∧
      (∃ fuel rep, srtf fuel (loadTasks recs) = some rep)) := by
  have hsortk : ((sortByArrival (loadTasks recs)).map Task.record).Perm recs := by
    have := (sortByArrival_perm (loadTasks recs)).map Task.record
    rwa [loadTasks_records] at this
  have hsjf : ∀ n s, whileIter sjfCond sjfBody n (sjfInit (loadTasks recs)) = some s →
      NoEarlyStart recs s.executions := by
    intro n s h
    have hinv := sjf_states (loadTasks recs) (loadTasks_pre recs hpre) n s h
    apply noEarlyStart_of
    intro e he
    obtain ⟨i, t, ht, hid, -, harr⟩ := hinv.lens e he
    exact ⟨t.record, record_mem_of_keys recs s.tasks (by rw [hinv.keys]; exact hsortk) i t ht,
      hid.symm, harr⟩
  have hsrtf : ∀ n s, whileIter srtfCond srtfBody n (srtfInit (loadTasks recs)) = some s →
      NoEarlyStart recs s.executions := by
    intro n s h
    have hinv := srtf_states (loadTasks recs) (loadTasks_fresh recs hpre) n s h
    apply noEarlyStart_of
    intro e he
    obtain ⟨i, t, ht, hid, harr⟩ := hinv.lens e he
    exact ⟨t.record, record_mem_of_keys recs s.tasks
      (by rw [hinv.keys, loadTasks_records]) i t ht, hid.symm, harr⟩
  have hrr : ∀ n s, whileIter rrCond (rrBody quantum) n (rrInit (loadTasks recs)) = some s →
      NoEarlyStart recs s.executions := by
    intro n s h
    have hinv := rr_states quantum hq (loadTasks recs) (loadTasks_pre recs hpre) n s h
    apply noEarlyStart_of
    intro e he
    obtain ⟨i, t, ht, hid, harr⟩ := hinv.lens e he
    exact ⟨t.record, record_mem_of_keys recs s.tasks
      (by rw [hinv.keys, loadTasks_records]) i t ht, hid.symm, harr⟩
  refine ⟨?_, hsjf, hsrtf, hrr, ?_, ?_, ?_, roundRobin_returns recs quantum hpre hq,
    fun hb => ⟨sjf_returns recs hpre hb, srtf_returns recs hpre hb⟩⟩
  · apply noEarlyStart_of
    intro e he
    obtain ⟨t, ht, hid, harr⟩ := fcfsLoop_starts (sortByArrival (loadTasks recs)) 0 e he
    obtain ⟨i, hi⟩ := List.mem_iff_getElem?.mp ht
    exact ⟨t.record, record_mem_of_keys recs _ hsortk i t hi, hid.symm, harr⟩
  · intro fuel rep h
    obtain ⟨s, hs, rfl⟩ := sjf_report fuel _ rep h
    obtain ⟨n, hn, -⟩ := whileLoop_iter _ _ fuel _ s hs
    exact hsjf n s hn
  · intro fuel rep h
    obtain ⟨s, hs, rfl⟩ := srtf_report fuel _ rep h
    obtain ⟨n, hn, -⟩ := whileLoop_iter _ _ fuel _ s hs
    exact hsrtf n s hn
  · intro fuel rep h
    obtain ⟨s, hs, rfl⟩ := rr_report fuel _ quantum rep h
    obtain ⟨n, hn, -⟩ := whileLoop_iter _ _ fuel _ s hs
    exact hrr n s hn

/-! ## The 32-bit program and the unbounded model -/

theorem wrap_eq (x : Int) (h1 : -2147483648 ≤ x) (h2 : x ≤ 2147483647) : wrap x = x := by
  unfold wrap
  omega

theorem wrap_range (x : Int) : -2147483648 ≤ wrap x ∧ wrap x ≤ 2147483647 := by
  unfold wrap
  omega

/-- Two loops with the same condition whose bodies agree on the states of an
invariant of one of them run alike. -/
theorem whileLoop_congr {σ : Type} (cond : σ → Bool) (body body' : σ → σ) (Inv : σ → Prop)
    (hstep : ∀ s, Inv s → cond s = true → Inv (body s))
    (heq : ∀ s, Inv s → cond s = true → body' s = body s) :
    ∀ (fuel : Nat) (s : σ), Inv s →
      whileLoop cond body' fuel s = whileLoop cond body fuel s := by
  intro fuel
  induction fuel with
  | zero => intro s _; rfl
  | succ n ih =>
    intro s hs
    unfold whileLoop
    by_cases hc : cond s = true
    · rw [if_pos hc, if_pos hc, heq s hs hc]
      exact ih _ (hstep s hs hc)
    · rw [if_neg hc, if_neg hc]

theorem whileIter_congr {σ : Type} (cond : σ → Bool) (body body' : σ → σ) (Inv : σ → Prop)
    (hstep : ∀ s, Inv s → cond s = true → Inv (body s))
    (heq : ∀ s, Inv s → cond s = true → body' s = body s) :
    ∀ (n : Nat) (s : σ), Inv s →
      whileIter cond body' n s = whileIter cond body n s := by
  intro n
  induction n with
  | zero => intro s _; rfl
  | succ n ih =>
    intro s hs
    unfold whileIter
    by_cases hc : cond s = true
    · rw [if_pos hc, if_pos hc, heq s hs hc]
      exact ih _ (hstep s hs hc)
    · rw [if_neg hc, if_neg hc]

theorem sortByArrival_of_sorted (l : List Task) (h : l.Sorted arrivalLE) : sortByArrival l = l :=
  List.Sorted.insertionSort_eq h

theorem arrivalSort_sortByArrival : ArrivalSort sortByArrival :=
  fun l => ⟨sortByArrival_perm l, sortByArrival_sorted l⟩

theorem burst_le_totalBurst (tasks : List Task) (hpre : ∀ t ∈ tasks, 0 < t.burst)
    (t : Task) (ht : t ∈ tasks) : t.burst ≤ totalBurst tasks := by
  induction tasks with
  | nil => cases ht
  | cons x rest ih =>
    have hrest := totalBurst_nonneg rest (fun u hu => hpre u (List.mem_cons_of_mem _ hu))
    have hx := hpre x (List.mem_cons_self _ _)
    have e : totalBurst (x :: rest) = x.burst + totalBurst rest := by simp [totalBurst]
    rw [e]
    rcases List.mem_cons.mp ht with rfl | h
    · omega
    · have := ih (fun u hu => hpre u (List.mem_cons_of_mem _ hu)) h
      omega

/-- The loop of `fcfs` computes in `int` what it computes in the integers,
as long as the latest time it can reach is an `int`. -/
theorem fcfsLoop32_eq (l : List Task) (hi : Int) :
    ∀ ct : Int, 0 ≤ ct → (∀ t ∈ l, 0 ≤ t.arrival ∧ 0 < t.burst ∧ t.arrival ≤ hi) →
      max ct hi + totalBurst l ≤ 2147483647 → fcfsLoop32 ct l = fcfsLoop ct l := by
  induction l with
  | nil => intro ct _ _ _; rfl
  | cons t rest ih =>
    intro ct hct hpre hb
    obtain ⟨ha, hbt, hah⟩ := hpre t (List.mem_cons_self _ _)
    have hrest := totalBurst_nonneg rest (fun u hu => (hpre u (List.mem_cons_of_mem _ hu)).2.1)
    have e : totalBurst (t :: rest) = t.burst + totalBurst rest := by simp [totalBurst]
    rw [e] at hb
    have hmax1 : ct ≤ max ct hi := le_max_left _ _
    have hmax2 : hi ≤ max ct hi := le_max_right _ _
    have hnow : 0 ≤ (if ct < t.arrival then t.arrival else ct) ∧
        (if ct < t.arrival then t.arrival else ct) ≤ max ct hi ∧
        t.arrival ≤ (if ct < t.arrival then t.arrival else ct) := by
      split <;> omega
    obtain ⟨hn0, hn1, hn2⟩ := hnow
    have w1 : wrap ((if ct < t.arrival then t.arrival else ct) + t.burst)
        = (if ct < t.arrival then t.arrival else ct) + t.burst := wrap_eq _ (by omega) (by omega)
    have w2 : wrap ((if ct < t.arrival then t.arrival else ct) - t.arrival)
        = (if ct < t.arrival then t.arrival else ct) - t.arrival :=
      wrap_eq _ (by omega) (by omega)
    have hnext := ih ((if ct < t.arrival then t.arrival else ct) + t.burst) (by omega)
      (fun u hu => hpre u (List.mem_cons_of_mem _ hu)) (by
        have : max ((if ct < t.arrival then t.arrival else ct) + t.burst) hi
            ≤ max ct hi + t.burst := max_le (by omega) (by omega)
        omega)
    simp only [fcfsLoop32, fcfsLoop, w1, w2, hnext]

theorem setTurnarounds32_eq (l : List Task)
    (h : ∀ t ∈ l, -2147483648 ≤ t.wait + t.burst ∧ t.wait + t.burst ≤ 2147483647) :
    setTurnarounds32 l = setTurnarounds l := by
  unfold setTurnarounds32 setTurnarounds
  apply List.map_congr_left
  intro t ht
  rw [wrap_eq _ (h t ht).1 (h t ht).2]
theorem zip_done_sum_le :
    ∀ (tasks : List Task) (done : List Bool), (∀ t ∈ tasks, 0 < t.burst) →
      ((tasks.zip done).map fun p => if p.2 = true then p.1.burst else 0).sum
        ≤ totalBurst tasks := by
  intro tasks
  induction tasks with
  | nil => intro done _; simp [totalBurst]
  | cons t rest ih =>
    intro done hpre
    cases done with
    | nil =>
      simp only [List.zip_nil_right, List.map_nil, List.sum_nil]
      exact totalBurst_nonneg _ hpre
    | cons d ds =>
      have h1 := ih ds (fun u hu => hpre u (List.mem_cons_of_mem _ hu))
      have h2 := hpre t (List.mem_cons_self _ _)
      have e : totalBurst (t :: rest) = t.burst + totalBurst rest := by simp [totalBurst]
      rw [e]
      simp only [List.zip_cons_cons, List.map_cons, List.sum_cons]
      split <;> omega

theorem mem_of_getElem? {α : Type} {l : List α} {i : Nat} {a : α} (h : l[i]? = some a) :
    a ∈ l := List.mem_iff_getElem?.mpr ⟨i, h⟩

theorem sjf_busy_le (orig : List Task) (s : SjfState) (h : SjfInv orig s) :
    busyTime s.executions ≤ totalBurst orig := by
  rw [h.busy, ← totalBurst_congr _ _ h.keys]
  apply zip_done_sum_le
  intro t ht
  obtain ⟨i, hi⟩ := List.mem_iff_getElem?.mp ht
  exact (h.pre i t hi).2

theorem sjf_clock_nonneg (orig : List Task) (s : SjfState) (h : SjfInv orig s)
    (h0 : 0 ≤ s.currentTime) : 0 ≤ (sjfBody s).currentTime := by
  rcases sjfBody_cases s with ⟨he, -⟩ | ⟨j, t, he, ht, -, -, -, -⟩
  · rw [he]
    show 0 ≤ s.currentTime + 1
    omega
  · rw [he]
    show 0 ≤ s.currentTime + t.burst
    have := (h.pre j t ht).2
    omega

/-- An iteration of `sjf` computes in `int` what it computes in the
integers, as long as the clock stays an `int`. -/
theorem sjfBody32_eq (s : SjfState) (h0 : 0 ≤ s.currentTime)
    (hpre : ∀ (i : Nat) (t : Task), s.tasks[i]? = some t → 0 ≤ t.arrival ∧ 0 < t.burst
      ∧ t.arrival ≤ 2147483647)
    (hnext : (sjfBody s).currentTime ≤ 2147483647) : sjfBody32 s = sjfBody s := by
  unfold sjfBody32
  unfold sjfBody at hnext ⊢
  cases hsel : (sjfScan s.currentTime s.tasks s.isTaskCompleted 0 (none, INT_MAX)).1 with
  | none =>
    rw [hsel] at hnext
    simp only at hnext ⊢
    rw [wrap_eq _ (by omega) hnext]
  | some j =>
    rw [hsel] at hnext
    simp only at hnext ⊢
    cases ht : s.tasks[j]? with
    | none => rfl
    | some t =>
      rw [ht] at hnext
      simp only at hnext ⊢
      obtain ⟨ha, hb, hah⟩ := hpre j t ht
      have w1 : wrap (s.currentTime + t.burst) = s.currentTime + t.burst :=
        wrap_eq _ (by omega) hnext
      have w2 : wrap (s.currentTime - t.arrival) = s.currentTime - t.arrival :=
        wrap_eq _ (by omega) (by omega)
      have hm : max 0 (s.currentTime - t.arrival) ≤ s.currentTime := max_le h0 (by omega)
      have hm0 : 0 ≤ max 0 (s.currentTime - t.arrival) := le_max_left _ _
      have w3 : wrap (max 0 (s.currentTime - t.arrival) + t.burst)
          = max 0 (s.currentTime - t.arrival) + t.burst := wrap_eq _ (by omega) (by omega)
      rw [w1, w2, w3]

theorem sjfExact_step (orig : List Task) (lo hi : Int) (s : SjfState)
    (h : SjfExact orig lo hi s) (hc : sjfCond s = true) : SjfExact orig lo hi (sjfBody s) :=
  ⟨sjfInv_step orig s h.1, sjfInvB_step orig lo hi s h.1 h.2.1 hc,
    sjf_clock_nonneg orig s h.1 h.2.2⟩

theorem sjfExact_eq (orig : List Task) (lo hi : Int) (hb : hi + totalBurst orig ≤ 2147483647)
    (s : SjfState) (h : SjfExact orig lo hi s) (hc : sjfCond s = true) :
    sjfBody32 s = sjfBody s := by
  have hn := sjfExact_step orig lo hi s h hc
  have h1 := hn.2.1.time
  have h2 := sjf_busy_le orig _ hn.1
  have hbusy0 := h.2.1.busy0
  apply sjfBody32_eq s h.2.2
  · intro i t ht
    have hp := h.1.pre i t ht
    have hr := h.2.1.range i t ht
    have htot : 0 ≤ totalBurst orig := le_trans hbusy0 (sjf_busy_le orig s h.1)
    exact ⟨hp.1, hp.2, by omega⟩
  · omega
theorem sum_sub_le (tasks : List Task)
    (h : ∀ t ∈ tasks, 0 ≤ t.remaining) :
    (tasks.map fun t => t.burst - t.remaining).sum ≤ totalBurst tasks := by
  induction tasks with
  | nil => simp [totalBurst]
  | cons t rest ih =>
    have h1 := ih (fun u hu => h u (List.mem_cons_of_mem _ hu))
    have h2 := h t (List.mem_cons_self _ _)
    have e : totalBurst (t :: rest) = t.burst + totalBurst rest := by simp [totalBurst]
    rw [e]
    simp only [List.map_cons, List.sum_cons]
    omega

theorem srtf_busy_le (orig : List Task) (s : SrtfState) (h : SrtfInv orig s) :
    busyTime s.executions ≤ totalBurst orig := by
  rw [h.busy, ← totalBurst_congr _ _ h.keys]
  apply sum_sub_le
  intro t ht
  obtain ⟨i, hi⟩ := List.mem_iff_getElem?.mp ht
  exact (h.rem i t hi).1

theorem srtfRun_clock (s : SrtfState) (j : Nat) (t : Task) :
    (srtfRun s j t).currentTime = s.currentTime + 1 := by
  unfold srtfRun
  split <;> rfl

theorem srtf_clock_succ (orig : List Task) (s : SrtfState) (h : SrtfInv orig s) :
    (srtfBody s).currentTime = s.currentTime + 1 := by
  rcases srtfBody_cases s h.chk h.srtLe with ⟨-, he, -⟩ | ⟨j, t, he, -⟩
  · rw [he]
  · rw [he, srtfRun_clock]

/-- The task that the selection loop of `srtf` settles on has arrived. -/
theorem srtf_selected_arrived (s : SrtfState)
    (hchk : s.check = true → ∃ t, s.tasks[s.shortestIndex]? = some t ∧
      t.remaining = s.shortestRemainingTime ∧ 0 < t.remaining ∧ t.arrival ≤ s.currentTime ∧
      t.remaining < INT_MAX) (t : Task)
    (ht : s.tasks[(srtfScan s.currentTime s.tasks 0
        (s.shortestRemainingTime, s.shortestIndex, s.check)).2.1]? = some t)
    (hsel : (srtfScan s.currentTime s.tasks 0
        (s.shortestRemainingTime, s.shortestIndex, s.check)).2.2 = true) :
    t.arrival ≤ s.currentTime ∧ 0 < t.remaining := by
  rcases srtfScan_spec s.currentTime s.tasks 0 s.shortestRemainingTime s.shortestIndex s.check
    with ⟨heq, -⟩ | ⟨k, u, heq, h1, h2, h3, -, -⟩
  · rw [heq] at ht hsel
    obtain ⟨u, hu, -, hpos, harr, -⟩ := hchk hsel
    simp only at ht
    rw [hu] at ht
    cases ht
    exact ⟨harr, hpos⟩
  · rw [heq] at ht
    simp only [Nat.zero_add] at ht
    rw [h1] at ht
    cases ht
    exact ⟨h2, h3⟩

/-- An iteration of `srtf` computes in `int` what it computes in the
integers, as long as the clock stays an `int`. -/
theorem srtfBody32_eq (s : SrtfState) (h0 : 0 ≤ s.currentTime)
    (hnext : s.currentTime + 1 ≤ 2147483647)
    (hpre : ∀ (i : Nat) (t : Task), s.tasks[i]? = some t → 0 ≤ t.arrival ∧ 0 < t.burst ∧
      t.arrival ≤ 2147483647 ∧ t.burst ≤ 2147483647 ∧ 0 ≤ t.remaining ∧ t.remaining ≤ t.burst ∧
      (t.remaining < t.burst → t.arrival + (t.burst - t.remaining) ≤ s.currentTime))
    (hchk : s.check = true → ∃ t, s.tasks[s.shortestIndex]? = some t ∧
      t.remaining = s.shortestRemainingTime ∧ 0 < t.remaining ∧ t.arrival ≤ s.currentTime ∧
      t.remaining < INT_MAX) :
    srtfBody32 s = srtfBody s := by
  have hsel := srtf_selected_arrived s hchk
  unfold srtfBody32 srtfBody
  simp only
  split
  · rw [wrap_eq _ (by omega) hnext]
  · rename_i hs
    cases ht : s.tasks[(srtfScan s.currentTime s.tasks 0
        (s.shortestRemainingTime, s.shortestIndex, s.check)).2.1]? with
    | none => rfl
    | some t =>
      simp only
      obtain ⟨ha, hb, hah, hbh, hr0, hrb, hprog⟩ := hpre _ t ht
      obtain ⟨harr, hpos⟩ := hsel t ht (by simpa using hs)
      have w1 : wrap (s.currentTime + 1) = s.currentTime + 1 := wrap_eq _ (by omega) hnext
      have w2 : wrap (t.remaining - 1) = t.remaining - 1 := wrap_eq _ (by omega) (by omega)
      rw [w1, w2]
      by_cases hz : t.remaining - 1 = 0
      · rw [if_pos hz, if_pos hz]
        have hd : t.arrival + t.burst ≤ s.currentTime + 1 := by
          by_cases hlt : t.remaining < t.burst
          · have := hprog hlt
            omega
          · omega
        have w3 : wrap (s.currentTime + 1 - t.arrival) = s.currentTime + 1 - t.arrival :=
          wrap_eq _ (by omega) (by omega)
        have w4 : wrap (s.currentTime + 1 - t.arrival - t.burst)
            = s.currentTime + 1 - t.arrival - t.burst := wrap_eq _ (by omega) (by omega)
        have hm : max 0 (s.currentTime + 1 - t.arrival - t.burst)
            = s.currentTime + 1 - t.arrival - t.burst := max_eq_right (by omega)
        have w5 : wrap (max 0 (s.currentTime + 1 - t.arrival - t.burst) + t.burst)
            = max 0 (s.currentTime + 1 - t.arrival - t.burst) + t.burst := by
          rw [hm]
          exact wrap_eq _ (by omega) (by omega)
        rw [w3, w4, w5]
      · rw [if_neg hz, if_neg hz]

theorem srtfExact_step (orig : List Task) (lo hi : Int) (s : SrtfState)
    (h : SrtfExact orig lo hi s) (hc : srtfCond s = true) :
    SrtfExact orig lo hi (srtfBody s) :=
  ⟨srtfInv_step orig s h.1, srtfInvB_step orig lo hi s h.1 h.2.1 hc, by
    rw [srtf_clock_succ orig s h.1]
    have := h.2.2
    omega⟩

theorem srtfExact_eq (orig : List Task) (lo hi : Int)
    (hb : hi + totalBurst orig ≤ 2147483647)
    (s : SrtfState) (h : SrtfExact orig lo hi s) (hc : srtfCond s = true) :
    srtfBody32 s = srtfBody s := by
  have hn := srtfExact_step orig lo hi s h hc
  have h1 := hn.2.1.time
  have h2 := srtf_busy_le orig _ hn.1
  rw [srtf_clock_succ orig s h.1] at h1
  have hbusy0 := h.2.1.busy0
  have htot : 0 ≤ totalBurst orig := le_trans hbusy0 (srtf_busy_le orig s h.1)
  apply srtfBody32_eq s h.2.2 (by omega) _ h.1.chk
  intro i t ht
  have hp := h.1.pre i t ht
  have hr := h.2.1.range i t ht
  have hrem := h.1.rem i t ht
  have hI : INT_MAX = 2147483647 := rfl
  exact ⟨hp.1, hp.2, by omega, by omega, hrem.1, hrem.2, h.1.progress i t ht⟩
theorem rr_busy_le (q : Int) (orig : List Task) (s : RRState) (h : RRInv q orig s) :
    busyTime s.executions ≤ totalBurst orig := by
  rw [h.busy, ← totalBurst_congr _ _ h.keys]
  apply sum_sub_le
  intro t ht
  obtain ⟨i, hi⟩ := List.mem_iff_getElem?.mp ht
  exact (h.rem i t hi).1

/-- An iteration of `roundRobin` computes in `int` what it computes in the
integers, as long as the clock stays an `int`. -/
theorem rrBody32_eq (q : Int) (hq : 1 ≤ q) (s : RRState) (h0 : 0 ≤ s.currentTime)
    (hpre : ∀ (i : Nat) (t : Task), s.tasks[i]? = some t → 0 ≤ t.arrival ∧ 0 < t.burst ∧
      t.arrival + t.burst ≤ 2147483647 ∧ 0 ≤ t.remaining ∧ t.remaining ≤ t.burst)
    (hnext : (rrBody q s).currentTime ≤ 2147483647) : rrBody32 q s = rrBody q s := by
  unfold rrBody32
  unfold rrBody at hnext ⊢
  simp only at hnext ⊢
  cases hadm : (rrAdmit s.currentTime s.arrival 0 s.readyQueue).2 with
  | nil =>
    rw [hadm] at hnext
    simp only at hnext ⊢
    rw [wrap_eq _ (by omega) hnext]
  | cons current queue =>
    rw [hadm] at hnext
    simp only at hnext ⊢
    cases ht : s.tasks[current]? with
    | none => rfl
    | some t =>
      rw [ht] at hnext
      simp only at hnext ⊢
      obtain ⟨ha, hb, hab, hr0, hrb⟩ := hpre current t ht
      have hs0 : 0 ≤ min q t.remaining := le_min (by omega) hr0
      have hs1 : min q t.remaining ≤ t.remaining := min_le_right _ _
      have hn : s.currentTime + min q t.remaining ≤ 2147483647 := by
        split at hnext <;> exact hnext
      have w1 : wrap (t.remaining - min q t.remaining) = t.remaining - min q t.remaining :=
        wrap_eq _ (by omega) (by omega)
      have w2 : wrap (s.currentTime + min q t.remaining) = s.currentTime + min q t.remaining :=
        wrap_eq _ (by omega) hn
      have w3 : wrap (s.currentTime + min q t.remaining - t.arrival)
          = s.currentTime + min q t.remaining - t.arrival := wrap_eq _ (by omega) (by omega)
      have w4 : wrap (s.currentTime + min q t.remaining - t.arrival - t.burst)
          = s.currentTime + min q t.remaining - t.arrival - t.burst :=
        wrap_eq _ (by omega) (by omega)
      rw [w1, w2, w3, w4]

theorem rr_clock_nonneg (q : Int) (hq : 1 ≤ q) (orig : List Task) (s : RRState)
    (h : RRInv q orig s) (h0 : 0 ≤ s.currentTime) : 0 ≤ (rrBody q s).currentTime := by
  unfold rrBody
  simp only
  cases hadm : (rrAdmit s.currentTime s.arrival 0 s.readyQueue).2 with
  | nil =>
    show 0 ≤ s.currentTime + 1
    omega
  | cons current queue =>
    simp only
    cases ht : s.tasks[current]? with
    | none => exact h0
    | some t =>
      simp only
      have hr0 := (h.rem current t ht).1
      have hs0 : 0 ≤ min q t.remaining := le_min (by omega) hr0
      split
      · show 0 ≤ s.currentTime + min q t.remaining
        omega
      · show 0 ≤ s.currentTime + min q t.remaining
        omega

theorem rrExact_step (q : Int) (hq : 1 ≤ q) (orig : List Task) (lo hi : Int) (s : RRState)
    (h : RRExact q orig lo hi s) (hc : rrCond s = true) :
    RRExact q orig lo hi (rrBody q s) :=
  ⟨rrInv_step q hq orig s h.1, rrInvB_step q hq orig lo hi s h.1 h.2.1 hc,
    rr_clock_nonneg q hq orig s h.1 h.2.2⟩

theorem rrExact_eq (q : Int) (hq : 1 ≤ q) (orig : List Task) (lo hi : Int)
    (hb : hi + totalBurst orig ≤ 2147483647)
    (s : RRState) (h : RRExact q orig lo hi s) (hc : rrCond s = true) :
    rrBody32 q s = rrBody q s := by
  have hn := rrExact_step q hq orig lo hi s h hc
  have h1 := hn.2.1.time
  have h2 := rr_busy_le q orig _ hn.1
  apply rrBody32_eq q hq s h.2.2
  · intro i t ht
    have hp := h.1.pre i t ht
    have hr := h.2.1.range i t ht
    have hrem := h.1.rem i t ht
    have hbt : t.burst ≤ totalBurst orig := by
      rw [← totalBurst_congr _ _ h.1.keys]
      exact burst_le_totalBurst s.tasks
        (fun u hu => by
          obtain ⟨k, hk⟩ := List.mem_iff_getElem?.mp hu
          exact (h.1.pre k u hk).2) t (mem_of_getElem? ht)
    exact ⟨hp.1, hp.2, by omega, hrem.1, hrem.2⟩
  · omega
theorem task_new_record (t : Task) (h : t = Task.new t.id t.burst t.arrival) :
    Task.new t.record.id t.record.burst t.record.arrival = t := h.symm

theorem loadTasks_is_new (recs : List Record) :
    ∀ t ∈ loadTasks recs, t = Task.new t.id t.burst t.arrival := by
  intro t ht
  unfold loadTasks at ht
  obtain ⟨r, -, rfl⟩ := List.mem_map.mp ht
  rfl

/-- A permutation of the loaded tasks is the list loaded from its own
records. -/
theorem loadTasks_of_perm (recs : List Record) (l : List Task)
    (h : l.Perm (loadTasks recs)) : loadTasks (l.map Task.record) = l := by
  unfold loadTasks
  rw [List.map_map]
  conv_rhs => rw [← List.map_id l]
  apply List.map_congr_left
  intro t ht
  exact (loadTasks_is_new recs t (h.mem_iff.mp ht)).symm

theorem maxArrival_perm {l₁ l₂ : List Task} (h : l₁.Perm l₂) :
    maxArrival l₁ = maxArrival l₂ := by
  unfold maxArrival
  induction h with
  | nil => rfl
  | cons x _ ih => simp only [List.map_cons, List.foldr_cons, ih]
  | swap x y l =>
    simp only [List.map_cons, List.foldr_cons]
    rw [← max_assoc, ← max_assoc, max_comm y.arrival x.arrival]
  | trans _ _ ih1 ih2 => rw [ih1, ih2]

theorem inIntRange_perm {l₁ l₂ : List Task} (h : l₁.Perm l₂) (hb : InIntRange l₂) :
    InIntRange l₁ := by
  unfold InIntRange at hb ⊢
  rw [maxArrival_perm h, totalBurst_perm h]
  exact hb

theorem runFacts_perm {tasks tasks' final : List Task} {execs : List Execution}
    (hp : tasks.Perm tasks') (h : RunFacts tasks final execs) : RunFacts tasks' final execs :=
  { keys := h.keys.trans (hp.map _)
    wait := h.wait
    last := fun hnd => h.last ((hp.map (fun t => t.id)).nodup_iff.mpr hnd)
    chain := h.chain
    pos := h.pos
    bound := by
      rw [← maxArrival_perm hp, ← totalBurst_perm hp]
      exact h.bound
    head := fun e he =>
      ⟨fun t ht => (h.head e he).1 t (hp.mem_iff.mpr ht),
        let ⟨t, ht, h2⟩ := (h.head e he).2
        ⟨t, hp.mem_iff.mp ht, h2⟩⟩
    busy := by rw [← totalBurst_perm hp]; exact h.busy }
theorem mem_of_records_eq {l l' : List Task} (h : l'.map Task.record = l.map Task.record)
    {u : Task} (hu : u ∈ l') : ∃ t ∈ l, t.record = u.record := by
  have : u.record ∈ l.map Task.record := by
    rw [← h]
    exact List.mem_map.mpr ⟨u, hu, rfl⟩
  obtain ⟨t, ht, he⟩ := List.mem_map.mp this
  exact ⟨t, ht, he⟩

/-- What `fcfs` reports is the same in `int` and in the integers when no time
of the run leaves the range of `int`, whatever order the sort leaves among
equal arrivals: the run is that of the model on the sorted list. -/
theorem fcfs32_sameRun (sort : List Task → List Task) (hsort : ArrivalSort sort)
    (tasks : List Task) (hpre : ∀ t ∈ tasks, 0 ≤ t.arrival ∧ 0 < t.burst)
    (hb : InIntRange tasks) : SameRun (fcfs32 sort tasks) (fcfs (sort tasks)) := by
  obtain ⟨hperm, hsorted⟩ := hsort tasks
  have hpre' : ∀ t ∈ sort tasks, 0 ≤ t.arrival ∧ 0 < t.burst :=
    fun t ht => hpre t (hperm.mem_iff.mp ht)
  have hb' : maxArrival (sort tasks) + totalBurst (sort tasks) ≤ 2147483647 :=
    inIntRange_perm hperm hb
  have hm0 := maxArrival_nonneg (sort tasks)
  have hloop : fcfsLoop32 0 (sort tasks) = fcfsLoop 0 (sort tasks) := by
    apply fcfsLoop32_eq (sort tasks) (maxArrival (sort tasks)) 0 (le_refl _)
    · intro t ht
      exact ⟨(hpre' t ht).1, (hpre' t ht).2, arrival_le_maxArrival _ t ht⟩
    · rw [max_eq_right hm0]
      exact hb'
  obtain ⟨hw, he, -, -, -⟩ := fcfsLoop_spec (sort tasks) (maxArrival (sort tasks)) 0
    (fun t ht => ⟨(hpre' t ht).2, arrival_le_maxArrival _ t ht⟩)
  have hturn : setTurnarounds32 (fcfsLoop 0 (sort tasks)).1
      = setTurnarounds (fcfsLoop 0 (sort tasks)).1 := by
    apply setTurnarounds32_eq
    intro u hu
    obtain ⟨hw0, hmem⟩ := hw u hu
    have hend := (he _ hmem).2.2
    simp only at hend
    rw [max_eq_right hm0] at hend
    obtain ⟨t, ht, hrec⟩ := mem_of_records_eq (fcfsLoop_records (sort tasks) 0) hu
    have ha : u.arrival = t.arrival := (congrArg Record.arrival hrec).symm
    have hbu : u.burst = t.burst := (congrArg Record.burst hrec).symm
    have := hpre' t ht
    constructor <;> omega
  unfold SameRun fcfs32 fcfs
  simp only [sortByArrival_of_sorted _ hsorted, hloop, mkReport32, mkReport, hturn,
    and_self]
theorem sjfInit32_eq (sort : List Task → List Task) (hsort : ArrivalSort sort)
    (tasks : List Task) : sjfInit32 sort tasks = sjfInit (sort tasks) := by
  obtain ⟨hperm, hsorted⟩ := hsort tasks
  unfold sjfInit32 sjfInit
  rw [sortByArrival_of_sorted _ hsorted, hperm.length_eq]

theorem sjfExact_init (tasks : List Task) (hpre : ∀ t ∈ tasks, 0 ≤ t.arrival ∧ 0 < t.burst)
    (hlt : ∀ t ∈ tasks, t.burst < INT_MAX) :
    ∃ lo, SjfExact (sortByArrival tasks) lo (maxArrival tasks) (sjfInit tasks) := by
  by_cases hne : tasks = []
  · refine ⟨0, sjfInv_init tasks hpre, ?_, le_refl _⟩
    exact sjfInvB_init tasks 0 (maxArrival tasks) (le_refl _) (maxArrival_nonneg _)
      (fun t ht => by rw [hne] at ht; cases ht) (fun h => absurd hne h)
  · obtain ⟨m, hm, hm0, hmM, hrange⟩ := arrival_bounds tasks (fun t ht => (hpre t ht).1) hne
    refine ⟨m.arrival, sjfInv_init tasks hpre, ?_, le_refl _⟩
    exact sjfInvB_init tasks m.arrival (maxArrival tasks) hm0 (maxArrival_nonneg _)
      (fun t ht => ⟨(hrange t ht).1, (hrange t ht).2, hlt t ht⟩) (fun _ => ⟨m, hm, rfl⟩)

/-- The loop of `sjf` runs in `int` as it runs in the integers, on the list
as the sort has left it, when no time of the run leaves the range of `int`
and no burst is `INT_MAX`. -/
theorem sjf32_loop_eq (sort : List Task → List Task) (hsort : ArrivalSort sort)
    (tasks : List Task) (hpre : ∀ t ∈ tasks, 0 ≤ t.arrival ∧ 0 < t.burst)
    (hlt : ∀ t ∈ tasks, t.burst < INT_MAX) (hb : InIntRange tasks) :
    (∀ fuel, whileLoop sjfCond sjfBody32 fuel (sjfInit32 sort tasks)
      = whileLoop sjfCond sjfBody fuel (sjfInit (sort tasks))) ∧
    (∀ n, whileIter sjfCond sjfBody32 n (sjfInit32 sort tasks)
      = whileIter sjfCond sjfBody n (sjfInit (sort tasks))) := by
  obtain ⟨hperm, hsorted⟩ := hsort tasks
  have hpre' : ∀ t ∈ sort tasks, 0 ≤ t.arrival ∧ 0 < t.burst :=
    fun t ht => hpre t (hperm.mem_iff.mp ht)
  have hlt' : ∀ t ∈ sort tasks, t.burst < INT_MAX := fun t ht => hlt t (hperm.mem_iff.mp ht)
  have hb' : maxArrival (sort tasks) + totalBurst (sort tasks) ≤ 2147483647 :=
    inIntRange_perm hperm hb
  obtain ⟨lo, hinit⟩ := sjfExact_init (sort tasks) hpre' hlt'
  rw [sortByArrival_of_sorted _ hsorted] at hinit
  rw [sjfInit32_eq sort hsort]
  exact ⟨fun fuel => whileLoop_congr sjfCond sjfBody sjfBody32 _
      (sjfExact_step (sort tasks) lo (maxArrival (sort tasks)))
      (sjfExact_eq (sort tasks) lo (maxArrival (sort tasks)) hb') fuel _ hinit,
    fun n => whileIter_congr sjfCond sjfBody sjfBody32 _
      (sjfExact_step (sort tasks) lo (maxArrival (sort tasks)))
      (sjfExact_eq (sort tasks) lo (maxArrival (sort tasks)) hb') n _ hinit⟩

theorem srtfExact_init (tasks : List Task)
    (hpre : ∀ t ∈ tasks, 0 ≤ t.arrival ∧ 0 < t.burst ∧ t.remaining = t.burst)
    (hlt : ∀ t ∈ tasks, t.burst < INT_MAX) :
    ∃ lo, SrtfExact tasks lo (maxArrival tasks) (srtfInit tasks) := by
  by_cases hne : tasks = []
  · refine ⟨0, srtfInv_init tasks hpre, ?_, le_refl _⟩
    exact srtfInvB_init tasks 0 (maxArrival tasks) (le_refl _) (maxArrival_nonneg _)
      (fun t ht => (hpre t ht).2.2)
      (fun t ht => by rw [hne] at ht; cases ht) (fun h => absurd hne h)
  · obtain ⟨m, hm, hm0, hmM, hrange⟩ := arrival_bounds tasks (fun t ht => (hpre t ht).1) hne
    refine ⟨m.arrival, srtfInv_init tasks hpre, ?_, le_refl _⟩
    exact srtfInvB_init tasks m.arrival (maxArrival tasks) hm0 (maxArrival_nonneg _)
      (fun t ht => (hpre t ht).2.2)
      (fun t ht => ⟨(hrange t ht).1, (hrange t ht).2, hlt t ht⟩) (fun _ => ⟨m, hm, rfl⟩)

/-- The loop of `srtf` runs in `int` as it runs in the integers when no time
of the run leaves the range of `int` and no burst is `INT_MAX`. -/
theorem srtf32_loop_eq (tasks : List Task)
    (hpre : ∀ t ∈ tasks, 0 ≤ t.arrival ∧ 0 < t.burst ∧ t.remaining = t.burst)
    (hlt : ∀ t ∈ tasks, t.burst < INT_MAX) (hb : InIntRange tasks) :
    (∀ fuel, whileLoop srtfCond srtfBody32 fuel (srtfInit tasks)
      = whileLoop srtfCond srtfBody fuel (srtfInit tasks)) ∧
    (∀ n, whileIter srtfCond srtfBody32 n (srtfInit tasks)
      = whileIter srtfCond srtfBody n (srtfInit tasks)) := by
  obtain ⟨lo, hinit⟩ := srtfExact_init tasks hpre hlt
  exact ⟨fun fuel => whileLoop_congr srtfCond srtfBody srtfBody32 _
      (srtfExact_step tasks lo (maxArrival tasks))
      (srtfExact_eq tasks lo (maxArrival tasks) hb) fuel _ hinit,
    fun n => whileIter_congr srtfCond srtfBody srtfBody32 _
      (srtfExact_step tasks lo (maxArrival tasks))
      (srtfExact_eq tasks lo (maxArrival tasks) hb) n _ hinit⟩

theorem rrExact_init (q : Int) (hq : 1 ≤ q) (tasks : List Task)
    (hpre : ∀ t ∈ tasks, 0 ≤ t.arrival ∧ 0 < t.burst) :
    ∃ lo, RRExact q tasks lo (maxArrival tasks) (rrInit tasks) := by
  by_cases hne : tasks = []
  · refine ⟨0, rrInv_init q hq tasks hpre, ?_, le_refl _⟩
    exact rrInvB_init tasks 0 (maxArrival tasks) (le_refl _) (maxArrival_nonneg _)
      (fun t ht => by rw [hne] at ht; cases ht) (fun h => absurd hne h)
  · obtain ⟨m, hm, hm0, hmM, hrange⟩ := arrival_bounds tasks (fun t ht => (hpre t ht).1) hne
    refine ⟨m.arrival, rrInv_init q hq tasks hpre, ?_, le_refl _⟩
    exact rrInvB_init tasks m.arrival (maxArrival tasks) hm0 (maxArrival_nonneg _)
      hrange (fun _ => ⟨m, hm, rfl⟩)

/-- The loop of `roundRobin` runs in `int` as it runs in the integers when no
time of the run leaves the range of `int`. -/
theorem rr32_loop_eq (q : Int) (hq : 1 ≤ q) (tasks : List Task)
    (hpre : ∀ t ∈ tasks, 0 ≤ t.arrival ∧ 0 < t.burst) (hb : InIntRange tasks) :
    (∀ fuel, whileLoop rrCond (rrBody32 q) fuel (rrInit tasks)
      = whileLoop rrCond (rrBody q) fuel (rrInit tasks)) ∧
    (∀ n, whileIter rrCond (rrBody32 q) n (rrInit tasks)
      = whileIter rrCond (rrBody q) n (rrInit tasks)) := by
  obtain ⟨lo, hinit⟩ := rrExact_init q hq tasks hpre
  exact ⟨fun fuel => whileLoop_congr rrCond (rrBody q) (rrBody32 q) _
      (rrExact_step q hq tasks lo (maxArrival tasks))
      (rrExact_eq q hq tasks lo (maxArrival tasks) hb) fuel _ hinit,
    fun n => whileIter_congr rrCond (rrBody q) (rrBody32 q) _
      (rrExact_step q hq tasks lo (maxArrival tasks))
      (rrExact_eq q hq tasks lo (maxArrival tasks) hb) n _ hinit⟩
theorem sjf_final_range (tasks : List Task) (hpre : ∀ t ∈ tasks, 0 ≤ t.arrival ∧ 0 < t.burst)
    (fuel : Nat) (s : SjfState)
    (h : whileLoop sjfCond sjfBody fuel (sjfInit tasks) = some s) :
    ∀ t ∈ s.tasks, 0 ≤ t.wait + t.burst ∧
      t.wait + t.burst ≤ maxArrival tasks + totalBurst tasks := by
  obtain ⟨hinv, hdone, -, -⟩ := sjf_loop_final tasks hpre fuel s h
  have hrun := sjf_run tasks hpre fuel s h
  intro t ht
  obtain ⟨i, hi⟩ := List.mem_iff_getElem?.mp ht
  obtain ⟨-, hw, hmem⟩ := hinv.ran i t hi (hdone i t hi)
  have hbd := hrun.bound _ hmem
  have hp := hinv.pre i t hi
  simp only at hbd
  constructor <;> omega

theorem srtf_final_range (tasks : List Task)
    (hpre : ∀ t ∈ tasks, 0 ≤ t.arrival ∧ 0 < t.burst ∧ t.remaining = t.burst)
    (fuel : Nat) (s : SrtfState)
    (h : whileLoop srtfCond srtfBody fuel (srtfInit tasks) = some s) :
    ∀ t ∈ s.tasks, 0 ≤ t.wait + t.burst ∧
      t.wait + t.burst ≤ maxArrival tasks + totalBurst tasks := by
  obtain ⟨hinv, hdone, -, -⟩ := srtf_loop_final tasks hpre fuel s h
  have hrun := srtf_run tasks hpre fuel s h
  intro t ht
  obtain ⟨i, hi⟩ := List.mem_iff_getElem?.mp ht
  obtain ⟨hw, hmem⟩ := hinv.ran i t hi (hdone i t hi)
  have hbd := hrun.bound _ hmem
  have hp := hinv.pre i t hi
  simp only at hbd
  constructor <;> omega

theorem rr_final_range (q : Int) (hq : 1 ≤ q) (tasks : List Task)
    (hpre : ∀ t ∈ tasks, 0 ≤ t.arrival ∧ 0 < t.burst)
    (fuel : Nat) (s : RRState)
    (h : whileLoop rrCond (rrBody q) fuel (rrInit tasks) = some s) :
    ∀ t ∈ s.tasks, 0 ≤ t.wait + t.burst ∧
      t.wait + t.burst ≤ maxArrival tasks + totalBurst tasks := by
  obtain ⟨hinv, hdone, -⟩ := rr_loop_final q hq tasks hpre fuel s h
  have hrun := rr_run q hq tasks hpre fuel s h
  intro t ht
  obtain ⟨i, hi⟩ := List.mem_iff_getElem?.mp ht
  obtain ⟨hw, e, hmem, -, hend⟩ := hinv.ran i t hi (hdone i t hi)
  have hbd := hrun.bound _ hmem
  have hp := hinv.pre i t hi
  constructor <;> omega

theorem sameRun_mkReport (final : List Task) (execs : List Execution)
    (h : ∀ t ∈ final, -2147483648 ≤ t.wait + t.burst ∧ t.wait + t.burst ≤ 2147483647) :
    SameRun (mkReport32 final execs) (mkReport final execs) :=
  ⟨setTurnarounds32_eq final h, rfl, rfl⟩

/-- What `sjf` reports is the same in `int` and in the integers when no time
of the run leaves the range of `int` and no burst is `INT_MAX`; the run is
that of the model on the list as the sort has left it. -/
theorem sjf32_report (sort : List Task → List Task) (hsort : ArrivalSort sort)
    (tasks : List Task) (hpre : ∀ t ∈ tasks, 0 ≤ t.arrival ∧ 0 < t.burst)
    (hlt : ∀ t ∈ tasks, t.burst < INT_MAX) (hb : InIntRange tasks) (fuel : Nat) :
    (∀ rep, sjf32 sort fuel tasks = some rep →
      ∃ rep', sjf fuel (sort tasks) = some rep' ∧ SameRun rep rep') ∧
    (∀ rep', sjf fuel (sort tasks) = some rep' →
      ∃ rep, sjf32 sort fuel tasks = some rep ∧ SameRun rep rep') := by
  obtain ⟨hperm, -⟩ := hsort tasks
  have hpre' : ∀ t ∈ sort tasks, 0 ≤ t.arrival ∧ 0 < t.burst :=
    fun t ht => hpre t (hperm.mem_iff.mp ht)
  have hb' : maxArrival (sort tasks) + totalBurst (sort tasks) ≤ 2147483647 :=
    inIntRange_perm hperm hb
  have hloop := (sjf32_loop_eq sort hsort tasks hpre hlt hb).1 fuel
  have key : ∀ s, whileLoop sjfCond sjfBody fuel (sjfInit (sort tasks)) = some s →
      SameRun (mkReport32 s.tasks s.executions) (mkReport s.tasks s.executions) := by
    intro s hs
    apply sameRun_mkReport
    intro t ht
    have := sjf_final_range (sort tasks) hpre' fuel s hs t ht
    constructor <;> omega
  unfold sjf32 sjf
  rw [hloop]
  constructor
  · intro rep h
    obtain ⟨s, hs, rfl⟩ := Option.map_eq_some'.mp h
    exact ⟨_, by rw [hs]; rfl, key s hs⟩
  · intro rep' h
    obtain ⟨s, hs, rfl⟩ := Option.map_eq_some'.mp h
    exact ⟨_, by rw [hs]; rfl, key s hs⟩

/-- What `srtf` reports is the same in `int` and in the integers when no time
of the run leaves the range of `int` and no burst is `INT_MAX`. -/
theorem srtf32_report (tasks : List Task)
    (hpre : ∀ t ∈ tasks, 0 ≤ t.arrival ∧ 0 < t.burst ∧ t.remaining = t.burst)
    (hlt : ∀ t ∈ tasks, t.burst < INT_MAX) (hb : InIntRange tasks) (fuel : Nat) :
    (∀ rep, srtf32 fuel tasks = some rep →
      ∃ rep', srtf fuel tasks = some rep' ∧ SameRun rep rep') ∧
    (∀ rep', srtf fuel tasks = some rep' →
      ∃ rep, srtf32 fuel tasks = some rep ∧ SameRun rep rep') := by
  have hb' : maxArrival tasks + totalBurst tasks ≤ 2147483647 := hb
  have hloop := (srtf32_loop_eq tasks hpre hlt hb).1 fuel
  have key : ∀ s, whileLoop srtfCond srtfBody fuel (srtfInit tasks) = some s →
      SameRun (mkReport32 s.tasks s.executions) (mkReport s.tasks s.executions) := by
    intro s hs
    apply sameRun_mkReport
    intro t ht
    have := srtf_final_range tasks hpre fuel s hs t ht
    constructor <;> omega
  unfold srtf32 srtf
  rw [hloop]
  constructor
  · intro rep h
    obtain ⟨s, hs, rfl⟩ := Option.map_eq_some'.mp h
    exact ⟨_, by rw [hs]; rfl, key s hs⟩
  · intro rep' h
    obtain ⟨s, hs, rfl⟩ := Option.map_eq_some'.mp h
    exact ⟨_, by rw [hs]; rfl, key s hs⟩

/-- What `roundRobin` reports is the same in `int` and in the integers when
no time of the run leaves the range of `int`. -/
theorem rr32_report (q : Int) (hq : 1 ≤ q) (tasks : List Task)
    (hpre : ∀ t ∈ tasks, 0 ≤ t.arrival ∧ 0 < t.burst) (hb : InIntRange tasks) (fuel : Nat) :
    (∀ rep, roundRobin32 fuel tasks q = some rep →
      ∃ rep', roundRobin fuel tasks q = some rep' ∧ SameRun rep rep') ∧
    (∀ rep', roundRobin fuel tasks q = some rep' →
      ∃ rep, roundRobin32 fuel tasks q = some rep ∧ SameRun rep rep') := by
  have hb' : maxArrival tasks + totalBurst tasks ≤ 2147483647 := hb
  have hloop := (rr32_loop_eq q hq tasks hpre hb).1 fuel
  have key : ∀ s, whileLoop rrCond (rrBody q) fuel (rrInit tasks) = some s →
      SameRun (mkReport32 s.tasks s.executions) (mkReport s.tasks s.executions) := by
    intro s hs
    apply sameRun_mkReport
    intro t ht
    have := rr_final_range q hq tasks hpre fuel s hs t ht
    constructor <;> omega
  unfold roundRobin32 roundRobin
  rw [hloop]
  constructor
  · intro rep h
    obtain ⟨s, hs, rfl⟩ := Option.map_eq_some'.mp h
    exact ⟨_, by rw [hs]; rfl, key s hs⟩
  · intro rep' h
    obtain ⟨s, hs, rfl⟩ := Option.map_eq_some'.mp h
    exact ⟨_, by rw [hs]; rfl, key s hs⟩

/-! ## A burst of `INT_MAX` in the 32-bit program -/

/-- When no time of a run leaves the range of `int`, a task whose burst is
`INT_MAX` or more is the only task. -/
theorem sentinel_single (tasks : List Task) (hpre : ∀ t ∈ tasks, 0 ≤ t.arrival ∧ 0 < t.burst)
    (hb : InIntRange tasks) (t : Task) (ht : t ∈ tasks) (hge : INT_MAX ≤ t.burst) :
    tasks = [t] := by
  have hm := maxArrival_nonneg tasks
  have hb' : maxArrival tasks + totalBurst tasks ≤ INT_MAX := hb
  cases tasks with
  | nil => cases ht
  | cons a rest =>
    cases rest with
    | nil =>
      rcases List.mem_cons.mp ht with rfl | h
      · rfl
      · cases h
    | cons b rest =>
      exfalso
      have e : totalBurst (a :: b :: rest) = a.burst + totalBurst (b :: rest) := by
        simp [totalBurst]
      have hpre' : ∀ u ∈ b :: rest, 0 < u.burst :=
        fun u hu => (hpre u (List.mem_cons_of_mem _ hu)).2
      have ha := (hpre a (List.mem_cons_self _ _)).2
      have hbb := burst_le_totalBurst (b :: rest) hpre' b (List.mem_cons_self _ _)
      have hb0 := hpre' b (List.mem_cons_self _ _)
      rcases List.mem_cons.mp ht with rfl | h
      · omega
      · have := burst_le_totalBurst (b :: rest) hpre' t h
        omega

/-- With a burst of `INT_MAX` or more the selection loop of `sjf` does not
take the only task: the iteration idles, also in `int`. -/
theorem sjfBody32_stuck (t : Task) (hge : INT_MAX ≤ t.burst) (c : Int) :
    sjfBody32 (SjfState.mk [t] [] c 0 [false]) = SjfState.mk [t] [] (wrap (c + 1)) 0 [false] := by
  have h : ¬ t.burst < INT_MAX := not_lt.mpr hge
  simp [sjfBody32, sjfScan, h]

/-- With a burst of `INT_MAX` or more the selection loop of `srtf` does not
take the only task: the iteration idles, also in `int`. -/
theorem srtfBody32_stuck (t : Task) (hge : INT_MAX ≤ t.remaining) (c : Int) :
    srtfBody32 (SrtfState.mk [t] [] c 0 0 INT_MAX false)
      = SrtfState.mk [t] [] (wrap (c + 1)) 0 0 INT_MAX false := by
  have h : ¬ t.remaining < INT_MAX := not_lt.mpr hge
  simp [srtfBody32, srtfScan, h]

/-- With a single task of burst `INT_MAX` or more, the loop of `sjf` in `int`
never records an interval and never ends. -/
theorem sjf32_stuck (sort : List Task → List Task) (hsort : ArrivalSort sort) (t : Task)
    (hge : INT_MAX ≤ t.burst) :
    (∀ n s, whileIter sjfCond sjfBody32 n (sjfInit32 sort [t]) = some s → s.executions = []) ∧
    (∀ fuel, whileLoop sjfCond sjfBody32 fuel (sjfInit32 sort [t]) = none) := by
  have hs : sort [t] = [t] := List.perm_singleton.mp (hsort [t]).1
  have hinit : sjfInit32 sort [t] = SjfState.mk [t] [] 0 0 [false] := by
    unfold sjfInit32
    rw [hs]
    rfl
  have hstep : ∀ s : SjfState, (∃ c, s = SjfState.mk [t] [] c 0 [false]) →
      sjfCond s = true → ∃ c, sjfBody32 s = SjfState.mk [t] [] c 0 [false] := by
    rintro s ⟨c, rfl⟩ -
    exact ⟨_, sjfBody32_stuck t hge c⟩
  rw [hinit]
  constructor
  · intro n s h
    obtain ⟨c, rfl⟩ := whileIter_inv sjfCond sjfBody32
      (fun s => ∃ c, s = SjfState.mk [t] [] c 0 [false]) hstep n _ s ⟨0, rfl⟩ h
    rfl
  · intro fuel
    cases hw : whileLoop sjfCond sjfBody32 fuel (SjfState.mk [t] [] 0 0 [false]) with
    | none => rfl
    | some s =>
      exfalso
      obtain ⟨⟨c, rfl⟩, hc⟩ := whileLoop_inv sjfCond sjfBody32
        (fun s => ∃ c, s = SjfState.mk [t] [] c 0 [false]) hstep fuel _ s ⟨0, rfl⟩ hw
      simp [sjfCond] at hc

/-- With a single task of burst `INT_MAX` or more, the loop of `srtf` in
`int` never records an interval and never ends. -/
theorem srtf32_stuck (t : Task) (hge : INT_MAX ≤ t.remaining) :
    (∀ n s, whileIter srtfCond srtfBody32 n (srtfInit [t]) = some s → s.executions = []) ∧
    (∀ fuel, whileLoop srtfCond srtfBody32 fuel (srtfInit [t]) = none) := by
  have hinit : srtfInit [t] = SrtfState.mk [t] [] 0 0 0 INT_MAX false := rfl
  have hstep : ∀ s : SrtfState, (∃ c, s = SrtfState.mk [t] [] c 0 0 INT_MAX false) →
      srtfCond s = true → ∃ c, srtfBody32 s = SrtfState.mk [t] [] c 0 0 INT_MAX false := by
    rintro s ⟨c, rfl⟩ -
    exact ⟨_, srtfBody32_stuck t hge c⟩
  rw [hinit]
  constructor
  · intro n s h
    obtain ⟨c, rfl⟩ := whileIter_inv srtfCond srtfBody32
      (fun s => ∃ c, s = SrtfState.mk [t] [] c 0 0 INT_MAX false) hstep n _ s ⟨0, rfl⟩ h
    rfl
  · intro fuel
    cases hw : whileLoop srtfCond srtfBody32 fuel (SrtfState.mk [t] [] 0 0 0 INT_MAX false) with
    | none => rfl
    | some s =>
      exfalso
      obtain ⟨⟨c, rfl⟩, hc⟩ := whileLoop_inv srtfCond srtfBody32
        (fun s => ∃ c, s = SrtfState.mk [t] [] c 0 0 INT_MAX false) hstep fuel _ s ⟨0, rfl⟩ hw
      simp [srtfCond] at hc

/-- When no time of a run leaves the range of `int`, either every burst is
below `INT_MAX`, or the loops of `sjf` and `srtf` in `int` never record an
interval and never end. -/
theorem sentinel_cases (sort : List Task → List Task) (hsort : ArrivalSort sort)
    (tasks : List Task)
    (hpre : ∀ t ∈ tasks, 0 ≤ t.arrival ∧ 0 < t.burst ∧ t.remaining = t.burst)
    (hb : InIntRange tasks) :
    (∀ t ∈ tasks, t.burst < INT_MAX) ∨
    ((∀ n s, whileIter sjfCond sjfBody32 n (sjfInit32 sort tasks) = some s →
        s.executions = []) ∧
      (∀ fuel, whileLoop sjfCond sjfBody32 fuel (sjfInit32 sort tasks) = none) ∧
      (∀ n s, whileIter srtfCond srtfBody32 n (srtfInit tasks) = some s → s.executions = []) ∧
      (∀ fuel, whileLoop srtfCond srtfBody32 fuel (srtfInit tasks) = none)) := by
  by_cases h : ∀ t ∈ tasks, t.burst < INT_MAX
  · exact Or.inl h
  · right
    push_neg at h
    obtain ⟨t, ht, hge⟩ := h
    have hs := sentinel_single tasks (fun u hu => ⟨(hpre u hu).1, (hpre u hu).2.1⟩) hb t ht hge
    have hrem : INT_MAX ≤ t.remaining := by
      rw [(hpre t ht).2.2]
      exact hge
    rw [hs]
    exact ⟨(sjf32_stuck sort hsort t hge).1, (sjf32_stuck sort hsort t hge).2,
      (srtf32_stuck t hrem).1, (srtf32_stuck t hrem).2⟩

/-! ## From the model over the integers to the 32-bit program -/

/-- The records of the tasks as the sort leaves them are the records of the
input in another order, and the sorted list is the list loaded from them. -/
theorem sorted_records (sort : List Task → List Task) (hsort : ArrivalSort sort)
    (recs : List Record) :
    ((sort (loadTasks recs)).map Task.record).Perm recs ∧
    loadTasks ((sort (loadTasks recs)).map Task.record) = sort (loadTasks recs) := by
  obtain ⟨hperm, -⟩ := hsort (loadTasks recs)
  refine ⟨?_, loadTasks_of_perm recs _ hperm⟩
  have := hperm.map Task.record
  rwa [loadTasks_records] at this

/-- A property of reports that holds for the four policies of the model over
the integers holds for the four policies in `int`, with any sort, when no
time of the run leaves the range of `int`; `roundRobin` returns a report, and
`sjf` and `srtf` return one when every burst is below `INT_MAX`. -/
theorem all_policies32 (P : List Record → Report → Prop)
    (hsame : ∀ recs a b, SameRun a b → P recs b → P recs a)
    (hperm : ∀ recs recs' rep, recs'.Perm recs → P recs' rep → P recs rep)
    (recs : List Record) (quantum : Int) (sort : List Task → List Task)
    (hsort : ArrivalSort sort) (hpre : ∀ r ∈ recs, 0 ≤ r.arrival ∧ 0 < r.burst)
    (hq : 1 ≤ quantum) (hb : InIntRange (loadTasks recs))
    (hmodel : ∀ recs', recs'.Perm recs →
      P recs' (fcfs (loadTasks recs')) ∧
      (∀ fuel rep, sjf fuel (loadTasks recs') = some rep → P recs' rep) ∧
      (∀ fuel rep, srtf fuel (loadTasks recs') = some rep → P recs' rep) ∧
      (∀ fuel rep, roundRobin fuel (loadTasks recs') quantum = some rep → P recs' rep)) :
    P recs (fcfs32 sort (loadTasks recs)) ∧
    (∀ fuel rep, sjf32 sort fuel (loadTasks recs) = some rep → P recs rep) ∧
    (∀ fuel rep, srtf32 fuel (loadTasks recs) = some rep → P recs rep) ∧
    (∀ fuel rep, roundRobin32 fuel (loadTasks recs) quantum = some rep → P recs rep) ∧
    (∃ fuel rep, roundRobin32 fuel (loadTasks recs) quantum = some rep) ∧
    ((∀ r ∈ recs, r.burst < INT_MAX) →
      (∃ fuel rep, sjf32 sort fuel (loadTasks recs) = some rep) ∧
      (∃ fuel rep, srtf32 fuel (loadTasks recs) = some rep)) := by
  have hfresh := loadTasks_fresh recs hpre
  have hpre' := loadTasks_pre recs hpre
  obtain ⟨hrp, hrl⟩ := sorted_records sort hsort recs
  obtain ⟨m1, m2, -, -⟩ := hmodel _ hrp
  obtain ⟨-, -, m3, m4⟩ := hmodel recs (List.Perm.refl _)
  rw [hrl] at m1 m2
  have hpre_s : ∀ r ∈ (sort (loadTasks recs)).map Task.record, 0 ≤ r.arrival ∧ 0 < r.burst :=
    fun r hr => hpre r (hrp.mem_iff.mp hr)
  refine ⟨?_, ?_, ?_, ?_, ?_, ?_⟩
  · exact hperm _ _ _ hrp (hsame _ _ _ (fcfs32_sameRun sort hsort _ hpre' hb) m1)
  · intro fuel rep h
    rcases sentinel_cases sort hsort _ hfresh hb with hlt | ⟨-, hnone, -, -⟩
    · obtain ⟨rep', h', hs⟩ := (sjf32_report sort hsort _ hpre' hlt hb fuel).1 rep h
      exact hperm _ _ _ hrp (hsame _ _ _ hs (m2 fuel rep' h'))
    · unfold sjf32 at h
      rw [hnone fuel] at h
      cases h
  · intro fuel rep h
    rcases sentinel_cases sort hsort _ hfresh hb with hlt | ⟨-, -, -, hnone⟩
    · obtain ⟨rep', h', hs⟩ := (srtf32_report _ hfresh hlt hb fuel).1 rep h
      exact hsame _ _ _ hs (m3 fuel rep' h')
    · unfold srtf32 at h
      rw [hnone fuel] at h
      cases h
  · intro fuel rep h
    obtain ⟨rep', h', hs⟩ := (rr32_report quantum hq _ hpre' hb fuel).1 rep h
    exact hsame _ _ _ hs (m4 fuel rep' h')
  · obtain ⟨fuel, rep', h'⟩ := roundRobin_returns recs quantum hpre hq
    obtain ⟨rep, h, -⟩ := (rr32_report quantum hq _ hpre' hb fuel).2 rep' h'
    exact ⟨fuel, rep, h⟩
  · intro hlt
    have hlt' : ∀ t ∈ loadTasks recs, t.burst < INT_MAX :=
      fun t ht => hlt _ (mem_of_mem_loadTasks recs ht)
    constructor
    · obtain ⟨fuel, rep', h'⟩ := sjf_returns _ hpre_s (fun r hr => hlt r (hrp.mem_iff.mp hr))
      rw [hrl] at h'
      obtain ⟨rep, h, -⟩ := (sjf32_report sort hsort _ hpre' hlt' hb fuel).2 rep' h'
      exact ⟨fuel, rep, h⟩
    · obtain ⟨fuel, rep', h'⟩ := srtf_returns recs hpre hlt
      obtain ⟨rep, h, -⟩ := (srtf32_report _ hfresh hlt' hb fuel).2 rep' h'
      exact ⟨fuel, rep, h⟩

theorem reportedMetrics_same (recs : List Record) (a b : Report) (h : SameRun a b)
    (hb : ReportedMetrics recs b) : ReportedMetrics recs a := by
  obtain ⟨h1, h2, -⟩ := h
  unfold ReportedMetrics at hb ⊢
  rw [h1, h2]
  exact hb

theorem reportedMetrics_perm (recs recs' : List Record) (rep : Report) (hp : recs'.Perm recs)
    (h : ReportedMetrics recs' rep) : ReportedMetrics recs rep := by
  obtain ⟨h1, h2, h3⟩ := h
  exact ⟨h1.trans hp, h2, fun hnd => h3 ((hp.map (fun r => r.id)).nodup_iff.mpr hnd)⟩

theorem chartCovers_same (recs : List Record) (a b : Report) (h : SameRun a b)
    (hb : ChartCovers recs b) : ChartCovers recs a := by
  obtain ⟨-, h2, h3⟩ := h
  unfold ChartCovers at hb ⊢
  rw [h2, h3]
  exact hb

theorem chartCovers_perm (recs recs' : List Record) (rep : Report) (hp : recs'.Perm recs)
    (h : ChartCovers recs' rep) : ChartCovers recs rep := by
  obtain ⟨first, rest, h1, h2, ⟨r, hr, h3⟩, h4⟩ := h
  exact ⟨first, rest, h1, fun r hr => h2 r (hp.mem_iff.mpr hr), ⟨r, hp.mem_iff.mp hr, h3⟩, h4⟩

/-! ## C3, C4 and C12 for the 32-bit program -/

/-- C3 (counterexample). With the quantum `2^30`, which is the one
`calculateQuantum` returns for these bursts, `roundRobin` reports for the
records `(1, 2^30, 0)`, `(2, 2^30, 0)`, `(3, 5, 0)` the turnaround
`-2147483648` for task 2, whose wait is `1073741824`, and the wait
`-2147483648` for task 3: the clock has left the range of `int` at the end of
the second slice.  The latest arrival plus the sum of the bursts is
`2147483653`. -/
theorem metrics_wrap_on_overflow :
    calculateQuantum [1073741824, 1073741824, 5] = some 1073741824 ∧
    ((roundRobin32 10 (loadTasks [⟨1, 1073741824, 0⟩, ⟨2, 1073741824, 0⟩, ⟨3, 5, 0⟩])
        1073741824).map fun r => r.tasks.map fun t => (t.id, t.burst, t.wait, t.turnaround))
      = some [(1, 1073741824, 0, 1073741824), (2, 1073741824, 1073741824, -2147483648),
          (3, 5, -2147483648, -2147483643)] ∧
    maxArrival (loadTasks [⟨1, 1073741824, 0⟩, ⟨2, 1073741824, 0⟩, ⟨3, 5, 0⟩])
      + totalBurst (loadTasks [⟨1, 1073741824, 0⟩, ⟨2, 1073741824, 0⟩, ⟨3, 5, 0⟩])
      = 2147483653 := by
  decide

/-- C3 (amended). For records with `arrival >= 0` and `burst > 0` whose
latest arrival plus sum of bursts is at most `INT_MAX` (and a quantum of at
least 1), every report of each of the four policies, computed in `int` and
with any order the sort may leave among equal arrivals, has non-negative
waits, `turnaround = wait + burst` for every task, and, task ids being
distinct, `arrival + turnaround` equal to the end of the task's last execution
interval (so `wait = completion - arrival - burst`).  `fcfs` is total and
`roundRobin` returns a report; `sjf` and `srtf` return one when every burst is
below `INT_MAX`. -/
theorem reported_metrics_within_int (recs : List Record) (quantum : Int)
    (sort : List Task → List Task) (hsort : ArrivalSort sort)
    (hpre : ∀ r ∈ recs, 0 ≤ r.arrival ∧ 0 < r.burst) (hq : 1 ≤ quantum)
    (hb : InIntRange (loadTasks recs)) :
    ReportedMetrics recs (fcfs32 sort (loadTasks recs)) ∧
    (∀ fuel rep, sjf32 sort fuel (loadTasks recs) = some rep → ReportedMetrics recs rep) ∧
    (∀ fuel rep, srtf32 fuel (loadTasks recs) = some rep → ReportedMetrics recs rep) ∧
    (∀ fuel rep, roundRobin32 fuel (loadTasks recs) quantum = some rep →
      ReportedMetrics recs rep) ∧
    (∃ fuel rep, roundRobin32 fuel (loadTasks recs) quantum = some rep) ∧
    ((∀ r ∈ recs, r.burst < INT_MAX) →
      (∃ fuel rep, sjf32 sort fuel (loadTasks recs) = some rep) ∧
      (∃ fuel rep, srtf32 fuel (loadTasks recs) = some rep)) := by
  apply all_policies32 ReportedMetrics reportedMetrics_same reportedMetrics_perm
    recs quantum sort hsort hpre hq hb
  intro recs' hp
  have hpre' : ∀ r ∈ recs', 0 ≤ r.arrival ∧ 0 < r.burst := fun r hr => hpre r (hp.mem_iff.mp hr)
  obtain ⟨h1, h2, h3, h4, -⟩ := reported_metrics_all_policies recs' quantum hpre' hq
  exact ⟨h1, h2, h3, h4⟩

theorem reported_metrics_within_int_witness :
    ArrivalSort sortByArrival ∧
    (∀ r ∈ ([⟨1, 5, 0⟩, ⟨2, 3, 2⟩, ⟨3, 8, 4⟩] : List Record), 0 ≤ r.arrival ∧ 0 < r.burst) ∧
    (1 : Int) ≤ 8 ∧ InIntRange (loadTasks [⟨1, 5, 0⟩, ⟨2, 3, 2⟩, ⟨3, 8, 4⟩]) ∧
    ReportedMetrics [⟨1, 5, 0⟩, ⟨2, 3, 2⟩, ⟨3, 8, 4⟩]
      (fcfs32 sortByArrival (loadTasks [⟨1, 5, 0⟩, ⟨2, 3, 2⟩, ⟨3, 8, 4⟩])) ∧
    (∃ fuel rep, sjf32 sortByArrival fuel (loadTasks [⟨1, 5, 0⟩, ⟨2, 3, 2⟩, ⟨3, 8, 4⟩])
      = some rep) :=
  ⟨arrivalSort_sortByArrival, by decide, by decide, by decide,
    (reported_metrics_within_int [⟨1, 5, 0⟩, ⟨2, 3, 2⟩, ⟨3, 8, 4⟩] 8 sortByArrival
      arrivalSort_sortByArrival (by decide) (by decide) (by decide)).1,
    ((reported_metrics_within_int [⟨1, 5, 0⟩, ⟨2, 3, 2⟩, ⟨3, 8, 4⟩] 8 sortByArrival
      arrivalSort_sortByArrival (by decide) (by decide) (by decide)).2.2.2.2.2
        (by decide)).1⟩

/-- C4 (counterexample). For the single record `(1, 5, 10)` the chart of each
of the four policies is the one entry `(1, 10, 15)`: it starts at 10, not at
0, and no idle entry is put in front of it.  And for the records
`(1, 2^30, 0)`, `(2, 2^30, 1)`, whose bursts sum to more than `INT_MAX`, the
chart of `fcfs` has the entry `(2, 1073741824, -2147483648)`, which ends
before it starts: the chart covers no stretch of time up to the makespan,
which is `-2147483648`. -/
theorem chart_not_from_zero_nor_in_range :
    (fcfs32 sortByArrival (loadTasks [⟨1, 5, 10⟩])).chart = [⟨1, 10, 15⟩] ∧
    ((sjf32 sortByArrival 20 (loadTasks [⟨1, 5, 10⟩])).map fun r => r.chart)
      = some [⟨1, 10, 15⟩] ∧
    ((srtf32 20 (loadTasks [⟨1, 5, 10⟩])).map fun r => r.chart) = some [⟨1, 10, 15⟩] ∧
    ((roundRobin32 20 (loadTasks [⟨1, 5, 10⟩]) 5).map fun r => r.chart)
      = some [⟨1, 10, 15⟩] ∧
    (fcfs32 sortByArrival (loadTasks [⟨1, 1073741824, 0⟩, ⟨2, 1073741824, 1⟩])).chart
      = [⟨1, 0, 1073741824⟩, ⟨2, 1073741824, -2147483648⟩] ∧
    makespan (fcfs32 sortByArrival
      (loadTasks [⟨1, 1073741824, 0⟩, ⟨2, 1073741824, 1⟩])).executions = -2147483648 := by
  decide

/-- C4 (amended). For a non-empty input with `arrival >= 0` and `burst > 0`
whose latest arrival plus sum of bursts is at most `INT_MAX` (and a quantum of
at least 1), the chart in every report of each of the four policies, computed
in `int` and with any order the sort may leave among equal arrivals, covers
the time from the earliest arrival to the makespan without overlap or gap: its
first entry starts at the earliest arrival time, every entry is non-empty and
starts where the previous one ends, and the last one ends at the makespan.
`fcfs` is total and `roundRobin` returns a report; `sjf` and `srtf` return one
when every burst is below `INT_MAX`. -/
theorem chart_covers_within_int (recs : List Record) (quantum : Int)
    (sort : List Task → List Task) (hsort : ArrivalSort sort) (hne : recs ≠ [])
    (hpre : ∀ r ∈ recs, 0 ≤ r.arrival ∧ 0 < r.burst) (hq : 1 ≤ quantum)
    (hb : InIntRange (loadTasks recs)) :
    ChartCovers recs (fcfs32 sort (loadTasks recs)) ∧
    (∀ fuel rep, sjf32 sort fuel (loadTasks recs) = some rep → ChartCovers recs rep) ∧
    (∀ fuel rep, srtf32 fuel (loadTasks recs) = some rep → ChartCovers recs rep) ∧
    (∀ fuel rep, roundRobin32 fuel (loadTasks recs) quantum = some rep →
      ChartCovers recs rep) ∧
    (∃ fuel rep, roundRobin32 fuel (loadTasks recs) quantum = some rep) ∧
    ((∀ r ∈ recs, r.burst < INT_MAX) →
      (∃ fuel rep, sjf32 sort fuel (loadTasks recs) = some rep) ∧
      (∃ fuel rep, srtf32 fuel (loadTasks recs) = some rep)) := by
  apply all_policies32 ChartCovers chartCovers_same chartCovers_perm
    recs quantum sort hsort hpre hq hb
  intro recs' hp
  have hpre' : ∀ r ∈ recs', 0 ≤ r.arrival ∧ 0 < r.burst := fun r hr => hpre r (hp.mem_iff.mp hr)
  have hne' : recs' ≠ [] := by
    intro h
    rw [h] at hp
    exact hne (List.Perm.nil_eq hp).symm
  obtain ⟨h1, h2, h3, h4, -⟩ := chart_covers_all_policies recs' quantum hne' hpre' hq
  exact ⟨h1, h2, h3, h4⟩

theorem chart_covers_within_int_witness :
    ArrivalSort sortByArrival ∧
    ([⟨1, 5, 10⟩, ⟨2, 3, 12⟩] : List Record) ≠ [] ∧
    (∀ r ∈ ([⟨1, 5, 10⟩, ⟨2, 3, 12⟩] : List Record), 0 ≤ r.arrival ∧ 0 < r.burst) ∧
    (1 : Int) ≤ 5 ∧ InIntRange (loadTasks [⟨1, 5, 10⟩, ⟨2, 3, 12⟩]) ∧
    ChartCovers [⟨1, 5, 10⟩, ⟨2, 3, 12⟩]
      (fcfs32 sortByArrival (loadTasks [⟨1, 5, 10⟩, ⟨2, 3, 12⟩])) ∧
    (∃ fuel rep, roundRobin32 fuel (loadTasks [⟨1, 5, 10⟩, ⟨2, 3, 12⟩]) 5 = some rep) :=
  ⟨arrivalSort_sortByArrival, by decide, by decide, by decide, by decide,
    (chart_covers_within_int [⟨1, 5, 10⟩, ⟨2, 3, 12⟩] 5 sortByArrival
      arrivalSort_sortByArrival (by decide) (by decide) (by decide) (by decide)).1,
    (chart_covers_within_int [⟨1, 5, 10⟩, ⟨2, 3, 12⟩] 5 sortByArrival
      arrivalSort_sortByArrival (by decide) (by decide) (by decide) (by decide)).2.2.2.2.1⟩

/-- C12 (counterexample). For the records `(1, 2^30, 0)`, `(2, 2^30, 1)`,
whose bursts sum to more than `INT_MAX`, `fcfs` records for task 2 the
interval `(2, 1073741824, -2147483648)`, whose end is before its start; the
arrival times differ, so that every sort leaves the tasks in this order.
With the quantum `2^30` `roundRobin` records for `(1, 2^30, 0)`,
`(2, 2^30, 0)`, `(3, 5, 0)` the same interval for task 2 and then
`(3, -2147483648, -2147483643)`, which starts before the two intervals
recorded before it. -/
theorem interval_ends_before_it_starts :
    (fcfs32 sortByArrival (loadTasks [⟨1, 1073741824, 0⟩, ⟨2, 1073741824, 1⟩])).executions
      = [⟨1, 0, 1073741824⟩, ⟨2, 1073741824, -2147483648⟩] ∧
    ((roundRobin32 10 (loadTasks [⟨1, 1073741824, 0⟩, ⟨2, 1073741824, 0⟩, ⟨3, 5, 0⟩])
        1073741824).map fun r => r.executions)
      = some [⟨1, 0, 1073741824⟩, ⟨2, 1073741824, -2147483648⟩,
          ⟨3, -2147483648, -2147483643⟩] := by
  decide

theorem timeOrdered_same (_recs : List Record) (a b : Report) (h : SameRun a b)
    (hb : TimeOrdered b.executions) : TimeOrdered a.executions := by
  rw [h.2.1]
  exact hb

/-- C12 (amended). For records with `arrival >= 0` and `burst > 0` whose
latest arrival plus sum of bursts is at most `INT_MAX` (and a quantum of at
least 1), the raw execution list in every report of each of the four
policies, computed in `int` and with any order the sort may leave among equal
arrivals, is in time order: every interval has `start < end` and starts at or
after the end of the interval recorded before it, so that no two intervals
overlap.  `fcfs` is total and `roundRobin` returns a report; `sjf` and `srtf`
return one when every burst is below `INT_MAX`. -/
theorem executions_in_time_order_within_int (recs : List Record) (quantum : Int)
    (sort : List Task → List Task) (hsort : ArrivalSort sort)
    (hpre : ∀ r ∈ recs, 0 ≤ r.arrival ∧ 0 < r.burst) (hq : 1 ≤ quantum)
    (hb : InIntRange (loadTasks recs)) :
    TimeOrdered (fcfs32 sort (loadTasks recs)).executions ∧
    (∀ fuel rep, sjf32 sort fuel (loadTasks recs) = some rep → TimeOrdered rep.executions) ∧
    (∀ fuel rep, srtf32 fuel (loadTasks recs) = some rep → TimeOrdered rep.executions) ∧
    (∀ fuel rep, roundRobin32 fuel (loadTasks recs) quantum = some rep →
      TimeOrdered rep.executions) ∧
    (∃ fuel rep, roundRobin32 fuel (loadTasks recs) quantum = some rep) ∧
    ((∀ r ∈ recs, r.burst < INT_MAX) →
      (∃ fuel rep, sjf32 sort fuel (loadTasks recs) = some rep) ∧
      (∃ fuel rep, srtf32 fuel (loadTasks recs) = some rep)) := by
  apply all_policies32 (fun _ rep => TimeOrdered rep.executions) timeOrdered_same
    (fun _ _ _ _ h => h) recs quantum sort hsort hpre hq hb
  intro recs' hp
  have hpre' : ∀ r ∈ recs', 0 ≤ r.arrival ∧ 0 < r.burst := fun r hr => hpre r (hp.mem_iff.mp hr)
  obtain ⟨h1, -, -, -, h2, h3, h4, -⟩ := executions_in_time_order recs' quantum hpre' hq
  exact ⟨h1, h2, h3, h4⟩

theorem executions_in_time_order_within_int_witness :
    ArrivalSort sortByArrival ∧
    (∀ r ∈ ([⟨1, 5, 0⟩, ⟨2, 3, 2⟩, ⟨3, 8, 4⟩] : List Record), 0 ≤ r.arrival ∧ 0 < r.burst) ∧
    (1 : Int) ≤ 5 ∧ InIntRange (loadTasks [⟨1, 5, 0⟩, ⟨2, 3, 2⟩, ⟨3, 8, 4⟩]) ∧
    TimeOrdered (fcfs32 sortByArrival (loadTasks [⟨1, 5, 0⟩, ⟨2, 3, 2⟩, ⟨3, 8, 4⟩])).executions ∧
    (∃ fuel rep, srtf32 fuel (loadTasks [⟨1, 5, 0⟩, ⟨2, 3, 2⟩, ⟨3, 8, 4⟩]) = some rep) :=
  ⟨arrivalSort_sortByArrival, by decide, by decide, by decide,
    (executions_in_time_order_within_int [⟨1, 5, 0⟩, ⟨2, 3, 2⟩, ⟨3, 8, 4⟩] 5 sortByArrival
      arrivalSort_sortByArrival (by decide) (by decide) (by decide)).1,
    ((executions_in_time_order_within_int [⟨1, 5, 0⟩, ⟨2, 3, 2⟩, ⟨3, 8, 4⟩] 5 sortByArrival
      arrivalSort_sortByArrival (by decide) (by decide) (by decide)).2.2.2.2.2
        (by decide)).2⟩

/-! ## SJF in `int`: the shape of one iteration -/

/-- One iteration of `sjf` in `int` either idles, no arrived and uncompleted
task having a burst below `INT_MAX`, or dispatches the first task of least
burst among the arrived and uncompleted ones. -/
theorem sjfBody32_cases (s : SjfState) :
    (sjfBody32 s = { s with currentTime := wrap (s.currentTime + 1) } ∧
      ∀ (k : Nat) (t : Task), s.tasks[k]? = some t → s.isTaskCompleted[k]? = some false →
        t.arrival ≤ s.currentTime → INT_MAX ≤ t.burst) ∨
    (∃ j t, sjfBody32 s = sjfDispatch32 s j t ∧
      s.tasks[j]? = some t ∧ s.isTaskCompleted[j]? = some false ∧
      t.arrival ≤ s.currentTime ∧ t.burst < INT_MAX ∧
      ∀ (k' : Nat) (t' : Task), s.tasks[k']? = some t' → s.isTaskCompleted[k']? = some false →
        t'.arrival ≤ s.currentTime → t.burst ≤ t'.burst ∧ (k' < j → t.burst < t'.burst)) := by
  rcases sjfScan_spec s.currentTime s.tasks s.isTaskCompleted 0 none INT_MAX with
    ⟨heq, hall⟩ | ⟨k, t, heq, h1, h2, h3, h4, h5⟩
  · left
    refine ⟨?_, hall⟩
    unfold sjfBody32
    rw [heq]
  · right
    refine ⟨k, t, ?_, h1, h2, h3, h4, h5⟩
    unfold sjfBody32
    rw [heq]
    simp only [Nat.zero_add, h1]
    rfl

theorem sjfInv32_step (orig : List Task) (s : SjfState) (h : SjfInv32 orig s) :
    SjfInv32 orig (sjfBody32 s) := by
  obtain ⟨hk, he⟩ := h
  rcases sjfBody32_cases s with ⟨hb, -⟩ | ⟨j, t, hb, ht, -, harr, -, -⟩
  · rw [hb]
    exact ⟨hk, he⟩
  · rw [hb]
    have hrec : (sjfFinish32 s.currentTime t).record = t.record := rfl
    refine ⟨(map_set_same Task.record s.tasks j t _ ht hrec).trans hk, ?_⟩
    intro e hmem
    have hkeep : ∀ (i : Nat) (u : Task), s.tasks[i]? = some u →
        ∃ u', (sjfDispatch32 s j t).tasks[i]? = some u' ∧ u'.id = u.id ∧
          u'.arrival = u.arrival := by
      intro i u hu
      by_cases hij : i = j
      · subst hij
        rw [ht] at hu
        cases hu
        exact ⟨_, getElem?_set_hit _ ht, rfl, rfl⟩
      · exact ⟨u, by
          show (s.tasks.set j _)[i]? = some u
          rw [getElem?_set_miss _ hij]
          exact hu, rfl, rfl⟩
    rcases List.mem_append.mp hmem with hold | hnew
    · obtain ⟨i, u, hu, hid, ha⟩ := he e hold
      obtain ⟨u', hu', h1, h2⟩ := hkeep i u hu
      exact ⟨i, u', hu', by rw [hid, h1], by rw [h2]; exact ha⟩
    · rw [List.mem_singleton] at hnew
      subst hnew
      obtain ⟨u', hu', h1, h2⟩ := hkeep j t ht
      exact ⟨j, u', hu', h1.symm, by rw [h2]; exact harr⟩

theorem sjf32_states (sort : List Task → List Task) (tasks : List Task) (n : Nat)
    (s : SjfState) (h : whileIter sjfCond sjfBody32 n (sjfInit32 sort tasks) = some s) :
    SjfInv32 (sort tasks) s :=
  whileIter_inv sjfCond sjfBody32 (SjfInv32 (sort tasks))
    (fun s hs _ => sjfInv32_step _ s hs) n _ s
    ⟨rfl, fun e he => by cases he⟩ h

/-! ## C14 for the 32-bit program -/

/-- C14 (counterexample). On the input list `(1,2,2)`, `(2,2,1)`, `(3,5,0)`
`sjf` runs task 3 from 0 to 5; at time 5 tasks 1 and 2 have both arrived and
share the least burst, 2.  Task 1 comes first in the input list, yet `sjf`
dispatches task 2, which arrived earlier: it scans the list sorted by arrival
(the arrival times differ, so every sort leaves the order 3, 2, 1). -/
theorem sjf_tie_goes_to_earlier_arrival :
    ((sjf32 sortByArrival 10 (loadTasks [⟨1, 2, 2⟩, ⟨2, 2, 1⟩, ⟨3, 5, 0⟩])).map
      fun r => r.executions) = some [⟨3, 0, 5⟩, ⟨2, 5, 7⟩, ⟨1, 7, 9⟩] ∧
    ((whileIter sjfCond sjfBody32 1
        (sjfInit32 sortByArrival (loadTasks [⟨1, 2, 2⟩, ⟨2, 2, 1⟩, ⟨3, 5, 0⟩]))).map
      fun s => (s.currentTime, s.tasks.map fun t => t.id, s.isTaskCompleted,
        (sjfBody32 s).executions.getLast?))
      = some (5, [3, 2, 1], [true, false, false], some ⟨2, 5, 7⟩) := by
  decide

/-- C14 (amended). Whatever order the sort leaves among equal arrivals, in
every state the loop of `sjf` goes through in which it performs another
iteration, the task list holds the records of the input in the order in which
the sort has left them, and the iteration either idles, no task that has
arrived and is not completed having a burst below `INT_MAX`, or dispatches at
`currentTime` a task that has arrived and is not completed, whose burst is the
least among such tasks, strictly less than that of every such task before it
in the sorted list; among the tasks that share the least burst it is the first
in the sorted list, so none of them arrived earlier.  The interval recorded
ends at the `int` value of `currentTime + burst`. -/
theorem sjf_dispatches_first_shortest_of_sorted (recs : List Record)
    (sort : List Task → List Task) (hsort : ArrivalSort sort) (n : Nat) (s : SjfState)
    (h : whileIter sjfCond sjfBody32 n (sjfInit32 sort (loadTasks recs)) = some s)
    (hc : sjfCond s = true) :
    s.tasks.map Task.record = (sort (loadTasks recs)).map Task.record ∧
    ((sjfBody32 s = { s with currentTime := wrap (s.currentTime + 1) } ∧
      ∀ (k : Nat) (t : Task), s.tasks[k]? = some t → s.isTaskCompleted[k]? = some false →
        t.arrival ≤ s.currentTime → INT_MAX ≤ t.burst) ∨
    (∃ (j : Nat) (t : Task), s.tasks[j]? = some t ∧ s.isTaskCompleted[j]? = some false ∧
      t.arrival ≤ s.currentTime ∧
      (sjfBody32 s).executions
        = s.executions ++ [Execution.mk t.id s.currentTime (wrap (s.currentTime + t.burst))] ∧
      (sjfBody32 s).isTaskCompleted = s.isTaskCompleted.set j true ∧
      ∀ (k : Nat) (u : Task), s.tasks[k]? = some u → s.isTaskCompleted[k]? = some false →
        u.arrival ≤ s.currentTime →
        t.burst ≤ u.burst ∧ (k < j → t.burst < u.burst) ∧
        (u.burst = t.burst → j ≤ k ∧ t.arrival ≤ u.arrival))) := by
  have _ := hc
  have hinv := sjf32_states sort (loadTasks recs) n s h
  refine ⟨hinv.1, ?_⟩
  rcases sjfBody32_cases s with hidle | ⟨j, t, hbody, ht, hdone, harr, -, hmin⟩
  · exact Or.inl hidle
  · refine Or.inr ⟨j, t, ht, hdone, harr, by rw [hbody]; rfl, by rw [hbody]; rfl, ?_⟩
    intro k u hu hud hua
    obtain ⟨h1, h2⟩ := hmin k u hu hud hua
    refine ⟨h1, h2, fun heq => ?_⟩
    have hjk : j ≤ k := by
      by_contra hlt
      have := h2 (by omega)
      omega
    exact ⟨hjk, arrival_le_of_keys s.tasks _ hinv.1 (hsort _).2 j k t u hjk ht hu⟩

theorem sjf_dispatches_first_shortest_of_sorted_witness :
    ArrivalSort sortByArrival ∧
    (sjfBody32 (sjfInit32 sortByArrival
        (loadTasks [⟨1, 2, 2⟩, ⟨2, 2, 1⟩, ⟨3, 5, 0⟩]))).tasks.map Task.record
      = (sortByArrival (loadTasks [⟨1, 2, 2⟩, ⟨2, 2, 1⟩, ⟨3, 5, 0⟩])).map Task.record :=
  ⟨arrivalSort_sortByArrival,
    (sjf_dispatches_first_shortest_of_sorted [⟨1, 2, 2⟩, ⟨2, 2, 1⟩, ⟨3, 5, 0⟩] sortByArrival
      arrivalSort_sortByArrival 1
      (sjfBody32 (sjfInit32 sortByArrival (loadTasks [⟨1, 2, 2⟩, ⟨2, 2, 1⟩, ⟨3, 5, 0⟩])))
      (by decide) (by decide)).1⟩

/-! ## A task that arrives three units before `INT_MAX` -/

theorem whileLoop_succ_of_cond {σ : Type} (cond : σ → Bool) (body : σ → σ) (fuel : Nat)
    (s : σ) (h : cond s = true) :
    whileLoop cond body (fuel + 1) s = whileLoop cond body fuel (body s) := by
  show (if cond s = true then whileLoop cond body fuel (body s) else some s) = _
  rw [if_pos h]

/-- While the only task, which arrives at `2147483645`, has not arrived, an
iteration of `srtf` in `int` advances the clock by one and changes nothing
else. -/
theorem srtfBody32_waits (c : Int) (h0 : 0 ≤ c) (h1 : c < 2147483645) :
    srtfBody32 (SrtfState.mk [Task.new 1 5 2147483645] [] c 0 0 INT_MAX false)
      = SrtfState.mk [Task.new 1 5 2147483645] [] (c + 1) 0 0 INT_MAX false := by
  have h : ¬ (2147483645 : Int) ≤ c := not_le.mpr h1
  have hw : wrap (c + 1) = c + 1 := wrap_eq _ (by omega) (by omega)
  simp [srtfBody32, srtfScan, Task.new, h, hw]

/-- The loop of `srtf` in `int` spends `k` iterations on `k` units before the
arrival of the only task. -/
theorem srtf32_skip_idle (k : Nat) :
    ∀ (c : Int) (f : Nat), 0 ≤ c → c + k ≤ 2147483645 →
      whileLoop srtfCond srtfBody32 (k + f)
          (SrtfState.mk [Task.new 1 5 2147483645] [] c 0 0 INT_MAX false)
        = whileLoop srtfCond srtfBody32 f
          (SrtfState.mk [Task.new 1 5 2147483645] [] (c + k) 0 0 INT_MAX false) := by
  induction k with
  | zero =>
    intro c f _ _
    simp
  | succ k ih =>
    intro c f h0 h1
    have hc : srtfCond (SrtfState.mk [Task.new 1 5 2147483645] [] c 0 0 INT_MAX false)
        = true := rfl
    have e : k + 1 + f = (k + f) + 1 := by omega
    have hk : c + 1 + (k : Int) = c + ((k + 1 : Nat) : Int) := by
      push_cast
      ring
    rw [e, whileLoop_succ_of_cond srtfCond srtfBody32 (k + f) _ hc,
      srtfBody32_waits c h0 (by push_cast at h1; omega),
      ih (c + 1) f (by omega) (by push_cast at h1 ⊢; omega), hk]

/-- On the record `(1, 5, 2147483645)` `srtf` in `int` runs the task from
`2147483645` on: the third unit ends at `-2147483648`, and the last two units
are run at a negative clock value. -/
theorem srtf32_late_arrival :
    (srtf32 (2147483645 + 10) (loadTasks [⟨1, 5, 2147483645⟩])).map (fun r => r.executions)
      = some [⟨1, 2147483645, 2147483646⟩, ⟨1, 2147483646, 2147483647⟩,
          ⟨1, 2147483647, -2147483648⟩, ⟨1, -2147483648, -2147483647⟩,
          ⟨1, -2147483647, -2147483646⟩] := by
  have hinit : srtfInit (loadTasks [⟨1, 5, 2147483645⟩])
      = SrtfState.mk [Task.new 1 5 2147483645] [] 0 0 0 INT_MAX false := rfl
  have hskip := srtf32_skip_idle 2147483645 0 10 (le_refl _) (by norm_num)
  unfold srtf32
  rw [hinit, hskip]
  decide

/-! ## C20 for the 32-bit program -/

theorem fcfsLoop32_starts (l : List Task) :
    ∀ (ct : Int), ∀ e ∈ (fcfsLoop32 ct l).2, ∃ t ∈ l, e.id = t.id ∧ t.arrival ≤ e.start := by
  induction l with
  | nil => intro ct e he; cases he
  | cons t rest ih =>
    intro ct e he
    simp only [fcfsLoop32, List.mem_cons] at he
    rcases he with rfl | he
    · refine ⟨t, List.mem_cons_self _ _, rfl, ?_⟩
      show t.arrival ≤ if ct < t.arrival then t.arrival else ct
      split <;> omega
    · obtain ⟨u, hu, h1, h2⟩ := ih _ e he
      exact ⟨u, List.mem_cons_of_mem _ hu, h1, h2⟩

theorem noEarlyStart_same (recs : List Record) (a b : Report) (h : SameRun a b)
    (hb : NoEarlyStart recs b.executions) : NoEarlyStart recs a.executions := by
  rw [h.2.1]
  exact hb

theorem sjf32_report_state (sort : List Task → List Task) (fuel : Nat) (tasks : List Task)
    (rep : Report) (h : sjf32 sort fuel tasks = some rep) :
    ∃ s, whileLoop sjfCond sjfBody32 fuel (sjfInit32 sort tasks) = some s ∧
      rep = mkReport32 s.tasks s.executions := by
  unfold sjf32 at h
  obtain ⟨s, hs, rfl⟩ := Option.map_eq_some'.mp h
  exact ⟨s, hs, rfl⟩

/-- C20 (counterexample). With the quantum `2^30`, which is the one
`calculateQuantum` returns for these bursts, `roundRobin` records for the
records `(1, 2^30, 0)`, `(2, 2^30, 0)`, `(3, 5, 0)` the interval
`(3, -2147483648, -2147483643)`: task 3, which arrives at 0, is run from a
negative time on, the clock having left the range of `int`.  And `srtf`
records for the record `(1, 5, 2147483645)` two units that start at a negative
time. -/
theorem task_runs_at_negative_time :
    calculateQuantum [1073741824, 1073741824, 5] = some 1073741824 ∧
    ((roundRobin32 10 (loadTasks [⟨1, 1073741824, 0⟩, ⟨2, 1073741824, 0⟩, ⟨3, 5, 0⟩])
        1073741824).map fun r => r.executions)
      = some [⟨1, 0, 1073741824⟩, ⟨2, 1073741824, -2147483648⟩,
          ⟨3, -2147483648, -2147483643⟩] ∧
    (srtf32 (2147483645 + 10) (loadTasks [⟨1, 5, 2147483645⟩])).map (fun r => r.executions)
      = some [⟨1, 2147483645, 2147483646⟩, ⟨1, 2147483646, 2147483647⟩,
          ⟨1, 2147483647, -2147483648⟩, ⟨1, -2147483648, -2147483647⟩,
          ⟨1, -2147483647, -2147483646⟩] :=
  ⟨by decide, by decide, srtf32_late_arrival⟩

/-- C20 (amended). `fcfs` and `sjf`, computed in `int` and with any order the
sort may leave among equal arrivals, never run a task before it arrives: every
interval in the execution list of `fcfs`, in the execution list of every state
the loop of `sjf` goes through, and so in every report of `sjf`, carries the
id of a task that has arrived by the start of the interval, and, task ids
being distinct, every interval recorded for a task starts at or after that
task's arrival.  For records with `arrival >= 0` and `burst > 0` whose latest
arrival plus sum of bursts is at most `INT_MAX` (and a quantum of at least 1)
the same holds for every report of `srtf` and of `roundRobin`; `roundRobin`
returns a report, and `sjf` and `srtf` do when every burst is below
`INT_MAX`. -/
theorem no_early_start_within_int (recs : List Record) (quantum : Int)
    (sort : List Task → List Task) (hsort : ArrivalSort sort)
    (hpre : ∀ r ∈ recs, 0 ≤ r.arrival ∧ 0 < r.burst) (hq : 1 ≤ quantum) :
    NoEarlyStart recs (fcfs32 sort (loadTasks recs)).executions ∧
    (∀ n s, whileIter sjfCond sjfBody32 n (sjfInit32 sort (loadTasks recs)) = some s →
      NoEarlyStart recs s.executions) ∧
    (∀ fuel rep, sjf32 sort fuel (loadTasks recs) = some rep →
      NoEarlyStart recs rep.executions) ∧
    (InIntRange (loadTasks recs) →
      (∀ fuel rep, srtf32 fuel (loadTasks recs) = some rep →
        NoEarlyStart recs rep.executions) ∧
      (∀ fuel rep, roundRobin32 fuel (loadTasks recs) quantum = some rep →
        NoEarlyStart recs rep.executions) ∧
      (∃ fuel rep, roundRobin32 fuel (loadTasks recs) quantum = some rep) ∧
      ((∀ r ∈ recs, r.burst < INT_MAX) →
        (∃ fuel rep, sjf32 sort fuel (loadTasks recs) = some rep) ∧
        (∃ fuel rep, srtf32 fuel (loadTasks recs) = some rep))) := by
  obtain ⟨hrp, -⟩ := sorted_records sort hsort recs
  have hsjf : ∀ n s, whileIter sjfCond sjfBody32 n (sjfInit32 sort (loadTasks recs)) = some s →
      NoEarlyStart recs s.executions := by
    intro n s h
    obtain ⟨hk, he⟩ := sjf32_states sort (loadTasks recs) n s h
    apply noEarlyStart_of
    intro e hmem
    obtain ⟨i, t, ht, hid, harr⟩ := he e hmem
    exact ⟨t.record, record_mem_of_keys recs s.tasks (by rw [hk]; exact hrp) i t ht,
      hid.symm, harr⟩
  refine ⟨?_, hsjf, ?_, ?_⟩
  · apply noEarlyStart_of
    intro e he
    obtain ⟨t, ht, hid, harr⟩ := fcfsLoop32_starts (sort (loadTasks recs)) 0 e he
    obtain ⟨i, hi⟩ := List.mem_iff_getElem?.mp ht
    exact ⟨t.record, record_mem_of_keys recs _ hrp i t hi, hid.symm, harr⟩
  · intro fuel rep h
    obtain ⟨s, hs, rfl⟩ := sjf32_report_state sort fuel _ rep h
    obtain ⟨n, hn, -⟩ := whileLoop_iter _ _ fuel _ s hs
    exact hsjf n s hn
  · intro hb
    obtain ⟨-, -, h3, h4, h5, h6⟩ := all_policies32 (fun recs rep => NoEarlyStart recs rep.executions)
      noEarlyStart_same
      (fun recs recs' rep hp h =>
        ⟨fun e he =>
          let ⟨r, hr, h1⟩ := h.1 e he
          ⟨r, hp.mem_iff.mp hr, h1⟩,
         fun hnd r hr e he hid =>
          h.2 ((hp.map (fun r => r.id)).nodup_iff.mpr hnd) r (hp.mem_iff.mpr hr) e he hid⟩)
      recs quantum sort hsort hpre hq hb
      (fun recs' hp => by
        have hpre' : ∀ r ∈ recs', 0 ≤ r.arrival ∧ 0 < r.burst :=
          fun r hr => hpre r (hp.mem_iff.mp hr)
        obtain ⟨h1, -, -, -, h2, h3, h4, -⟩ := no_task_runs_before_arrival recs' quantum hpre' hq
        exact ⟨h1, h2, h3, h4⟩)
    exact ⟨h3, h4, h5, h6⟩

theorem no_early_start_within_int_witness :
    ArrivalSort sortByArrival ∧
    (∀ r ∈ ([⟨1, 5, 0⟩, ⟨2, 3, 2⟩, ⟨3, 8, 4⟩] : List Record), 0 ≤ r.arrival ∧ 0 < r.burst) ∧
    (1 : Int) ≤ 4 ∧ InIntRange (loadTasks [⟨1, 5, 0⟩, ⟨2, 3, 2⟩, ⟨3, 8, 4⟩]) ∧
    NoEarlyStart [⟨1, 5, 0⟩, ⟨2, 3, 2⟩, ⟨3, 8, 4⟩]
      (fcfs32 sortByArrival (loadTasks [⟨1, 5, 0⟩, ⟨2, 3, 2⟩, ⟨3, 8, 4⟩])).executions ∧
    (∃ fuel rep, roundRobin32 fuel (loadTasks [⟨1, 5, 0⟩, ⟨2, 3, 2⟩, ⟨3, 8, 4⟩]) 4
      = some rep) :=
  ⟨arrivalSort_sortByArrival, by decide, by decide, by decide,
    (no_early_start_within_int [⟨1, 5, 0⟩, ⟨2, 3, 2⟩, ⟨3, 8, 4⟩] 4 sortByArrival
      arrivalSort_sortByArrival (by decide) (by decide)).1,
    ((no_early_start_within_int [⟨1, 5, 0⟩, ⟨2, 3, 2⟩, ⟨3, 8, 4⟩] 4 sortByArrival
      arrivalSort_sortByArrival (by decide) (by decide)).2.2.2 (by decide)).2.2.1⟩

/-! ## C6 and C7 for the 32-bit program -/

theorem srtf32_report_state (fuel : Nat) (tasks : List Task) (rep : Report)
    (h : srtf32 fuel tasks = some rep) :
    ∃ s, whileLoop srtfCond srtfBody32 fuel (srtfInit tasks) = some s ∧
      rep = mkReport32 s.tasks s.executions := by
  unfold srtf32 at h
  obtain ⟨s, hs, rfl⟩ := Option.map_eq_some'.mp h
  exact ⟨s, hs, rfl⟩

/-- C6 (counterexample). For the single record `(1, INT_MAX, 0)`, with
`arrival >= 0` and `burst > 0`, `srtf` never runs the task: the selection
keeps only a remaining time strictly below `INT_MAX`, so in every state the
loop goes through no interval has been recorded, and `srtf` reports nothing
whatever the fuel, while the bursts sum to `INT_MAX`.  For the record
`(1, 5, 2147483645)` `srtf` records five intervals, the third of which is
`(1, 2147483647, -2147483648)`: it is not one unit long, and the lengths of
the five sum to `-4294967291`, not to 5. -/
theorem srtf_sentinel_and_overflow :
    totalBurst (loadTasks [⟨1, 2147483647, 0⟩]) = 2147483647 ∧
    (∀ n s, whileIter srtfCond srtfBody32 n (srtfInit (loadTasks [⟨1, 2147483647, 0⟩]))
      = some s → s.executions = []) ∧
    (∀ fuel, srtf32 fuel (loadTasks [⟨1, 2147483647, 0⟩]) = none) ∧
    (srtf32 (2147483645 + 10) (loadTasks [⟨1, 5, 2147483645⟩])).map (fun r => r.executions)
      = some [⟨1, 2147483645, 2147483646⟩, ⟨1, 2147483646, 2147483647⟩,
          ⟨1, 2147483647, -2147483648⟩, ⟨1, -2147483648, -2147483647⟩,
          ⟨1, -2147483647, -2147483646⟩] ∧
    busyTime [⟨1, 2147483645, 2147483646⟩, ⟨1, 2147483646, 2147483647⟩,
          ⟨1, 2147483647, -2147483648⟩, ⟨1, -2147483648, -2147483647⟩,
          ⟨1, -2147483647, -2147483646⟩] = -4294967291 := by
  have hst := srtf32_stuck (Task.new 1 2147483647 0) (le_refl _)
  refine ⟨by decide, hst.1, ?_, srtf32_late_arrival, by decide⟩
  intro fuel
  unfold srtf32
  have : whileLoop srtfCond srtfBody32 fuel (srtfInit (loadTasks [⟨1, 2147483647, 0⟩])) = none :=
    hst.2 fuel
  rw [this]
  rfl

/-- C6 (amended). In every report of `srtf`, computed in `int`, on records
with `arrival >= 0` and `burst > 0` whose latest arrival plus sum of bursts is
at most `INT_MAX`, every recorded interval is one unit long, the total length
of the intervals is the sum of all bursts, the number of intervals that carry
a task's id is the sum of the bursts of the tasks with that id, and hence,
task ids being distinct, each task gets exactly `burst` intervals; and `srtf`
returns a report when every burst is below `INT_MAX`. -/
theorem srtf_busy_time_within_int (recs : List Record)
    (hpre : ∀ r ∈ recs, 0 ≤ r.arrival ∧ 0 < r.burst) (hb : InIntRange (loadTasks recs)) :
    (∀ fuel rep, srtf32 fuel (loadTasks recs) = some rep →
      (∀ e ∈ rep.executions, e.end_ = e.start + 1) ∧
      busyTime rep.executions = (recs.map fun r => r.burst).sum ∧
      (∀ id : Int, (intervalCount id rep.executions : Int)
        = (recs.map fun r => if r.id = id then r.burst else 0).sum) ∧
      ((recs.map fun r => r.id).Nodup →
        ∀ r ∈ recs, (intervalCount r.id rep.executions : Int) = r.burst)) ∧
    ((∀ r ∈ recs, r.burst < INT_MAX) →
      ∃ fuel rep, srtf32 fuel (loadTasks recs) = some rep) := by
  have hfresh := loadTasks_fresh recs hpre
  obtain ⟨hmodel, hret⟩ := srtf_busy_time_is_total_burst recs hpre
  constructor
  · intro fuel rep h
    rcases sentinel_cases sortByArrival arrivalSort_sortByArrival _ hfresh hb with
      hlt | ⟨-, -, -, hnone⟩
    · obtain ⟨rep', h', hs⟩ := (srtf32_report _ hfresh hlt hb fuel).1 rep h
      rw [hs.2.1]
      exact hmodel fuel rep' h'
    · unfold srtf32 at h
      rw [hnone fuel] at h
      cases h
  · intro hlt
    obtain ⟨fuel, rep', h'⟩ := hret hlt
    obtain ⟨rep, h, -⟩ := (srtf32_report _ hfresh
      (fun t ht => hlt _ (mem_of_mem_loadTasks recs ht)) hb fuel).2 rep' h'
    exact ⟨fuel, rep, h⟩

theorem srtf_busy_time_within_int_witness :
    (∀ r ∈ ([⟨1, 5, 0⟩, ⟨2, 3, 2⟩] : List Record), 0 ≤ r.arrival ∧ 0 < r.burst) ∧
    InIntRange (loadTasks [⟨1, 5, 0⟩, ⟨2, 3, 2⟩]) ∧
    (∃ fuel rep, srtf32 fuel (loadTasks [⟨1, 5, 0⟩, ⟨2, 3, 2⟩]) = some rep) ∧
    (∀ rep, srtf32 20 (loadTasks [⟨1, 5, 0⟩, ⟨2, 3, 2⟩]) = some rep →
      busyTime rep.executions = 8) :=
  ⟨by decide, by decide,
    (srtf_busy_time_within_int [⟨1, 5, 0⟩, ⟨2, 3, 2⟩] (by decide) (by decide)).2 (by decide),
    fun rep h =>
      ((srtf_busy_time_within_int [⟨1, 5, 0⟩, ⟨2, 3, 2⟩] (by decide) (by decide)).1
        20 rep h).2.1⟩

/-- C7 (counterexample). With the quantum `2^30` `roundRobin` records for the
records `(1, 2^30, 0)`, `(2, 2^30 + 5, 0)` the intervals `(1, 0, 2^30)`,
`(2, 2^30, -2147483648)` and `(2, -2147483648, -2147483643)`: the first of the
two intervals of task 2, which is not the task's last, ends after the clock
has left the range of `int`, and its length is `-3221225472`, not the
quantum. -/
theorem slice_length_is_not_quantum :
    ((roundRobin32 10 (loadTasks [⟨1, 1073741824, 0⟩, ⟨2, 1073741829, 0⟩])
        1073741824).map fun r => r.executions)
      = some [⟨1, 0, 1073741824⟩, ⟨2, 1073741824, -2147483648⟩,
          ⟨2, -2147483648, -2147483643⟩] ∧
    ((roundRobin32 10 (loadTasks [⟨1, 1073741824, 0⟩, ⟨2, 1073741829, 0⟩])
        1073741824).map fun r => r.executions.map fun e => e.end_ - e.start)
      = some [1073741824, -3221225472, 5] := by
  decide

/-- C7 (amended). `roundRobin`, computed in `int`, with a quantum of at least
1 returns a report on records with `arrival >= 0` and `burst > 0` whose latest
arrival plus sum of bursts is at most `INT_MAX`, and in every report no
interval is longer than the quantum (nor empty), the number of intervals that
carry a task's id is at least `ceil(burst / quantum)` and, task ids being
distinct, exactly that; an interval shorter than the quantum ends at
`arrival + turnaround` of a task with its id, that is, it is the interval
that completes a task. -/
theorem roundRobin_interval_counts_within_int (recs : List Record) (quantum : Int)
    (hpre : ∀ r ∈ recs, 0 ≤ r.arrival ∧ 0 < r.burst) (hq : 1 ≤ quantum)
    (hb : InIntRange (loadTasks recs)) :
    (∃ fuel rep, roundRobin32 fuel (loadTasks recs) quantum = some rep) ∧
    ∀ fuel rep, roundRobin32 fuel (loadTasks recs) quantum = some rep →
      (∀ e ∈ rep.executions, e.start < e.end_ ∧ e.end_ - e.start ≤ quantum) ∧
      (∀ r ∈ recs, ⌈(r.burst : ℚ) / (quantum : ℚ)⌉ ≤ (intervalCount r.id rep.executions : Int)) ∧
      ((recs.map fun r => r.id).Nodup → ∀ r ∈ recs,
        (intervalCount r.id rep.executions : Int) = ⌈(r.burst : ℚ) / (quantum : ℚ)⌉) ∧
      (∀ e ∈ rep.executions, e.end_ - e.start = quantum ∨
        ∃ t ∈ rep.tasks, t.id = e.id ∧ e.end_ = t.arrival + t.turnaround) := by
  have hpre' := loadTasks_pre recs hpre
  obtain ⟨⟨fuel₀, rep₀, h₀⟩, hmodel⟩ := roundRobin_interval_counts recs quantum hpre hq
  constructor
  · obtain ⟨rep, h, -⟩ := (rr32_report quantum hq _ hpre' hb fuel₀).2 rep₀ h₀
    exact ⟨fuel₀, rep, h⟩
  · intro fuel rep h
    obtain ⟨rep', h', hs⟩ := (rr32_report quantum hq _ hpre' hb fuel).1 rep h
    rw [hs.1, hs.2.1]
    exact hmodel fuel rep' h'

theorem roundRobin_interval_counts_within_int_witness :
    (∀ r ∈ ([⟨1, 5, 0⟩, ⟨2, 3, 2⟩] : List Record), 0 ≤ r.arrival ∧ 0 < r.burst) ∧
    (1 : Int) ≤ 2 ∧ InIntRange (loadTasks [⟨1, 5, 0⟩, ⟨2, 3, 2⟩]) ∧
    (∃ fuel rep, roundRobin32 fuel (loadTasks [⟨1, 5, 0⟩, ⟨2, 3, 2⟩]) 2 = some rep) :=
  ⟨by decide, by decide, by decide,
    (roundRobin_interval_counts_within_int [⟨1, 5, 0⟩, ⟨2, 3, 2⟩] 2 (by decide) (by decide)
      (by decide)).1⟩

/-! ## C13 for the 32-bit program -/

theorem eq_of_map_eq_of_injOn {α β : Type} (f : α → β) :
    ∀ (l₁ l₂ : List α), (∀ x ∈ l₁, ∀ y ∈ l₂, f x = f y → x = y) →
      l₁.map f = l₂.map f → l₁ = l₂ := by
  intro l₁
  induction l₁ with
  | nil =>
    intro l₂ _ h
    cases l₂ with
    | nil => rfl
    | cons b l₂ => simp at h
  | cons a l₁ ih =>
    intro l₂ hinj h
    cases l₂ with
    | nil => simp at h
    | cons b l₂ =>
      simp only [List.map_cons, List.cons.injEq] at h
      have hab := hinj a (List.mem_cons_self _ _) b (List.mem_cons_self _ _) h.1
      rw [hab, ih l₂ (fun x hx y hy => hinj x (List.mem_cons_of_mem _ hx) y
        (List.mem_cons_of_mem _ hy)) h.2]

/-- A list whose arrival times increase strictly is left as it is by every
sort by arrival. -/
theorem arrivalSort_of_increasing (sort : List Task → List Task) (hsort : ArrivalSort sort)
    (l : List Task) (h : l.Pairwise fun a b => a.arrival < b.arrival) : sort l = l := by
  obtain ⟨hperm, hsorted⟩ := hsort l
  have h1 : ((sort l).map fun t => t.arrival).Sorted (· ≤ ·) := by
    unfold List.Sorted
    rw [List.pairwise_map]
    exact hsorted
  have h2 : (l.map fun t => t.arrival).Sorted (· ≤ ·) := by
    unfold List.Sorted
    rw [List.pairwise_map]
    exact h.imp (fun hab => le_of_lt hab)
  have hmap := List.eq_of_perm_of_sorted (hperm.map fun t => t.arrival) h1 h2
  have hnd : (l.map fun t => t.arrival).Nodup := by
    unfold List.Nodup
    rw [List.pairwise_map]
    exact h.imp (fun hab => ne_of_lt hab)
  apply eq_of_map_eq_of_injOn (fun t : Task => t.arrival) _ _ _ hmap
  intro x hx y hy hxy
  exact List.inj_on_of_nodup_map hnd (hperm.mem_iff.mp hx) hy hxy

theorem fcfsLoop32_length (l : List Task) :
    ∀ ct : Int, (fcfsLoop32 ct l).1.length = l.length ∧ (fcfsLoop32 ct l).2.length = l.length := by
  induction l with
  | nil => intro ct; exact ⟨rfl, rfl⟩
  | cons t rest ih =>
    intro ct
    simp only [fcfsLoop32, List.length_cons]
    rw [(ih _).1, (ih _).2]
    exact ⟨rfl, rfl⟩

/-- The loop of `fcfs` in `int`, entry by entry: the `k`-th interval belongs
to the `k`-th task, starts at the later of the clock (the end of the interval
before it, or the initial clock) and the task's arrival, and ends at the `int`
value of `start + burst`; the wait is the time from the arrival to that
start. -/
theorem fcfsLoop32_entry (l : List Task) :
    ∀ (ct : Int) (k : Nat) (t u : Task) (e : Execution), ct ≤ 2147483647 →
      (∀ x ∈ l, 0 ≤ x.arrival ∧ x.arrival ≤ 2147483647) → l[k]? = some t →
      (fcfsLoop32 ct l).1[k]? = some u → (fcfsLoop32 ct l).2[k]? = some e →
      u = { t with wait := e.start - t.arrival } ∧
      e.id = t.id ∧ e.end_ = wrap (e.start + t.burst) ∧
      (k = 0 → e.start = max ct t.arrival) ∧
      (∀ p, 0 < k → (fcfsLoop32 ct l).2[k - 1]? = some p → e.start = max p.end_ t.arrival) := by
  induction l with
  | nil => intro ct k t u e _ _ ht; simp at ht
  | cons x rest ih =>
    intro ct k t u e hct hl ht hu he
    have hnow : (if ct < x.arrival then x.arrival else ct) = max ct x.arrival := by
      split
      · rw [max_eq_right (by omega)]
      · rw [max_eq_left (by omega)]
    obtain ⟨hx0, hx1⟩ := hl x (List.mem_cons_self _ _)
    cases k with
    | zero =>
      simp only [List.getElem?_cons_zero, Option.some.injEq] at ht
      subst ht
      simp only [fcfsLoop32, List.getElem?_cons_zero, Option.some.injEq] at hu he
      subst hu he
      refine ⟨?_, rfl, rfl, fun _ => hnow, fun p hp => absurd hp (lt_irrefl 0)⟩
      simp only [hnow]
      congr 1
      have h1 : x.arrival ≤ max ct x.arrival := le_max_right _ _
      have h2 : max ct x.arrival ≤ 2147483647 := max_le hct hx1
      rw [wrap_eq _ (by omega) (by omega), max_eq_right (by omega)]
    | succ k =>
      simp only [List.getElem?_cons_succ] at ht
      simp only [fcfsLoop32, List.getElem?_cons_succ] at hu he
      obtain ⟨h1, h2, h3, h4, h5⟩ := ih _ k t u e (wrap_range _).2
        (fun y hy => hl y (List.mem_cons_of_mem _ hy)) ht hu he
      refine ⟨h1, h2, h3, fun h => absurd h (Nat.succ_ne_zero k), ?_⟩
      intro p _ hp
      cases k with
      | zero =>
        simp only [fcfsLoop32, Nat.zero_add, Nat.sub_self, List.getElem?_cons_zero,
          Option.some.injEq] at hp
        subst hp
        exact h4 rfl
      | succ k =>
        simp only [fcfsLoop32, Nat.add_sub_cancel, List.getElem?_cons_succ] at hp
        exact h5 p (Nat.succ_pos k) (by simpa using hp)

/-- C13 (counterexample). For the records `(1, 2^30, 0)`, `(2, 2^30, 1)`
`fcfs` records for task 2 the interval that starts at `1073741824` and ends at
`-2147483648`, while `start + burst` is `2147483648`, which is no `int`; the
arrival times differ, so that every sort leaves the tasks in this order. -/
theorem fcfs_end_is_not_start_plus_burst :
    (fcfs32 sortByArrival (loadTasks [⟨1, 1073741824, 0⟩, ⟨2, 1073741824, 1⟩])).executions
      = [⟨1, 0, 1073741824⟩, ⟨2, 1073741824, -2147483648⟩] ∧
    ((fcfs32 sortByArrival (loadTasks [⟨1, 1073741824, 0⟩, ⟨2, 1073741824, 1⟩])).tasks.map
      fun t => (t.id, t.burst)) = [(1, 1073741824), (2, 1073741824)] ∧
    ((fcfs32 sortByArrival (loadTasks [⟨1, 1073741824, 0⟩, ⟨2, 1073741824, 1⟩])).executions.map
      fun e => e.start + 1073741824) = [1073741824, 2147483648] := by
  decide

/-- C13 (amended). Whatever order the sort leaves among equal arrivals,
`fcfs`, computed in `int` on records with `0 <= arrival <= INT_MAX` and
`burst > 0`, takes the tasks in the order of the sorted list, which is
non-decreasing in arrival, and records exactly one interval per task: the
`k`-th interval carries the id of the `k`-th task, starts at the later of the
task's arrival and the end of the interval before it (the clock value 0 for
the first task), and ends at the `int` value of `start + burst`, which is
`start + burst` when that sum is at most `INT_MAX`; the `k`-th reported task
is that task with `wait = start - arrival`.  For the records `(1,5,0)`,
`(2,3,2)`, `(3,8,4)` the waits are 0, 3 and 4, the total wait is 7 and the
average wait is 7/3. -/
theorem fcfs_records_in_sorted_order (recs : List Record) (sort : List Task → List Task)
    (hsort : ArrivalSort sort)
    (hpre : ∀ r ∈ recs, 0 ≤ r.arrival ∧ r.arrival ≤ INT_MAX ∧ 0 < r.burst) :
    (sort (loadTasks recs)).Perm (loadTasks recs) ∧
    (sort (loadTasks recs)).Sorted arrivalLE ∧
    (fcfs32 sort (loadTasks recs)).executions.length = recs.length ∧
    (fcfs32 sort (loadTasks recs)).tasks.length = recs.length ∧
    (∀ (k : Nat) (t : Task), (sort (loadTasks recs))[k]? = some t →
      ∃ (u : Task) (e : Execution),
        (fcfs32 sort (loadTasks recs)).tasks[k]? = some u ∧
        (fcfs32 sort (loadTasks recs)).executions[k]? = some e ∧
        u.id = t.id ∧ u.burst = t.burst ∧ u.arrival = t.arrival ∧
        e.id = t.id ∧ e.end_ = wrap (e.start + t.burst) ∧
        (e.start + t.burst ≤ INT_MAX → e.end_ = e.start + t.burst) ∧
        u.wait = e.start - t.arrival ∧
        (k = 0 → e.start = max 0 t.arrival) ∧
        (∀ p, 0 < k → (fcfs32 sort (loadTasks recs)).executions[k - 1]? = some p →
          e.start = max p.end_ t.arrival)) ∧
    ((fcfs32 sort (loadTasks [⟨1, 5, 0⟩, ⟨2, 3, 2⟩, ⟨3, 8, 4⟩])).tasks.map
      fun t => (t.id, t.wait)) = [(1, 0), (2, 3), (3, 4)] ∧
    (fcfs32 sort (loadTasks [⟨1, 5, 0⟩, ⟨2, 3, 2⟩, ⟨3, 8, 4⟩])).totalWait = 7 ∧
    averageWait (fcfs32 sort (loadTasks [⟨1, 5, 0⟩, ⟨2, 3, 2⟩, ⟨3, 8, 4⟩])) = 7 / 3 := by
  obtain ⟨hperm, hsorted⟩ := hsort (loadTasks recs)
  have hlen : (sort (loadTasks recs)).length = recs.length := by
    rw [hperm.length_eq]
    simp [loadTasks]
  have hfix : sort (loadTasks [⟨1, 5, 0⟩, ⟨2, 3, 2⟩, ⟨3, 8, 4⟩])
      = loadTasks [⟨1, 5, 0⟩, ⟨2, 3, 2⟩, ⟨3, 8, 4⟩] :=
    arrivalSort_of_increasing sort hsort _ (by decide)
  have hrep : fcfs32 sort (loadTasks [⟨1, 5, 0⟩, ⟨2, 3, 2⟩, ⟨3, 8, 4⟩])
      = fcfs32 sortByArrival (loadTasks [⟨1, 5, 0⟩, ⟨2, 3, 2⟩, ⟨3, 8, 4⟩]) := by
    unfold fcfs32
    rw [hfix, arrivalSort_of_increasing sortByArrival arrivalSort_sortByArrival _ (by decide)]
  have hsrt : ∀ x ∈ sort (loadTasks recs), 0 ≤ x.arrival ∧ x.arrival ≤ 2147483647 ∧
      0 < x.burst := by
    intro x hx
    have := hpre _ (mem_of_mem_loadTasks recs (hperm.mem_iff.mp hx))
    exact this
  refine ⟨hperm, hsorted, ?_, ?_, ?_, ?_, ?_, ?_⟩
  · show (fcfsLoop32 0 (sort (loadTasks recs))).2.length = recs.length
    rw [(fcfsLoop32_length _ 0).2, hlen]
  · show (setTurnarounds32 (fcfsLoop32 0 (sort (loadTasks recs))).1).length = recs.length
    simp only [setTurnarounds32, List.length_map]
    rw [(fcfsLoop32_length _ 0).1, hlen]
  · intro k t ht
    have hk : k < (sort (loadTasks recs)).length := by
      by_contra hge
      rw [List.getElem?_eq_none (by omega)] at ht
      cases ht
    have h1 : ∃ u, (fcfsLoop32 0 (sort (loadTasks recs))).1[k]? = some u :=
      ⟨_, List.getElem?_eq_getElem (by rw [(fcfsLoop32_length _ 0).1]; exact hk)⟩
    have h2 : ∃ e, (fcfsLoop32 0 (sort (loadTasks recs))).2[k]? = some e :=
      ⟨_, List.getElem?_eq_getElem (by rw [(fcfsLoop32_length _ 0).2]; exact hk)⟩
    obtain ⟨u, hu⟩ := h1
    obtain ⟨e, he⟩ := h2
    obtain ⟨e1, e2, e3, e4, e5⟩ := fcfsLoop32_entry _ 0 k t u e (by omega)
      (fun x hx => ⟨(hsrt x hx).1, (hsrt x hx).2.1⟩) ht hu he
    have ht3 := hsrt t (mem_of_getElem? ht)
    have hstart : 0 ≤ e.start := by
      have hw : u.wait = e.start - t.arrival := by rw [e1]
      cases k with
      | zero =>
        rw [e4 rfl]
        exact le_max_left _ _
      | succ k =>
        obtain ⟨p, hp⟩ : ∃ p, (fcfsLoop32 0 (sort (loadTasks recs))).2[k + 1 - 1]? = some p :=
          ⟨_, List.getElem?_eq_getElem (by rw [(fcfsLoop32_length _ 0).2]; omega)⟩
        rw [e5 p (Nat.succ_pos k) hp]
        exact le_trans ht3.1 (le_max_right _ _)
    refine ⟨{ u with turnaround := wrap (u.wait + u.burst) }, e, ?_, he, ?_, ?_, ?_, e2, e3, ?_,
      ?_, e4, e5⟩
    · show (setTurnarounds32 (fcfsLoop32 0 (sort (loadTasks recs))).1)[k]? = _
      simp only [setTurnarounds32, List.getElem?_map, hu, Option.map_some']
    · rw [e1]
    · rw [e1]
    · rw [e1]
    · intro hle
      rw [e3]
      have : INT_MAX = 2147483647 := rfl
      exact wrap_eq _ (by omega) (by omega)
    · rw [e1]
  · rw [hrep]
    decide
  · rw [hrep]
    decide
  · have h7 : (fcfs32 sort (loadTasks [⟨1, 5, 0⟩, ⟨2, 3, 2⟩, ⟨3, 8, 4⟩])).totalWait = 7 := by
      rw [hrep]
      decide
    have h3 : (fcfs32 sort (loadTasks [⟨1, 5, 0⟩, ⟨2, 3, 2⟩, ⟨3, 8, 4⟩])).tasks.length = 3 := by
      rw [hrep]
      decide
    unfold averageWait
    rw [h7, h3]
    norm_num

theorem fcfs_records_in_sorted_order_witness :
    ArrivalSort sortByArrival ∧
    (∀ r ∈ ([⟨1, 5, 0⟩, ⟨2, 3, 2⟩, ⟨3, 8, 4⟩] : List Record),
      0 ≤ r.arrival ∧ r.arrival ≤ INT_MAX ∧ 0 < r.burst) ∧
    (sortByArrival (loadTasks [⟨1, 5, 0⟩, ⟨2, 3, 2⟩, ⟨3, 8, 4⟩]))[1]? = some (Task.new 2 3 2) ∧
    ∃ e, (fcfs32 sortByArrival (loadTasks [⟨1, 5, 0⟩, ⟨2, 3, 2⟩, ⟨3, 8, 4⟩])).executions[1]?
        = some e ∧ e.end_ = wrap (e.start + 3) := by
  refine ⟨arrivalSort_sortByArrival, by decide, by decide, ?_⟩
  obtain ⟨u, e, -, he, -, -, -, -, h, -⟩ :=
    (fcfs_records_in_sorted_order [⟨1, 5, 0⟩, ⟨2, 3, 2⟩, ⟨3, 8, 4⟩] sortByArrival
      arrivalSort_sortByArrival (by decide)).2.2.2.2.1 1 (Task.new 2 3 2) (by decide)
  exact ⟨e, he, h⟩

/-! ## C2, C19 and C9 for the 32-bit program -/

theorem hasOverlappingTimes32_eq (l : List Task)
    (hr : ∀ t ∈ l, -2147483648 ≤ t.arrival + t.burst ∧ t.arrival + t.burst ≤ 2147483647) :
    hasOverlappingTimes32 l = hasOverlappingTimes l := by
  induction l with
  | nil => rfl
  | cons a rest ih =>
    cases rest with
    | nil => rfl
    | cons b rest' =>
      have ha := hr a (List.mem_cons_self _ _)
      unfold hasOverlappingTimes32 hasOverlappingTimes
      rw [wrap_eq _ ha.1 ha.2, ih (fun t ht => hr t (List.mem_cons_of_mem _ ht))]

/-- The verdict in `int` is the verdict for the list the sort leaves, when
every `arrival + burst` is an `int`. -/
theorem predictBestAlgorithm32_eq_verdictWith (sort : List Task → List Task)
    (hsort : ArrivalSort sort) (tasks : List Task)
    (hr : ∀ t ∈ tasks, INT_MIN ≤ t.arrival + t.burst ∧ t.arrival + t.burst ≤ INT_MAX) :
    (predictBestAlgorithm32 sort tasks).1 = verdictWith (sort tasks) tasks := by
  have h : hasOverlappingTimes32 (sort tasks) = hasOverlappingTimes (sort tasks) :=
    hasOverlappingTimes32_eq _ (fun t ht => hr t ((hsort tasks).1.mem_iff.mp ht))
  unfold predictBestAlgorithm32 verdictWith
  split
  · rfl
  · simp only [h]
    split <;> rfl

/-- C2 (counterexample). For the records `(1, 2147483647, 1)`, `(2, 5, 2)`
the bursts differ and, in the list sorted by arrival, `arrival + burst` of the
first task is `2147483648`, more than the arrival 2 of the task after it; but
as an `int` the sum is `-2147483648`, and `predictBestAlgorithm` answers SJF,
not SRTF.  The arrival times differ, so that every sort leaves the tasks in
this order. -/
theorem predictBestAlgorithm_sum_overflows :
    areAllBurstTimesSame (loadTasks [⟨1, 2147483647, 1⟩, ⟨2, 5, 2⟩]) = false ∧
    ((sortByArrival (loadTasks [⟨1, 2147483647, 1⟩, ⟨2, 5, 2⟩])).map
      fun t => (t.id, t.arrival, t.arrival + t.burst, wrap (t.arrival + t.burst)))
      = [(1, 1, 2147483648, -2147483648), (2, 2, 7, 7)] ∧
    (predictBestAlgorithm32 sortByArrival (loadTasks [⟨1, 2147483647, 1⟩, ⟨2, 5, 2⟩])).1
      = "SJF" := by
  decide

/-- C2 (amended). For a non-empty task list in which every `arrival + burst`
is an `int`, `predictBestAlgorithm`, whatever order its sort leaves among
equal arrivals, answers FCFS when all bursts are equal; otherwise SRTF when,
in the list as sorted by arrival, some task's `arrival + burst` exceeds the
arrival of the task right after it; otherwise SJF.  The three lists of the
specification give FCFS, SRTF and SJF. -/
theorem predictBestAlgorithm_verdict_within_int (tasks : List Task)
    (sort : List Task → List Task) (hsort : ArrivalSort sort) (h : tasks ≠ [])
    (hr : ∀ t ∈ tasks, INT_MIN ≤ t.arrival + t.burst ∧ t.arrival + t.burst ≤ INT_MAX) :
    (sort tasks).Perm tasks ∧ (sort tasks).Sorted arrivalLE ∧
    ((∀ t ∈ tasks, ∀ u ∈ tasks, t.burst = u.burst) →
      (predictBestAlgorithm32 sort tasks).1 = "FCFS") ∧
    (¬ (∀ t ∈ tasks, ∀ u ∈ tasks, t.burst = u.burst) →
      (∃ pre a b post, sort tasks = pre ++ a :: b :: post ∧
        a.arrival + a.burst > b.arrival) →
      (predictBestAlgorithm32 sort tasks).1 = "SRTF") ∧
    (¬ (∀ t ∈ tasks, ∀ u ∈ tasks, t.burst = u.burst) →
      (¬ ∃ pre a b post, sort tasks = pre ++ a :: b :: post ∧
        a.arrival + a.burst > b.arrival) →
      (predictBestAlgorithm32 sort tasks).1 = "SJF") ∧
    (predictBestAlgorithm32 sort (loadTasks [⟨1, 5, 0⟩, ⟨2, 5, 5⟩, ⟨3, 5, 10⟩])).1 = "FCFS" ∧
    (predictBestAlgorithm32 sort (loadTasks [⟨1, 5, 0⟩, ⟨2, 3, 2⟩])).1 = "SRTF" ∧
    (predictBestAlgorithm32 sort (loadTasks [⟨1, 5, 0⟩, ⟨2, 3, 10⟩])).1 = "SJF" := by
  have _ := h
  have hv := predictBestAlgorithm32_eq_verdictWith sort hsort tasks hr
  have hfix2 : sort (loadTasks [⟨1, 5, 0⟩, ⟨2, 3, 2⟩]) = loadTasks [⟨1, 5, 0⟩, ⟨2, 3, 2⟩] :=
    arrivalSort_of_increasing sort hsort _ (by decide)
  have hfix3 : sort (loadTasks [⟨1, 5, 0⟩, ⟨2, 3, 10⟩]) = loadTasks [⟨1, 5, 0⟩, ⟨2, 3, 10⟩] :=
    arrivalSort_of_increasing sort hsort _ (by decide)
  refine ⟨(hsort tasks).1, (hsort tasks).2, ?_, ?_, ?_, ?_, ?_, ?_⟩
  · intro hall
    have := (areAllBurstTimesSame_iff tasks).mpr hall
    simp [hv, verdictWith, this]
  · intro hall hov
    have h1 : areAllBurstTimesSame tasks = false := by
      rw [← Bool.not_eq_true, areAllBurstTimesSame_iff]
      exact hall
    have h2 := (hasOverlappingTimes_iff (sort tasks)).mpr hov
    simp [hv, verdictWith, h1, h2]
  · intro hall hov
    have h1 : areAllBurstTimesSame tasks = false := by
      rw [← Bool.not_eq_true, areAllBurstTimesSame_iff]
      exact hall
    have h2 : hasOverlappingTimes (sort tasks) = false := by
      rw [← Bool.not_eq_true, hasOverlappingTimes_iff]
      exact hov
    simp [hv, verdictWith, h1, h2]
  · have : areAllBurstTimesSame (loadTasks [⟨1, 5, 0⟩, ⟨2, 5, 5⟩, ⟨3, 5, 10⟩]) = true := by
      decide
    unfold predictBestAlgorithm32
    rw [if_pos this]
  · have : areAllBurstTimesSame (loadTasks [⟨1, 5, 0⟩, ⟨2, 3, 2⟩]) = false := by decide
    unfold predictBestAlgorithm32
    simp only [this, hfix2, Bool.false_eq_true, if_false]
    decide
  · have : areAllBurstTimesSame (loadTasks [⟨1, 5, 0⟩, ⟨2, 3, 10⟩]) = false := by decide
    unfold predictBestAlgorithm32
    simp only [this, hfix3, Bool.false_eq_true, if_false]
    decide

theorem predictBestAlgorithm_verdict_within_int_witness :
    ArrivalSort sortByArrival ∧
    (loadTasks [⟨1, 4, 0⟩, ⟨2, 6, 3⟩]) ≠ [] ∧
    (∀ t ∈ loadTasks [⟨1, 4, 0⟩, ⟨2, 6, 3⟩],
      INT_MIN ≤ t.arrival + t.burst ∧ t.arrival + t.burst ≤ INT_MAX) ∧
    (predictBestAlgorithm32 sortByArrival (loadTasks [⟨1, 4, 0⟩, ⟨2, 6, 3⟩])).1 = "SRTF" := by
  refine ⟨arrivalSort_sortByArrival, by decide, by decide, ?_⟩
  refine (predictBestAlgorithm_verdict_within_int (loadTasks [⟨1, 4, 0⟩, ⟨2, 6, 3⟩])
    sortByArrival arrivalSort_sortByArrival (by decide) (by decide)).2.2.2.1
    (by decide) ⟨[], Task.new 1 4 0, Task.new 2 6 3, [], by decide, by decide⟩

theorem arrivalSort_of_reverse : ArrivalSort fun l => sortByArrival l.reverse :=
  fun l => ⟨(sortByArrival_perm l.reverse).trans (List.reverse_perm l),
    sortByArrival_sorted l.reverse⟩

/-- C19 (counterexample). The tasks `(1, 2147483647, 5)` and `(2, 1, 5)`
arrive together and have positive bursts.  With a sort that leaves them in the
order of the list, the list in this order gets the verdict SJF (the `int` sum
`5 + 2147483647` is negative) and the list in the other order gets SRTF
(`5 + 1 > 5`): two permutations of the same list get different verdicts.  And
on the list in the first order a sort that leaves the tied tasks in the other
order gives SRTF: the verdict depends on how the sort orders the tie. -/
theorem verdict_depends_on_order_of_tie :
    ArrivalSort sortByArrival ∧
    ArrivalSort (fun l => sortByArrival l.reverse) ∧
    (loadTasks [⟨2, 1, 5⟩, ⟨1, 2147483647, 5⟩]).Perm
      (loadTasks [⟨1, 2147483647, 5⟩, ⟨2, 1, 5⟩]) ∧
    (predictBestAlgorithm32 sortByArrival (loadTasks [⟨1, 2147483647, 5⟩, ⟨2, 1, 5⟩])).1
      = "SJF" ∧
    (predictBestAlgorithm32 sortByArrival (loadTasks [⟨2, 1, 5⟩, ⟨1, 2147483647, 5⟩])).1
      = "SRTF" ∧
    (predictBestAlgorithm32 (fun l => sortByArrival l.reverse)
      (loadTasks [⟨1, 2147483647, 5⟩, ⟨2, 1, 5⟩])).1 = "SRTF" :=
  ⟨arrivalSort_sortByArrival, arrivalSort_of_reverse, List.Perm.swap _ _ [], by decide,
    by decide, by decide⟩

/-- C19 (amended). For a non-empty task list with positive bursts in which
every `arrival + burst` is an `int`, the verdict of `predictBestAlgorithm`
depends only on the multiset of `(arrival, burst)` pairs: a list with the same
pairs up to order, in particular a permutation of the list, gets the same
verdict, whatever order the sort gives to tasks with equal arrival times in
either call; and when the bursts are not all equal the verdict is SRTF exactly
when two different entries `a` and `b` of the list have
`a.arrival <= b.arrival` and `a.arrival + a.burst > b.arrival`. -/
theorem verdict_depends_on_pairs_within_int (tasks : List Task)
    (sort : List Task → List Task) (hsort : ArrivalSort sort) (hne : tasks ≠ [])
    (hb : ∀ t ∈ tasks, 0 < t.burst)
    (hr : ∀ t ∈ tasks, INT_MIN ≤ t.arrival + t.burst ∧ t.arrival + t.burst ≤ INT_MAX) :
    (∀ (sort' : List Task → List Task), ArrivalSort sort' → ∀ tasks' : List Task,
      (tasks'.map arrivalBurst).Perm (tasks.map arrivalBurst) →
      (predictBestAlgorithm32 sort' tasks').1 = (predictBestAlgorithm32 sort tasks).1) ∧
    (∀ (sort' : List Task → List Task), ArrivalSort sort' → ∀ tasks' : List Task,
      tasks'.Perm tasks →
      (predictBestAlgorithm32 sort' tasks').1 = (predictBestAlgorithm32 sort tasks).1) ∧
    (¬ (∀ t ∈ tasks, ∀ u ∈ tasks, t.burst = u.burst) →
      ((predictBestAlgorithm32 sort tasks).1 = "SRTF" ↔
        ∃ (i j : Nat) (a b : Task), i ≠ j ∧ tasks[i]? = some a ∧ tasks[j]? = some b ∧
          a.arrival ≤ b.arrival ∧ a.arrival + a.burst > b.arrival)) := by
  obtain ⟨m1, -, m3, m4⟩ := predictBestAlgorithm_depends_on_pairs tasks hne hb
  have hv : (predictBestAlgorithm32 sort tasks).1 = (predictBestAlgorithm tasks).1 := by
    rw [predictBestAlgorithm32_eq_verdictWith sort hsort tasks hr]
    exact m3 _ (hsort tasks).1 (hsort tasks).2
  have hpairs : ∀ (sort' : List Task → List Task), ArrivalSort sort' → ∀ tasks' : List Task,
      (tasks'.map arrivalBurst).Perm (tasks.map arrivalBurst) →
      (predictBestAlgorithm32 sort' tasks').1 = (predictBestAlgorithm32 sort tasks).1 := by
    intro sort' hsort' tasks' hperm
    have hmem : ∀ t ∈ tasks', ∃ u ∈ tasks, u.arrival = t.arrival ∧ u.burst = t.burst := by
      intro t ht
      have : arrivalBurst t ∈ tasks.map arrivalBurst :=
        hperm.mem_iff.mp (List.mem_map.mpr ⟨t, ht, rfl⟩)
      obtain ⟨u, hu, heq⟩ := List.mem_map.mp this
      exact ⟨u, hu, congrArg Prod.fst heq, congrArg Prod.snd heq⟩
    have hne' : tasks' ≠ [] := by
      intro h
      rw [h] at hperm
      have := hperm.length_eq
      simp only [List.map_nil, List.length_nil, List.length_map] at this
      exact hne (List.length_eq_zero.mp this.symm)
    have hb' : ∀ t ∈ tasks', 0 < t.burst := by
      intro t ht
      obtain ⟨u, hu, -, h2⟩ := hmem t ht
      rw [← h2]
      exact hb u hu
    have hr' : ∀ t ∈ tasks', INT_MIN ≤ t.arrival + t.burst ∧ t.arrival + t.burst ≤ INT_MAX := by
      intro t ht
      obtain ⟨u, hu, h1, h2⟩ := hmem t ht
      rw [← h1, ← h2]
      exact hr u hu
    obtain ⟨-, -, m3', -⟩ := predictBestAlgorithm_depends_on_pairs tasks' hne' hb'
    rw [hv, predictBestAlgorithm32_eq_verdictWith sort' hsort' tasks' hr',
      m3' _ (hsort' tasks').1 (hsort' tasks').2]
    exact m1 tasks' hperm
  refine ⟨hpairs, fun sort' hsort' tasks' hperm => hpairs sort' hsort' tasks' (hperm.map _), ?_⟩
  intro hns
  rw [hv]
  exact m4 hns

theorem verdict_depends_on_pairs_within_int_witness :
    ArrivalSort sortByArrival ∧
    loadTasks [⟨1, 5, 0⟩, ⟨2, 3, 2⟩] ≠ [] ∧
    (∀ t ∈ loadTasks [⟨1, 5, 0⟩, ⟨2, 3, 2⟩], 0 < t.burst) ∧
    (∀ t ∈ loadTasks [⟨1, 5, 0⟩, ⟨2, 3, 2⟩],
      INT_MIN ≤ t.arrival + t.burst ∧ t.arrival + t.burst ≤ INT_MAX) ∧
    (predictBestAlgorithm32 (fun l => sortByArrival l.reverse)
        (loadTasks [⟨7, 3, 2⟩, ⟨9, 5, 0⟩])).1
      = (predictBestAlgorithm32 sortByArrival (loadTasks [⟨1, 5, 0⟩, ⟨2, 3, 2⟩])).1 :=
  ⟨arrivalSort_sortByArrival, by decide, by decide, by decide,
    (verdict_depends_on_pairs_within_int (loadTasks [⟨1, 5, 0⟩, ⟨2, 3, 2⟩]) sortByArrival
      arrivalSort_sortByArrival (by decide) (by decide) (by decide)).1
      (fun l => sortByArrival l.reverse) arrivalSort_of_reverse
      (loadTasks [⟨7, 3, 2⟩, ⟨9, 5, 0⟩]) (List.Perm.swap _ _ [])⟩

theorem fcfsLoop32_interval_of_mem (l : List Task) :
    ∀ (currentTime : Int) (t : Task), t ∈ l →
      ∃ e ∈ (fcfsLoop32 currentTime l).2, e.id = t.id ∧ e.end_ = wrap (e.start + t.burst) := by
  induction l with
  | nil => intro _ t ht; cases ht
  | cons x rest ih =>
    intro ct t ht
    rcases List.mem_cons.mp ht with rfl | hmem
    · exact ⟨_, List.mem_cons_self _ _, rfl, rfl⟩
    · obtain ⟨e, he, h1, h2⟩ := ih _ t hmem
      exact ⟨e, List.mem_cons_of_mem _ he, h1, h2⟩

/-- C9 (counterexample). The record `(1, 0, 0)`, whose burst is 0, is loaded
like any other; `fcfs`, `sjf` and `roundRobin` (with the quantum 0 that
`calculateQuantum` returns) record the zero-length interval `(1, 0, 0)` for
it, and for the record `(1, -2, 0)` `fcfs` records an interval that ends
before it starts. -/
theorem loadTasks_keeps_nonpositive_burst :
    loadTasks [⟨1, 0, 0⟩] = [Task.new 1 0 0] ∧
    (fcfs32 sortByArrival (loadTasks [⟨1, 0, 0⟩])).executions = [⟨1, 0, 0⟩] ∧
    ((sjf32 sortByArrival 5 (loadTasks [⟨1, 0, 0⟩])).map fun r => r.executions)
      = some [⟨1, 0, 0⟩] ∧
    calculateQuantum [0] = some 0 ∧
    ((roundRobin32 5 (loadTasks [⟨1, 0, 0⟩]) 0).map fun r => r.executions)
      = some [⟨1, 0, 0⟩] ∧
    (fcfs32 sortByArrival (loadTasks [⟨1, -2, 0⟩])).executions = [⟨1, 0, -2⟩] := by
  decide

/-- C9 (amended). Loading never rejects a record: the loaded task list is
the list of records, one task per record whatever its burst; a non-empty file
never gives the `No tasks found` outcome; and every loaded record reaches the
policies, `fcfs` (computed in `int`, with any order the sort may leave among
equal arrivals) recording for it an interval that ends at the `int` value of
`start + burst`: an interval of length `burst`, which is zero-length or
negative when `burst <= 0`, whenever `start + burst` is an `int`. -/
theorem loadTasks_rejects_no_record (recs : List Record) (sort : List Task → List Task)
    (hsort : ArrivalSort sort) :
    (loadTasks recs).map Task.record = recs ∧
    (∀ r ∈ recs, Task.new r.id r.burst r.arrival ∈ loadTasks recs) ∧
    (recs ≠ [] → (loadTasks recs).isEmpty = false) ∧
    (∀ r ∈ recs, ∃ e ∈ (fcfs32 sort (loadTasks recs)).executions,
      e.id = r.id ∧ e.end_ = wrap (e.start + r.burst) ∧
      (INT_MIN ≤ e.start + r.burst → e.start + r.burst ≤ INT_MAX →
        e.end_ - e.start = r.burst)) := by
  refine ⟨loadTasks_records recs, ?_, ?_, ?_⟩
  · intro r hr
    exact List.mem_map.mpr ⟨r, hr, rfl⟩
  · intro hne
    cases recs with
    | nil => exact absurd rfl hne
    | cons r rest => rfl
  · intro r hr
    have hmem : Task.new r.id r.burst r.arrival ∈ sort (loadTasks recs) :=
      (hsort _).1.mem_iff.mpr (List.mem_map.mpr ⟨r, hr, rfl⟩)
    obtain ⟨e, he, h1, h2⟩ := fcfsLoop32_interval_of_mem _ 0 _ hmem
    refine ⟨e, he, h1, h2, ?_⟩
    intro hlo hhi
    have h3 : (Task.new r.id r.burst r.arrival).burst = r.burst := rfl
    rw [h2, h3, wrap_eq _ hlo hhi]
    omega

theorem loadTasks_rejects_no_record_witness :
    ArrivalSort sortByArrival ∧
    (loadTasks [⟨1, 0, 0⟩, ⟨2, -3, 1⟩]).isEmpty = false ∧
    ∃ e ∈ (fcfs32 sortByArrival (loadTasks [⟨1, 0, 0⟩, ⟨2, -3, 1⟩])).executions,
      e.id = 2 ∧ e.end_ = wrap (e.start + -3) := by
  refine ⟨arrivalSort_sortByArrival,
    (loadTasks_rejects_no_record [⟨1, 0, 0⟩, ⟨2, -3, 1⟩] sortByArrival
      arrivalSort_sortByArrival).2.2.1 (by decide), ?_⟩
  obtain ⟨e, he, h1, h2, -⟩ :=
    (loadTasks_rejects_no_record [⟨1, 0, 0⟩, ⟨2, -3, 1⟩] sortByArrival
      arrivalSort_sortByArrival).2.2.2 ⟨2, -3, 1⟩ (by decide)
  exact ⟨e, he, h1, h2⟩

/-! ## SRTF in `int`: the shape of one iteration and the invariant -/

/-- One iteration of `srtf` in `int`, with the way the choice is made: it
idles; or it runs the task it holds as running, no eligible task having less
remaining time; or it runs the first task of least remaining time, which has
less than the running one. -/
theorem srtfBody32_choice (s : SrtfState)
    (hchk : s.check = true → ∃ t, s.tasks[s.shortestIndex]? = some t ∧
      t.remaining = s.shortestRemainingTime) :
    (s.check = false ∧ srtfBody32 s = { s with currentTime := wrap (s.currentTime + 1) } ∧
      ∀ (k : Nat) (t : Task), s.tasks[k]? = some t → t.arrival ≤ s.currentTime →
        0 < t.remaining → s.shortestRemainingTime ≤ t.remaining) ∨
    (s.check = true ∧ ∃ t : Task, srtfBody32 s = srtfRun32 s s.shortestIndex t ∧
      s.tasks[s.shortestIndex]? = some t ∧ t.remaining = s.shortestRemainingTime ∧
      ∀ (k' : Nat) (t' : Task), s.tasks[k']? = some t' → t'.arrival ≤ s.currentTime →
        0 < t'.remaining → t.remaining ≤ t'.remaining) ∨
    (∃ (j : Nat) (t : Task), srtfBody32 s = srtfRun32 s j t ∧
      s.tasks[j]? = some t ∧ t.arrival ≤ s.currentTime ∧ 0 < t.remaining ∧
      t.remaining < s.shortestRemainingTime ∧
      ∀ (k' : Nat) (t' : Task), s.tasks[k']? = some t' → t'.arrival ≤ s.currentTime →
        0 < t'.remaining → t.remaining ≤ t'.remaining ∧ (k' < j → t.remaining < t'.remaining)) := by
  rcases srtfScan_spec s.currentTime s.tasks 0 s.shortestRemainingTime s.shortestIndex s.check
    with ⟨heq, hall⟩ | ⟨k, t, heq, h1, h2, h3, h4, h5⟩
  · cases hck : s.check with
    | false =>
      left
      refine ⟨rfl, ?_, hall⟩
      unfold srtfBody32
      rw [hck] at heq
      simp only [hck, heq, if_true]
    | true =>
      right
      left
      obtain ⟨t, ht, hrem⟩ := hchk hck
      refine ⟨rfl, t, ?_, ht, hrem, ?_⟩
      · unfold srtfBody32 srtfRun32
        rw [hck] at heq
        simp only [hck, heq, Bool.true_eq_false, if_false, ht]
      · intro k' t' h1' h2' h3'
        rw [hrem]
        exact hall k' t' h1' h2' h3'
  · right
    right
    refine ⟨k, t, ?_, h1, h2, h3, h4, ?_⟩
    · unfold srtfBody32 srtfRun32
      simp only [heq, Nat.zero_add, Bool.true_eq_false, if_false, h1]
    · intro k' t' a b c
      have := h5 k' t' a b c
      simpa using this

/-- A one-unit run of a task that is unfinished, and has arrived unless the
clock is negative, keeps the invariant of `srtf` in `int`. -/
theorem srtfInv32_run (s : SrtfState) (h : SrtfInv32 s) (j : Nat) (t : Task)
    (h1 : s.tasks[j]? = some t) (hpos : 0 < t.remaining)
    (harr : t.arrival ≤ s.currentTime ∨ (s.currentTime < 0 ∧ s.currentTime + t.remaining ≤ 0)) :
    SrtfInv32 (srtfRun32 s j t) := by
  obtain ⟨hta, htb, htm⟩ := h.pre j t h1
  obtain ⟨hr0, hr1⟩ := h.rem j t h1
  obtain ⟨hc0, hc1⟩ := h.clock
  have hI : INT_MAX = 2147483647 := rfl
  have hI' : INT_MIN = -2147483648 := rfl
  have hw : wrap (t.remaining - 1) = t.remaining - 1 := wrap_eq _ (by omega) (by omega)
  have hpre : ∀ t' : Task, t'.arrival = t.arrival → t'.burst = t.burst →
      ∀ (i : Nat) (u : Task), (s.tasks.set j t')[i]? = some u →
        0 ≤ u.arrival ∧ 0 < u.burst ∧ u.burst < INT_MAX := by
    intro t' ha hb i u hu
    by_cases hij : i = j
    · subst hij
      rw [getElem?_set_hit _ h1] at hu
      cases hu
      rw [ha, hb]
      exact ⟨hta, htb, htm⟩
    · rw [getElem?_set_miss _ hij] at hu
      exact h.pre i u hu
  have hrem : ∀ t' : Task, t'.burst = t.burst → t'.remaining = t.remaining - 1 →
      ∀ (i : Nat) (u : Task), (s.tasks.set j t')[i]? = some u →
        0 ≤ u.remaining ∧ u.remaining ≤ u.burst := by
    intro t' hb hr i u hu
    by_cases hij : i = j
    · subst hij
      rw [getElem?_set_hit _ h1] at hu
      cases hu
      rw [hb, hr]
      omega
    · rw [getElem?_set_miss _ hij] at hu
      exact h.rem i u hu
  unfold srtfRun32
  rw [hw]
  by_cases hz : t.remaining - 1 = 0
  · rw [if_pos hz]
    refine
      { pre := hpre _ rfl rfl, rem := hrem _ rfl rfl, clock := wrap_range _, count := ?_
        chk := fun hc => by simp at hc
        nochk := fun _ => rfl }
    simp only
    rw [sum_map_set _ _ j t _ h1]
    have := h.count
    have hne : t.remaining ≠ 0 := by omega
    push_cast
    simp only [hz, hne, if_true, if_false]
    omega
  · rw [if_neg hz]
    refine
      { pre := hpre _ rfl rfl, rem := hrem _ rfl rfl, clock := wrap_range _, count := ?_
        chk := ?_
        nochk := fun hc => by simp at hc }
    · simp only
      rw [sum_map_set _ _ j t _ h1]
      have := h.count
      have hne : t.remaining ≠ 0 := by omega
      simp only [hz, hne, if_false]
      omega
    · intro _
      refine ⟨_, getElem?_set_hit _ h1, rfl, ?_, ?_⟩
      · show 0 < t.remaining - 1
        omega
      · show t.arrival ≤ wrap (s.currentTime + 1) ∨
          (wrap (s.currentTime + 1) < 0 ∧ wrap (s.currentTime + 1) + (t.remaining - 1) ≤ 0)
        by_cases hmax : s.currentTime = 2147483647
        · right
          rw [hmax]
          have : wrap (2147483647 + 1) = -2147483648 := by decide
          rw [this]
          omega
        · rw [wrap_eq _ (by omega) (by omega)]
          rcases harr with ha | ⟨hn, hs⟩
          · left
            omega
          · right
            omega

theorem srtfInv32_step (s : SrtfState) (h : SrtfInv32 s) : SrtfInv32 (srtfBody32 s) := by
  rcases srtfBody32_choice s (fun hc => by
      obtain ⟨t, ht, hr, -⟩ := h.chk hc
      exact ⟨t, ht, hr⟩) with
    ⟨hck, heq, -⟩ | ⟨hck, t, heq, ht, -, -⟩ | ⟨j, t, heq, ht, harr, hpos, -, -⟩
  · rw [heq]
    exact
      { pre := h.pre, rem := h.rem, clock := wrap_range _, count := h.count
        chk := fun hc => by simp only [hck] at hc; exact absurd hc (by decide)
        nochk := h.nochk }
  · rw [heq]
    obtain ⟨t', ht', -, hpos, harr⟩ := h.chk hck
    rw [ht] at ht'
    cases ht'
    exact srtfInv32_run s h _ t ht hpos harr
  · rw [heq]
    exact srtfInv32_run s h j t ht hpos (Or.inl harr)

theorem srtfInv32_init (tasks : List Task)
    (hpre : ∀ t ∈ tasks, 0 ≤ t.arrival ∧ 0 < t.burst ∧ t.burst < INT_MAX ∧
      t.remaining = t.burst) : SrtfInv32 (srtfInit tasks) :=
  { pre := fun i t ht =>
      ⟨(hpre t (mem_of_getElem? ht)).1, (hpre t (mem_of_getElem? ht)).2.1,
        (hpre t (mem_of_getElem? ht)).2.2.1⟩
    rem := fun i t ht => by
      have := hpre t (mem_of_getElem? ht)
      omega
    clock := by
      show INT_MIN ≤ (0 : Int) ∧ (0 : Int) ≤ INT_MAX
      decide
    count := by
      show ((0 : Nat) : Int) = (tasks.map fun t => if t.remaining = 0 then (1 : Int) else 0).sum
      have : ∀ l : List Task, (∀ t ∈ l, 0 < t.burst ∧ t.remaining = t.burst) →
          (l.map fun t => if t.remaining = 0 then (1 : Int) else 0).sum = 0 := by
        intro l
        induction l with
        | nil => intro _; rfl
        | cons x rest ih =>
          intro hl
          have hx := hl x (List.mem_cons_self _ _)
          have hne : x.remaining ≠ 0 := by omega
          simp only [List.map_cons, List.sum_cons, hne, if_false, zero_add]
          exact ih (fun t ht => hl t (List.mem_cons_of_mem _ ht))
      rw [this tasks (fun t ht => ⟨(hpre t ht).2.1, (hpre t ht).2.2.2⟩)]
      rfl
    chk := fun hc => by simp [srtfInit] at hc
    nochk := fun _ => rfl }

theorem srtf32_states (tasks : List Task)
    (hpre : ∀ t ∈ tasks, 0 ≤ t.arrival ∧ 0 < t.burst ∧ t.burst < INT_MAX ∧
      t.remaining = t.burst)
    (n : Nat) (s : SrtfState) (h : whileIter srtfCond srtfBody32 n (srtfInit tasks) = some s) :
    SrtfInv32 s :=
  whileIter_inv srtfCond srtfBody32 SrtfInv32 (fun s hs _ => srtfInv32_step s hs) n _ s
    (srtfInv32_init tasks hpre) h

/-- In a state of the loop of `srtf` in `int` with an unfinished task, the
loop performs another iteration. -/
theorem srtf32_pending (s : SrtfState) (h : SrtfInv32 s) (k : Nat) (u : Task)
    (hu : s.tasks[k]? = some u) (hpos : 0 < u.remaining) : srtfCond s = true := by
  by_contra hc
  have heq : s.completed = s.tasks.length := by simpa [srtfCond] using hc
  have hsum : ((s.tasks.map fun t => decide (t.remaining = 0)).length : Int)
      ≤ ((s.tasks.map fun t => decide (t.remaining = 0)).map
        fun c => if c = true then (1 : Int) else 0).sum := by
    rw [finished_flags, ← h.count, List.length_map, heq]
  have hi : k < (s.tasks.map fun t => decide (t.remaining = 0)).length := by
    rw [List.length_map]
    exact (List.getElem?_eq_some.mp hu).1
  have := all_true_of_flags_sum_ge _ hsum k hi
  rw [List.getElem?_map, hu] at this
  simp only [Option.map_some', Option.some.injEq, decide_eq_true_eq] at this
  omega

/-- After a unit of `srtf` in `int` the task it ran is held as running
exactly when it is unfinished. -/
theorem srtfRunning_after_run32 (s : SrtfState) (j : Nat) (t : Task)
    (h0 : 0 < t.remaining) (h1 : t.remaining ≤ 2147483647) :
    srtfRunning (srtfRun32 s j t) = if t.remaining = 1 then none else some j := by
  have hw : wrap (t.remaining - 1) = t.remaining - 1 := wrap_eq _ (by omega) (by omega)
  unfold srtfRun32
  rw [hw]
  by_cases h : t.remaining - 1 = 0
  · have h1 : t.remaining = 1 := by omega
    rw [if_pos h, if_pos h1]
    rfl
  · have h1 : ¬ t.remaining = 1 := by omega
    rw [if_neg h, if_neg h1]
    rfl

theorem srtfRun32_executions (s : SrtfState) (j : Nat) (t : Task) :
    (srtfRun32 s j t).executions
      = s.executions ++ [Execution.mk t.id s.currentTime (wrap (s.currentTime + 1))] := by
  unfold srtfRun32
  split <;> rfl

/-! ## C15 for the 32-bit program -/

/-- C15 (counterexample). On the single record `(1, INT_MAX, 0)` the task is
eligible at time 0 (it has arrived and has work left), and it is the first
eligible task of least remaining time, yet `srtf` executes no task, in that
unit or ever: the comparison with the initial
`shortestRemainingTime = INT_MAX` is strict, so in every state the loop goes
through nothing has been recorded, and `srtf` reports nothing whatever the
fuel. -/
theorem srtf_never_runs_eligible_task :
    (∃ t, (srtfInit (loadTasks [⟨1, 2147483647, 0⟩])).tasks[0]? = some t ∧
      srtfEligible (srtfInit (loadTasks [⟨1, 2147483647, 0⟩])) t) ∧
    srtfCond (srtfInit (loadTasks [⟨1, 2147483647, 0⟩])) = true ∧
    (srtfBody32 (srtfInit (loadTasks [⟨1, 2147483647, 0⟩]))).executions = [] ∧
    (∀ n s, whileIter srtfCond srtfBody32 n (srtfInit (loadTasks [⟨1, 2147483647, 0⟩]))
      = some s → s.executions = []) ∧
    (∀ fuel, srtf32 fuel (loadTasks [⟨1, 2147483647, 0⟩]) = none) := by
  have hst := srtf32_stuck (Task.new 1 2147483647 0) (le_refl _)
  refine ⟨⟨Task.new 1 2147483647 0, rfl, ?_⟩, rfl, by decide, hst.1, ?_⟩
  · show (0 : Int) ≤ 0 ∧ (0 : Int) < 2147483647
    decide
  · intro fuel
    unfold srtf32
    have : whileLoop srtfCond srtfBody32 fuel (srtfInit (loadTasks [⟨1, 2147483647, 0⟩])) = none :=
      hst.2 fuel
    rw [this]
    rfl

/-- C15 (amended). Take records with `arrival >= 0` and `0 < burst < INT_MAX`
and a state `s` that the loop of `srtf`, computed in `int`, goes through.  The
loop holds a task as running exactly after a unit that left that task
unfinished (not at the start, nor after an idle iteration); that task has
work left, and it has arrived unless the clock has become negative.  If some
task is eligible in `s`, the loop performs another iteration and that
iteration executes, for the unit from `currentTime`, an eligible task whose
remaining time is the least among the eligible tasks: the running task again
if no eligible task has strictly less remaining time than it, and otherwise
the first task in list order among the eligible tasks of least remaining
time.  If no task is eligible and the clock is not negative, the iteration
idles. -/
theorem srtf_runs_least_remaining_of_eligible (recs : List Record)
    (hpre : ∀ r ∈ recs, 0 ≤ r.arrival ∧ 0 < r.burst) (hb : ∀ r ∈ recs, r.burst < INT_MAX)
    (n : Nat) (s : SrtfState)
    (h : whileIter srtfCond srtfBody32 n (srtfInit (loadTasks recs)) = some s) :
    (n = 0 → srtfRunning s = none) ∧
    (∀ r, srtfRunning s = some r → ∃ tr, s.tasks[r]? = some tr ∧ 0 < tr.remaining ∧
      (0 ≤ s.currentTime → srtfEligible s tr)) ∧
    ((∀ (k : Nat) (u : Task), s.tasks[k]? = some u → ¬ srtfEligible s u) →
      0 ≤ s.currentTime →
      (srtfBody32 s).executions = s.executions ∧ srtfRunning (srtfBody32 s) = none) ∧
    ((∃ (k : Nat) (u : Task), s.tasks[k]? = some u ∧ srtfEligible s u) →
      srtfCond s = true ∧
      ∃ (j : Nat) (t : Task), s.tasks[j]? = some t ∧ srtfEligible s t ∧
        (srtfBody32 s).executions
          = s.executions ++ [Execution.mk t.id s.currentTime (wrap (s.currentTime + 1))] ∧
        srtfRunning (srtfBody32 s) = (if t.remaining = 1 then none else some j) ∧
        (∀ (k : Nat) (u : Task), s.tasks[k]? = some u → srtfEligible s u →
          t.remaining ≤ u.remaining) ∧
        (∀ (r : Nat) (tr : Task), srtfRunning s = some r → s.tasks[r]? = some tr →
          (∀ (k : Nat) (u : Task), s.tasks[k]? = some u → srtfEligible s u →
            tr.remaining ≤ u.remaining) → j = r) ∧
        ((srtfRunning s = none ∨
            ∃ (r : Nat) (tr : Task) (k : Nat) (u : Task), srtfRunning s = some r ∧
              s.tasks[r]? = some tr ∧ s.tasks[k]? = some u ∧ srtfEligible s u ∧
              u.remaining < tr.remaining) →
          ∀ (k : Nat) (u : Task), s.tasks[k]? = some u → srtfEligible s u → k < j →
            t.remaining < u.remaining)) := by
  have hfresh : ∀ t ∈ loadTasks recs, 0 ≤ t.arrival ∧ 0 < t.burst ∧ t.burst < INT_MAX ∧
      t.remaining = t.burst := by
    intro t ht
    obtain ⟨h1, h2, h3⟩ := loadTasks_fresh recs hpre t ht
    exact ⟨h1, h2, hb _ (mem_of_mem_loadTasks recs ht), h3⟩
  have hinv := srtf32_states (loadTasks recs) hfresh n s h
  have hchk' : s.check = true → ∃ t, s.tasks[s.shortestIndex]? = some t ∧
      t.remaining = s.shortestRemainingTime := by
    intro hc
    obtain ⟨t, ht, hr, -⟩ := hinv.chk hc
    exact ⟨t, ht, hr⟩
  have hI : INT_MAX = 2147483647 := rfl
  have hlt : ∀ (k : Nat) (u : Task), s.tasks[k]? = some u → u.remaining < INT_MAX := by
    intro k u hu
    have h1 := (hinv.pre k u hu).2.2
    have h2 := (hinv.rem k u hu).2
    omega
  have hrun : ∀ r, srtfRunning s = some r → s.check = true ∧ r = s.shortestIndex := by
    intro r hr
    unfold srtfRunning at hr
    by_cases hck : s.check = true
    · rw [if_pos hck] at hr
      exact ⟨hck, (Option.some.inj hr).symm⟩
    · rw [if_neg hck] at hr
      cases hr
  have hafter : ∀ (j : Nat) (t : Task), s.tasks[j]? = some t → 0 < t.remaining →
      srtfRunning (srtfRun32 s j t) = if t.remaining = 1 then none else some j := by
    intro j t ht hpos
    have := hlt j t ht
    exact srtfRunning_after_run32 s j t hpos (by omega)
  refine ⟨?_, ?_, ?_, ?_⟩
  · intro h0
    subst h0
    simp only [whileIter, Option.some.injEq] at h
    subst h
    rfl
  · intro r hr
    obtain ⟨hck, rfl⟩ := hrun r hr
    obtain ⟨t, ht, -, hpos, harr⟩ := hinv.chk hck
    refine ⟨t, ht, hpos, fun h0 => ⟨?_, hpos⟩⟩
    rcases harr with ha | ⟨hn, -⟩
    · exact ha
    · omega
  · intro hnone h0
    rcases srtfBody32_choice s hchk' with ⟨hck, hbody, -⟩ | ⟨hck, t, -, ht, -, -⟩ |
      ⟨j, t, -, ht, harr, hpos, -⟩
    · rw [hbody]
      refine ⟨rfl, ?_⟩
      unfold srtfRunning
      simp [hck]
    · exfalso
      obtain ⟨t', ht', -, hpos, harr⟩ := hinv.chk hck
      rcases harr with ha | ⟨hn, -⟩
      · exact hnone _ t' ht' ⟨ha, hpos⟩
      · omega
    · exact absurd ⟨harr, hpos⟩ (hnone _ t ht)
  · rintro ⟨k0, u0, hu0, hu0a, hu0p⟩
    have hct0 : 0 ≤ s.currentTime := le_trans (hinv.pre k0 u0 hu0).1 hu0a
    refine ⟨srtf32_pending s hinv k0 u0 hu0 hu0p, ?_⟩
    rcases srtfBody32_choice s hchk' with ⟨hck, -, hall⟩ | ⟨hck, t, hbody, ht, hrem, hmin⟩ |
      ⟨j, t, hbody, ht, harr, hpos, hless, hmin⟩
    · exfalso
      have h1 := hall k0 u0 hu0 hu0a hu0p
      have h2 := hinv.nochk hck
      have h3 := hlt k0 u0 hu0
      omega
    · obtain ⟨t', ht', -, hpos, harr⟩ := hinv.chk hck
      rw [ht] at ht'
      cases ht'
      have harr' : t.arrival ≤ s.currentTime := by
        rcases harr with ha | ⟨hn, -⟩
        · exact ha
        · omega
      refine ⟨s.shortestIndex, t, ht, ⟨harr', hpos⟩,
        by rw [hbody]; exact srtfRun32_executions _ _ _,
        by rw [hbody]; exact hafter _ t ht hpos,
        fun k u hu he => hmin k u hu he.1 he.2, ?_, ?_⟩
      · intro r tr hr _ _
        exact (hrun r hr).2.symm
      · rintro (hnone | ⟨r, tr, k, u, hr, htr, hu, he, hlt'⟩)
        · unfold srtfRunning at hnone
          simp [hck] at hnone
        · exfalso
          obtain ⟨-, rfl⟩ := hrun r hr
          rw [ht] at htr
          have := hmin k u hu he.1 he.2
          rw [Option.some.inj htr] at this
          omega
    · refine ⟨j, t, ht, ⟨harr, hpos⟩, by rw [hbody]; exact srtfRun32_executions _ _ _,
        by rw [hbody]; exact hafter j t ht hpos,
        fun k u hu he => (hmin k u hu he.1 he.2).1, ?_, ?_⟩
      · intro r tr hr htr hall
        exfalso
        obtain ⟨hck, rfl⟩ := hrun r hr
        obtain ⟨t0, ht0, hrem0, -⟩ := hinv.chk hck
        rw [ht0] at htr
        have := hall j t ht ⟨harr, hpos⟩
        rw [← Option.some.inj htr, hrem0] at this
        omega
      · intro _ k u hu he hkj
        exact (hmin k u hu he.1 he.2).2 hkj

theorem srtf_runs_least_remaining_of_eligible_witness :
    (∀ r ∈ ([⟨1, 5, 0⟩, ⟨2, 3, 2⟩] : List Record), 0 ≤ r.arrival ∧ 0 < r.burst) ∧
    (∀ r ∈ ([⟨1, 5, 0⟩, ⟨2, 3, 2⟩] : List Record), r.burst < INT_MAX) ∧
    whileIter srtfCond srtfBody32 2 (srtfInit (loadTasks [⟨1, 5, 0⟩, ⟨2, 3, 2⟩]))
      = some (srtfBody32 (srtfBody32 (srtfInit (loadTasks [⟨1, 5, 0⟩, ⟨2, 3, 2⟩])))) ∧
    srtfRunning (srtfBody32 (srtfBody32 (srtfInit (loadTasks [⟨1, 5, 0⟩, ⟨2, 3, 2⟩]))))
      = some 0 ∧
    srtfCond (srtfBody32 (srtfBody32 (srtfInit (loadTasks [⟨1, 5, 0⟩, ⟨2, 3, 2⟩])))) = true :=
  ⟨by decide, by decide, by decide, by decide,
    ((srtf_runs_least_remaining_of_eligible [⟨1, 5, 0⟩, ⟨2, 3, 2⟩] (by decide) (by decide) 2
      (srtfBody32 (srtfBody32 (srtfInit (loadTasks [⟨1, 5, 0⟩, ⟨2, 3, 2⟩])))) (by decide)).2.2.2
        ⟨1, Task.new 2 3 2, by decide, by decide, by decide⟩).1⟩

/-! ## Round-Robin in `int`: the queue -/

/-- An admission loop, run at any clock value, keeps the relation between
queue, array and tasks. -/
theorem admission32 (tasks : List Task) (arrival : List Int) (queue : List Nat) (ct : Int)
    (halen : arrival.length = tasks.length)
    (hmark : ∀ (i : Nat) (t : Task) (a : Int), tasks[i]? = some t → arrival[i]? = some a →
      a = t.arrival ∨ a = -1)
    (hq : ∀ i ∈ queue, arrival[i]? = some (-1)) (hnd : queue.Nodup) :
    (rrMark ct arrival).length = tasks.length ∧
    (∀ (i : Nat) (t : Task) (a : Int), tasks[i]? = some t → (rrMark ct arrival)[i]? = some a →
      a = t.arrival ∨ a = -1) ∧
    (∀ i ∈ queue ++ rrAdmitted ct arrival 0, (rrMark ct arrival)[i]? = some (-1)) ∧
    (queue ++ rrAdmitted ct arrival 0).Nodup ∧
    (∀ i : Nat, arrival[i]? = some (-1) → (rrMark ct arrival)[i]? = some (-1)) := by
  have hnew : ∀ (i : Nat) (a' : Int), (rrMark ct arrival)[i]? = some a' →
      ∃ a, arrival[i]? = some a ∧ a' = if a ≤ ct ∧ a ≠ -1 then -1 else a := by
    intro i a' ha'
    rw [rrMark_getElem?] at ha'
    cases ha : arrival[i]? with
    | none => simp [ha] at ha'
    | some a =>
      simp only [ha, Option.map_some', Option.some.injEq] at ha'
      exact ⟨a, rfl, ha'.symm⟩
  have hold : ∀ (i : Nat), arrival[i]? = some (-1) → (rrMark ct arrival)[i]? = some (-1) := by
    intro i hi
    rw [rrMark_getElem?, hi]
    simp
  refine ⟨by simp [rrMark, halen], ?_, ?_, ?_, hold⟩
  · intro i t a' ht ha'
    obtain ⟨a, ha, rfl⟩ := hnew i a' ha'
    split
    · exact Or.inr rfl
    · exact hmark i t a ht ha
  · intro i hi
    rcases List.mem_append.mp hi with hqi | hadm
    · exact hold i (hq i hqi)
    · obtain ⟨k, a, hk, ha, hle, hne⟩ := (mem_rrAdmitted ct arrival 0 i).mp hadm
      have hik : i = k := by omega
      subst hik
      rw [rrMark_getElem?, ha]
      simp [hle, hne]
  · rw [List.nodup_append]
    refine ⟨hnd, rrAdmitted_nodup ct arrival 0, ?_⟩
    intro i hqi hadm
    have ha := hq i hqi
    obtain ⟨k, a, hk, hka, hle, hne⟩ := (mem_rrAdmitted ct arrival 0 i).mp hadm
    have hik : i = k := by omega
    subst hik
    rw [ha] at hka
    exact hne (Option.some.inj hka).symm

/-- What the first admission loop of an iteration leaves, in a state that
satisfies the invariant. -/
theorem rr32_after_admission (orig : List Task) (s : RRState) (h : RRInv32 orig s) :
    (rrMark s.currentTime s.arrival).length = s.tasks.length ∧
    (∀ (i : Nat) (t : Task) (a : Int), s.tasks[i]? = some t →
      (rrMark s.currentTime s.arrival)[i]? = some a → a = t.arrival ∨ a = -1) ∧
    (∀ i ∈ s.readyQueue ++ rrAdmitted s.currentTime s.arrival 0,
      (rrMark s.currentTime s.arrival)[i]? = some (-1)) ∧
    (s.readyQueue ++ rrAdmitted s.currentTime s.arrival 0).Nodup ∧
    (∀ i : Nat, s.arrival[i]? = some (-1) → (rrMark s.currentTime s.arrival)[i]? = some (-1)) :=
  admission32 s.tasks s.arrival s.readyQueue s.currentTime h.alen h.mark h.qmark h.qnodup

theorem rr32_queue_valid (orig : List Task) (s : RRState) (h : RRInv32 orig s) :
    ∀ i ∈ s.readyQueue ++ rrAdmitted s.currentTime s.arrival 0, ∃ t, s.tasks[i]? = some t := by
  intro i hi
  obtain ⟨hlen, -, hq, -, -⟩ := rr32_after_admission orig s h
  have := hq i hi
  have hil : i < s.tasks.length := by
    rw [← hlen]
    exact (List.getElem?_eq_some.mp this).1
  exact ⟨_, List.getElem?_eq_getElem hil⟩

/-- One iteration of `roundRobin` in `int` either idles, the queue being
empty after the admission loop, or dispatches the head of the queue. -/
theorem rrBody32_cases (quantum : Int) (s : RRState)
    (hq : ∀ i ∈ s.readyQueue ++ rrAdmitted s.currentTime s.arrival 0,
      ∃ t, s.tasks[i]? = some t) :
    (s.readyQueue ++ rrAdmitted s.currentTime s.arrival 0 = [] ∧
      rrBody32 quantum s = { s with arrival := rrMark s.currentTime s.arrival, readyQueue := [],
                                    currentTime := wrap (s.currentTime + 1) }) ∨
    (∃ (current : Nat) (rest : List Nat) (t : Task),
      s.readyQueue ++ rrAdmitted s.currentTime s.arrival 0 = current :: rest ∧
      s.tasks[current]? = some t ∧ rrBody32 quantum s = rrDispatch32 quantum s current rest t) := by
  cases hqueue : s.readyQueue ++ rrAdmitted s.currentTime s.arrival 0 with
  | nil =>
    left
    refine ⟨rfl, ?_⟩
    unfold rrBody32
    simp only [rrAdmit_eq, hqueue]
  | cons current rest =>
    right
    obtain ⟨t, ht⟩ := hq current (by rw [hqueue]; exact List.mem_cons_self _ _)
    refine ⟨current, rest, t, rfl, ht, ?_⟩
    unfold rrBody32 rrDispatch32
    simp only [rrAdmit_eq, hqueue, ht]

theorem rrDispatch32_queue (quantum : Int) (s : RRState) (current : Nat) (rest : List Nat)
    (t : Task) :
    (rrDispatch32 quantum s current rest t).readyQueue
      = (rest ++ rrAdmitted (wrap (s.currentTime + min quantum t.remaining))
          (rrMark s.currentTime s.arrival) 0) ++
        (if wrap (t.remaining - min quantum t.remaining) > 0 then [current] else []) := by
  unfold rrDispatch32
  split
  · rfl
  · simp

theorem rrInv32_step (quantum : Int) (orig : List Task) (s : RRState) (h : RRInv32 orig s) :
    RRInv32 orig (rrBody32 quantum s) := by
  obtain ⟨hlen1, hmark1, hq1, hnd1, hold1⟩ := rr32_after_admission orig s h
  rcases rrBody32_cases quantum s (rr32_queue_valid orig s h) with
    ⟨hnil, hbody⟩ | ⟨current, rest, t, hQ, ht, hbody⟩
  · rw [hbody]
    exact
      { alen := hlen1, mark := hmark1
        qmark := fun i hi => by cases hi
        qnodup := List.nodup_nil, keys := h.keys }
  · rw [hQ] at hq1 hnd1
    have hcur := hq1 current (List.mem_cons_self _ _)
    have hnd := List.nodup_cons.mp hnd1
    -- the list after the task has been updated
    have hset : ∀ t' : Task, t'.record = t.record →
        (rrMark s.currentTime s.arrival).length = (s.tasks.set current t').length ∧
        (∀ (i : Nat) (u : Task) (a : Int), (s.tasks.set current t')[i]? = some u →
          (rrMark s.currentTime s.arrival)[i]? = some a → a = u.arrival ∨ a = -1) ∧
        (s.tasks.set current t').map Task.record = orig.map Task.record := by
      intro t' hrec
      have har : t'.arrival = t.arrival := congrArg Record.arrival hrec
      refine ⟨by simp [hlen1], ?_, (map_set_same Task.record s.tasks current t t' ht hrec).trans
        h.keys⟩
      intro i u a hu ha
      by_cases hic : i = current
      · subst hic
        rw [getElem?_set_hit _ ht] at hu
        cases hu
        rw [har]
        exact hmark1 i t a ht ha
      · rw [getElem?_set_miss _ hic] at hu
        exact hmark1 i u a hu ha
    have hfinal : ∀ (t' : Task) (now : Int), t'.record = t.record →
        ∀ (extra : List Nat), (∀ i ∈ extra, i = current) → extra.Nodup →
        RRInv32 orig
          { tasks := s.tasks.set current t'
            executions := s.executions ++ [Execution.mk t.id s.currentTime now]
            currentTime := now
            readyQueue := (rest ++ rrAdmitted now (rrMark s.currentTime s.arrival) 0) ++ extra
            completed := (if extra = [] then s.completed + 1 else s.completed)
            arrival := rrMark now (rrMark s.currentTime s.arrival) } := by
      intro t' now hrec extra hextra hexnd
      obtain ⟨hl, hm, hk⟩ := hset t' hrec
      obtain ⟨hlen2, hmark2, hq2, hnd2, hold2⟩ := admission32 (s.tasks.set current t')
        (rrMark s.currentTime s.arrival) rest now hl hm
        (fun i hi => hq1 i (List.mem_cons_of_mem _ hi)) hnd.2
      refine { alen := hlen2, mark := hmark2, qmark := ?_, qnodup := ?_, keys := hk }
      · intro i hi
        rcases List.mem_append.mp hi with hi | hi
        · exact hq2 i hi
        · rw [hextra i hi]
          exact hold2 current hcur
      · rw [List.nodup_append]
        refine ⟨hnd2, hexnd, ?_⟩
        intro i hi hx
        rw [hextra i hx] at hi
        rcases List.mem_append.mp hi with hi | hi
        · exact hnd.1 hi
        · obtain ⟨k, a, hk', hka, -, hne⟩ :=
            (mem_rrAdmitted now (rrMark s.currentTime s.arrival) 0 current).mp hi
          have hik : current = k := by omega
          subst hik
          rw [hcur] at hka
          exact hne (Option.some.inj hka).symm
    rw [hbody]
    unfold rrDispatch32
    split
    · have := hfinal { t with remaining := wrap (t.remaining - min quantum t.remaining) }
        (wrap (s.currentTime + min quantum t.remaining)) rfl [current]
        (fun i hi => List.mem_singleton.mp hi) (List.nodup_singleton _)
      simpa using this
    · have := hfinal
        { t with remaining := wrap (t.remaining - min quantum t.remaining),
                 wait := wrap (wrap (wrap (s.currentTime + min quantum t.remaining)
                   - t.arrival) - t.burst) }
        (wrap (s.currentTime + min quantum t.remaining)) rfl []
        (fun i hi => by cases hi) List.nodup_nil
      simpa using this

theorem rrInv32_init (tasks : List Task) : RRInv32 tasks (rrInit tasks) :=
  { alen := by simp [rrInit]
    mark := fun i t a ht ha => by
      left
      simp only [rrInit, List.getElem?_map] at ht ha
      cases hx : tasks[i]? with
      | none => simp [hx] at ht
      | some x =>
        simp only [hx, Option.map_some', Option.some.injEq] at ht ha
        rw [← ht, ← ha]
    qmark := fun i hi => by cases hi
    qnodup := List.nodup_nil
    keys := by
      simp only [rrInit, List.map_map]
      apply List.map_congr_left
      intro t _
      rfl }

theorem rr32_states (quantum : Int) (tasks : List Task) (n : Nat) (s : RRState)
    (h : whileIter rrCond (rrBody32 quantum) n (rrInit tasks) = some s) : RRInv32 tasks s :=
  whileIter_inv rrCond (rrBody32 quantum) (RRInv32 tasks)
    (fun s hs _ => rrInv32_step quantum tasks s hs) n _ s (rrInv32_init tasks) h

/-! ## C16 and C17 for the 32-bit program -/

/-- An iteration of `roundRobin` in `int` that does not take `x` from the
queue leaves `x` before `c` in the queue. -/
theorem before_step32 (q : Int) (orig : List Task) (s : RRState) (h : RRInv32 orig s)
    (x c : Nat) (hb : Before x c s.readyQueue) (hne : rrNext s ≠ some x) :
    Before x c (rrBody32 q s).readyQueue := by
  have hb' := before_append x c _ (rrAdmitted s.currentTime s.arrival 0) hb
  rcases rrBody32_cases q s (rr32_queue_valid orig s h) with
    ⟨hnil, -⟩ | ⟨cur, rest, t, hQ, -, hbody⟩
  · rw [hnil] at hb'
    obtain ⟨l₁, l₂, heq, -⟩ := hb'
    simp at heq
  · rw [hQ] at hb'
    have hcx : cur ≠ x := by
      intro hcx
      apply hne
      rw [rrNext_eq, hQ, hcx]
      rfl
    have hrest := before_tail x c cur rest hb' hcx
    rw [hbody, rrDispatch32_queue]
    exact before_append _ _ _ _ (before_append _ _ _ _ hrest)

/-- As long as `x` has not been taken from the queue, it stays before `c`. -/
theorem before_run32 (q : Int) (orig : List Task) (s₁ : RRState)
    (h : RRInv32 orig s₁) (x c : Nat) (hb : Before x c s₁.readyQueue) :
    ∀ (m : Nat) (s' : RRState), whileIter rrCond (rrBody32 q) m s₁ = some s' →
      (∀ (m' : Nat) (s'' : RRState), m' < m → whileIter rrCond (rrBody32 q) m' s₁ = some s'' →
        rrNext s'' ≠ some x) →
      RRInv32 orig s' ∧ Before x c s'.readyQueue := by
  intro m
  induction m with
  | zero =>
    intro s' hs' _
    simp only [whileIter, Option.some.injEq] at hs'
    subst hs'
    exact ⟨h, hb⟩
  | succ m ih =>
    intro s' hs' hnot
    obtain ⟨mid, hmid, -, rfl⟩ := (whileIter_succ rrCond (rrBody32 q) m s₁ s').mp hs'
    obtain ⟨hinv, hbef⟩ := ih mid hmid (fun m' s'' hlt => hnot m' s'' (by omega))
    exact ⟨rrInv32_step q orig mid hinv,
      before_step32 q orig mid hinv x c hbef (hnot m mid (by omega) hmid)⟩

/-- A task that stands behind `x` in the queue is not taken from the queue
before `x` is. -/
theorem taken_after32 (q : Int) (orig : List Task) (s₁ : RRState)
    (h : RRInv32 orig s₁) (x c : Nat) (hb : Before x c s₁.readyQueue)
    (m : Nat) (s' : RRState) (hs' : whileIter rrCond (rrBody32 q) m s₁ = some s')
    (hc : rrNext s' = some c) :
    ∃ (m' : Nat) (s'' : RRState), m' < m ∧ whileIter rrCond (rrBody32 q) m' s₁ = some s'' ∧
      rrNext s'' = some x := by
  by_contra hno
  have hnot : ∀ (m' : Nat) (s'' : RRState), m' < m →
      whileIter rrCond (rrBody32 q) m' s₁ = some s'' → rrNext s'' ≠ some x := by
    intro m' s'' hlt hs'' hx
    exact hno ⟨m', s'', hlt, hs'', hx⟩
  obtain ⟨hinv, hbef⟩ := before_run32 q orig s₁ h x c hb m s' hs' hnot
  have hQ := (rr32_after_admission orig s' hinv).2.2.2.1
  have := before_not_head x c _
    (before_append x c _ (rrAdmitted s'.currentTime s'.arrival 0) hbef) hQ
  rw [rrNext_eq] at hc
  exact this hc

/-- The indices the admission loop run at `now` after a slice pushes are
those of the tasks that have arrived by `now` and were not admitted before:
their entry in the array `arrival` still is their arrival time. -/
theorem mem_newly_admitted32 (orig : List Task) (s : RRState) (h : RRInv32 orig s)
    (hpre : ∀ t ∈ orig, 0 ≤ t.arrival) (now : Int) (i : Nat) :
    i ∈ rrAdmitted now (rrMark s.currentTime s.arrival) 0 ↔
      ∃ u, s.tasks[i]? = some u ∧ (rrMark s.currentTime s.arrival)[i]? = some u.arrival ∧
        u.arrival ≤ now := by
  obtain ⟨hlen, hmark, -, -, -⟩ := rr32_after_admission orig s h
  constructor
  · intro hi
    obtain ⟨k, a, hk, ha, hle, hne⟩ := (mem_rrAdmitted now _ 0 i).mp hi
    have hik : i = k := by omega
    subst hik
    have hil : i < s.tasks.length := by
      rw [← hlen]
      exact (List.getElem?_eq_some.mp ha).1
    rcases hmark i _ a (List.getElem?_eq_getElem hil) ha with h1 | h1
    · exact ⟨_, List.getElem?_eq_getElem hil, by rw [← h1]; exact ha, by rw [← h1]; exact hle⟩
    · exact absurd h1 hne
  · rintro ⟨u, hu, ha, hle⟩
    obtain ⟨v, hv, hrec⟩ := mem_of_records_eq h.keys (mem_of_getElem? hu)
    have h0 : 0 ≤ u.arrival := by
      have := hpre v hv
      have e : u.arrival = v.arrival := (congrArg Record.arrival hrec).symm
      omega
    exact (mem_rrAdmitted now _ 0 i).mpr ⟨i, u.arrival, by omega, ha, hle, by omega⟩

/-- C16. Take records with `arrival >= 0` and a state of the loop of
`roundRobin`, computed in `int`, in which the loop performs another iteration.
If that iteration takes the task `current` from the head of the queue (the
queue after the admission loop being `current :: rest`) and the task still has
remaining time after its slice, which ends at the `int` value `now` of
`currentTime + min(quantum, remaining)`, then the queue after the iteration is
`rest`, followed by the tasks admitted by the admission loop that follows the
slice, followed by `current`.  The tasks so admitted are those that have
arrived by `now` and were not admitted before (their entry in the array
`arrival` is not yet the mark `-1`); none of them was in the queue before.
Hence every task of `rest` and every newly admitted task is taken from the
queue before `current` is taken again. -/
theorem roundRobin_requeues_behind_admitted (recs : List Record) (quantum : Int)
    (hpre : ∀ r ∈ recs, 0 ≤ r.arrival)
    (n : Nat) (s : RRState)
    (h : whileIter rrCond (rrBody32 quantum) n (rrInit (loadTasks recs)) = some s)
    (hc : rrCond s = true) (current : Nat) (rest : List Nat) (t : Task)
    (hqueue : (rrAdmit s.currentTime s.arrival 0 s.readyQueue).2 = current :: rest)
    (ht : s.tasks[current]? = some t)
    (hrem : wrap (t.remaining - min quantum t.remaining) > 0) :
    rrNext s = some current ∧
    (rrBody32 quantum s).executions = s.executions ++
      [Execution.mk t.id s.currentTime (wrap (s.currentTime + min quantum t.remaining))] ∧
    (rrBody32 quantum s).currentTime = wrap (s.currentTime + min quantum t.remaining) ∧
    ∃ newly : List Nat,
      (rrAdmit (wrap (s.currentTime + min quantum t.remaining))
        (rrAdmit s.currentTime s.arrival 0 s.readyQueue).1 0 rest).2 = rest ++ newly ∧
      (rrBody32 quantum s).readyQueue = rest ++ newly ++ [current] ∧
      (∀ i, i ∈ newly ↔ ∃ u, s.tasks[i]? = some u ∧
        (rrAdmit s.currentTime s.arrival 0 s.readyQueue).1[i]? = some u.arrival ∧
        u.arrival ≤ wrap (s.currentTime + min quantum t.remaining)) ∧
      (∀ i ∈ newly, i ∉ current :: rest) ∧
      (∀ x ∈ rest ++ newly, ∀ (m : Nat) (s' : RRState),
        whileIter rrCond (rrBody32 quantum) m (rrBody32 quantum s) = some s' →
        rrNext s' = some current →
        ∃ (m' : Nat) (s'' : RRState), m' < m ∧
          whileIter rrCond (rrBody32 quantum) m' (rrBody32 quantum s) = some s'' ∧
          rrNext s'' = some x) := by
  have _ := hc
  have hpre' : ∀ t ∈ loadTasks recs, 0 ≤ t.arrival :=
    fun t ht => hpre _ (mem_of_mem_loadTasks recs ht)
  have hinv := rr32_states quantum (loadTasks recs) n s h
  have hinv' := rrInv32_step quantum _ s hinv
  have hadm1 : (rrAdmit s.currentTime s.arrival 0 s.readyQueue).1
      = rrMark s.currentTime s.arrival := by rw [rrAdmit_eq]
  rw [rrAdmit_eq] at hqueue
  simp only at hqueue
  have hbody : rrBody32 quantum s = rrDispatch32 quantum s current rest t := by
    rcases rrBody32_cases quantum s (rr32_queue_valid _ s hinv) with
      ⟨hnil, -⟩ | ⟨cur, rest', t', hQ, ht', hb⟩
    · rw [hnil] at hqueue
      cases hqueue
    · rw [hQ] at hqueue
      simp only [List.cons.injEq] at hqueue
      obtain ⟨rfl, rfl⟩ := hqueue
      rw [ht] at ht'
      rw [hb, Option.some.inj ht']
  have hnew : (rrBody32 quantum s).readyQueue
      = rest ++ rrAdmitted (wrap (s.currentTime + min quantum t.remaining))
          (rrMark s.currentTime s.arrival) 0 ++ [current] := by
    rw [hbody, rrDispatch32_queue, if_pos hrem]
  refine ⟨by rw [rrNext_eq, hqueue]; rfl, ?_, ?_,
    rrAdmitted (wrap (s.currentTime + min quantum t.remaining))
      (rrMark s.currentTime s.arrival) 0,
    ?_, hnew, ?_, ?_, ?_⟩
  · rw [hbody]
    unfold rrDispatch32
    split <;> rfl
  · rw [hbody]
    unfold rrDispatch32
    split <;> rfl
  · rw [rrAdmit_eq, rrAdmit_eq]
  · intro i
    rw [hadm1]
    exact mem_newly_admitted32 _ s hinv hpre' _ i
  · intro i hi hmem
    have hnd := hinv'.qnodup
    rw [hnew] at hnd
    rcases List.mem_cons.mp hmem with rfl | hmem
    · have := (List.nodup_append.mp hnd).2.2
      exact this (List.mem_append_right _ hi) (List.mem_singleton_self _)
    · have := (List.nodup_append.mp (List.nodup_append.mp hnd).1).2.2
      exact this hmem hi
  · intro x hx m s' hs' hcur
    obtain ⟨l₁, l₂, hsplit⟩ := List.append_of_mem hx
    have hbef : Before x current (rrBody32 quantum s).readyQueue := by
      refine ⟨l₁, l₂ ++ [current], ?_, by simp⟩
      rw [hnew, hsplit]
      simp
    exact taken_after32 quantum _ _ hinv' x current hbef m s' hs' hcur

theorem roundRobin_requeues_behind_admitted_witness :
    (∀ r ∈ ([⟨1, 1073741824, 0⟩, ⟨2, 1073741829, 0⟩, ⟨3, 1, 1073741831⟩] : List Record),
      0 ≤ r.arrival) ∧
    whileIter rrCond (rrBody32 1073741824) 1
        (rrInit (loadTasks [⟨1, 1073741824, 0⟩, ⟨2, 1073741829, 0⟩, ⟨3, 1, 1073741831⟩]))
      = some (rrBody32 1073741824
        (rrInit (loadTasks [⟨1, 1073741824, 0⟩, ⟨2, 1073741829, 0⟩, ⟨3, 1, 1073741831⟩]))) ∧
    (rrBody32 1073741824 (rrBody32 1073741824
      (rrInit (loadTasks [⟨1, 1073741824, 0⟩, ⟨2, 1073741829, 0⟩, ⟨3, 1, 1073741831⟩])))).readyQueue
      = [1] ∧
    (rrBody32 1073741824 (rrBody32 1073741824
      (rrInit (loadTasks [⟨1, 1073741824, 0⟩, ⟨2, 1073741829, 0⟩, ⟨3, 1, 1073741831⟩])))).currentTime
      = wrap (1073741824 + min 1073741824 1073741829) ∧
    wrap (1073741824 + min 1073741824 1073741829) = -2147483648 :=
  ⟨by decide, by decide, by decide,
    (roundRobin_requeues_behind_admitted
      [⟨1, 1073741824, 0⟩, ⟨2, 1073741829, 0⟩, ⟨3, 1, 1073741831⟩] 1073741824 (by decide) 1
      (rrBody32 1073741824
        (rrInit (loadTasks [⟨1, 1073741824, 0⟩, ⟨2, 1073741829, 0⟩, ⟨3, 1, 1073741831⟩])))
      (by decide) (by decide) 1 [] (Task.new 2 1073741829 0)
      (by decide) (by decide) (by decide)).2.2.1, by decide⟩

/-- C17 (counterexample). `roundRobin` with quantum 5 on the list `(1,5,0)`,
`(2,2,3)`, `(3,2,1)` runs task 1 from 0 to 5; the admission check at time 5
admits tasks 2 and 3 together and puts task 2, which arrived at 3, before
task 3, which arrived at 1, so task 2 runs first. -/
theorem roundRobin_admits_later_arrival_before_earlier :
    (rrBody32 5 (rrInit (loadTasks [⟨1, 5, 0⟩, ⟨2, 2, 3⟩, ⟨3, 2, 1⟩]))).currentTime = 5 ∧
    (rrBody32 5 (rrInit (loadTasks [⟨1, 5, 0⟩, ⟨2, 2, 3⟩, ⟨3, 2, 1⟩]))).readyQueue = [1, 2] ∧
    ((roundRobin32 10 (loadTasks [⟨1, 5, 0⟩, ⟨2, 2, 3⟩, ⟨3, 2, 1⟩]) 5).map
      fun r => r.executions) = some [⟨1, 0, 5⟩, ⟨2, 5, 7⟩, ⟨3, 7, 9⟩] := by
  decide

/-- C17 (amended). Take a state `s` of the loop of `roundRobin`, computed in
`int`.  An admission check of the iteration that starts in `s`, the one
before the dispatch (on the array `s.arrival`) or the one after the slice (on
the array the first one leaves), appends to the queue the tasks it admits in
the order of the task list, by increasing index, each of them having arrived
by the clock value of the check.  When the list handed to `roundRobin` is
sorted by arrival, this is the order of arrival: a task enqueued before
another by the same check did not arrive later. -/
theorem roundRobin_admits_by_index (recs : List Record) (quantum : Int)
    (n : Nat) (s : RRState)
    (h : whileIter rrCond (rrBody32 quantum) n (rrInit (loadTasks recs)) = some s)
    (arr : List Int)
    (harr : arr = s.arrival ∨ arr = (rrAdmit s.currentTime s.arrival 0 s.readyQueue).1)
    (ct : Int) (queue : List Nat) :
    ∃ added : List Nat, (rrAdmit ct arr 0 queue).2 = queue ++ added ∧
      added.Sorted (· < ·) ∧
      (∀ i ∈ added, ∃ u, s.tasks[i]? = some u ∧ u.arrival ≤ ct) ∧
      ((loadTasks recs).Sorted arrivalLE →
        added.Pairwise (fun i j => ∀ (u v : Task), s.tasks[i]? = some u → s.tasks[j]? = some v →
          u.arrival ≤ v.arrival)) := by
  have hinv := rr32_states quantum (loadTasks recs) n s h
  have hmark : arr.length = s.tasks.length ∧
      ∀ (i : Nat) (t : Task) (a : Int), s.tasks[i]? = some t → arr[i]? = some a →
        a = t.arrival ∨ a = -1 := by
    rcases harr with rfl | rfl
    · exact ⟨hinv.alen, hinv.mark⟩
    · rw [rrAdmit_eq]
      have hQ := rr32_after_admission _ s hinv
      exact ⟨hQ.1, hQ.2.1⟩
  refine ⟨rrAdmitted ct arr 0, by rw [rrAdmit_eq], rrAdmitted_sorted ct arr 0, ?_, ?_⟩
  · intro i hi
    obtain ⟨k, a, hk, ha, hle, hne⟩ := (mem_rrAdmitted ct arr 0 i).mp hi
    have hik : i = k := by omega
    subst hik
    have hil : i < s.tasks.length := by
      rw [← hmark.1]
      exact (List.getElem?_eq_some.mp ha).1
    refine ⟨_, List.getElem?_eq_getElem hil, ?_⟩
    rcases hmark.2 i _ a (List.getElem?_eq_getElem hil) ha with h1 | h1
    · rw [← h1]
      exact hle
    · exact absurd h1 hne
  · intro hsorted
    refine List.Pairwise.imp ?_ (rrAdmitted_sorted ct arr 0)
    intro i j hij u v hu hv
    exact arrival_le_of_keys s.tasks (loadTasks recs) hinv.keys hsorted i j u v (le_of_lt hij)
      hu hv

theorem roundRobin_admits_by_index_witness :
    whileIter rrCond (rrBody32 5) 0 (rrInit (loadTasks [⟨1, 5, 0⟩, ⟨2, 2, 3⟩, ⟨3, 2, 1⟩]))
      = some (rrInit (loadTasks [⟨1, 5, 0⟩, ⟨2, 2, 3⟩, ⟨3, 2, 1⟩])) ∧
    ∃ added : List Nat,
      (rrAdmit 5 (rrInit (loadTasks [⟨1, 5, 0⟩, ⟨2, 2, 3⟩, ⟨3, 2, 1⟩])).arrival 0 []).2
        = [] ++ added ∧ added.Sorted (· < ·) := by
  refine ⟨by decide, ?_⟩
  obtain ⟨added, h1, h2, -⟩ :=
    roundRobin_admits_by_index [⟨1, 5, 0⟩, ⟨2, 2, 3⟩, ⟨3, 2, 1⟩] 5 0
      (rrInit (loadTasks [⟨1, 5, 0⟩, ⟨2, 2, 3⟩, ⟨3, 2, 1⟩])) (by decide) _ (Or.inl rfl) 5 []
  exact ⟨added, h1, h2⟩

end CpuScheduler
